import Mathlib

/-!
# HYBRID-CI: parser, optimizer, interpreter, compiler and stack VM

A shallow embedding of the C++ sources (`parser.h`, `parsers.cpp`, `interpreter.h`,
`interpreter.cpp`, `ir.h`) together with theorems about them.

Conventions of the embedding

* `int` is modelled by `Int`; every arithmetic result is reduced to the 32-bit two's
  complement range by `wrap32`. The `int` divisions that the hardware refuses, by zero and
  of `-2147483648` by `-1`, are faults.
* `shared_ptr<ASTNode>` is modelled by `ASTNode`; the null pointer is the constructor
  `ASTNode.nullptr`.
* A C++ exception (or hardware fault) is a value of type `Error`.
* `cout` is modelled by the list of integers written by `"print: "` lines only; the
  bracketed trace lines are not recorded, but the `asInt()` calls made to build them are.
* Loops and recursion that need not terminate take a `fuel : Nat`; a run that exhausts
  it is reported as `timeout`, which is different from every result of the program.
-/

set_option autoImplicit false

/-! ## Errors -/

/-- Exceptions and faults the program can raise. `runtime_error` carries the message of
`throw runtime_error(msg)`; `bad_variant_access` is thrown by `std::get` on the wrong
alternative; `invalid_argument` and `out_of_range` are thrown by `stoi`;
`division_by_zero` is the fault of an `int` division by zero; `division_overflow` is the
fault of the `int` division of `-2147483648` by `-1`, whose quotient is not an `int`;
`stack_underflow` is `back()` or `pop_back()` on an empty vector. -/
inductive Error where
  | runtime_error (msg : String)
  | bad_variant_access
  | invalid_argument
  | out_of_range
  | division_by_zero
  | division_overflow
  | stack_underflow
  deriving DecidableEq, Repr

/-! ## Machine integers and decimal conversion -/

/-- Reduction of an integer to the range of a 32-bit `int`. -/
def wrap32 (x : Int) : Int := (x + 2147483648) % 4294967296 - 2147483648

/-- Predicate: the integer is representable as a 32-bit `int`. -/
def inInt32 (x : Int) : Prop := -2147483648 ≤ x ∧ x ≤ 2147483647

instance (x : Int) : Decidable (inInt32 x) := by unfold inInt32; infer_instance

/-- The character of a decimal digit `d < 10`. -/
def digitChar (d : Nat) : Char := Char.ofNat (48 + d)

/-- Decimal digits of `n`, least significant first; `fuel` bounds the number of digits. -/
def digitList : Nat → Nat → List Nat
  | 0, _ => []
  | fuel + 1, n => if n < 10 then [n] else (n % 10) :: digitList fuel (n / 10)

/-- Decimal rendering of a natural number, most significant digit first. -/
def natToChars (n : Nat) : List Char := ((digitList (n + 1) n).reverse).map digitChar

/-- The function `std::to_string(int)`. -/
def to_string (v : Int) : String :=
  if v < 0 then String.mk ('-' :: natToChars v.natAbs) else String.mk (natToChars v.natAbs)

/-- The predicate `isspace` of `<cctype>` in the C locale. -/
def isspace (c : Char) : Bool :=
  c == ' ' || c == '\t' || c == '\n' || c == '\x0b' || c == '\x0c' || c == '\r'

/-- The predicate `isdigit` of `<cctype>`. -/
def isdigit (c : Char) : Bool := 48 ≤ c.toNat && c.toNat ≤ 57

/-- The predicate `isalpha` of `<cctype>` in the C locale. -/
def isalpha (c : Char) : Bool :=
  (65 ≤ c.toNat && c.toNat ≤ 90) || (97 ≤ c.toNat && c.toNat ≤ 122)

/-- The predicate `isalnum` of `<cctype>` in the C locale. -/
def isalnum (c : Char) : Bool := isalpha c || isdigit c

/-- Value of a run of decimal digits read from the left, starting from `acc`. -/
def digitsValue (acc : Nat) : List Char → Nat
  | [] => acc
  | c :: cs => digitsValue (acc * 10 + (c.toNat - 48)) cs

/-- The optional sign read by `std::stoi`: whether it is a minus, and what follows it. -/
def stoiSign (body : List Char) : Bool × List Char :=
  match body with
  | '-' :: r => (true, r)
  | '+' :: r => (false, r)
  | r => (false, r)

/-- The function `std::stoi`: skips leading white space, reads an optional sign and the
longest run of decimal digits; throws `invalid_argument` when there is no digit and
`out_of_range` when the number does not fit an `int`. -/
def stoi (s : String) : Except Error Int :=
  let body := s.data.dropWhile isspace
  let ds := (stoiSign body).2.takeWhile isdigit
  if ds.isEmpty then .error .invalid_argument
  else
    let n : Int := digitsValue 0 ds
    let v : Int := if (stoiSign body).1 then -n else n
    if inInt32 v then .ok v else .error .out_of_range

/-- The helper `toInt` of `ir.h`. -/
def toInt (s : String) : Except Error Int := stoi s

/-! ## The AST (`parser.h`) -/

/-- A `shared_ptr<ASTNode>`: either null or one of the eight node classes. -/
inductive ASTNode where
  | nullptr
  | Literal (value : Int)
  | Identifier (name : String)
  | BinaryExpr (op : String) (left right : ASTNode)
  | Assignment (name : String) (value : ASTNode)
  | IfStmt (condition thenBranch elseBranch : ASTNode)
  | WhileStmt (condition body : ASTNode)
  | Block (statements : List ASTNode)
  | PrintStmt (expr : ASTNode)
  deriving Repr, Inhabited

/-! ## Finite maps (`unordered_map<string, T>`) -/

/-- An `unordered_map<string, T>` as an association list without duplicate keys. -/
abbrev Env (α : Type) := List (String × α)

/-- The lookup `m.find(k)`. -/
def Env.find {α : Type} : Env α → String → Option α
  | [], _ => none
  | (k, v) :: rest, key => if k = key then some v else Env.find rest key

/-- The update `m[k] = v`. -/
def Env.set {α : Type} : Env α → String → α → Env α
  | [], key, v => [(key, v)]
  | (k, w) :: rest, key, v => if k = key then (k, v) :: rest else (k, w) :: Env.set rest key v

/-! ## Values (`interpreter.h`) -/

/-- The struct `Value`, a `variant<int, bool>`. -/
inductive Value where
  | int (v : Int)
  | bool (b : Bool)
  deriving DecidableEq, Repr

/-- A default-constructed `Value` (declaration `Value last;`) holds the `int` zero. -/
instance : Inhabited Value := ⟨Value.int 0⟩

/-- The method `Value::asInt`, that is `get<int>(data)`. -/
def Value.asInt : Value → Except Error Int
  | .int v => .ok v
  | .bool _ => .error .bad_variant_access

/-- The method `Value::asBool`, that is `get<bool>(data)`. -/
def Value.asBool : Value → Except Error Bool
  | .bool b => .ok b
  | .int _ => .error .bad_variant_access

/-! ## The optimizer (`parsers.cpp`, `optimizeAST`) -/

/-- The exception thrown by constant folding of a division by literal zero. -/
def foldDivError : Error := .runtime_error "Division by zero in constant folding"

/-- The part of `optimizeAST` for a `BinaryExpr`, after both children were optimized. -/
def optimizeBinary (op : String) (left right : ASTNode) : Except Error ASTNode :=
  match left, right with
  | .Literal lval, .Literal rval =>
    if op = "+" then .ok (.Literal (wrap32 (lval + rval)))
    else if op = "-" then .ok (.Literal (wrap32 (lval - rval)))
    else if op = "*" then .ok (.Literal (wrap32 (lval * rval)))
    else if op = "/" then
      if rval = 0 then .error foldDivError
      else if lval = -2147483648 ∧ rval = -1 then .error .division_overflow
      else .ok (.Literal (wrap32 (Int.tdiv lval rval)))
    else .ok (.BinaryExpr op left right)
  | _, _ => .ok (.BinaryExpr op left right)

/-- The part of `optimizeAST` for an `IfStmt`, after the three children were optimized. -/
def optimizeIf (cond thenB elseB : ASTNode) : ASTNode :=
  match cond with
  | .Literal v => if v ≠ 0 then thenB else elseB
  | _ => .IfStmt cond thenB elseB

/-- The part of `optimizeAST` for a `WhileStmt`, after both children were optimized. -/
def optimizeWhile (cond body : ASTNode) : ASTNode :=
  match cond with
  | .Literal v => if v = 0 then .nullptr else .WhileStmt cond body
  | _ => .WhileStmt cond body

/-- The test `if (opt)` followed by `newStmts.push_back(opt)`. -/
def pushNonNull (opt : ASTNode) (newStmts : List ASTNode) : List ASTNode :=
  match opt with
  | .nullptr => newStmts
  | s => s :: newStmts

mutual
/-- The function `optimizeAST`. -/
def optimizeAST : ASTNode → Except Error ASTNode
  | .nullptr => .ok .nullptr
  | .BinaryExpr op l r =>
    match optimizeAST l with
    | .error e => .error e
    | .ok left =>
      match optimizeAST r with
      | .error e => .error e
      | .ok right => optimizeBinary op left right
  | .Assignment name value =>
    match optimizeAST value with
    | .error e => .error e
    | .ok newVal => .ok (.Assignment name newVal)
  | .IfStmt c t e =>
    match optimizeAST c with
    | .error err => .error err
    | .ok cond =>
      match optimizeAST t with
      | .error err => .error err
      | .ok thenB =>
        match optimizeAST e with
        | .error err => .error err
        | .ok elseB => .ok (optimizeIf cond thenB elseB)
  | .WhileStmt c b =>
    match optimizeAST c with
    | .error e => .error e
    | .ok cond =>
      match optimizeAST b with
      | .error e => .error e
      | .ok body => .ok (optimizeWhile cond body)
  | .Block stmts =>
    match optimizeStmts stmts with
    | .error e => .error e
    | .ok newStmts => .ok (.Block newStmts)
  | .PrintStmt e =>
    match optimizeAST e with
    | .error err => .error err
    | .ok expr => .ok (.PrintStmt expr)
  | .Literal v => .ok (.Literal v)
  | .Identifier n => .ok (.Identifier n)
/-- The loop of `optimizeAST` over the statements of a `Block`. -/
def optimizeStmts : List ASTNode → Except Error (List ASTNode)
  | [] => .ok []
  | stmt :: rest =>
    match optimizeAST stmt with
    | .error e => .error e
    | .ok opt =>
      match optimizeStmts rest with
      | .error e => .error e
      | .ok newStmts => .ok (pushNonNull opt newStmts)
end

/-! ## The interpreter (`interpreter.cpp`) -/

/-- State of an `Interpreter`: the member `variables` (field `vars`) and what was written to `cout` by
`"print: "` lines. -/
structure IState where
  vars : Env Value
  out : List Int
  deriving DecidableEq, Repr

/-- Result of an evaluation: a value, an exception, or exhausted fuel. The state reached
is kept in the first two cases. -/
inductive IResult where
  | ok (v : Value) (st : IState)
  | error (e : Error) (st : IState)
  | timeout
  deriving DecidableEq, Repr

namespace Interpreter

/-- The trace loop `for (const auto& [k, v] : variables) cout << ... << v.asInt()`: it
throws when some variable holds a `bool`. -/
def traceVariables (st : IState) : Except Error Unit :=
  if st.vars.all (fun kv => match kv.2 with | .int _ => true | .bool _ => false)
  then .ok () else .error .bad_variant_access

/-- The operator dispatch of `evalBinaryExpr` on the two evaluated operands. -/
def applyBinary (op : String) (left right : Value) : Except Error Value :=
  if op = "+" then
    match left.asInt, right.asInt with
    | .ok a, .ok b => .ok (.int (wrap32 (a + b)))
    | _, _ => .error .bad_variant_access
  else if op = "-" then
    match left.asInt, right.asInt with
    | .ok a, .ok b => .ok (.int (wrap32 (a - b)))
    | _, _ => .error .bad_variant_access
  else if op = "*" then
    match left.asInt, right.asInt with
    | .ok a, .ok b => .ok (.int (wrap32 (a * b)))
    | _, _ => .error .bad_variant_access
  else if op = "/" then
    match left.asInt, right.asInt with
    | .ok a, .ok b =>
      if b = 0 then .error .division_by_zero
      else if a = -2147483648 ∧ b = -1 then .error .division_overflow
      else .ok (.int (wrap32 (Int.tdiv a b)))
    | _, _ => .error .bad_variant_access
  else if op = "==" then
    match left.asInt, right.asInt with
    | .ok a, .ok b => .ok (.bool (decide (a = b)))
    | _, _ => .error .bad_variant_access
  else if op = "<" then
    match left.asInt, right.asInt with
    | .ok a, .ok b => .ok (.bool (decide (a < b)))
    | _, _ => .error .bad_variant_access
  else if op = ">" then
    match left.asInt, right.asInt with
    | .ok a, .ok b => .ok (.bool (decide (a > b)))
    | _, _ => .error .bad_variant_access
  else .error (.runtime_error ("Unknown binary operator: " ++ op))

/-- The method `evalBinaryExpr`; `ev` is the recursive `eval`. -/
def evalBinaryExpr (ev : ASTNode → IState → IResult) (op : String) (l r : ASTNode)
    (st : IState) : IResult :=
  match ev l st with
  | .ok left st1 =>
    match ev r st1 with
    | .ok right st2 =>
      match applyBinary op left right with
      | .ok v => .ok v st2
      | .error e => .error e st2
    | res => res
  | res => res

/-- The method `evalLiteral`. -/
def evalLiteral (value : Int) (st : IState) : IResult := .ok (.int value) st

/-- The method `evalIdentifier`. -/
def evalIdentifier (name : String) (st : IState) : IResult :=
  match st.vars.find name with
  | none => .error (.runtime_error ("Undefined variable: " ++ name)) st
  | some v => .ok v st

/-- The method `evalAssignment`; the trace line after the store calls `val.asInt()`. -/
def evalAssignment (ev : ASTNode → IState → IResult) (name : String) (value : ASTNode)
    (st : IState) : IResult :=
  match ev value st with
  | .ok val st1 =>
    let st2 : IState := { st1 with vars := st1.vars.set name val }
    match val.asInt with
    | .ok _ => .ok val st2
    | .error e => .error e st2
  | res => res

/-- The method `evalIfStmt`. -/
def evalIfStmt (ev : ASTNode → IState → IResult) (c t e : ASTNode) (st : IState) : IResult :=
  match ev c st with
  | .ok cond st1 =>
    match cond.asBool with
    | .error err => .error err st1
    | .ok true => ev t st1
    | .ok false =>
      match e with
      | .nullptr => .ok (.int 0) st1
      | elseBranch => ev elseBranch st1
  | res => res

/-- The loop of `evalBlock`: `last` is the value of the previous statement. -/
def evalBlockLoop (ev : ASTNode → IState → IResult) : List ASTNode → Value → IState → IResult
  | [], last, st => .ok last st
  | s :: rest, _, st =>
    match ev s st with
    | .ok v st1 =>
      match traceVariables st1 with
      | .ok _ => evalBlockLoop ev rest v st1
      | .error e => .error e st1
    | res => res

/-- The method `evalBlock`. -/
def evalBlock (ev : ASTNode → IState → IResult) (stmts : List ASTNode) (st : IState) : IResult :=
  evalBlockLoop ev stmts default st

/-- The loop of `evalWhileStmt`; the first argument bounds the number of iterations. -/
def evalWhileLoop (ev : ASTNode → IState → IResult) (c b : ASTNode) :
    Nat → Value → IState → IResult
  | 0, _, _ => .timeout
  | n + 1, last, st =>
    match ev c st with
    | .ok cond st1 =>
      match cond.asBool with
      | .error err => .error err st1
      | .ok false => .ok last st1
      | .ok true =>
        match ev b st1 with
        | .ok v st2 =>
          match traceVariables st2 with
          | .ok _ => evalWhileLoop ev c b n v st2
          | .error e => .error e st2
        | res => res
    | res => res

/-- The method `evalWhileStmt`. -/
def evalWhileStmt (ev : ASTNode → IState → IResult) (fuel : Nat) (c b : ASTNode)
    (st : IState) : IResult :=
  evalWhileLoop ev c b fuel default st

/-- The method `evalPrintStmt`. -/
def evalPrintStmt (ev : ASTNode → IState → IResult) (e : ASTNode) (st : IState) : IResult :=
  match ev e st with
  | .ok val st1 =>
    match val.asInt with
    | .ok n => .ok val { st1 with out := st1.out ++ [n] }
    | .error err => .error err st1
  | res => res

/-- The method `Interpreter::eval`; `fuel` bounds the nesting depth of calls and the number
of iterations of each loop. -/
def eval : Nat → ASTNode → IState → IResult
  | 0, _, _ => .timeout
  | fuel + 1, node, st =>
    match node with
    | .BinaryExpr op l r => evalBinaryExpr (eval fuel) op l r st
    | .Literal v => evalLiteral v st
    | .Identifier n => evalIdentifier n st
    | .Assignment n v => evalAssignment (eval fuel) n v st
    | .IfStmt c t e => evalIfStmt (eval fuel) c t e st
    | .Block stmts => evalBlock (eval fuel) stmts st
    | .WhileStmt c b => evalWhileStmt (eval fuel) fuel c b st
    | .PrintStmt e => evalPrintStmt (eval fuel) e st
    | .nullptr => .error (.runtime_error "Unknown AST node") st

/-- A freshly constructed `Interpreter`. -/
def init : IState := { vars := [], out := [] }

end Interpreter

/-! ## The IR and the compiler (`ir.h`) -/

/-- The enum `OpCode`. -/
inductive OpCode where
  | PUSH | LOAD | STORE | ADD | SUB | MUL | DIV | GT | LT | EQ | JZ | JMP | LABEL | NOP | PRINT
  deriving DecidableEq, Repr

/-- The struct `IRInstr`: an opcode and its string operand (empty when unused). -/
structure IRInstr where
  op : OpCode
  arg : String
  deriving DecidableEq, Repr

/-- The struct `IRProgram`. -/
structure IRProgram where
  instructions : List IRInstr
  deriving DecidableEq, Repr

/-- The call `ir.instructions.emplace_back(op, arg)`. -/
def IRProgram.emplace_back (ir : IRProgram) (op : OpCode) (arg : String) : IRProgram :=
  { instructions := ir.instructions ++ [{ op := op, arg := arg }] }

/-- The opcode emitted for a `BinaryExpr` operator, if any. -/
def binaryOpCode (op : String) : Option OpCode :=
  if op = "+" then some .ADD
  else if op = "-" then some .SUB
  else if op = "*" then some .MUL
  else if op = "/" then some .DIV
  else if op = ">" then some .GT
  else if op = "<" then some .LT
  else if op = "==" then some .EQ
  else none

mutual
/-- The function `compileAST(node, ir, labelCount)`; the result is the extended program and
the new value of `labelCount`. -/
def compileAST : ASTNode → IRProgram → Int → IRProgram × Int
  | .nullptr, ir, labelCount => (ir, labelCount)
  | .Block stmts, ir, labelCount => compileStmts stmts ir labelCount
  | .Assignment name value, ir, labelCount =>
    let (ir1, lc1) := compileAST value ir labelCount
    (ir1.emplace_back .STORE name, lc1)
  | .BinaryExpr op l r, ir, labelCount =>
    let (ir1, lc1) := compileAST l ir labelCount
    let (ir2, lc2) := compileAST r ir1 lc1
    match binaryOpCode op with
    | some code => (ir2.emplace_back code "", lc2)
    | none => (ir2, lc2)
  | .Literal v, ir, labelCount => (ir.emplace_back .PUSH (to_string v), labelCount)
  | .Identifier n, ir, labelCount => (ir.emplace_back .LOAD n, labelCount)
  | .IfStmt c t e, ir, labelCount =>
    let elseLabel := "L_else_" ++ to_string labelCount
    let endLabel := "L_end_" ++ to_string (labelCount + 1)
    let (ir1, lc1) := compileAST c ir (labelCount + 2)
    let ir2 := ir1.emplace_back .JZ elseLabel
    let (ir3, lc3) := compileAST t ir2 lc1
    let ir4 := ir3.emplace_back .JMP endLabel
    let ir5 := ir4.emplace_back .LABEL elseLabel
    let (ir6, lc6) := compileAST e ir5 lc3
    (ir6.emplace_back .LABEL endLabel, lc6)
  | .WhileStmt c b, ir, labelCount =>
    let startLabel := "L_start_" ++ to_string labelCount
    let endLabel := "L_end_" ++ to_string (labelCount + 1)
    let ir1 := ir.emplace_back .LABEL startLabel
    let (ir2, lc2) := compileAST c ir1 (labelCount + 2)
    let ir3 := ir2.emplace_back .JZ endLabel
    let (ir4, lc4) := compileAST b ir3 lc2
    let ir5 := ir4.emplace_back .JMP startLabel
    (ir5.emplace_back .LABEL endLabel, lc4)
  | .PrintStmt e, ir, labelCount =>
    let (ir1, lc1) := compileAST e ir labelCount
    (ir1.emplace_back .PRINT "", lc1)
/-- The loop of `compileAST` over the statements of a `Block`. -/
def compileStmts : List ASTNode → IRProgram → Int → IRProgram × Int
  | [], ir, labelCount => (ir, labelCount)
  | stmt :: rest, ir, labelCount =>
    let (ir1, lc1) := compileAST stmt ir labelCount
    compileStmts rest ir1 lc1
end

/-- What `main` does to compile a tree: an empty program and `labelCount = 0`. -/
def compileProgram (tree : ASTNode) : IRProgram := (compileAST tree { instructions := [] } 0).1

/-! ## The virtual machine (`ir.h`, `IRVM::run`) -/

/-- Local state of `IRVM::run`: the loop index `ip`, the operand stack (its top is the head
of the list), the map `vars` and what was written to `cout` by `"print: "` lines. -/
structure VMState where
  ip : Nat
  stack : List Int
  vars : Env Int
  out : List Int
  deriving DecidableEq, Repr

/-- Result of a run: normal end, an exception or fault, or exhausted fuel. -/
inductive VResult where
  | done (st : VMState)
  | error (e : Error) (st : VMState)
  | timeout
  deriving DecidableEq, Repr

namespace IRVM

/-- The first loop of `run`: `labels[arg] = i` for every `LABEL` at index `i`. -/
def buildLabels : List IRInstr → Nat → Env Nat → Env Nat
  | [], _, labels => labels
  | instr :: rest, i, labels =>
    buildLabels rest (i + 1) (if instr.op = .LABEL then labels.set instr.arg i else labels)

/-- The read `labels[arg]`: a missing key is value-initialised to zero. -/
def labelIndex (labels : Env Nat) (arg : String) : Nat := (labels.find arg).getD 0

/-- The common shape of `ADD`, `SUB`, `MUL`, `GT`, `LT`, `EQ`: pop `b`, pop `a`, push
`f a b`. -/
def binop (f : Int → Int → Int) (st : VMState) : Except Error VMState :=
  match st.stack with
  | b :: a :: rest => .ok { st with stack := f a b :: rest }
  | _ => .error .stack_underflow

/-- The second `switch` of `run`: the effect of one instruction, before `++ip`. -/
def exec (labels : Env Nat) (instr : IRInstr) (st : VMState) : Except Error VMState :=
  match instr.op with
  | .PUSH =>
    match toInt instr.arg with
    | .ok v => .ok { st with stack := v :: st.stack }
    | .error e => .error e
  | .LOAD =>
    match st.vars.find instr.arg with
    | some v => .ok { st with stack := v :: st.stack }
    | none => .ok { st with stack := 0 :: st.stack, vars := st.vars.set instr.arg 0 }
  | .STORE =>
    match st.stack with
    | val :: rest => .ok { st with stack := rest, vars := st.vars.set instr.arg val }
    | [] => .error .stack_underflow
  | .ADD => binop (fun a b => wrap32 (a + b)) st
  | .SUB => binop (fun a b => wrap32 (a - b)) st
  | .MUL => binop (fun a b => wrap32 (a * b)) st
  | .DIV =>
    match st.stack with
    | b :: a :: rest =>
      if b = 0 then .error .division_by_zero
      else if a = -2147483648 ∧ b = -1 then .error .division_overflow
      else .ok { st with stack := wrap32 (Int.tdiv a b) :: rest }
    | _ => .error .stack_underflow
  | .GT => binop (fun a b => if a > b then 1 else 0) st
  | .LT => binop (fun a b => if a < b then 1 else 0) st
  | .EQ => binop (fun a b => if a = b then 1 else 0) st
  | .JZ =>
    match st.stack with
    | cond :: rest =>
      if cond = 0 then .ok { st with stack := rest, ip := labelIndex labels instr.arg }
      else .ok { st with stack := rest }
    | [] => .error .stack_underflow
  | .JMP => .ok { st with ip := labelIndex labels instr.arg }
  | .LABEL => .ok st
  | .NOP => .ok st
  | .PRINT =>
    match st.stack with
    | val :: rest => .ok { st with stack := rest, out := st.out ++ [val] }
    | [] => .error .stack_underflow

/-- One iteration of the main loop of `run`: test `ip < size`, execute, `++ip`. The result
is `none` when the loop has ended. -/
def step (prog : List IRInstr) (labels : Env Nat) (st : VMState) :
    Option (Except Error VMState) :=
  match prog.get? st.ip with
  | none => none
  | some instr =>
    match exec labels instr st with
    | .ok st1 => some (.ok { st1 with ip := st1.ip + 1 })
    | .error e => some (.error e)

/-- The main loop of `run`, for at most `fuel` iterations. -/
def runLoop (prog : List IRInstr) (labels : Env Nat) : Nat → VMState → VResult
  | 0, _ => .timeout
  | fuel + 1, st =>
    match step prog labels st with
    | none => .done st
    | some (.ok st1) => runLoop prog labels fuel st1
    | some (.error e) => .error e st

/-- The state in which the main loop of `run` starts. -/
def start : VMState := { ip := 0, stack := [], vars := [], out := [] }

/-- The method `IRVM::run`. -/
def run (fuel : Nat) (prog : IRProgram) : VResult :=
  runLoop prog.instructions (buildLabels prog.instructions 0 []) fuel start

end IRVM

/-! ## The parser (`parsers.cpp`, `Parser::ParserImpl`) -/

/-- Result of a parsing function: a value and the unread input, an exception, or
exhausted fuel. -/
inductive PResult (α : Type) where
  | ok (a : α) (rest : List Char)
  | error (e : Error)
  | timeout
  deriving Repr

namespace Parser

/-!
The members `input` and `pos` of `ParserImpl` are represented by the unread suffix
`input[pos..]`: reading `input[pos]` is reading the head, `pos++` drops it, and
`pos = save` restores a suffix seen before.
-/

/-- The method `skipWhitespace`. -/
def skipWhitespace (inp : List Char) : List Char := inp.dropWhile isspace

/-- The method `peek`: the character read (NUL at the end of input) and the unread input
after skipping white space. -/
def peek (inp : List Char) : Char × List Char :=
  match skipWhitespace inp with
  | [] => ('\x00', [])
  | c :: rest => (c, c :: rest)

/-- The method `get`. -/
def get (inp : List Char) : Char × List Char :=
  match skipWhitespace inp with
  | [] => ('\x00', [])
  | c :: rest => (c, rest)

/-- The method `match`: whether `input.substr(pos, len) == kw`, and the unread input. -/
def matchKw (kw : String) (inp : List Char) : Bool × List Char :=
  let s := skipWhitespace inp
  if kw.data.isPrefixOf s then (true, s.drop kw.data.length) else (false, s)

/-- The method `expect`. -/
def expect (c : Char) (inp : List Char) : PResult Unit :=
  match get (skipWhitespace inp) with
  | (d, rest) =>
    if d ≠ c then .error (.runtime_error (("Expected '".push c).push '\x27')) else .ok () rest

/-- The loop `while (isalnum(peek()) || peek() == '_') name += get();`. -/
def identLoop : Nat → String → List Char → PResult String
  | 0, _, _ => .timeout
  | n + 1, name, inp =>
    match peek inp with
    | (c, inp1) =>
      if isalnum c || c == '_' then
        match get inp1 with
        | (d, inp2) => identLoop n (name.push d) inp2
      else .ok name inp1

/-- The method `parseIdentifier`. -/
def parseIdentifier (fuel : Nat) (inp : List Char) : PResult String :=
  match peek (skipWhitespace inp) with
  | (c, inp1) =>
    if isalpha c || c == '_' then
      match get inp1 with
      | (d, inp2) => identLoop fuel ("".push d) inp2
    else .error (.runtime_error "Expected identifier")

/-- The loop `while (isdigit(peek())) val = val * 10 + (get() - '0');`. -/
def digitsLoop : Nat → Int → List Char → PResult Int
  | 0, _, _ => .timeout
  | n + 1, val, inp =>
    match peek inp with
    | (c, inp1) =>
      if isdigit c then
        match get inp1 with
        | (d, inp2) => digitsLoop n (wrap32 (val * 10 + ((d.toNat : Int) - 48))) inp2
      else .ok val inp1

/-- The method `parseFactor`; `pe` is the recursive `parseExpression`. -/
def parseFactor (pe : List Char → PResult ASTNode) (fuel : Nat) (inp : List Char) :
    PResult ASTNode :=
  match peek inp with
  | (c, inp1) =>
    if isdigit c then
      match digitsLoop fuel 0 inp1 with
      | .ok val rest => .ok (.Literal val) rest
      | .error e => .error e
      | .timeout => .timeout
    else if c == '(' then
      match get inp1 with
      | (_, inp2) =>
        match pe inp2 with
        | .ok node rest =>
          match expect ')' rest with
          | .ok _ rest1 => .ok node rest1
          | .error e => .error e
          | .timeout => .timeout
        | res => res
    else if isalpha c || c == '_' then
      match parseIdentifier fuel inp1 with
      | .ok name rest => .ok (.Identifier name) rest
      | .error e => .error e
      | .timeout => .timeout
    else .error (.runtime_error "Unexpected character in factor")

/-- A chain `if (match(a)) ... else if (match(b)) ... else ...`: the first keyword of the
list that matches, and the unread input. -/
def matchFirst : List String → List Char → Option String × List Char
  | [], inp => (none, inp)
  | kw :: kws, inp =>
    match matchKw kw inp with
    | (true, rest) => (some kw, rest)
    | (false, rest) => matchFirst kws rest

/-- The loop `while (true)` shared by `parseEquality`, `parseRelational`, `parseAdditive`
and `parseTerm`: `ops` are the operators in the order they are tried and `operand` parses
the right operand. -/
def binaryLoop (ops : List String) (operand : List Char → PResult ASTNode) :
    Nat → ASTNode → List Char → PResult ASTNode
  | 0, _, _ => .timeout
  | n + 1, node, inp =>
    match matchFirst ops inp with
    | (some op, rest) =>
      match operand rest with
      | .ok rhs rest1 => binaryLoop ops operand n (.BinaryExpr op node rhs) rest1
      | res => res
    | (none, rest) => .ok node rest

/-- The method `parseTerm`. -/
def parseTerm (pe : List Char → PResult ASTNode) (fuel : Nat) (inp : List Char) :
    PResult ASTNode :=
  match parseFactor pe fuel inp with
  | .ok node rest => binaryLoop ["*", "/"] (parseFactor pe fuel) fuel node rest
  | res => res

/-- The method `parseAdditive`. -/
def parseAdditive (pe : List Char → PResult ASTNode) (fuel : Nat) (inp : List Char) :
    PResult ASTNode :=
  match parseTerm pe fuel inp with
  | .ok node rest => binaryLoop ["+", "-"] (parseTerm pe fuel) fuel node rest
  | res => res

/-- The method `parseRelational`. -/
def parseRelational (pe : List Char → PResult ASTNode) (fuel : Nat) (inp : List Char) :
    PResult ASTNode :=
  match parseAdditive pe fuel inp with
  | .ok node rest => binaryLoop ["<", ">", "<=", ">="] (parseAdditive pe fuel) fuel node rest
  | res => res

/-- The method `parseEquality`. -/
def parseEquality (pe : List Char → PResult ASTNode) (fuel : Nat) (inp : List Char) :
    PResult ASTNode :=
  match parseRelational pe fuel inp with
  | .ok node rest => binaryLoop ["==", "!="] (parseRelational pe fuel) fuel node rest
  | res => res

/-- The method `parseExpression`; `fuel` bounds the nesting of parentheses and the number
of iterations of each loop. -/
def parseExpression : Nat → List Char → PResult ASTNode
  | 0, _ => .timeout
  | fuel + 1, inp => parseEquality (parseExpression fuel) fuel inp

/-- An expression followed by `expect(';')`, then `wrap` applied to it. -/
def exprThenSemicolon (fuel : Nat) (wrap : ASTNode → ASTNode) (inp : List Char) :
    PResult ASTNode :=
  match parseExpression fuel inp with
  | .ok expr rest =>
    match expect ';' rest with
    | .ok _ rest1 => .ok (wrap expr) rest1
    | .error e => .error e
    | .timeout => .timeout
  | res => res

/-- The method `parsePrint`. -/
def parsePrint (fuel : Nat) (inp : List Char) : PResult ASTNode :=
  exprThenSemicolon fuel .PrintStmt inp

/-- The method `parseAssignment`. -/
def parseAssignment (fuel : Nat) (inp : List Char) : PResult ASTNode :=
  match parseIdentifier fuel inp with
  | .ok name rest =>
    match expect '=' rest with
    | .ok _ rest1 => exprThenSemicolon fuel (.Assignment name) rest1
    | .error e => .error e
    | .timeout => .timeout
  | .error e => .error e
  | .timeout => .timeout

/-- The condition in parentheses that opens `parseIf` and `parseWhile`. -/
def parseCondition (fuel : Nat) (inp : List Char) : PResult ASTNode :=
  match expect '(' inp with
  | .ok _ rest =>
    match parseExpression fuel rest with
    | .ok cond rest1 =>
      match expect ')' rest1 with
      | .ok _ rest2 => .ok cond rest2
      | .error e => .error e
      | .timeout => .timeout
    | res => res
  | .error e => .error e
  | .timeout => .timeout

/-- The method `parseIf`; `ps` is the recursive `parseStatement`. -/
def parseIf (ps : List Char → PResult ASTNode) (fuel : Nat) (inp : List Char) :
    PResult ASTNode :=
  match parseCondition fuel inp with
  | .ok cond rest =>
    match ps rest with
    | .ok thenB rest1 =>
      match matchKw "else" rest1 with
      | (true, rest2) =>
        match ps rest2 with
        | .ok elseB rest3 => .ok (.IfStmt cond thenB elseB) rest3
        | res => res
      | (false, rest2) => .ok (.IfStmt cond thenB .nullptr) rest2
    | res => res
  | res => res

/-- The method `parseWhile`. -/
def parseWhile (ps : List Char → PResult ASTNode) (fuel : Nat) (inp : List Char) :
    PResult ASTNode :=
  match parseCondition fuel inp with
  | .ok cond rest =>
    match ps rest with
    | .ok body rest1 => .ok (.WhileStmt cond body) rest1
    | res => res
  | res => res

/-- The method `parseStatements`: the loop `while (peek() && peek() != '}')`, with the
statements read so far. -/
def parseStatements (ps : List Char → PResult ASTNode) :
    Nat → List ASTNode → List Char → PResult (List ASTNode)
  | 0, _, _ => .timeout
  | n + 1, stmts, inp =>
    match peek inp with
    | (c, inp1) =>
      if c ≠ '\x00' && c ≠ '}' then
        match ps inp1 with
        | .ok stmt rest => parseStatements ps n (stmts ++ [stmt]) rest
        | .error e => .error e
        | .timeout => .timeout
      else .ok stmts inp1

/-- The method `parseBlock`. -/
def parseBlock (ps : List Char → PResult ASTNode) (fuel : Nat) (inp : List Char) :
    PResult ASTNode :=
  match expect '{' inp with
  | .ok _ rest =>
    match parseStatements ps fuel [] rest with
    | .ok stmts rest1 =>
      match expect '}' rest1 with
      | .ok _ rest2 => .ok (.Block stmts) rest2
      | .error e => .error e
      | .timeout => .timeout
    | .error e => .error e
    | .timeout => .timeout
  | .error e => .error e
  | .timeout => .timeout

/-- The method `parseStatement`; `fuel` bounds the nesting of statements and is passed to
the expression parser. -/
def parseStatement : Nat → List Char → PResult ASTNode
  | 0, _ => .timeout
  | fuel + 1, inp =>
    match matchKw "if" inp with
    | (true, rest) => parseIf (parseStatement fuel) fuel rest
    | (false, rest) =>
      match matchKw "while" rest with
      | (true, rest1) => parseWhile (parseStatement fuel) fuel rest1
      | (false, rest1) =>
        match matchKw "print" rest1 with
        | (true, rest2) => parsePrint fuel rest2
        | (false, rest2) =>
          match peek rest2 with
          | (c, save) =>
            if c == '{' then parseBlock (parseStatement fuel) fuel save
            else if isalpha c || c == '_' then
              match parseIdentifier fuel save with
              | .ok _ rest3 =>
                if (peek (skipWhitespace rest3)).1 == '=' then parseAssignment fuel save
                else exprThenSemicolon fuel id save
              | .error e => .error e
              | .timeout => .timeout
            else exprThenSemicolon fuel id save

end Parser

/-- The method `Parser::parse` on the source text `input`. -/
def Parser.parse (fuel : Nat) (input : String) : PResult ASTNode :=
  match Parser.parseStatements (Parser.parseStatement fuel) fuel [] input.data with
  | .ok stmts rest => .ok (.Block stmts) rest
  | .error e => .error e
  | .timeout => .timeout

/-! ## Auxiliary definitions for the statements -/

mutual
/-- Size of a tree: the number of constructors. -/
def ASTNode.size : ASTNode → Nat
  | .nullptr => 1
  | .Literal _ => 1
  | .Identifier _ => 1
  | .BinaryExpr _ l r => 1 + l.size + r.size
  | .Assignment _ v => 1 + v.size
  | .IfStmt c t e => 1 + c.size + t.size + e.size
  | .WhileStmt c b => 1 + c.size + b.size
  | .Block stmts => 1 + ASTNode.sizeList stmts
  | .PrintStmt e => 1 + e.size
/-- Total size of a list of trees. -/
def ASTNode.sizeList : List ASTNode → Nat
  | [] => 0
  | s :: rest => s.size + ASTNode.sizeList rest
end

mutual
/-- The nodes of a tree: the tree itself and every descendant, null children included. -/
def ASTNode.subnodes : ASTNode → List ASTNode
  | .nullptr => [.nullptr]
  | .Literal v => [.Literal v]
  | .Identifier n => [.Identifier n]
  | .BinaryExpr op l r => .BinaryExpr op l r :: (l.subnodes ++ r.subnodes)
  | .Assignment n v => .Assignment n v :: v.subnodes
  | .IfStmt c t e => .IfStmt c t e :: (c.subnodes ++ t.subnodes ++ e.subnodes)
  | .WhileStmt c b => .WhileStmt c b :: (c.subnodes ++ b.subnodes)
  | .Block stmts => .Block stmts :: ASTNode.subnodesList stmts
  | .PrintStmt e => .PrintStmt e :: e.subnodes
/-- The nodes of the trees of a list. -/
def ASTNode.subnodesList : List ASTNode → List ASTNode
  | [] => []
  | s :: rest => s.subnodes ++ ASTNode.subnodesList rest
end

/-- The node is a division whose operands fold to literals, the right one to zero. -/
def divByLiteralZero (s : ASTNode) : Prop :=
  ∃ l r a, s = .BinaryExpr "/" l r ∧ optimizeAST l = .ok (.Literal a) ∧
    optimizeAST r = .ok (.Literal 0)

/-- The node is a division whose operands fold to the literals `-2147483648` and `-1`: the
quotient is not an `int`. -/
def divOverflow (s : ASTNode) : Prop :=
  ∃ l r, s = .BinaryExpr "/" l r ∧ optimizeAST l = .ok (.Literal (-2147483648)) ∧
    optimizeAST r = .ok (.Literal (-1))

/-- The node makes the folding of a division fail with `e`: the thrown divide-by-zero error
for a literal zero divisor, the fault of the native division for `-2147483648 / -1`. -/
def foldFault (s : ASTNode) (e : Error) : Prop :=
  (divByLiteralZero s ∧ e = foldDivError) ∨ (divOverflow s ∧ e = .division_overflow)

/-- The AST of the expression `(0 - 2147483647 - 1) / (0 - 1)`, built from literals that
are `int`s and from `-` and `/`: the dividend has the value `-2147483648`, the divisor the
value `-1`. -/
def overflowDivisionExpr : ASTNode :=
  .BinaryExpr "/"
    (.BinaryExpr "-" (.BinaryExpr "-" (.Literal 0) (.Literal 2147483647)) (.Literal 1))
    (.BinaryExpr "-" (.Literal 0) (.Literal 1))

/-- The AST of the source `print (0 - 2147483647 - 1) / (0 - 1);`. -/
def overflowDivisionTree : ASTNode := .Block [.PrintStmt overflowDivisionExpr]

/-- The tree of `if (1) { x = 1 + 2 * 3; while (0) print 1; } else print 4 / 2;`. -/
def idempotenceSample : ASTNode :=
  .IfStmt (.Literal 1)
    (.Block [.Assignment "x" (.BinaryExpr "+" (.Literal 1)
        (.BinaryExpr "*" (.Literal 2) (.Literal 3))),
      .WhileStmt (.Literal 0) (.PrintStmt (.Literal 1))])
    (.PrintStmt (.BinaryExpr "/" (.Literal 4) (.Literal 2)))

/-- The source text of the loop-accumulation scenario. -/
def loopSource : String := "i = 0; s = 0; while (i < 5) { s = s + i; i = i + 1; } print s;"

/-- The AST of `loopSource`. -/
def loopTree : ASTNode :=
  .Block [.Assignment "i" (.Literal 0), .Assignment "s" (.Literal 0),
    .WhileStmt (.BinaryExpr "<" (.Identifier "i") (.Literal 5))
      (.Block [.Assignment "s" (.BinaryExpr "+" (.Identifier "s") (.Identifier "i")),
               .Assignment "i" (.BinaryExpr "+" (.Identifier "i") (.Literal 1))]),
    .PrintStmt (.Identifier "s")]

/-- Order on results by fuel: either the first run exhausted its fuel, or both runs
returned the same result. -/
def PResult.le {α : Type} (r1 r2 : PResult α) : Prop := r1 = .timeout ∨ r1 = r2

/-- The operators that `parseEquality`, `parseRelational`, `parseAdditive` and `parseTerm`
can put in a `BinaryExpr`. -/
def parsedOps : List String := ["==", "!=", "<", ">", "+", "-", "*", "/"]

/-- Shape of the expressions built by `parseExpression`: literals in the `int` range,
identifiers, and binary expressions over `parsedOps`. -/
def ASTNode.isExpr : ASTNode → Bool
  | .Literal v => decide (inInt32 v)
  | .Identifier _ => true
  | .BinaryExpr op l r => decide (op ∈ parsedOps) && l.isExpr && r.isExpr
  | _ => false

mutual
/-- Shape of the statements built by `parseStatement`: the children that hold expressions
are expressions, the children that hold statements are statements, and only the else branch
of an `IfStmt` may be null. -/
def ASTNode.isStmt : ASTNode → Bool
  | .Assignment _ v => v.isExpr
  | .IfStmt c t .nullptr => c.isExpr && t.isStmt
  | .IfStmt c t e => c.isExpr && t.isStmt && e.isStmt
  | .WhileStmt c b => c.isExpr && b.isStmt
  | .Block stmts => ASTNode.isStmtList stmts
  | .PrintStmt e => e.isExpr
  | .Literal v => decide (inInt32 v)
  | .Identifier _ => true
  | .BinaryExpr op l r => (ASTNode.BinaryExpr op l r).isExpr
  | .nullptr => false
/-- Every tree of the list is a statement. -/
def ASTNode.isStmtList : List ASTNode → Bool
  | [] => true
  | s :: rest => s.isStmt && ASTNode.isStmtList rest
end

/-- The unread input starts, after white space, with a character that would extend an
integer literal or an identifier. -/
def tokenContinues (tl : List Char) : Bool :=
  isalnum (Parser.peek tl).1 || (Parser.peek tl).1 == '_'

/-- The characters `a` are the source of a factor with tree `A`: with enough fuel,
whatever follows `a` without extending its last token, `parseFactor` returns `A` and leaves
what follows unread (up to white space). -/
def FactorOperand (a : List Char) (A : ASTNode) : Prop :=
  ∃ fuel, ∀ tl, tokenContinues tl = false →
    ∃ r, Parser.parseFactor (Parser.parseExpression fuel) fuel (a ++ tl) = .ok A r ∧
      Parser.skipWhitespace r = Parser.skipWhitespace tl

/-- The unread input starts, after white space, with a binary operator. -/
def operatorAhead (tl : List Char) : Bool :=
  ["*", "/", "+", "-", "<", ">", "==", "!="].any
    (fun kw => kw.data.isPrefixOf (Parser.skipWhitespace tl))

/-- The property of `FactorOperand` at a given fuel. -/
def FactorAt (fuel : Nat) (a : List Char) (A : ASTNode) : Prop :=
  ∀ tl, tokenContinues tl = false →
    ∃ r, Parser.parseFactor (Parser.parseExpression fuel) fuel (a ++ tl) = .ok A r ∧
      Parser.skipWhitespace r = Parser.skipWhitespace tl

/-- The parser `p` reads the source `x` as the tree `A` in front of `tl`: it returns `A`
and leaves `tl` unread, up to white space. -/
def Reads (p : List Char → PResult ASTNode) (x : List Char) (A : ASTNode) (tl : List Char) :
    Prop :=
  ∃ r, p (x ++ tl) = .ok A r ∧ Parser.skipWhitespace r = Parser.skipWhitespace tl

/-- The shape shared by `parseTerm`, `parseAdditive`, `parseRelational` and
`parseEquality`: one operand, then the loop over the operators `ops`. -/
def binaryLevel (ops : List String) (sub : List Char → PResult ASTNode) (fuel : Nat)
    (inp : List Char) : PResult ASTNode :=
  match sub inp with
  | .ok node rest => Parser.binaryLoop ops sub fuel node rest
  | res => res

/-- The value `parseFactor` computes for a run of digits, starting from `val`. -/
def literalValue (val : Int) (ds : List Char) : Int :=
  ds.foldl (fun v d => wrap32 (v * 10 + ((d.toNat : Int) - 48))) val

/-- The characters form an identifier: a letter or underscore followed by letters, digits
or underscores. -/
def isIdentifier (n : List Char) : Bool :=
  match n with
  | [] => false
  | c :: cs => (isalpha c || c == '_') && cs.all (fun d => isalnum d || d == '_')

/-- The characters `e` are the source of an expression with tree `E`: with enough fuel,
whatever follows `e` without extending its last token or the expression, `parseExpression`
returns `E` and leaves what follows unread. -/
def ExprSource (e : List Char) (E : ASTNode) : Prop :=
  ∃ fuel, ∀ tl, tokenContinues tl = false → operatorAhead tl = false →
    Parser.parseExpression fuel (e ++ tl) = .ok E (Parser.skipWhitespace tl)

/-- The AST of `if (1) print 2;`. -/
def constantIfTree : ASTNode :=
  .Block [.IfStmt (.Literal 1) (.PrintStmt (.Literal 2)) .nullptr]

/-- The instructions `compileAST` appends for a tree, when the counter is `labelCount`. -/
def code (t : ASTNode) (labelCount : Int) : List IRInstr :=
  (compileAST t { instructions := [] } labelCount).1.instructions

/-- The value of the counter after `compileAST` on a tree. -/
def nextLabel (t : ASTNode) (labelCount : Int) : Int :=
  (compileAST t { instructions := [] } labelCount).2

/-- The instructions `compileAST` appends for the statements of a block. -/
def codeStmts (stmts : List ASTNode) (labelCount : Int) : List IRInstr :=
  (compileStmts stmts { instructions := [] } labelCount).1.instructions

/-- The value of the counter after the statements of a block. -/
def nextLabelStmts (stmts : List ASTNode) (labelCount : Int) : Int :=
  (compileStmts stmts { instructions := [] } labelCount).2

/-- The names of the `LABEL` instructions of a program, in order. -/
def labelsOf (prog : List IRInstr) : List String :=
  (prog.filter (fun i => i.op = .LABEL)).map (fun i => i.arg)

/-- The name is one the compiler generates from a counter value satisfying `S`. -/
def LabelFor (S : Int → Prop) (name : String) : Prop :=
  ∃ pfx ∈ ["L_else_", "L_end_", "L_start_"], ∃ k : Int, S k ∧ name = pfx ++ to_string k

/-- The names are pairwise different and generated from counter values satisfying `S`. -/
def KLabels (S : Int → Prop) (names : List String) : Prop :=
  names.Nodup ∧ ∀ n ∈ names, LabelFor S n

/-- The names are pairwise different and generated from counter values in `[lo, hi)`. -/
def RangeLabels (lo hi : Int) (names : List String) : Prop :=
  KLabels (fun k => lo ≤ k ∧ k < hi) names

/-- The VM goes from the first state to the second in finitely many iterations of the main
loop, none of which faults. -/
inductive Reach (prog : List IRInstr) (labels : Env Nat) : VMState → VMState → Prop where
  | refl (st : VMState) : Reach prog labels st st
  | step {st st1 st2 : VMState} :
      IRVM.step prog labels st = some (.ok st1) → Reach prog labels st1 st2 →
      Reach prog labels st st2

/-- The integer the VM holds for a value of the interpreter: comparisons push 1 or 0. -/
def Value.toInt : Value → Int
  | .int n => n
  | .bool b => if b then 1 else 0

/-- The interpreter's variables and the VM's variables hold the same bindings: a name is
bound in one exactly when it is bound in the other, to the same integer. -/
def VarsAgree (iv : Env Value) (vv : Env Int) : Prop :=
  ∀ k, iv.find k = (vv.find k).map Value.int

/-- The simulation property for statements at a given fuel of the interpreter: if the
interpreter evaluates the statement without error, the VM, placed at the start of the code
of the statement inside a program with unique labels, reaches the end of that code with the
same output and the same bindings. -/
def StmtSim (fuel : Nat) : Prop :=
  ∀ (s : ASTNode) (ist ist1 : IState) (v : Value),
    Interpreter.eval fuel s ist = .ok v ist1 → s.isStmt = true →
    ∀ (prog pre post : List IRInstr) (lc : Int) (st : VMState),
      prog = pre ++ code s lc ++ post → (labelsOf prog).Nodup →
      st.ip = pre.length → st.out = ist.out → VarsAgree ist.vars st.vars →
      ∃ st1, Reach prog (IRVM.buildLabels prog 0 []) st st1 ∧
        st1.ip = pre.length + (code s lc).length ∧ st1.out = ist1.out ∧
        VarsAgree ist1.vars st1.vars

mutual
/-- The names of the variables read by a tree, in source order: one entry for every
`Identifier` node. -/
def ASTNode.identifiersRead : ASTNode → List String
  | .nullptr => []
  | .Literal _ => []
  | .Identifier n => [n]
  | .BinaryExpr _ l r => l.identifiersRead ++ r.identifiersRead
  | .Assignment _ v => v.identifiersRead
  | .IfStmt c t e => c.identifiersRead ++ t.identifiersRead ++ e.identifiersRead
  | .WhileStmt c b => c.identifiersRead ++ b.identifiersRead
  | .Block stmts => ASTNode.identifiersReadList stmts
  | .PrintStmt e => e.identifiersRead
/-- The variables read by the trees of a list. -/
def ASTNode.identifiersReadList : List ASTNode → List String
  | [] => []
  | s :: rest => s.identifiersRead ++ ASTNode.identifiersReadList rest
end

/-- The AST of the source `print 1 < 2;`. -/
def printComparisonTree : ASTNode :=
  .Block [.PrintStmt (.BinaryExpr "<" (.Literal 1) (.Literal 2))]

/-- The source text of the runtime division-by-zero scenario. -/
def divisionSource : String := "x = 0; y = 4 / x; print y;"

/-- The AST of `divisionSource`. -/
def divisionTree : ASTNode :=
  .Block [.Assignment "x" (.Literal 0),
    .Assignment "y" (.BinaryExpr "/" (.Literal 4) (.Identifier "x")),
    .PrintStmt (.Identifier "y")]

/-- The AST of the source `print q;`. -/
def printUnboundTree : ASTNode := .Block [.PrintStmt (.Identifier "q")]

/-- The tree of `if (a) { while (b) { if (c) x = 1; else x = 2; } } else { while (d) y = 3; }`:
an `if` holding a loop that holds an `if`, beside an independent loop. -/
def nestedControlTree : ASTNode :=
  .IfStmt (.Identifier "a")
    (.Block [.WhileStmt (.Identifier "b")
      (.Block [.IfStmt (.Identifier "c") (.Assignment "x" (.Literal 1))
        (.Assignment "x" (.Literal 2))])])
    (.Block [.WhileStmt (.Identifier "d") (.Assignment "y" (.Literal 3))])

/-- The result of a binary operator on two integers, as the instruction set is described:
`+ - * /` compute on 32-bit integers (`/` is undefined for a zero divisor and for
`-2147483648 / -1`, whose quotient is not a 32-bit integer), `> < ==` yield 1 or 0; every
other operator has no result. The first argument is the left operand. -/
def binaryValue (op : String) (a b : Int) : Option Int :=
  if op = "+" then some (wrap32 (a + b))
  else if op = "-" then some (wrap32 (a - b))
  else if op = "*" then some (wrap32 (a * b))
  else if op = "/" then
    (if b = 0 ∨ (a = -2147483648 ∧ b = -1) then none else some (wrap32 (Int.tdiv a b)))
  else if op = ">" then some (if a > b then 1 else 0)
  else if op = "<" then some (if a < b then 1 else 0)
  else if op = "==" then some (if a = b then 1 else 0)
  else none

/-- The integer value of an expression under integer bindings: a literal (a 32-bit `int`)
is its value, an identifier is the value bound to it, a binary expression combines the
values of its operands by `binaryValue`. There is no value when an identifier is unbound,
a divisor is zero, a quotient is not a 32-bit integer, the operator is not one of the
seven, or the tree is not an expression. -/
def exprValue (vars : Env Int) : ASTNode → Option Int
  | .Literal v => if inInt32 v then some v else none
  | .Identifier n => vars.find n
  | .BinaryExpr op l r =>
    match exprValue vars l, exprValue vars r with
    | some a, some b => binaryValue op a b
    | _, _ => none
  | _ => none

/-- The tree of the expression `a - (1 < 2)`. -/
def mixedExpr : ASTNode :=
  .BinaryExpr "-" (.Identifier "a") (.BinaryExpr "<" (.Literal 1) (.Literal 2))

/-- The tree of `if (a) print 1;` followed by `while (b) print 2;`. -/
def loweringSample : ASTNode :=
  .Block [.IfStmt (.Identifier "a") (.PrintStmt (.Literal 1)) .nullptr,
    .WhileStmt (.Identifier "b") (.PrintStmt (.Literal 2))]

/-- The AST of the source `print 1 != 2;`. -/
def printNotEqualTree : ASTNode :=
  .Block [.PrintStmt (.BinaryExpr "!=" (.Literal 1) (.Literal 2))]

/-- No `Block` of the tree, at any depth, holds a null statement. -/
def noNullStatement (t : ASTNode) : Prop :=
  ∀ l, ASTNode.Block l ∈ t.subnodes → ASTNode.nullptr ∉ l

/-- The tree of `{ while (0) print 1; x = 2; while (1 - 1) { } }`. -/
def deadLoopBlock : ASTNode :=
  .Block [.WhileStmt (.Literal 0) (.PrintStmt (.Literal 1)), .Assignment "x" (.Literal 2),
    .WhileStmt (.BinaryExpr "-" (.Literal 1) (.Literal 1)) (.Block [])]

/-- The AST of the source `x = 1 < 2;`. -/
def assignComparisonTree : ASTNode :=
  .Block [.Assignment "x" (.BinaryExpr "<" (.Literal 1) (.Literal 2))]

/-- The AST of the source `print (0 - 7) / 2;`. -/
def negativeDivisionTree : ASTNode :=
  .Block [.PrintStmt (.BinaryExpr "/" (.BinaryExpr "-" (.Literal 0) (.Literal 7)) (.Literal 2))]

/-- The quotient of two integers rounded toward zero: the quotient of the magnitudes,
negative when exactly one of the operands is negative. -/
def truncQuotient (a b : Int) : Int :=
  if decide (a < 0) = decide (b < 0) then ((a.natAbs / b.natAbs : Nat) : Int)
  else -((a.natAbs / b.natAbs : Nat) : Int)

/-- The AST of the source `x = 5; while (x) print x;`. -/
def integerLoopTree : ASTNode :=
  .Block [.Assignment "x" (.Literal 5), .WhileStmt (.Identifier "x") (.PrintStmt (.Identifier "x"))]

/-- The AST of the source `if (0) print 1 / 0;`. -/
def deadDivisionTree : ASTNode :=
  .Block [.IfStmt (.Literal 0) (.PrintStmt (.BinaryExpr "/" (.Literal 1) (.Literal 0))) .nullptr]

/-- The keywords and operators that the parser compares with the input through `match`. -/
def matchedWords : List String :=
  ["if", "while", "print", "else", "==", "!=", "<", ">", "<=", ">=", "+", "-", "*", "/"]

/-- Two results of a parsing function, on two inputs related by `R`, correspond: a
success corresponds to a success with the same value and related unread inputs; when
`strict` holds, an exception corresponds to the same exception and a timeout to a
timeout. -/
def PResult.Related {α : Type} (R : List Char → List Char → Prop) (strict : Bool)
    (r1 r2 : PResult α) : Prop :=
  match r1 with
  | .ok a t => ∃ t2, r2 = .ok a t2 ∧ R t t2
  | .error e => strict = true → r2 = .error e
  | .timeout => strict = true → r2 = .timeout

/-- The characters read by `peek` on two related inputs: the same character, or, when
`strict` does not hold, the end of input on one side and a closing brace on the other. -/
def charSim (strict : Bool) (c1 c2 : Char) : Prop :=
  c1 = c2 ∨ (c1 = '\x00' ∧ c2 = '}' ∧ strict = false)

/-- The relation `R` on inputs is respected by the reading primitives of the parser:
`skipWhitespace`, `peek`, `get` (where there is a character to read) and `match` on the
words of `matchedWords`. -/
structure Parser.Respects (R : List Char → List Char → Prop) (strict : Bool) : Prop where
  skip : ∀ s1 s2, R s1 s2 → R (Parser.skipWhitespace s1) (Parser.skipWhitespace s2)
  peekChar : ∀ s1 s2, R s1 s2 → charSim strict (Parser.peek s1).1 (Parser.peek s2).1
  getChar : ∀ s1 s2, R s1 s2 → (Parser.peek s1).1 ≠ '\x00' →
    (Parser.get s1).1 = (Parser.get s2).1 ∧ R (Parser.get s1).2 (Parser.get s2).2
  matchWord : ∀ kw ∈ matchedWords, ∀ s1 s2, R s1 s2 →
    (Parser.matchKw kw s1).1 = (Parser.matchKw kw s2).1 ∧
      R (Parser.matchKw kw s1).2 (Parser.matchKw kw s2).2

/-- The keywords that `parseStatement` and `parseIf` compare with the input through
`match`. -/
def keywordWords : List String := ["if", "while", "print", "else"]

/-- The operators that the expression methods compare with the input through `match`. -/
def operatorWords : List String := ["==", "!=", "<", ">", "<=", ">=", "+", "-", "*", "/"]

/-- The relation `R` on inputs is respected by the reading primitives that the expression
methods use: `skipWhitespace`, `peek`, `get` and `match` on the operators. -/
structure Parser.RespectsOps (R : List Char → List Char → Prop) (strict : Bool) : Prop where
  skip : ∀ s1 s2, R s1 s2 → R (Parser.skipWhitespace s1) (Parser.skipWhitespace s2)
  peekChar : ∀ s1 s2, R s1 s2 → charSim strict (Parser.peek s1).1 (Parser.peek s2).1
  getChar : ∀ s1 s2, R s1 s2 → (Parser.peek s1).1 ≠ '\x00' →
    (Parser.get s1).1 = (Parser.get s2).1 ∧ R (Parser.get s1).2 (Parser.get s2).2
  matchOp : ∀ kw ∈ operatorWords, ∀ s1 s2, R s1 s2 →
    (Parser.matchKw kw s1).1 = (Parser.matchKw kw s2).1 ∧
      R (Parser.matchKw kw s1).2 (Parser.matchKw kw s2).2

/-- The second input is the first one with white space inserted at one place: at the very
start, or further on where no comparison of the input with a word of `matchedWords`, made
at an earlier position, changes its outcome. -/
inductive WsInserted : List Char → List Char → Prop where
  | lead (ws s : List Char) : (∀ w ∈ ws, isspace w = true) → WsInserted s (ws ++ s)
  | cons (x : Char) {s1 s2 : List Char} : WsInserted s1 s2 →
      (∀ kw ∈ matchedWords, kw.data.isPrefixOf (x :: s1) = kw.data.isPrefixOf (x :: s2)) →
      WsInserted (x :: s1) (x :: s2)

/-- The second input is the first one followed by `ext`. -/
def Extended (ext : List Char) (s1 s2 : List Char) : Prop := s2 = s1 ++ ext

/-- The character `c`, at position `p.length` of the source `p ++ c :: r`, lies inside an
occurrence of a word of `matchedWords`, before the last character of that occurrence. -/
def insideWord (p : List Char) (c : Char) (r : List Char) : Bool :=
  matchedWords.any (fun kw =>
    (List.range (p.length + 1)).any (fun j =>
      decide (p.length + 1 < j + kw.data.length) && kw.data.isPrefixOf ((p ++ c :: r).drop j)))

/-- Two results of `Parser::parse` have the same outcome: the same tree, the same
exception, or a timeout on both sides. -/
def sameOutcome (r1 r2 : PResult ASTNode) : Prop :=
  (∀ tree, (∃ rest, r1 = .ok tree rest) ↔ (∃ rest, r2 = .ok tree rest)) ∧
  (∀ e, r1 = .error e ↔ r2 = .error e) ∧ (r1 = .timeout ↔ r2 = .timeout)

/-- The number of operands an instruction pops from the stack: one for `STORE`, `JZ` and
`PRINT`, two for `ADD`, `SUB`, `MUL`, `DIV`, `GT`, `LT`, `EQ`, none for the others. -/
def pops : OpCode → Nat
  | .STORE => 1
  | .JZ => 1
  | .PRINT => 1
  | .ADD => 2
  | .SUB => 2
  | .MUL => 2
  | .DIV => 2
  | .GT => 2
  | .LT => 2
  | .EQ => 2
  | _ => 0

/-- The number of values an instruction pushes on the stack. -/
def pushes : OpCode → Nat
  | .PUSH => 1
  | .LOAD => 1
  | .ADD => 1
  | .SUB => 1
  | .MUL => 1
  | .DIV => 1
  | .GT => 1
  | .LT => 1
  | .EQ => 1
  | _ => 0

/-- For each instruction of the code of an expression, the number of stack entries the
expression itself has pushed before it, counted from `b`. -/
def needExpr : ASTNode → Nat → List Nat
  | .Literal _, b => [b]
  | .Identifier _, b => [b]
  | .BinaryExpr op l r, b =>
    needExpr l b ++ needExpr r (b + 1) ++
      (match binaryOpCode op with
       | some _ => [b + 2]
       | none => [])
  | _, _ => []

mutual
/-- For each instruction of the code of a statement, a number of stack entries that are
surely present when the instruction executes: none at the start of a statement and at
every label, the operands pushed so far inside an expression. -/
def needStmt : ASTNode → List Nat
  | .Assignment _ v => needExpr v 0 ++ [1]
  | .PrintStmt e => needExpr e 0 ++ [1]
  | .IfStmt c t e => needExpr c 0 ++ 1 :: (needStmt t ++ 0 :: 0 :: (needStmt e ++ [0]))
  | .WhileStmt c b => 0 :: (needExpr c 0 ++ 1 :: (needStmt b ++ [0, 0]))
  | .Block stmts => needStmts stmts
  | .nullptr => []
  | .Literal v => needExpr (.Literal v) 0
  | .Identifier n => needExpr (.Identifier n) 0
  | .BinaryExpr op l r => needExpr (.BinaryExpr op l r) 0
/-- The numbers of `needStmt` for the statements of a block. -/
def needStmts : List ASTNode → List Nat
  | [] => []
  | s :: rest => needStmt s ++ needStmts rest
end

/-- The entry of `needs` at index `j`, zero past the end. -/
def needAt (needs : List Nat) (j : Nat) : Nat := (needs.get? j).getD 0

/-- The state has at least as many stack entries as `needs` asks for at its `ip`. -/
def StackOK (needs : List Nat) (st : VMState) : Prop := needAt needs st.ip ≤ st.stack.length

/-- The instruction `instr` at index `i`, for which `needs` promises `k` stack entries, pops
no more than `k` entries, and what it leaves is enough for every instruction that can
execute next: the following one (except after `JMP`) and the one after the target label
(for `JMP` and `JZ`). -/
def LocalOK (labels : Env Nat) (needs : List Nat) (i : Nat) (instr : IRInstr) (k : Nat) : Prop :=
  pops instr.op ≤ k ∧
  (instr.op ≠ .JMP → needAt needs (i + 1) + pops instr.op ≤ k + pushes instr.op) ∧
  ((instr.op = .JMP ∨ instr.op = .JZ) →
    needAt needs (IRVM.labelIndex labels instr.arg + 1) + pops instr.op ≤ k)

/-- Every instruction of the program between the indices `lo` and `hi` has an entry in
`needs` and satisfies `LocalOK` with it. -/
def SegOK (labels : Env Nat) (needs : List Nat) (prog : List IRInstr) (lo hi : Nat) : Prop :=
  ∀ i instr, lo ≤ i → i < hi → prog.get? i = some instr →
    ∃ k, needs.get? i = some k ∧ LocalOK labels needs i instr k

/-- The comparison of the input with `kw` that `match` makes at `inp` succeeds and is split
by the place `k` characters before the end of the input: after skipping white space the
input starts with `kw`, which begins before that place and ends after it. -/
def Parser.splitsWord (k : Nat) (kw : String) (inp : List Char) : Bool :=
  kw.data.isPrefixOf (Parser.skipWhitespace inp) &&
    (decide (k < (Parser.skipWhitespace inp).length) &&
      decide ((Parser.skipWhitespace inp).length < k + kw.data.length))

namespace Parser

/-- Whether a keyword comparison made while `parseIf ps fuel inp` runs is split by the place
`k` characters before the end: in the statements it calls `ps` on (`sp` answers for them)
or in its own `match("else")`. -/
def splitIf (k : Nat) (ps : List Char → PResult ASTNode) (sp : List Char → Bool)
    (fuel : Nat) (inp : List Char) : Bool :=
  match parseCondition fuel inp with
  | .ok _ rest =>
    sp rest ||
      (match ps rest with
       | .ok _ rest1 =>
         splitsWord k "else" rest1 ||
           (match matchKw "else" rest1 with
            | (true, rest2) => sp rest2
            | (false, _) => false)
       | _ => false)
  | _ => false

/-- Whether a keyword comparison made while `parseWhile ps fuel inp` runs is split: only the
body can make one. -/
def splitWhile (sp : List Char → Bool) (fuel : Nat) (inp : List Char) : Bool :=
  match parseCondition fuel inp with
  | .ok _ rest => sp rest
  | _ => false

/-- Whether a keyword comparison made while `parseStatements ps fuel stmts inp` runs is
split: in one of the statements the loop calls `ps` on. -/
def splitStatements (ps : List Char → PResult ASTNode) (sp : List Char → Bool) :
    Nat → List Char → Bool
  | 0, _ => false
  | n + 1, inp =>
    match peek inp with
    | (c, inp1) =>
      if c ≠ '\x00' && c ≠ '}' then
        sp inp1 ||
          (match ps inp1 with
           | .ok _ rest => splitStatements ps sp n rest
           | _ => false)
      else false

/-- Whether a keyword comparison made while `parseBlock ps fuel inp` runs is split. -/
def splitBlock (ps : List Char → PResult ASTNode) (sp : List Char → Bool) (fuel : Nat)
    (inp : List Char) : Bool :=
  match expect '{' inp with
  | .ok _ rest => splitStatements ps sp fuel rest
  | _ => false

/-- Whether a keyword comparison made while `parseStatement fuel inp` runs is split by the
place `k` characters before the end of the input: one of its own `match("if")`,
`match("while")`, `match("print")`, made in this order until one succeeds, or one made by
the method it then calls. The print, assignment and expression statements make none. -/
def splitStatement (k : Nat) : Nat → List Char → Bool
  | 0, _ => false
  | fuel + 1, inp =>
    splitsWord k "if" inp ||
      (match matchKw "if" inp with
       | (true, rest) => splitIf k (parseStatement fuel) (splitStatement k fuel) fuel rest
       | (false, rest) =>
         splitsWord k "while" rest ||
           (match matchKw "while" rest with
            | (true, rest1) => splitWhile (splitStatement k fuel) fuel rest1
            | (false, rest1) =>
              splitsWord k "print" rest1 ||
                (match matchKw "print" rest1 with
                 | (true, _) => false
                 | (false, rest2) =>
                   match peek rest2 with
                   | (c, save) =>
                     if c == '{' then
                       splitBlock (parseStatement fuel) (splitStatement k fuel) fuel save
                     else false)))

end Parser

/-- Whether a keyword comparison that `Parser::parse` makes on `input`, with `fuel`, is split
by the place `k` characters before the end of `input`. -/
def Parser.keywordSplit (k fuel : Nat) (input : String) : Bool :=
  Parser.splitStatements (Parser.parseStatement fuel) (Parser.splitStatement k fuel) fuel
    input.data

/-- The second input is the first one with white space inserted at the place `k`
characters before its end, or at its very start: no comparison with an operator, made at
an earlier position, changes its outcome, nor does a comparison with a keyword unless it
is split by that place. -/
inductive WsAt (k : Nat) : List Char → List Char → Prop where
  | lead (ws s : List Char) : (∀ w ∈ ws, isspace w = true) → WsAt k s (ws ++ s)
  | cons (x : Char) {s1 s2 : List Char} : WsAt k s1 s2 →
      (∀ kw ∈ operatorWords, kw.data.isPrefixOf (x :: s1) = kw.data.isPrefixOf (x :: s2)) →
      (∀ kw ∈ keywordWords, Parser.splitsWord k kw (x :: s1) = false →
        kw.data.isPrefixOf (x :: s1) = kw.data.isPrefixOf (x :: s2)) →
      WsAt k (x :: s1) (x :: s2)

/-! ## Theorems -/

theorem ASTNode.size_le_sizeList {s : ASTNode} {l : List ASTNode} (h : s ∈ l) :
    s.size ≤ ASTNode.sizeList l := by
  induction l with
  | nil => cases h
  | cons a rest ih =>
    simp only [ASTNode.sizeList]
    rcases List.mem_cons.mp h with h | h
    · subst h; omega
    · have := ih h; omega

/-- Structural induction on trees, with the statements of a block as a list. -/
theorem ASTNode.induct {P : ASTNode → Prop}
    (hnull : P .nullptr)
    (hlit : ∀ v, P (.Literal v))
    (hid : ∀ n, P (.Identifier n))
    (hbin : ∀ op l r, P l → P r → P (.BinaryExpr op l r))
    (hassign : ∀ n v, P v → P (.Assignment n v))
    (hif : ∀ c t e, P c → P t → P e → P (.IfStmt c t e))
    (hwhile : ∀ c b, P c → P b → P (.WhileStmt c b))
    (hblock : ∀ stmts, (∀ s ∈ stmts, P s) → P (.Block stmts))
    (hprint : ∀ e, P e → P (.PrintStmt e)) :
    ∀ t, P t := by
  have key : ∀ n t, t.size ≤ n → P t := by
    intro n
    induction n with
    | zero =>
      intro t ht
      cases t <;> simp [ASTNode.size] at ht
    | succ n ih =>
      intro t ht
      cases t with
      | nullptr => exact hnull
      | Literal v => exact hlit v
      | Identifier n => exact hid n
      | BinaryExpr op l r =>
        simp only [ASTNode.size] at ht
        exact hbin op l r (ih l (by omega)) (ih r (by omega))
      | Assignment n v =>
        simp only [ASTNode.size] at ht
        exact hassign n v (ih v (by omega))
      | IfStmt c t e =>
        simp only [ASTNode.size] at ht
        exact hif c t e (ih c (by omega)) (ih t (by omega)) (ih e (by omega))
      | WhileStmt c b =>
        simp only [ASTNode.size] at ht
        exact hwhile c b (ih c (by omega)) (ih b (by omega))
      | Block stmts =>
        simp only [ASTNode.size] at ht
        refine hblock stmts (fun s hs => ih s ?_)
        have := ASTNode.size_le_sizeList hs
        omega
      | PrintStmt e =>
        simp only [ASTNode.size] at ht
        exact hprint e (ih e (by omega))
  exact fun t => key t.size t (le_refl _)

theorem optimizeBinary_error {op : String} {left right : ASTNode} {e : Error}
    (h : optimizeBinary op left right = .error e) :
    op = "/" ∧
      ((e = foldDivError ∧ ∃ a, left = .Literal a ∧ right = .Literal 0) ∨
       (e = .division_overflow ∧ left = .Literal (-2147483648) ∧ right = .Literal (-1))) := by
  unfold optimizeBinary at h
  split at h
  · rename_i lval rval
    split_ifs at h with h1 h2 h3 h4 h5 h6
    · cases h
      exact ⟨h4, Or.inl ⟨rfl, lval, rfl, by rw [h5]⟩⟩
    · cases h
      exact ⟨h4, Or.inr ⟨rfl, by rw [h6.1], by rw [h6.2]⟩⟩
  · cases h

theorem optimizeStmts_error {ts : List ASTNode} {e : Error}
    (h : optimizeStmts ts = .error e) : ∃ s ∈ ts, optimizeAST s = .error e := by
  induction ts with
  | nil => simp [optimizeStmts] at h
  | cons a rest ih =>
    simp only [optimizeStmts] at h
    cases ha : optimizeAST a with
    | error e1 =>
      rw [ha] at h
      cases h
      exact ⟨a, List.mem_cons_self _ _, ha⟩
    | ok a1 =>
      rw [ha] at h
      cases hr : optimizeStmts rest with
      | error e1 =>
        rw [hr] at h
        cases h
        obtain ⟨s, hs, hse⟩ := ih hr
        exact ⟨s, List.mem_cons_of_mem _ hs, hse⟩
      | ok r1 => rw [hr] at h; cases h

theorem optimizeStmts_error_of_mem {ts : List ASTNode} {s : ASTNode} (hs : s ∈ ts)
    (h : ∃ e, optimizeAST s = .error e) : ∃ e, optimizeStmts ts = .error e := by
  induction ts with
  | nil => cases hs
  | cons a rest ih =>
    simp only [optimizeStmts]
    cases ha : optimizeAST a with
    | error e1 => exact ⟨e1, rfl⟩
    | ok a1 =>
      rcases List.mem_cons.mp hs with h1 | h1
      · subst h1
        obtain ⟨e, he⟩ := h
        rw [ha] at he
        cases he
      · obtain ⟨e, he⟩ := ih h1
        rw [he]
        exact ⟨e, rfl⟩

theorem mem_subnodesList {s : ASTNode} {ts : List ASTNode} :
    s ∈ ASTNode.subnodesList ts ↔ ∃ t ∈ ts, s ∈ t.subnodes := by
  induction ts with
  | nil => simp [ASTNode.subnodesList]
  | cons a rest ih => simp [ASTNode.subnodesList, ih]

theorem optimizeAST_error_subnode (t : ASTNode) :
    ∀ e, optimizeAST t = .error e → ∃ s ∈ t.subnodes, foldFault s e := by
  induction t using ASTNode.induct with
  | hnull => intro e h; simp [optimizeAST] at h
  | hlit v => intro e h; simp [optimizeAST] at h
  | hid n => intro e h; simp [optimizeAST] at h
  | hbin op l r ihl ihr =>
    intro e h
    simp only [optimizeAST] at h
    cases hl : optimizeAST l with
    | error e1 =>
      rw [hl] at h; cases h
      obtain ⟨s, hs, hd⟩ := ihl _ hl
      exact ⟨s, by simp [ASTNode.subnodes, hs], hd⟩
    | ok l1 =>
      rw [hl] at h
      cases hr : optimizeAST r with
      | error e1 =>
        rw [hr] at h; cases h
        obtain ⟨s, hs, hd⟩ := ihr _ hr
        exact ⟨s, by simp [ASTNode.subnodes, hs], hd⟩
      | ok r1 =>
        rw [hr] at h
        obtain ⟨hop, ⟨he, a, hl1, hr1⟩ | ⟨he, hl1, hr1⟩⟩ := optimizeBinary_error h
        · subst hop hl1 hr1
          exact ⟨_, by simp [ASTNode.subnodes], Or.inl ⟨⟨l, r, a, rfl, hl, hr⟩, he⟩⟩
        · subst hop hl1 hr1
          exact ⟨_, by simp [ASTNode.subnodes], Or.inr ⟨⟨l, r, rfl, hl, hr⟩, he⟩⟩
  | hassign n v ih =>
    intro e h
    simp only [optimizeAST] at h
    cases hv : optimizeAST v with
    | error e1 =>
      rw [hv] at h; cases h
      obtain ⟨s, hs, hd⟩ := ih _ hv
      exact ⟨s, by simp [ASTNode.subnodes, hs], hd⟩
    | ok v1 => rw [hv] at h; cases h
  | hif c t e ihc iht ihe =>
    intro err h
    simp only [optimizeAST] at h
    cases hc : optimizeAST c with
    | error e1 =>
      rw [hc] at h; cases h
      obtain ⟨s, hs, hd⟩ := ihc _ hc
      exact ⟨s, by simp [ASTNode.subnodes, hs], hd⟩
    | ok c1 =>
      rw [hc] at h
      cases ht : optimizeAST t with
      | error e1 =>
        rw [ht] at h; cases h
        obtain ⟨s, hs, hd⟩ := iht _ ht
        exact ⟨s, by simp [ASTNode.subnodes, hs], hd⟩
      | ok t1 =>
        rw [ht] at h
        cases hee : optimizeAST e with
        | error e1 =>
          rw [hee] at h; cases h
          obtain ⟨s, hs, hd⟩ := ihe _ hee
          exact ⟨s, by simp [ASTNode.subnodes, hs], hd⟩
        | ok e2 => rw [hee] at h; cases h
  | hwhile c b ihc ihb =>
    intro err h
    simp only [optimizeAST] at h
    cases hc : optimizeAST c with
    | error e1 =>
      rw [hc] at h; cases h
      obtain ⟨s, hs, hd⟩ := ihc _ hc
      exact ⟨s, by simp [ASTNode.subnodes, hs], hd⟩
    | ok c1 =>
      rw [hc] at h
      cases hb : optimizeAST b with
      | error e1 =>
        rw [hb] at h; cases h
        obtain ⟨s, hs, hd⟩ := ihb _ hb
        exact ⟨s, by simp [ASTNode.subnodes, hs], hd⟩
      | ok b1 => rw [hb] at h; cases h
  | hblock stmts ih =>
    intro err h
    simp only [optimizeAST] at h
    cases hs : optimizeStmts stmts with
    | error e1 =>
      rw [hs] at h; cases h
      obtain ⟨s, hmem, hse⟩ := optimizeStmts_error hs
      obtain ⟨x, hx, hd⟩ := ih s hmem _ hse
      refine ⟨x, ?_, hd⟩
      simp only [ASTNode.subnodes, List.mem_cons]
      exact Or.inr (mem_subnodesList.mpr ⟨s, hmem, hx⟩)
    | ok l1 => rw [hs] at h; cases h
  | hprint e ih =>
    intro err h
    simp only [optimizeAST] at h
    cases hv : optimizeAST e with
    | error e1 =>
      rw [hv] at h; cases h
      obtain ⟨s, hs, hd⟩ := ih _ hv
      exact ⟨s, by simp [ASTNode.subnodes, hs], hd⟩
    | ok v1 => rw [hv] at h; cases h

theorem optimizeAST_self_error {s : ASTNode} (h : divByLiteralZero s) :
    optimizeAST s = .error foldDivError := by
  obtain ⟨l, r, a, rfl, hl, hr⟩ := h
  simp [optimizeAST, hl, hr, optimizeBinary]

theorem optimizeAST_self_overflow {s : ASTNode} (h : divOverflow s) :
    optimizeAST s = .error .division_overflow := by
  obtain ⟨l, r, rfl, hl, hr⟩ := h
  simp [optimizeAST, hl, hr, optimizeBinary]

theorem optimizeAST_self_fault {s : ASTNode} {e : Error} (h : foldFault s e) :
    optimizeAST s = .error e := by
  rcases h with ⟨h, rfl⟩ | ⟨h, rfl⟩
  · exact optimizeAST_self_error h
  · exact optimizeAST_self_overflow h

theorem optimizeAST_subnode_error (t : ASTNode) :
    ∀ s ∈ t.subnodes, ∀ e0, foldFault s e0 → ∃ e, optimizeAST t = .error e := by
  induction t using ASTNode.induct with
  | hnull =>
    intro s hs e0 hd
    simp only [ASTNode.subnodes, List.mem_singleton] at hs
    subst hs
    exact ⟨_, optimizeAST_self_fault hd⟩
  | hlit v =>
    intro s hs e0 hd
    simp only [ASTNode.subnodes, List.mem_singleton] at hs
    subst hs
    exact ⟨_, optimizeAST_self_fault hd⟩
  | hid n =>
    intro s hs e0 hd
    simp only [ASTNode.subnodes, List.mem_singleton] at hs
    subst hs
    exact ⟨_, optimizeAST_self_fault hd⟩
  | hbin op l r ihl ihr =>
    intro s hs e0 hd
    simp only [ASTNode.subnodes, List.mem_cons, List.mem_append] at hs
    rcases hs with rfl | hs | hs
    · exact ⟨_, optimizeAST_self_fault hd⟩
    · obtain ⟨e, he⟩ := ihl s hs e0 hd
      exact ⟨e, by simp [optimizeAST, he]⟩
    · obtain ⟨e, he⟩ := ihr s hs e0 hd
      cases hl : optimizeAST l with
      | error e1 => exact ⟨e1, by simp [optimizeAST, hl]⟩
      | ok l1 => exact ⟨e, by simp [optimizeAST, hl, he]⟩
  | hassign n v ih =>
    intro s hs e0 hd
    simp only [ASTNode.subnodes, List.mem_cons] at hs
    rcases hs with rfl | hs
    · exact ⟨_, optimizeAST_self_fault hd⟩
    · obtain ⟨e, he⟩ := ih s hs e0 hd
      exact ⟨e, by simp [optimizeAST, he]⟩
  | hif c t e ihc iht ihe =>
    intro s hs e0 hd
    simp only [ASTNode.subnodes, List.mem_cons, List.mem_append] at hs
    rcases hs with rfl | (hs | hs) | hs
    · exact ⟨_, optimizeAST_self_fault hd⟩
    · obtain ⟨e1, he⟩ := ihc s hs e0 hd
      exact ⟨e1, by simp [optimizeAST, he]⟩
    · obtain ⟨e1, he⟩ := iht s hs e0 hd
      cases hc : optimizeAST c with
      | error e2 => exact ⟨e2, by simp [optimizeAST, hc]⟩
      | ok c1 => exact ⟨e1, by simp [optimizeAST, hc, he]⟩
    · obtain ⟨e1, he⟩ := ihe s hs e0 hd
      cases hc : optimizeAST c with
      | error e2 => exact ⟨e2, by simp [optimizeAST, hc]⟩
      | ok c1 =>
        cases ht : optimizeAST t with
        | error e2 => exact ⟨e2, by simp [optimizeAST, hc, ht]⟩
        | ok t1 => exact ⟨e1, by simp [optimizeAST, hc, ht, he]⟩
  | hwhile c b ihc ihb =>
    intro s hs e0 hd
    simp only [ASTNode.subnodes, List.mem_cons, List.mem_append] at hs
    rcases hs with rfl | hs | hs
    · exact ⟨_, optimizeAST_self_fault hd⟩
    · obtain ⟨e1, he⟩ := ihc s hs e0 hd
      exact ⟨e1, by simp [optimizeAST, he]⟩
    · obtain ⟨e1, he⟩ := ihb s hs e0 hd
      cases hc : optimizeAST c with
      | error e2 => exact ⟨e2, by simp [optimizeAST, hc]⟩
      | ok c1 => exact ⟨e1, by simp [optimizeAST, hc, he]⟩
  | hblock stmts ih =>
    intro s hs e0 hd
    simp only [ASTNode.subnodes, List.mem_cons] at hs
    rcases hs with rfl | hs
    · exact ⟨_, optimizeAST_self_fault hd⟩
    · obtain ⟨t, ht, hst⟩ := mem_subnodesList.mp hs
      obtain ⟨e, he⟩ := optimizeStmts_error_of_mem ht (ih t ht s hst e0 hd)
      exact ⟨e, by simp [optimizeAST, he]⟩
  | hprint e ih =>
    intro s hs e0 hd
    simp only [ASTNode.subnodes, List.mem_cons] at hs
    rcases hs with rfl | hs
    · exact ⟨_, optimizeAST_self_fault hd⟩
    · obtain ⟨e1, he⟩ := ih s hs e0 hd
      exact ⟨e1, by simp [optimizeAST, he]⟩

/-- C10: `optimizeAST` fails with the constant-folding divide-by-zero error whenever it
reaches a `BinaryExpr("/", l, r)` whose operands fold to literals with the right one zero,
and the AST of `print 4 / 0;` is such a tree. It also fails in one other case: at a `/`
whose operands fold to `-2147483648` and `-1` the native division faults. Exactly,
`optimizeAST` fails on a tree if and only if one of its nodes is of one of these two
kinds, and the failure is the thrown error or the fault. The AST of
`print (0 - 2147483647 - 1) / (0 - 1);` has no node of the first kind, and `optimizeAST`
fails on it. -/
theorem optimizeAST_fails_also_on_division_overflow :
    (∀ (op : String) (l r : ASTNode) (a : Int), op = "/" →
        optimizeAST l = .ok (.Literal a) → optimizeAST r = .ok (.Literal 0) →
        optimizeAST (.BinaryExpr op l r) = .error foldDivError) ∧
    (∀ t : ASTNode, (∃ e, optimizeAST t = .error e) ↔
        ∃ s ∈ t.subnodes, divByLiteralZero s ∨ divOverflow s) ∧
    (∀ (t : ASTNode) (e : Error), optimizeAST t = .error e →
        e = foldDivError ∨ e = .division_overflow) ∧
    (Parser.parse 10 "print 4 / 0;"
        = .ok (.Block [.PrintStmt (.BinaryExpr "/" (.Literal 4) (.Literal 0))]) [] ∧
      optimizeAST (.Block [.PrintStmt (.BinaryExpr "/" (.Literal 4) (.Literal 0))])
        = .error foldDivError) ∧
    (Parser.parse 20 "print (0 - 2147483647 - 1) / (0 - 1);" = .ok overflowDivisionTree [] ∧
      optimizeAST overflowDivisionTree = .error .division_overflow ∧
      ∀ s ∈ overflowDivisionTree.subnodes, ¬ divByLiteralZero s) := by
  refine ⟨?_, fun t => ⟨?_, ?_⟩, ?_, ⟨by rfl, by rfl⟩, by rfl, by rfl, ?_⟩
  · intro op l r a hop hl hr
    subst hop
    exact optimizeAST_self_error ⟨l, r, a, rfl, hl, hr⟩
  · rintro ⟨e, he⟩
    obtain ⟨s, hs, hf⟩ := optimizeAST_error_subnode t e he
    rcases hf with ⟨hd, _⟩ | ⟨hd, _⟩
    · exact ⟨s, hs, Or.inl hd⟩
    · exact ⟨s, hs, Or.inr hd⟩
  · rintro ⟨s, hs, hd | hd⟩
    · exact optimizeAST_subnode_error t s hs _ (Or.inl ⟨hd, rfl⟩)
    · exact optimizeAST_subnode_error t s hs _ (Or.inr ⟨hd, rfl⟩)
  · intro t e he
    obtain ⟨s, _, hf⟩ := optimizeAST_error_subnode t e he
    rcases hf with ⟨_, h⟩ | ⟨_, h⟩
    · exact Or.inl h
    · exact Or.inr h
  · rintro s hs ⟨l, r, a, rfl, hl, hr⟩
    simp [overflowDivisionTree, overflowDivisionExpr, ASTNode.subnodes,
      ASTNode.subnodesList] at hs
    obtain ⟨rfl, rfl⟩ := hs
    simp [optimizeAST, optimizeBinary] at hr
    revert hr
    decide

theorem optimizeBinary_ok_cases {op : String} {l1 r1 t : ASTNode}
    (h : optimizeBinary op l1 r1 = .ok t) : (∃ v, t = .Literal v) ∨ t = .BinaryExpr op l1 r1 := by
  unfold optimizeBinary at h
  split at h
  · split_ifs at h <;> cases h <;> simp
  · cases h; exact Or.inr rfl

theorem optimizeIf_cases (c1 t1 e1 : ASTNode) :
    optimizeIf c1 t1 e1 = t1 ∨ optimizeIf c1 t1 e1 = e1 ∨
      ((∀ v, c1 ≠ .Literal v) ∧ optimizeIf c1 t1 e1 = .IfStmt c1 t1 e1) := by
  unfold optimizeIf
  split
  · split_ifs <;> simp
  · rename_i h
    exact Or.inr (Or.inr ⟨fun v hv => h v hv, rfl⟩)

theorem optimizeWhile_cases (c1 b1 : ASTNode) :
    optimizeWhile c1 b1 = .nullptr ∨ optimizeWhile c1 b1 = .WhileStmt c1 b1 := by
  unfold optimizeWhile
  split
  · split_ifs <;> simp
  · exact Or.inr rfl

theorem optimizeStmts_idem {stmts : List ASTNode}
    (ih : ∀ s ∈ stmts, ∀ s1, optimizeAST s = .ok s1 → optimizeAST s1 = .ok s1) :
    ∀ l, optimizeStmts stmts = .ok l → optimizeStmts l = .ok l := by
  induction stmts with
  | nil =>
    intro l h
    simp only [optimizeStmts] at h
    cases h
    rfl
  | cons a rest ihr =>
    intro l h
    simp only [optimizeStmts] at h
    cases ha : optimizeAST a with
    | error e => rw [ha] at h; cases h
    | ok a1 =>
      rw [ha] at h
      cases hr : optimizeStmts rest with
      | error e => rw [hr] at h; cases h
      | ok l1 =>
        rw [hr] at h
        cases h
        have h1 := ih a (List.mem_cons_self _ _) a1 ha
        have h2 := ihr (fun s hs => ih s (List.mem_cons_of_mem _ hs)) l1 hr
        cases a1 <;> simp only [pushNonNull] <;> first
          | exact h2
          | (simp only [optimizeStmts, h1, h2, pushNonNull])

theorem optimizeAST_idem (t : ASTNode) :
    ∀ t1, optimizeAST t = .ok t1 → optimizeAST t1 = .ok t1 := by
  induction t using ASTNode.induct with
  | hnull => intro t1 h; simp only [optimizeAST] at h; cases h; simp [optimizeAST]
  | hlit v => intro t1 h; simp only [optimizeAST] at h; cases h; simp [optimizeAST]
  | hid n => intro t1 h; simp only [optimizeAST] at h; cases h; simp [optimizeAST]
  | hbin op l r ihl ihr =>
    intro t1 h
    simp only [optimizeAST] at h
    cases hl : optimizeAST l with
    | error e => rw [hl] at h; cases h
    | ok l1 =>
      rw [hl] at h
      cases hr : optimizeAST r with
      | error e => rw [hr] at h; cases h
      | ok r1 =>
        rw [hr] at h
        rcases optimizeBinary_ok_cases h with ⟨v, rfl⟩ | rfl
        · simp [optimizeAST]
        · simp only [optimizeAST, ihl l1 hl, ihr r1 hr]
          exact h
  | hassign n v ih =>
    intro t1 h
    simp only [optimizeAST] at h
    cases hv : optimizeAST v with
    | error e => rw [hv] at h; cases h
    | ok v1 =>
      rw [hv] at h; cases h
      simp only [optimizeAST, ih v1 hv]
  | hif c t e ihc iht ihe =>
    intro t1 h
    simp only [optimizeAST] at h
    cases hc : optimizeAST c with
    | error e1 => rw [hc] at h; cases h
    | ok c1 =>
      rw [hc] at h
      cases ht : optimizeAST t with
      | error e1 => rw [ht] at h; cases h
      | ok t2 =>
        rw [ht] at h
        cases he : optimizeAST e with
        | error e1 => rw [he] at h; cases h
        | ok e2 =>
          rw [he] at h
          cases h
          rcases optimizeIf_cases c1 t2 e2 with h1 | h1 | ⟨_, h1⟩
          · rw [h1]; exact iht t2 ht
          · rw [h1]; exact ihe e2 he
          · rw [h1]
            simp only [optimizeAST, ihc c1 hc, iht t2 ht, ihe e2 he, h1]
  | hwhile c b ihc ihb =>
    intro t1 h
    simp only [optimizeAST] at h
    cases hc : optimizeAST c with
    | error e1 => rw [hc] at h; cases h
    | ok c1 =>
      rw [hc] at h
      cases hb : optimizeAST b with
      | error e1 => rw [hb] at h; cases h
      | ok b1 =>
        rw [hb] at h
        cases h
        rcases optimizeWhile_cases c1 b1 with h1 | h1
        · rw [h1]; simp [optimizeAST]
        · rw [h1]
          simp only [optimizeAST, ihc c1 hc, ihb b1 hb, h1]
  | hblock stmts ih =>
    intro t1 h
    simp only [optimizeAST] at h
    cases hs : optimizeStmts stmts with
    | error e1 => rw [hs] at h; cases h
    | ok l =>
      rw [hs] at h
      cases h
      simp only [optimizeAST, optimizeStmts_idem ih l hs]
  | hprint e ih =>
    intro t1 h
    simp only [optimizeAST] at h
    cases hv : optimizeAST e with
    | error e1 => rw [hv] at h; cases h
    | ok v1 =>
      rw [hv] at h; cases h
      simp only [optimizeAST, ih v1 hv]

/-- C3: `optimizeAST` is idempotent: when it succeeds on a tree `t` with result `t1`, it
succeeds on `t1` and returns `t1` itself. -/
theorem optimizeAST_idempotent (t t1 : ASTNode) (h : optimizeAST t = .ok t1) :
    optimizeAST t1 = .ok t1 :=
  optimizeAST_idem t t1 h

theorem optimizeAST_idempotent_witness :
    optimizeAST idempotenceSample = .ok (.Block [.Assignment "x" (.Literal 7)]) ∧
    optimizeAST (.Block [.Assignment "x" (.Literal 7)])
      = .ok (.Block [.Assignment "x" (.Literal 7)]) :=
  ⟨by rfl, optimizeAST_idempotent idempotenceSample _ (by rfl)⟩

/-! ## The loop-accumulation scenario -/

/-- C4: the source `i = 0; s = 0; while (i < 5) { s = s + i; i = i + 1; } print s;` parses
to `loopTree`; interpreting that tree from a fresh interpreter ends normally having printed
exactly `10`, and running its compiled form on the VM ends normally having printed exactly
`10`. -/
theorem loop_accumulation_prints_ten :
    Parser.parse 100 loopSource = .ok loopTree [] ∧
    Interpreter.eval 10 loopTree Interpreter.init
      = .ok (.int 10) { vars := [("i", .int 5), ("s", .int 10)], out := [10] } ∧
    IRVM.run 100 (compileProgram loopTree)
      = .done { ip := 21, stack := [], vars := [("i", 5), ("s", 10)], out := [10] } := by
  refine ⟨by rfl, by decide, by decide⟩

/-! ## The parser: more fuel never changes a result -/

namespace Parser

theorem identLoop_mono (n m : Nat) (h : n ≤ m) :
    ∀ name inp, (identLoop n name inp).le (identLoop m name inp) := by
  induction n generalizing m with
  | zero => intro name inp; exact Or.inl rfl
  | succ n ih =>
    intro name inp
    obtain ⟨m, rfl⟩ : ∃ k, m = k + 1 := ⟨m - 1, by omega⟩
    simp only [identLoop]
    split_ifs
    · exact ih m (by omega) _ _
    · exact Or.inr rfl

theorem digitsLoop_mono (n m : Nat) (h : n ≤ m) :
    ∀ val inp, (digitsLoop n val inp).le (digitsLoop m val inp) := by
  induction n generalizing m with
  | zero => intro val inp; exact Or.inl rfl
  | succ n ih =>
    intro val inp
    obtain ⟨m, rfl⟩ : ∃ k, m = k + 1 := ⟨m - 1, by omega⟩
    simp only [digitsLoop]
    split_ifs
    · exact ih m (by omega) _ _
    · exact Or.inr rfl

theorem parseIdentifier_mono (n m : Nat) (h : n ≤ m) (inp : List Char) :
    (parseIdentifier n inp).le (parseIdentifier m inp) := by
  simp only [parseIdentifier]
  split_ifs
  · exact identLoop_mono n m h _ _
  · exact Or.inr rfl

theorem parseFactor_mono {pe pe1 : List Char → PResult ASTNode}
    (hpe : ∀ i, (pe i).le (pe1 i)) (n m : Nat) (h : n ≤ m) (inp : List Char) :
    (parseFactor pe n inp).le (parseFactor pe1 m inp) := by
  simp only [parseFactor]
  split_ifs
  · rcases digitsLoop_mono n m h 0 (peek inp).2 with h1 | h1
    · rw [h1]; exact Or.inl rfl
    · rw [h1]; exact Or.inr rfl
  · rcases hpe (get (peek inp).2).2 with h1 | h1
    · rw [h1]; exact Or.inl rfl
    · rw [h1]; exact Or.inr rfl
  · rcases parseIdentifier_mono n m h (peek inp).2 with h1 | h1
    · rw [h1]; exact Or.inl rfl
    · rw [h1]; exact Or.inr rfl
  · exact Or.inr rfl

theorem binaryLoop_mono (ops : List String) {operand operand1 : List Char → PResult ASTNode}
    (hop : ∀ i, (operand i).le (operand1 i)) (n m : Nat) (h : n ≤ m) :
    ∀ node inp, (binaryLoop ops operand n node inp).le (binaryLoop ops operand1 m node inp) := by
  induction n generalizing m with
  | zero => intro node inp; exact Or.inl rfl
  | succ n ih =>
    intro node inp
    obtain ⟨m, rfl⟩ : ∃ k, m = k + 1 := ⟨m - 1, by omega⟩
    simp only [binaryLoop]
    rcases hm : matchFirst ops inp with ⟨_ | op, rest⟩
    · exact Or.inr rfl
    · simp only
      rcases hop rest with h1 | h1
      · rw [h1]; exact Or.inl rfl
      · rw [← h1]
        cases operand rest with
        | ok rhs rest1 => exact ih m (by omega) _ _
        | error e => exact Or.inr rfl
        | timeout => exact Or.inl rfl

theorem parseTerm_mono {pe pe1 : List Char → PResult ASTNode}
    (hpe : ∀ i, (pe i).le (pe1 i)) (n m : Nat) (h : n ≤ m) (inp : List Char) :
    (parseTerm pe n inp).le (parseTerm pe1 m inp) := by
  simp only [parseTerm]
  rcases parseFactor_mono hpe n m h inp with h1 | h1
  · rw [h1]; exact Or.inl rfl
  · rw [← h1]
    cases parseFactor pe n inp with
    | ok node rest => exact binaryLoop_mono _ (parseFactor_mono hpe n m h) n m h _ _
    | error e => exact Or.inr rfl
    | timeout => exact Or.inl rfl

theorem parseAdditive_mono {pe pe1 : List Char → PResult ASTNode}
    (hpe : ∀ i, (pe i).le (pe1 i)) (n m : Nat) (h : n ≤ m) (inp : List Char) :
    (parseAdditive pe n inp).le (parseAdditive pe1 m inp) := by
  simp only [parseAdditive]
  rcases parseTerm_mono hpe n m h inp with h1 | h1
  · rw [h1]; exact Or.inl rfl
  · rw [← h1]
    cases parseTerm pe n inp with
    | ok node rest => exact binaryLoop_mono _ (parseTerm_mono hpe n m h) n m h _ _
    | error e => exact Or.inr rfl
    | timeout => exact Or.inl rfl

theorem parseRelational_mono {pe pe1 : List Char → PResult ASTNode}
    (hpe : ∀ i, (pe i).le (pe1 i)) (n m : Nat) (h : n ≤ m) (inp : List Char) :
    (parseRelational pe n inp).le (parseRelational pe1 m inp) := by
  simp only [parseRelational]
  rcases parseAdditive_mono hpe n m h inp with h1 | h1
  · rw [h1]; exact Or.inl rfl
  · rw [← h1]
    cases parseAdditive pe n inp with
    | ok node rest => exact binaryLoop_mono _ (parseAdditive_mono hpe n m h) n m h _ _
    | error e => exact Or.inr rfl
    | timeout => exact Or.inl rfl

theorem parseEquality_mono {pe pe1 : List Char → PResult ASTNode}
    (hpe : ∀ i, (pe i).le (pe1 i)) (n m : Nat) (h : n ≤ m) (inp : List Char) :
    (parseEquality pe n inp).le (parseEquality pe1 m inp) := by
  simp only [parseEquality]
  rcases parseRelational_mono hpe n m h inp with h1 | h1
  · rw [h1]; exact Or.inl rfl
  · rw [← h1]
    cases parseRelational pe n inp with
    | ok node rest => exact binaryLoop_mono _ (parseRelational_mono hpe n m h) n m h _ _
    | error e => exact Or.inr rfl
    | timeout => exact Or.inl rfl

theorem parseExpression_mono (n m : Nat) (h : n ≤ m) :
    ∀ inp, (parseExpression n inp).le (parseExpression m inp) := by
  induction n generalizing m with
  | zero => intro inp; exact Or.inl rfl
  | succ n ih =>
    intro inp
    obtain ⟨m, rfl⟩ : ∃ k, m = k + 1 := ⟨m - 1, by omega⟩
    simp only [parseExpression]
    exact parseEquality_mono (ih m (by omega)) n m (by omega) inp

theorem exprThenSemicolon_mono (n m : Nat) (h : n ≤ m) (wrap : ASTNode → ASTNode)
    (inp : List Char) :
    (exprThenSemicolon n wrap inp).le (exprThenSemicolon m wrap inp) := by
  simp only [exprThenSemicolon]
  rcases parseExpression_mono n m h inp with h1 | h1
  · rw [h1]; exact Or.inl rfl
  · rw [← h1]; exact Or.inr rfl

theorem parseAssignment_mono (n m : Nat) (h : n ≤ m) (inp : List Char) :
    (parseAssignment n inp).le (parseAssignment m inp) := by
  simp only [parseAssignment]
  rcases parseIdentifier_mono n m h inp with h1 | h1
  · rw [h1]; exact Or.inl rfl
  · rw [← h1]
    cases parseIdentifier n inp with
    | ok name rest =>
      simp only
      cases expect '=' rest with
      | ok u rest1 => exact exprThenSemicolon_mono n m h _ _
      | error e => exact Or.inr rfl
      | timeout => exact Or.inl rfl
    | error e => exact Or.inr rfl
    | timeout => exact Or.inl rfl

theorem parseCondition_mono (n m : Nat) (h : n ≤ m) (inp : List Char) :
    (parseCondition n inp).le (parseCondition m inp) := by
  simp only [parseCondition]
  cases expect '(' inp with
  | ok u rest =>
    simp only
    rcases parseExpression_mono n m h rest with h1 | h1
    · rw [h1]; exact Or.inl rfl
    · rw [← h1]; exact Or.inr rfl
  | error e => exact Or.inr rfl
  | timeout => exact Or.inl rfl

theorem parseIf_mono {ps ps1 : List Char → PResult ASTNode}
    (hps : ∀ i, (ps i).le (ps1 i)) (n m : Nat) (h : n ≤ m) (inp : List Char) :
    (parseIf ps n inp).le (parseIf ps1 m inp) := by
  simp only [parseIf]
  rcases parseCondition_mono n m h inp with h1 | h1
  · rw [h1]; exact Or.inl rfl
  · rw [← h1]
    cases parseCondition n inp with
    | ok cond rest =>
      simp only
      rcases hps rest with h2 | h2
      · rw [h2]; exact Or.inl rfl
      · rw [← h2]
        cases ps rest with
        | ok thenB rest1 =>
          simp only
          rcases matchKw "else" rest1 with ⟨_ | _, rest2⟩
          · exact Or.inr rfl
          · simp only
            rcases hps rest2 with h3 | h3
            · rw [h3]; exact Or.inl rfl
            · rw [← h3]; exact Or.inr rfl
        | error e => exact Or.inr rfl
        | timeout => exact Or.inl rfl
    | error e => exact Or.inr rfl
    | timeout => exact Or.inl rfl

theorem parseWhile_mono {ps ps1 : List Char → PResult ASTNode}
    (hps : ∀ i, (ps i).le (ps1 i)) (n m : Nat) (h : n ≤ m) (inp : List Char) :
    (parseWhile ps n inp).le (parseWhile ps1 m inp) := by
  simp only [parseWhile]
  rcases parseCondition_mono n m h inp with h1 | h1
  · rw [h1]; exact Or.inl rfl
  · rw [← h1]
    cases parseCondition n inp with
    | ok cond rest =>
      simp only
      rcases hps rest with h2 | h2
      · rw [h2]; exact Or.inl rfl
      · rw [← h2]; exact Or.inr rfl
    | error e => exact Or.inr rfl
    | timeout => exact Or.inl rfl

theorem parseStatements_mono {ps ps1 : List Char → PResult ASTNode}
    (hps : ∀ i, (ps i).le (ps1 i)) (n m : Nat) (h : n ≤ m) :
    ∀ stmts inp, (parseStatements ps n stmts inp).le (parseStatements ps1 m stmts inp) := by
  induction n generalizing m with
  | zero => intro stmts inp; exact Or.inl rfl
  | succ n ih =>
    intro stmts inp
    obtain ⟨m, rfl⟩ : ∃ k, m = k + 1 := ⟨m - 1, by omega⟩
    simp only [parseStatements]
    split_ifs
    · rcases hps (peek inp).2 with h1 | h1
      · rw [h1]; exact Or.inl rfl
      · rw [← h1]
        cases ps (peek inp).2 with
        | ok stmt rest => exact ih m (by omega) _ _
        | error e => exact Or.inr rfl
        | timeout => exact Or.inl rfl
    · exact Or.inr rfl

theorem parseBlock_mono {ps ps1 : List Char → PResult ASTNode}
    (hps : ∀ i, (ps i).le (ps1 i)) (n m : Nat) (h : n ≤ m) (inp : List Char) :
    (parseBlock ps n inp).le (parseBlock ps1 m inp) := by
  simp only [parseBlock]
  cases expect '{' inp with
  | ok u rest =>
    simp only
    rcases parseStatements_mono hps n m h [] rest with h1 | h1
    · rw [h1]; exact Or.inl rfl
    · rw [← h1]; exact Or.inr rfl
  | error e => exact Or.inr rfl
  | timeout => exact Or.inl rfl

theorem parseStatement_mono (n m : Nat) (h : n ≤ m) :
    ∀ inp, (parseStatement n inp).le (parseStatement m inp) := by
  induction n generalizing m with
  | zero => intro inp; exact Or.inl rfl
  | succ n ih =>
    intro inp
    obtain ⟨m, rfl⟩ : ∃ k, m = k + 1 := ⟨m - 1, by omega⟩
    have hnm : n ≤ m := by omega
    simp only [parseStatement]
    rcases matchKw "if" inp with ⟨_ | _, rest⟩
    · simp only
      rcases matchKw "while" rest with ⟨_ | _, rest1⟩
      · simp only
        rcases matchKw "print" rest1 with ⟨_ | _, rest2⟩
        · simp only
          split_ifs
          · exact parseBlock_mono (ih m hnm) n m hnm _
          · rcases parseIdentifier_mono n m hnm (peek rest2).2 with h1 | h1
            · rw [h1]; exact Or.inl rfl
            · rw [← h1]
              cases parseIdentifier n (peek rest2).2 with
              | ok name rest3 =>
                simp only
                split_ifs
                · exact parseAssignment_mono n m hnm _
                · exact exprThenSemicolon_mono n m hnm _ _
              | error e => exact Or.inr rfl
              | timeout => exact Or.inl rfl
          · exact exprThenSemicolon_mono n m hnm _ _
        · exact exprThenSemicolon_mono n m hnm _ _
      · exact parseWhile_mono (ih m hnm) n m hnm _
    · exact parseIf_mono (ih m hnm) n m hnm _

end Parser

/-- More fuel never changes the result of `Parser::parse`. -/
theorem Parser.parse_mono (n m : Nat) (h : n ≤ m) (input : String) :
    (Parser.parse n input).le (Parser.parse m input) := by
  simp only [Parser.parse]
  rcases Parser.parseStatements_mono (Parser.parseStatement_mono n m h) n m h [] input.data
    with h1 | h1
  · rw [h1]; exact Or.inl rfl
  · rw [← h1]; exact Or.inr rfl

/-! ## The parser: shape of the trees it builds -/

theorem wrap32_inInt32 (x : Int) : inInt32 (wrap32 x) := by
  unfold inInt32 wrap32
  omega

theorem ASTNode.isStmt_of_isExpr {e : ASTNode} (h : e.isExpr = true) : e.isStmt = true := by
  cases e <;> simp_all [ASTNode.isExpr, ASTNode.isStmt]

theorem ASTNode.isStmtList_append {l1 l2 : List ASTNode} :
    ASTNode.isStmtList (l1 ++ l2) = (ASTNode.isStmtList l1 && ASTNode.isStmtList l2) := by
  induction l1 with
  | nil => simp [ASTNode.isStmtList]
  | cons a rest ih => simp [ASTNode.isStmtList, ih, Bool.and_assoc]

theorem ASTNode.isStmtList_iff {l : List ASTNode} :
    ASTNode.isStmtList l = true ↔ ∀ s ∈ l, s.isStmt = true := by
  induction l with
  | nil => simp [ASTNode.isStmtList]
  | cons a rest ih => simp [ASTNode.isStmtList, ih]

namespace Parser

theorem digitsLoop_inInt32 (n : Nat) :
    ∀ val inp v rest, inInt32 val → digitsLoop n val inp = .ok v rest → inInt32 v := by
  induction n with
  | zero => intro val inp v rest _ h; simp [digitsLoop] at h
  | succ n ih =>
    intro val inp v rest hval h
    simp only [digitsLoop] at h
    split_ifs at h
    · exact ih _ _ _ _ (wrap32_inInt32 _) h
    · cases h; exact hval

theorem parseFactor_isExpr {pe : List Char → PResult ASTNode}
    (hpe : ∀ i A r, pe i = .ok A r → A.isExpr = true) (n : Nat) (inp : List Char)
    (A : ASTNode) (r : List Char) (h : parseFactor pe n inp = .ok A r) : A.isExpr = true := by
  simp only [parseFactor] at h
  split_ifs at h
  · cases hd : digitsLoop n 0 (peek inp).2 with
    | ok v rest =>
      rw [hd] at h
      cases h
      have := digitsLoop_inInt32 n 0 _ _ _ (by unfold inInt32; omega) hd
      simp [ASTNode.isExpr, this]
    | error e => rw [hd] at h; cases h
    | timeout => rw [hd] at h; cases h
  · cases hp : pe (get (peek inp).2).2 with
    | ok node rest =>
      rw [hp] at h
      simp only at h
      cases he : expect ')' rest with
      | ok u rest1 =>
        rw [he] at h
        cases h
        exact hpe _ _ _ hp
      | error e => rw [he] at h; cases h
      | timeout => rw [he] at h; cases h
    | error e => rw [hp] at h; cases h
    | timeout => rw [hp] at h; cases h
  · cases hi : parseIdentifier n (peek inp).2 with
    | ok name rest => rw [hi] at h; cases h; rfl
    | error e => rw [hi] at h; cases h
    | timeout => rw [hi] at h; cases h

theorem matchFirst_mem (ops : List String) :
    ∀ inp op r, matchFirst ops inp = (some op, r) → op ∈ ops := by
  induction ops with
  | nil => intro inp op r h; simp [matchFirst] at h
  | cons kw kws ih =>
    intro inp op r h
    simp only [matchFirst] at h
    rcases hm : matchKw kw inp with ⟨_ | _, rest⟩
    · rw [hm] at h
      exact List.mem_cons_of_mem _ (ih _ _ _ h)
    · rw [hm] at h
      simp only [Prod.mk.injEq, Option.some.injEq] at h
      rw [← h.1]
      exact List.mem_cons_self _ _

theorem matchKw_skip (kw : String) (inp : List Char) :
    (matchKw kw inp).1 = false → (matchKw kw inp).2 = skipWhitespace inp := by
  unfold matchKw
  simp only
  split_ifs <;> simp

theorem skipWhitespace_idem (inp : List Char) :
    skipWhitespace (skipWhitespace inp) = skipWhitespace inp := by
  unfold skipWhitespace
  induction inp with
  | nil => rfl
  | cons c rest ih =>
    by_cases hc : isspace c = true
    · simp [List.dropWhile, hc, ih]
    · simp [List.dropWhile, hc]

theorem matchFirst_relational (inp : List Char) (op : String) (r : List Char)
    (h : matchFirst ["<", ">", "<=", ">="] inp = (some op, r)) : op = "<" ∨ op = ">" := by
  simp only [matchFirst, matchKw] at h
  generalize hs : skipWhitespace inp = s at h
  have hs2 : skipWhitespace s = s := by rw [← hs, skipWhitespace_idem]
  cases s with
  | nil => simp [hs2, List.isPrefixOf] at h
  | cons c cs =>
    by_cases hc1 : c = '<'
    · subst hc1
      simp [List.isPrefixOf] at h
      exact Or.inl h.1.symm
    · by_cases hc2 : c = '>'
      · subst hc2
        simp [List.isPrefixOf, hs2] at h
        exact Or.inr h.1.symm
      · simp [List.isPrefixOf, hs2, hc1, hc2, Ne.symm hc1, Ne.symm hc2] at h

theorem binaryLoop_isExpr (ops : List String) {operand : List Char → PResult ASTNode}
    (hops : ∀ inp op r, matchFirst ops inp = (some op, r) → op ∈ parsedOps)
    (hop : ∀ i A r, operand i = .ok A r → A.isExpr = true) (n : Nat) :
    ∀ node inp A r, node.isExpr = true → binaryLoop ops operand n node inp = .ok A r →
      A.isExpr = true := by
  induction n with
  | zero => intro node inp A r _ h; simp [binaryLoop] at h
  | succ n ih =>
    intro node inp A r hnode h
    simp only [binaryLoop] at h
    rcases hm : matchFirst ops inp with ⟨_ | op, rest⟩
    · rw [hm] at h
      cases h
      exact hnode
    · rw [hm] at h
      simp only at h
      cases ho : operand rest with
      | ok rhs rest1 =>
        rw [ho] at h
        refine ih _ _ _ _ ?_ h
        simp [ASTNode.isExpr, hops _ _ _ hm, hnode, hop _ _ _ ho]
      | error e => rw [ho] at h; cases h
      | timeout => rw [ho] at h; cases h

theorem parseTerm_isExpr {pe : List Char → PResult ASTNode}
    (hpe : ∀ i A r, pe i = .ok A r → A.isExpr = true) (n : Nat) (inp : List Char)
    (A : ASTNode) (r : List Char) (h : parseTerm pe n inp = .ok A r) : A.isExpr = true := by
  simp only [parseTerm] at h
  cases hf : parseFactor pe n inp with
  | ok node rest =>
    rw [hf] at h
    refine binaryLoop_isExpr _ ?_ (parseFactor_isExpr hpe n) n _ _ _ _
      (parseFactor_isExpr hpe n _ _ _ hf) h
    intro i op r1 hm
    have := matchFirst_mem _ _ _ _ hm
    simp only [List.mem_cons, List.mem_singleton, List.not_mem_nil, or_false] at this
    rcases this with rfl | rfl <;> decide
  | error e => rw [hf] at h; cases h
  | timeout => rw [hf] at h; cases h

theorem parseAdditive_isExpr {pe : List Char → PResult ASTNode}
    (hpe : ∀ i A r, pe i = .ok A r → A.isExpr = true) (n : Nat) (inp : List Char)
    (A : ASTNode) (r : List Char) (h : parseAdditive pe n inp = .ok A r) : A.isExpr = true := by
  simp only [parseAdditive] at h
  cases hf : parseTerm pe n inp with
  | ok node rest =>
    rw [hf] at h
    refine binaryLoop_isExpr _ ?_ (parseTerm_isExpr hpe n) n _ _ _ _
      (parseTerm_isExpr hpe n _ _ _ hf) h
    intro i op r1 hm
    have := matchFirst_mem _ _ _ _ hm
    simp only [List.mem_cons, List.mem_singleton, List.not_mem_nil, or_false] at this
    rcases this with rfl | rfl <;> decide
  | error e => rw [hf] at h; cases h
  | timeout => rw [hf] at h; cases h

theorem parseRelational_isExpr {pe : List Char → PResult ASTNode}
    (hpe : ∀ i A r, pe i = .ok A r → A.isExpr = true) (n : Nat) (inp : List Char)
    (A : ASTNode) (r : List Char) (h : parseRelational pe n inp = .ok A r) :
    A.isExpr = true := by
  simp only [parseRelational] at h
  cases hf : parseAdditive pe n inp with
  | ok node rest =>
    rw [hf] at h
    refine binaryLoop_isExpr _ ?_ (parseAdditive_isExpr hpe n) n _ _ _ _
      (parseAdditive_isExpr hpe n _ _ _ hf) h
    intro i op r1 hm
    rcases matchFirst_relational _ _ _ hm with rfl | rfl <;> decide
  | error e => rw [hf] at h; cases h
  | timeout => rw [hf] at h; cases h

theorem parseEquality_isExpr {pe : List Char → PResult ASTNode}
    (hpe : ∀ i A r, pe i = .ok A r → A.isExpr = true) (n : Nat) (inp : List Char)
    (A : ASTNode) (r : List Char) (h : parseEquality pe n inp = .ok A r) : A.isExpr = true := by
  simp only [parseEquality] at h
  cases hf : parseRelational pe n inp with
  | ok node rest =>
    rw [hf] at h
    refine binaryLoop_isExpr _ ?_ (parseRelational_isExpr hpe n) n _ _ _ _
      (parseRelational_isExpr hpe n _ _ _ hf) h
    intro i op r1 hm
    have := matchFirst_mem _ _ _ _ hm
    simp only [List.mem_cons, List.mem_singleton, List.not_mem_nil, or_false] at this
    rcases this with rfl | rfl <;> decide
  | error e => rw [hf] at h; cases h
  | timeout => rw [hf] at h; cases h

theorem parseExpression_isExpr (n : Nat) :
    ∀ inp A r, parseExpression n inp = .ok A r → A.isExpr = true := by
  induction n with
  | zero => intro inp A r h; simp [parseExpression] at h
  | succ n ih =>
    intro inp A r h
    simp only [parseExpression] at h
    exact parseEquality_isExpr ih n inp A r h

theorem exprThenSemicolon_ok {n : Nat} {wrap : ASTNode → ASTNode} {inp : List Char}
    {A : ASTNode} {r : List Char} (h : exprThenSemicolon n wrap inp = .ok A r) :
    ∃ e, e.isExpr = true ∧ A = wrap e := by
  simp only [exprThenSemicolon] at h
  cases he : parseExpression n inp with
  | ok expr rest =>
    rw [he] at h
    simp only at h
    cases hx : expect ';' rest with
    | ok u rest1 =>
      rw [hx] at h
      cases h
      exact ⟨expr, parseExpression_isExpr n _ _ _ he, rfl⟩
    | error e => rw [hx] at h; cases h
    | timeout => rw [hx] at h; cases h
  | error e => rw [he] at h; cases h
  | timeout => rw [he] at h; cases h

theorem parseAssignment_isStmt {n : Nat} {inp : List Char} {A : ASTNode} {r : List Char}
    (h : parseAssignment n inp = .ok A r) : A.isStmt = true := by
  simp only [parseAssignment] at h
  cases hi : parseIdentifier n inp with
  | ok name rest =>
    rw [hi] at h
    simp only at h
    cases hx : expect '=' rest with
    | ok u rest1 =>
      rw [hx] at h
      obtain ⟨e, he, rfl⟩ := exprThenSemicolon_ok h
      simp [ASTNode.isStmt, he]
    | error e => rw [hx] at h; cases h
    | timeout => rw [hx] at h; cases h
  | error e => rw [hi] at h; cases h
  | timeout => rw [hi] at h; cases h

theorem parseCondition_isExpr {n : Nat} {inp : List Char} {A : ASTNode} {r : List Char}
    (h : parseCondition n inp = .ok A r) : A.isExpr = true := by
  simp only [parseCondition] at h
  cases hx : expect '(' inp with
  | ok u rest =>
    rw [hx] at h
    simp only at h
    cases he : parseExpression n rest with
    | ok cond rest1 =>
      rw [he] at h
      simp only at h
      cases hy : expect ')' rest1 with
      | ok u1 rest2 =>
        rw [hy] at h
        cases h
        exact parseExpression_isExpr n _ _ _ he
      | error e => rw [hy] at h; cases h
      | timeout => rw [hy] at h; cases h
    | error e => rw [he] at h; cases h
    | timeout => rw [he] at h; cases h
  | error e => rw [hx] at h; cases h
  | timeout => rw [hx] at h; cases h

theorem isStmt_if_of {c t e : ASTNode} (hc : c.isExpr = true) (ht : t.isStmt = true)
    (he : e = .nullptr ∨ e.isStmt = true) : (ASTNode.IfStmt c t e).isStmt = true := by
  rcases he with rfl | he
  · simp [ASTNode.isStmt, hc, ht]
  · cases e <;> simp_all [ASTNode.isStmt]

theorem parseIf_isStmt {ps : List Char → PResult ASTNode}
    (hps : ∀ i A r, ps i = .ok A r → A.isStmt = true) {n : Nat} {inp : List Char}
    {A : ASTNode} {r : List Char} (h : parseIf ps n inp = .ok A r) : A.isStmt = true := by
  simp only [parseIf] at h
  cases hc : parseCondition n inp with
  | ok cond rest =>
    rw [hc] at h
    simp only at h
    cases ht : ps rest with
    | ok thenB rest1 =>
      rw [ht] at h
      simp only at h
      rcases hm : matchKw "else" rest1 with ⟨_ | _, rest2⟩
      · rw [hm] at h
        cases h
        exact isStmt_if_of (parseCondition_isExpr hc) (hps _ _ _ ht) (Or.inl rfl)
      · rw [hm] at h
        simp only at h
        cases he : ps rest2 with
        | ok elseB rest3 =>
          rw [he] at h
          cases h
          exact isStmt_if_of (parseCondition_isExpr hc) (hps _ _ _ ht) (Or.inr (hps _ _ _ he))
        | error e => rw [he] at h; cases h
        | timeout => rw [he] at h; cases h
    | error e => rw [ht] at h; cases h
    | timeout => rw [ht] at h; cases h
  | error e => rw [hc] at h; cases h
  | timeout => rw [hc] at h; cases h

theorem parseWhile_isStmt {ps : List Char → PResult ASTNode}
    (hps : ∀ i A r, ps i = .ok A r → A.isStmt = true) {n : Nat} {inp : List Char}
    {A : ASTNode} {r : List Char} (h : parseWhile ps n inp = .ok A r) : A.isStmt = true := by
  simp only [parseWhile] at h
  cases hc : parseCondition n inp with
  | ok cond rest =>
    rw [hc] at h
    simp only at h
    cases ht : ps rest with
    | ok body rest1 =>
      rw [ht] at h
      cases h
      simp [ASTNode.isStmt, parseCondition_isExpr hc, hps _ _ _ ht]
    | error e => rw [ht] at h; cases h
    | timeout => rw [ht] at h; cases h
  | error e => rw [hc] at h; cases h
  | timeout => rw [hc] at h; cases h

theorem parseStatements_isStmtList {ps : List Char → PResult ASTNode}
    (hps : ∀ i A r, ps i = .ok A r → A.isStmt = true) (n : Nat) :
    ∀ stmts inp l r, ASTNode.isStmtList stmts = true →
      parseStatements ps n stmts inp = .ok l r → ASTNode.isStmtList l = true := by
  induction n with
  | zero => intro stmts inp l r _ h; simp [parseStatements] at h
  | succ n ih =>
    intro stmts inp l r hs h
    simp only [parseStatements] at h
    split_ifs at h
    · cases hp : ps (peek inp).2 with
      | ok stmt rest =>
        rw [hp] at h
        refine ih _ _ _ _ ?_ h
        simp [ASTNode.isStmtList_append, hs, ASTNode.isStmtList, hps _ _ _ hp]
      | error e => rw [hp] at h; cases h
      | timeout => rw [hp] at h; cases h
    · cases h; exact hs

theorem parseBlock_isStmt {ps : List Char → PResult ASTNode}
    (hps : ∀ i A r, ps i = .ok A r → A.isStmt = true) {n : Nat} {inp : List Char}
    {A : ASTNode} {r : List Char} (h : parseBlock ps n inp = .ok A r) : A.isStmt = true := by
  simp only [parseBlock] at h
  cases hx : expect '{' inp with
  | ok u rest =>
    rw [hx] at h
    simp only at h
    cases hs : parseStatements ps n [] rest with
    | ok stmts rest1 =>
      rw [hs] at h
      simp only at h
      cases hy : expect '}' rest1 with
      | ok u1 rest2 =>
        rw [hy] at h
        cases h
        simp only [ASTNode.isStmt]
        exact parseStatements_isStmtList hps n [] _ _ _ (by simp [ASTNode.isStmtList]) hs
      | error e => rw [hy] at h; cases h
      | timeout => rw [hy] at h; cases h
    | error e => rw [hs] at h; cases h
    | timeout => rw [hs] at h; cases h
  | error e => rw [hx] at h; cases h
  | timeout => rw [hx] at h; cases h

theorem exprStatement_isStmt {n : Nat} {inp : List Char} {A : ASTNode} {r : List Char}
    (h : exprThenSemicolon n id inp = .ok A r) : A.isStmt = true := by
  obtain ⟨e, he, rfl⟩ := exprThenSemicolon_ok h
  exact ASTNode.isStmt_of_isExpr he

theorem parseStatement_isStmt (n : Nat) :
    ∀ inp A r, parseStatement n inp = .ok A r → A.isStmt = true := by
  induction n with
  | zero => intro inp A r h; simp [parseStatement] at h
  | succ n ih =>
    intro inp A r h
    simp only [parseStatement] at h
    rcases h1 : matchKw "if" inp with ⟨_ | _, rest⟩
    · rw [h1] at h
      simp only at h
      rcases h2 : matchKw "while" rest with ⟨_ | _, rest1⟩
      · rw [h2] at h
        simp only at h
        rcases h3 : matchKw "print" rest1 with ⟨_ | _, rest2⟩
        · rw [h3] at h
          simp only at h
          split_ifs at h
          · exact parseBlock_isStmt ih h
          · cases hi : parseIdentifier n (peek rest2).2 with
            | ok name rest3 =>
              rw [hi] at h
              simp only at h
              split_ifs at h
              · exact parseAssignment_isStmt h
              · exact exprStatement_isStmt h
            | error e => rw [hi] at h; cases h
            | timeout => rw [hi] at h; cases h
          · exact exprStatement_isStmt h
        · rw [h3] at h
          obtain ⟨e, he, rfl⟩ := exprThenSemicolon_ok h
          simp [ASTNode.isStmt, he]
      · rw [h2] at h
        exact parseWhile_isStmt ih h
    · rw [h1] at h
      exact parseIf_isStmt ih h

end Parser

/-- Every tree returned by `Parser::parse` is a `Block` of well-shaped statements. -/
theorem Parser.parse_isStmt {fuel : Nat} {input : String} {tree : ASTNode} {rest : List Char}
    (h : Parser.parse fuel input = .ok tree rest) : tree.isStmt = true := by
  simp only [Parser.parse] at h
  cases hs : Parser.parseStatements (Parser.parseStatement fuel) fuel [] input.data with
  | ok stmts rest1 =>
    rw [hs] at h
    cases h
    simp only [ASTNode.isStmt]
    exact Parser.parseStatements_isStmtList (Parser.parseStatement_isStmt fuel) fuel [] _ _ _
      (by simp [ASTNode.isStmtList]) hs
  | error e => rw [hs] at h; cases h
  | timeout => rw [hs] at h; cases h

/-! ## The parser: `<=` and `>=`, and the operator `!=` in the interpreter -/

theorem Parser.parseExpression_error_all_fuel {f0 : Nat} {inp : List Char} {e : Error}
    (h : Parser.parseExpression f0 inp = .error e) (fuel : Nat) :
    Parser.parseExpression fuel inp = .timeout ∨ Parser.parseExpression fuel inp = .error e := by
  rcases Nat.le_total fuel f0 with hle | hle
  · rcases Parser.parseExpression_mono fuel f0 hle inp with h1 | h1
    · exact Or.inl h1
    · exact Or.inr (h1.trans h)
  · rcases Parser.parseExpression_mono f0 fuel hle inp with h1 | h1
    · rw [h] at h1; cases h1
    · exact Or.inr (h1 ▸ h)

/-- C7: the expression sources `1 <= 2` and `1 >= 2` are rejected: with enough fuel
`parseExpression` throws "Unexpected character in factor" (it has matched `<` or `>` and
finds `=` where the right operand should start), and with no amount of fuel does it return
a tree. -/
theorem relational_le_ge_rejected :
    Parser.parseExpression 3 "1 <= 2".data
      = .error (.runtime_error "Unexpected character in factor") ∧
    Parser.parseExpression 3 "1 >= 2".data
      = .error (.runtime_error "Unexpected character in factor") ∧
    (¬ ∃ fuel A rest, Parser.parseExpression fuel "1 <= 2".data = .ok A rest) ∧
    (¬ ∃ fuel A rest, Parser.parseExpression fuel "1 >= 2".data = .ok A rest) := by
  have h1 : Parser.parseExpression 3 "1 <= 2".data
      = .error (.runtime_error "Unexpected character in factor") := by rfl
  have h2 : Parser.parseExpression 3 "1 >= 2".data
      = .error (.runtime_error "Unexpected character in factor") := by rfl
  refine ⟨h1, h2, ?_, ?_⟩
  · rintro ⟨fuel, A, rest, h⟩
    rcases Parser.parseExpression_error_all_fuel h1 fuel with h3 | h3 <;>
      rw [h3] at h <;> cases h
  · rintro ⟨fuel, A, rest, h⟩
    rcases Parser.parseExpression_error_all_fuel h2 fuel with h3 | h3 <;>
      rw [h3] at h <;> cases h

/-- C5: the source `1 <= 2 <= 3`, two operators of the relational level, is rejected by
`parseExpression` whatever the fuel, so it does not parse to the left-nested tree; the
source `10 - 3 - 2` parses to `(10 - 3) - 2`, which evaluates to `5`. -/
theorem left_assoc_relational_le_rejected :
    Parser.parseExpression 3 "1 <= 2 <= 3".data
      = .error (.runtime_error "Unexpected character in factor") ∧
    (¬ ∃ fuel A rest, Parser.parseExpression fuel "1 <= 2 <= 3".data = .ok A rest) ∧
    Parser.parseExpression 4 "10 - 3 - 2".data
      = .ok (.BinaryExpr "-" (.BinaryExpr "-" (.Literal 10) (.Literal 3)) (.Literal 2)) [] ∧
    Interpreter.eval 3 (.BinaryExpr "-" (.BinaryExpr "-" (.Literal 10) (.Literal 3)) (.Literal 2))
      Interpreter.init = .ok (.int 5) Interpreter.init := by
  have h1 : Parser.parseExpression 3 "1 <= 2 <= 3".data
      = .error (.runtime_error "Unexpected character in factor") := by rfl
  refine ⟨h1, ?_, by rfl, by decide⟩
  rintro ⟨fuel, A, rest, h⟩
  rcases Parser.parseExpression_error_all_fuel h1 fuel with h3 | h3 <;>
    rw [h3] at h <;> cases h

/-- C9: the parser accepts `print 1 != 2;`, and interpreting the tree it returns fails with
"Unknown binary operator: !=" before anything is printed. -/
theorem unknown_operator_on_parsed_program :
    Parser.parse 4 "print 1 != 2;"
      = .ok (.Block [.PrintStmt (.BinaryExpr "!=" (.Literal 1) (.Literal 2))]) [] ∧
    Interpreter.eval 4 (.Block [.PrintStmt (.BinaryExpr "!=" (.Literal 1) (.Literal 2))])
      Interpreter.init
      = .error (.runtime_error "Unknown binary operator: !=") Interpreter.init := by
  refine ⟨by rfl, by decide⟩

/-! ## The parser: precedence of the binary levels -/

namespace Parser

theorem skipWhitespace_cons_space {c : Char} (r : List Char) (h : isspace c = true) :
    skipWhitespace (c :: r) = skipWhitespace r := by
  simp [skipWhitespace, List.dropWhile, h]

theorem skipWhitespace_cons_other {c : Char} (r : List Char) (h : isspace c = false) :
    skipWhitespace (c :: r) = c :: r := by
  simp [skipWhitespace, List.dropWhile, h]

theorem peek_skip (inp : List Char) : peek (skipWhitespace inp) = peek inp := by
  simp [peek, skipWhitespace_idem]

theorem get_skip (inp : List Char) : get (skipWhitespace inp) = get inp := by
  simp [get, skipWhitespace_idem]

theorem peek_snd (inp : List Char) : (peek inp).2 = skipWhitespace inp := by
  unfold peek
  split <;> simp_all

theorem matchKw_skip_eq (kw : String) (inp : List Char) :
    matchKw kw (skipWhitespace inp) = matchKw kw inp := by
  simp [matchKw, skipWhitespace_idem]

theorem matchFirst_skip (ops : List String) (hne : ops ≠ []) (inp : List Char) :
    matchFirst ops (skipWhitespace inp) = matchFirst ops inp := by
  cases ops with
  | nil => exact absurd rfl hne
  | cons kw kws => simp only [matchFirst, matchKw_skip_eq]

theorem parseFactor_skip (pe : List Char → PResult ASTNode) (n : Nat) (inp : List Char) :
    parseFactor pe n (skipWhitespace inp) = parseFactor pe n inp := by
  simp only [parseFactor, peek_skip]

theorem parseTerm_skip (pe : List Char → PResult ASTNode) (n : Nat) (inp : List Char) :
    parseTerm pe n (skipWhitespace inp) = parseTerm pe n inp := by
  simp only [parseTerm, parseFactor_skip]

theorem parseAdditive_skip (pe : List Char → PResult ASTNode) (n : Nat) (inp : List Char) :
    parseAdditive pe n (skipWhitespace inp) = parseAdditive pe n inp := by
  simp only [parseAdditive, parseTerm_skip]

theorem parseRelational_skip (pe : List Char → PResult ASTNode) (n : Nat) (inp : List Char) :
    parseRelational pe n (skipWhitespace inp) = parseRelational pe n inp := by
  simp only [parseRelational, parseAdditive_skip]

theorem parseEquality_skip (pe : List Char → PResult ASTNode) (n : Nat) (inp : List Char) :
    parseEquality pe n (skipWhitespace inp) = parseEquality pe n inp := by
  simp only [parseEquality, parseRelational_skip]

theorem parseExpression_skip (n : Nat) (inp : List Char) :
    parseExpression n (skipWhitespace inp) = parseExpression n inp := by
  cases n with
  | zero => rfl
  | succ n => simp only [parseExpression, parseEquality_skip]

theorem binaryLoop_none {ops : List String} {operand : List Char → PResult ASTNode}
    {inp r : List Char} (n : Nat) (node : ASTNode) (h : matchFirst ops inp = (none, r)) :
    binaryLoop ops operand (n + 1) node inp = .ok node r := by
  simp only [binaryLoop, h]

theorem binaryLoop_some {ops : List String} {operand : List Char → PResult ASTNode}
    {inp r r1 : List Char} {op : String} {rhs : ASTNode} (n : Nat) (node : ASTNode)
    (h : matchFirst ops inp = (some op, r)) (ho : operand r = .ok rhs r1) :
    binaryLoop ops operand (n + 1) node inp
      = binaryLoop ops operand n (.BinaryExpr op node rhs) r1 := by
  simp only [binaryLoop, h, ho]

/-- No keyword of `ops` starts the input `s`. -/
theorem matchFirst_none_of {ops : List String} {s : List Char}
    (hs : skipWhitespace s = s) (h : ∀ kw ∈ ops, kw.data.isPrefixOf s = false) :
    matchFirst ops s = (none, s) := by
  induction ops with
  | nil => rfl
  | cons kw kws ih =>
    have h1 : matchKw kw s = (false, s) := by
      simp [matchKw, hs, h kw (List.mem_cons_self _ _)]
    simp only [matchFirst, h1]
    exact ih (fun k hk => h k (List.mem_cons_of_mem _ hk))

end Parser

namespace Parser

theorem PResult.le_ok {α : Type} {r1 r2 : PResult α} {a : α} {rest : List Char}
    (h : r1.le r2) (h1 : r1 = .ok a rest) : r2 = .ok a rest := by
  rcases h with h | h
  · rw [h] at h1; cases h1
  · rw [← h]; exact h1

theorem FactorAt_mono {n m : Nat} (h : n ≤ m) {a : List Char} {A : ASTNode}
    (ha : FactorAt n a A) : FactorAt m a A := by
  intro tl htl
  obtain ⟨r, hr, hs⟩ := ha tl htl
  exact ⟨r, PResult.le_ok (parseFactor_mono (parseExpression_mono n m h) n m h _) hr, hs⟩

theorem termOps_sub : ∀ kw ∈ ["*", "/"], ∃ k ∈ ["*", "/", "+", "-", "<", ">", "==", "!="],
    k.data.isPrefixOf kw.data = true := by decide

theorem additiveOps_sub : ∀ kw ∈ ["+", "-"], ∃ k ∈ ["*", "/", "+", "-", "<", ">", "==", "!="],
    k.data.isPrefixOf kw.data = true := by decide

theorem relationalOps_sub : ∀ kw ∈ ["<", ">", "<=", ">="],
    ∃ k ∈ ["*", "/", "+", "-", "<", ">", "==", "!="], k.data.isPrefixOf kw.data = true := by
  decide

theorem equalityOps_sub : ∀ kw ∈ ["==", "!="],
    ∃ k ∈ ["*", "/", "+", "-", "<", ">", "==", "!="], k.data.isPrefixOf kw.data = true := by
  decide

end Parser

namespace Parser

theorem parseTerm_eq_level (pe : List Char → PResult ASTNode) (n : Nat) :
    parseTerm pe n = binaryLevel ["*", "/"] (parseFactor pe n) n := rfl

theorem parseAdditive_eq_level (pe : List Char → PResult ASTNode) (n : Nat) :
    parseAdditive pe n = binaryLevel ["+", "-"] (parseTerm pe n) n := rfl

theorem parseRelational_eq_level (pe : List Char → PResult ASTNode) (n : Nat) :
    parseRelational pe n = binaryLevel ["<", ">", "<=", ">="] (parseAdditive pe n) n := rfl

theorem parseEquality_eq_level (pe : List Char → PResult ASTNode) (n : Nat) :
    parseEquality pe n = binaryLevel ["==", "!="] (parseRelational pe n) n := rfl

/-- A level passes its operand through when none of its operators follows. -/
theorem level_up {ops : List String} {sub : List Char → PResult ASTNode} {n : Nat}
    {x tl : List Char} {A : ASTNode} (hne : ops ≠ [])
    (h : Reads sub x A tl)
    (hend : ∀ kw ∈ ops, kw.data.isPrefixOf (skipWhitespace tl) = false) :
    binaryLevel ops sub (n + 1) (x ++ tl) = .ok A (skipWhitespace tl) := by
  obtain ⟨r, hr, hs⟩ := h
  simp only [binaryLevel, hr]
  refine binaryLoop_none n A ?_
  rw [← matchFirst_skip ops hne, hs]
  exact matchFirst_none_of (skipWhitespace_idem tl) hend

/-- A level builds one `BinaryExpr` from `x op y` when none of its operators follows. -/
theorem level_bin {ops : List String} {sub : List Char → PResult ASTNode} {n : Nat}
    {x y tl : List Char} {A B : ASTNode} {op : String} (hne : ops ≠ [])
    (hskip : ∀ i, sub (skipWhitespace i) = sub i)
    (hx : Reads sub x A (' ' :: (op.data ++ ' ' :: (y ++ tl))))
    (hy : Reads sub y B tl)
    (hit : matchFirst ops (skipWhitespace (' ' :: (op.data ++ ' ' :: (y ++ tl))))
      = (some op, ' ' :: (y ++ tl)))
    (hend : ∀ kw ∈ ops, kw.data.isPrefixOf (skipWhitespace tl) = false) :
    binaryLevel ops sub (n + 2) (x ++ ' ' :: (op.data ++ ' ' :: (y ++ tl)))
      = .ok (.BinaryExpr op A B) (skipWhitespace tl) := by
  obtain ⟨r, hr, hs⟩ := hx
  obtain ⟨r1, hr1, hs1⟩ := hy
  have hm : matchFirst ops r = (some op, ' ' :: (y ++ tl)) := by
    rw [← matchFirst_skip ops hne, hs]; exact hit
  have hsub : sub (' ' :: (y ++ tl)) = .ok B r1 := by
    rw [← hskip, skipWhitespace_cons_space _ (by decide), hskip]; exact hr1
  simp only [binaryLevel, hr]
  rw [binaryLoop_some (n + 1) A hm hsub]
  refine binaryLoop_none n _ ?_
  rw [← matchFirst_skip ops hne, hs1]
  exact matchFirst_none_of (skipWhitespace_idem tl) hend

theorem level_skip {ops : List String} {sub : List Char → PResult ASTNode} {n : Nat}
    (hskip : ∀ i, sub (skipWhitespace i) = sub i) (i : List Char) :
    binaryLevel ops sub n (skipWhitespace i) = binaryLevel ops sub n i := by
  simp only [binaryLevel, hskip]

theorem reads_of_eq {p : List Char → PResult ASTNode} {x tl : List Char} {A : ASTNode}
    (h : p (x ++ tl) = .ok A (skipWhitespace tl)) : Reads p x A tl :=
  ⟨_, h, skipWhitespace_idem tl⟩

theorem noneAhead_of_operatorAhead {ops : List String}
    (hops : ∀ kw ∈ ops, ∃ k ∈ ["*", "/", "+", "-", "<", ">", "==", "!="],
      k.data.isPrefixOf kw.data = true)
    {tl : List Char} (hend : operatorAhead tl = false) :
    ∀ kw ∈ ops, kw.data.isPrefixOf (skipWhitespace tl) = false := by
  intro kw hkw
  obtain ⟨k, hk, hpre⟩ := hops kw hkw
  have h1 : ¬ k.data <+: skipWhitespace tl := by
    simp only [operatorAhead, List.any_eq_false] at hend
    have := hend k hk
    simpa using this
  cases hcon : kw.data.isPrefixOf (skipWhitespace tl) with
  | false => rfl
  | true =>
    have h3 : k.data <+: kw.data := List.isPrefixOf_iff_prefix.mp hpre
    have h4 : kw.data <+: skipWhitespace tl := List.isPrefixOf_iff_prefix.mp hcon
    exact absurd (h3.trans h4) h1

end Parser

namespace Parser

theorem term_of_factor {g : Nat} {x tl : List Char} {A : ASTNode}
    (hx : FactorAt (g + 1) x A) (h1 : tokenContinues tl = false)
    (h2 : ∀ kw ∈ ["*", "/"], kw.data.isPrefixOf (skipWhitespace tl) = false) :
    Reads (parseTerm (parseExpression (g + 1)) (g + 1)) x A tl := by
  rw [parseTerm_eq_level]
  exact reads_of_eq (level_up (by simp) (hx tl h1) h2)

theorem additive_of_term {pe : List Char → PResult ASTNode} {g : Nat} {x tl : List Char}
    {A : ASTNode} (hx : Reads (parseTerm pe (g + 1)) x A tl)
    (h2 : ∀ kw ∈ ["+", "-"], kw.data.isPrefixOf (skipWhitespace tl) = false) :
    Reads (parseAdditive pe (g + 1)) x A tl := by
  rw [parseAdditive_eq_level]
  exact reads_of_eq (level_up (by simp) hx h2)

theorem relational_of_additive {pe : List Char → PResult ASTNode} {g : Nat} {x tl : List Char}
    {A : ASTNode} (hx : Reads (parseAdditive pe (g + 1)) x A tl)
    (h2 : ∀ kw ∈ ["<", ">", "<=", ">="], kw.data.isPrefixOf (skipWhitespace tl) = false) :
    Reads (parseRelational pe (g + 1)) x A tl := by
  rw [parseRelational_eq_level]
  exact reads_of_eq (level_up (by simp) hx h2)

theorem equality_of_relational {pe : List Char → PResult ASTNode} {g : Nat} {x tl : List Char}
    {A : ASTNode} (hx : Reads (parseRelational pe (g + 1)) x A tl)
    (h2 : ∀ kw ∈ ["==", "!="], kw.data.isPrefixOf (skipWhitespace tl) = false) :
    Reads (parseEquality pe (g + 1)) x A tl := by
  rw [parseEquality_eq_level]
  exact reads_of_eq (level_up (by simp) hx h2)

theorem reads_append {p : List Char → PResult ASTNode} {x y tl : List Char} {A : ASTNode}
    {op : String} (h : p (x ++ ' ' :: (op.data ++ ' ' :: (y ++ tl))) = .ok A (skipWhitespace tl)) :
    Reads p (x ++ ' ' :: (op.data ++ ' ' :: y)) A tl := by
  refine ⟨_, ?_, skipWhitespace_idem tl⟩
  rw [← h]
  simp

theorem term_bin {pe : List Char → PResult ASTNode} {g : Nat} {x y tl : List Char}
    {A B : ASTNode} {op : String} (hop : op = "*" ∨ op = "/")
    (hx : Reads (parseFactor pe (g + 2)) x A (' ' :: (op.data ++ ' ' :: (y ++ tl))))
    (hy : Reads (parseFactor pe (g + 2)) y B tl)
    (h2 : ∀ kw ∈ ["*", "/"], kw.data.isPrefixOf (skipWhitespace tl) = false) :
    Reads (parseTerm pe (g + 2)) (x ++ ' ' :: (op.data ++ ' ' :: y)) (.BinaryExpr op A B) tl := by
  rw [parseTerm_eq_level]
  refine reads_append (level_bin (by simp) (parseFactor_skip _ _) hx hy ?_ h2)
  rcases hop with rfl | rfl <;>
    simp [matchFirst, matchKw, skipWhitespace, List.isPrefixOf, isspace]

theorem additive_bin {pe : List Char → PResult ASTNode} {g : Nat} {x y tl : List Char}
    {A B : ASTNode} {op : String} (hop : op = "+" ∨ op = "-")
    (hx : Reads (parseTerm pe (g + 2)) x A (' ' :: (op.data ++ ' ' :: (y ++ tl))))
    (hy : Reads (parseTerm pe (g + 2)) y B tl)
    (h2 : ∀ kw ∈ ["+", "-"], kw.data.isPrefixOf (skipWhitespace tl) = false) :
    Reads (parseAdditive pe (g + 2)) (x ++ ' ' :: (op.data ++ ' ' :: y))
      (.BinaryExpr op A B) tl := by
  rw [parseAdditive_eq_level]
  refine reads_append (level_bin (by simp) (parseTerm_skip _ _) hx hy ?_ h2)
  rcases hop with rfl | rfl <;>
    simp [matchFirst, matchKw, skipWhitespace, List.isPrefixOf, isspace]

theorem relational_bin {pe : List Char → PResult ASTNode} {g : Nat} {x y tl : List Char}
    {A B : ASTNode} {op : String} (hop : op = "<" ∨ op = ">")
    (hx : Reads (parseAdditive pe (g + 2)) x A (' ' :: (op.data ++ ' ' :: (y ++ tl))))
    (hy : Reads (parseAdditive pe (g + 2)) y B tl)
    (h2 : ∀ kw ∈ ["<", ">", "<=", ">="], kw.data.isPrefixOf (skipWhitespace tl) = false) :
    Reads (parseRelational pe (g + 2)) (x ++ ' ' :: (op.data ++ ' ' :: y))
      (.BinaryExpr op A B) tl := by
  rw [parseRelational_eq_level]
  refine reads_append (level_bin (by simp) (parseAdditive_skip _ _) hx hy ?_ h2)
  rcases hop with rfl | rfl <;>
    simp [matchFirst, matchKw, skipWhitespace, List.isPrefixOf, isspace]

theorem equality_bin {pe : List Char → PResult ASTNode} {g : Nat} {x y tl : List Char}
    {A B : ASTNode} {op : String} (hop : op = "==" ∨ op = "!=")
    (hx : Reads (parseRelational pe (g + 2)) x A (' ' :: (op.data ++ ' ' :: (y ++ tl))))
    (hy : Reads (parseRelational pe (g + 2)) y B tl)
    (h2 : ∀ kw ∈ ["==", "!="], kw.data.isPrefixOf (skipWhitespace tl) = false) :
    Reads (parseEquality pe (g + 2)) (x ++ ' ' :: (op.data ++ ' ' :: y))
      (.BinaryExpr op A B) tl := by
  rw [parseEquality_eq_level]
  refine reads_append (level_bin (by simp) (parseRelational_skip _ _) hx hy ?_ h2)
  rcases hop with rfl | rfl <;>
    simp [matchFirst, matchKw, skipWhitespace, List.isPrefixOf, isspace]

/-- After an operand, white space and an operator: no token is continued. -/
theorem tokenContinues_operator {op : String} {rest : List Char}
    (hop : op ∈ ["*", "/", "+", "-", "<", ">", "==", "!="]) :
    tokenContinues (' ' :: (op.data ++ rest)) = false := by
  simp only [List.mem_cons, List.mem_singleton, List.not_mem_nil, or_false] at hop
  rcases hop with rfl | rfl | rfl | rfl | rfl | rfl | rfl | rfl <;>
    simp [tokenContinues, peek, skipWhitespace, isspace, isalnum, isalpha, isdigit]

/-- The rest of an input whose white space was skipped, when it is to be the whole
result. -/
theorem reads_exact {p : List Char → PResult ASTNode} {x : List Char} {A : ASTNode}
    (hp : ∀ i A r, p i = .ok A r → skipWhitespace r = r)
    (h : Reads p x A []) : p x = .ok A [] := by
  obtain ⟨r, hr, hs⟩ := h
  rw [List.append_nil] at hr
  have := hp _ _ _ hr
  rw [hs] at this
  rw [hr, ← this]
  rfl

theorem matchFirst_none_rest (ops : List String) :
    ∀ inp r, matchFirst ops inp = (none, r) → (ops = [] ∧ r = inp) ∨ r = skipWhitespace inp := by
  induction ops with
  | nil => intro inp r h; simp only [matchFirst] at h; cases h; exact Or.inl ⟨rfl, rfl⟩
  | cons kw kws ih =>
    intro inp r h
    simp only [matchFirst] at h
    rcases hk : matchKw kw inp with ⟨_ | _, rest⟩
    · rw [hk] at h
      have e1 : rest = skipWhitespace inp := by
        have := matchKw_skip kw inp (by rw [hk])
        rw [hk] at this
        exact this
      rcases ih _ _ h with ⟨_, h2⟩ | h2
      · exact Or.inr (h2.trans e1)
      · exact Or.inr (by rw [h2, e1, skipWhitespace_idem])
    · rw [hk] at h; cases h

theorem binaryLoop_rest_skipped (ops : List String) (hne : ops ≠ [])
    (operand : List Char → PResult ASTNode) (n : Nat) :
    ∀ node inp A r, binaryLoop ops operand n node inp = .ok A r → skipWhitespace r = r := by
  induction n with
  | zero => intro node inp A r h; simp [binaryLoop] at h
  | succ n ih =>
    intro node inp A r h
    simp only [binaryLoop] at h
    rcases hm : matchFirst ops inp with ⟨_ | op, rest⟩
    · rw [hm] at h
      cases h
      rcases matchFirst_none_rest ops _ _ hm with ⟨h1, _⟩ | h1
      · exact absurd h1 hne
      · rw [h1, skipWhitespace_idem]
    · rw [hm] at h
      simp only at h
      cases ho : operand rest with
      | ok rhs rest1 => rw [ho] at h; exact ih _ _ _ _ h
      | error e => rw [ho] at h; cases h
      | timeout => rw [ho] at h; cases h

theorem parseEquality_rest_skipped (pe : List Char → PResult ASTNode) (n : Nat)
    (inp : List Char) (A : ASTNode) (r : List Char) (h : parseEquality pe n inp = .ok A r) :
    skipWhitespace r = r := by
  simp only [parseEquality] at h
  cases hr : parseRelational pe n inp with
  | ok node rest =>
    rw [hr] at h
    exact binaryLoop_rest_skipped _ (by simp) _ n _ _ _ _ h
  | error e => rw [hr] at h; cases h
  | timeout => rw [hr] at h; cases h

end Parser

namespace Parser

theorem parseExpression_succ (n : Nat) (inp : List Char) :
    parseExpression (n + 1) inp = parseEquality (parseExpression n) n inp := rfl

/-- The expression `x op y` with `op` of the additive level and factors `x`, `y`, in front
of an input `tl` that continues neither the last token nor the expression. -/
theorem expr_sum {g : Nat} {x y tl : List Char} {A B : ASTNode} {op : String}
    (hop : op = "+" ∨ op = "-")
    (hx : FactorAt (g + 2) x A) (hy : FactorAt (g + 2) y B)
    (h1 : tokenContinues tl = false) (h2 : operatorAhead tl = false) :
    parseExpression (g + 3) (x ++ ' ' :: (op.data ++ ' ' :: (y ++ tl)))
      = .ok (.BinaryExpr op A B) (skipWhitespace tl) := by
  have hopm : op ∈ ["*", "/", "+", "-", "<", ">", "==", "!="] := by
    rcases hop with rfl | rfl <;> simp
  have tx : Reads (parseTerm (parseExpression (g + 2)) (g + 2)) x A
      (' ' :: (op.data ++ ' ' :: (y ++ tl))) := by
    refine term_of_factor hx (tokenContinues_operator hopm) ?_
    rcases hop with rfl | rfl <;> simp [skipWhitespace, isspace, List.isPrefixOf]
  have ty : Reads (parseTerm (parseExpression (g + 2)) (g + 2)) y B tl :=
    term_of_factor hy h1 (noneAhead_of_operatorAhead termOps_sub h2)
  have hA := additive_bin hop tx ty (noneAhead_of_operatorAhead additiveOps_sub h2)
  have hR := relational_of_additive hA (noneAhead_of_operatorAhead relationalOps_sub h2)
  have hE := equality_of_relational hR (noneAhead_of_operatorAhead equalityOps_sub h2)
  obtain ⟨r, hr, hs⟩ := hE
  have hr2 := parseEquality_rest_skipped _ _ _ _ _ hr
  rw [parseExpression_succ]
  have e0 : (x ++ ' ' :: (op.data ++ ' ' :: (y ++ tl)))
      = (x ++ ' ' :: (op.data ++ ' ' :: y)) ++ tl := by simp
  rw [e0, hr, ← hs, hr2]

/-- The expression `x op y` with `op` of the multiplicative level and factors `x`, `y`. -/
theorem expr_product {g : Nat} {x y tl : List Char} {A B : ASTNode} {op : String}
    (hop : op = "*" ∨ op = "/")
    (hx : FactorAt (g + 2) x A) (hy : FactorAt (g + 2) y B)
    (h1 : tokenContinues tl = false) (h2 : operatorAhead tl = false) :
    parseExpression (g + 3) (x ++ ' ' :: (op.data ++ ' ' :: (y ++ tl)))
      = .ok (.BinaryExpr op A B) (skipWhitespace tl) := by
  have hopm : op ∈ ["*", "/", "+", "-", "<", ">", "==", "!="] := by
    rcases hop with rfl | rfl <;> simp
  have hT := term_bin hop (hx _ (tokenContinues_operator hopm)) (hy _ h1)
    (noneAhead_of_operatorAhead termOps_sub h2)
  have hA := additive_of_term hT (noneAhead_of_operatorAhead additiveOps_sub h2)
  have hR := relational_of_additive hA (noneAhead_of_operatorAhead relationalOps_sub h2)
  have hE := equality_of_relational hR (noneAhead_of_operatorAhead equalityOps_sub h2)
  obtain ⟨r, hr, hs⟩ := hE
  have hr2 := parseEquality_rest_skipped _ _ _ _ _ hr
  rw [parseExpression_succ]
  have e0 : (x ++ ' ' :: (op.data ++ ' ' :: (y ++ tl)))
      = (x ++ ' ' :: (op.data ++ ' ' :: y)) ++ tl := by simp
  rw [e0, hr, ← hs, hr2]

/-- The source `a + b * c`. -/
theorem expr_sum_of_product {g : Nat} {a b c : List Char} {A B C : ASTNode}
    (ha : FactorAt (g + 2) a A) (hb : FactorAt (g + 2) b B) (hc : FactorAt (g + 2) c C) :
    parseExpression (g + 3) (a ++ ' ' :: '+' :: ' ' :: (b ++ ' ' :: '*' :: ' ' :: c))
      = .ok (.BinaryExpr "+" A (.BinaryExpr "*" B C)) [] := by
  have h0 : tokenContinues [] = false := by decide
  have ta : Reads (parseTerm (parseExpression (g + 2)) (g + 2)) a A
      (' ' :: ("+".data ++ ' ' :: ((b ++ ' ' :: ("*".data ++ ' ' :: c)) ++ []))) := by
    refine term_of_factor ha (tokenContinues_operator (by simp)) ?_
    simp [skipWhitespace, isspace, List.isPrefixOf]
  have tbc : Reads (parseTerm (parseExpression (g + 2)) (g + 2))
      (b ++ ' ' :: ("*".data ++ ' ' :: c)) (.BinaryExpr "*" B C) [] :=
    term_bin (Or.inl rfl) (hb _ (tokenContinues_operator (by simp))) (hc _ h0)
      (by simp [skipWhitespace, List.isPrefixOf])
  have hA := additive_bin (Or.inl rfl) ta tbc (by simp [skipWhitespace, List.isPrefixOf])
  have hR := relational_of_additive hA (by simp [skipWhitespace, List.isPrefixOf])
  have hE := equality_of_relational hR (by simp [skipWhitespace, List.isPrefixOf])
  have := reads_exact (parseEquality_rest_skipped _ _) hE
  rw [parseExpression_succ, ← this]
  simp

/-- The source `a < b + c`. -/
theorem expr_less_of_sum {g : Nat} {a b c : List Char} {A B C : ASTNode}
    (ha : FactorAt (g + 2) a A) (hb : FactorAt (g + 2) b B) (hc : FactorAt (g + 2) c C) :
    parseExpression (g + 3) (a ++ ' ' :: '<' :: ' ' :: (b ++ ' ' :: '+' :: ' ' :: c))
      = .ok (.BinaryExpr "<" A (.BinaryExpr "+" B C)) [] := by
  have h0 : tokenContinues [] = false := by decide
  have ta : Reads (parseTerm (parseExpression (g + 2)) (g + 2)) a A
      (' ' :: ("<".data ++ ' ' :: ((b ++ ' ' :: ("+".data ++ ' ' :: c)) ++ []))) := by
    refine term_of_factor ha (tokenContinues_operator (by simp)) ?_
    simp [skipWhitespace, isspace, List.isPrefixOf]
  have aa := additive_of_term ta (by simp [skipWhitespace, isspace, List.isPrefixOf])
  have tb : Reads (parseTerm (parseExpression (g + 2)) (g + 2)) b B
      (' ' :: ("+".data ++ ' ' :: (c ++ []))) := by
    refine term_of_factor hb (tokenContinues_operator (by simp)) ?_
    simp [skipWhitespace, isspace, List.isPrefixOf]
  have tc : Reads (parseTerm (parseExpression (g + 2)) (g + 2)) c C [] :=
    term_of_factor hc h0 (by simp [skipWhitespace, List.isPrefixOf])
  have abc := additive_bin (Or.inl rfl) tb tc (by simp [skipWhitespace, List.isPrefixOf])
  have hR := relational_bin (Or.inl rfl) aa abc (by simp [skipWhitespace, List.isPrefixOf])
  have hE := equality_of_relational hR (by simp [skipWhitespace, List.isPrefixOf])
  have := reads_exact (parseEquality_rest_skipped _ _) hE
  rw [parseExpression_succ, ← this]
  simp

/-- The source `a == b < c`. -/
theorem expr_equal_of_less {g : Nat} {a b c : List Char} {A B C : ASTNode}
    (ha : FactorAt (g + 2) a A) (hb : FactorAt (g + 2) b B) (hc : FactorAt (g + 2) c C) :
    parseExpression (g + 3) (a ++ ' ' :: '=' :: '=' :: ' ' :: (b ++ ' ' :: '<' :: ' ' :: c))
      = .ok (.BinaryExpr "==" A (.BinaryExpr "<" B C)) [] := by
  have h0 : tokenContinues [] = false := by decide
  have ta : Reads (parseTerm (parseExpression (g + 2)) (g + 2)) a A
      (' ' :: ("==".data ++ ' ' :: ((b ++ ' ' :: ("<".data ++ ' ' :: c)) ++ []))) := by
    refine term_of_factor ha (tokenContinues_operator (by simp)) ?_
    simp [skipWhitespace, isspace, List.isPrefixOf]
  have aa := additive_of_term ta (by simp [skipWhitespace, isspace, List.isPrefixOf])
  have ra := relational_of_additive aa (by simp [skipWhitespace, isspace, List.isPrefixOf])
  have tb : Reads (parseTerm (parseExpression (g + 2)) (g + 2)) b B
      (' ' :: ("<".data ++ ' ' :: (c ++ []))) := by
    refine term_of_factor hb (tokenContinues_operator (by simp)) ?_
    simp [skipWhitespace, isspace, List.isPrefixOf]
  have ab := additive_of_term tb (by simp [skipWhitespace, isspace, List.isPrefixOf])
  have tc : Reads (parseTerm (parseExpression (g + 2)) (g + 2)) c C [] :=
    term_of_factor hc h0 (by simp [skipWhitespace, List.isPrefixOf])
  have ac := additive_of_term tc (by simp [skipWhitespace, List.isPrefixOf])
  have rbc := relational_bin (Or.inl rfl) ab ac (by simp [skipWhitespace, List.isPrefixOf])
  have hE := equality_bin (Or.inl rfl) ra rbc (by simp [skipWhitespace, List.isPrefixOf])
  have := reads_exact (parseEquality_rest_skipped _ _) hE
  rw [parseExpression_succ, ← this]
  simp

/-- A sum in parentheses is a factor. -/
theorem factor_paren_sum {g : Nat} {a b : List Char} {A B : ASTNode}
    (ha : FactorAt (g + 2) a A) (hb : FactorAt (g + 2) b B) :
    FactorAt (g + 3) ('(' :: (a ++ ' ' :: '+' :: ' ' :: (b ++ [')']))) (.BinaryExpr "+" A B) := by
  intro tl _
  have h := @expr_sum g a b (')' :: tl) A B "+" (Or.inl rfl) ha hb
    (by simp [tokenContinues, peek, skipWhitespace, isspace, isalnum, isalpha, isdigit])
    (by simp [operatorAhead, skipWhitespace, isspace, List.isPrefixOf])
  refine ⟨tl, ?_, rfl⟩
  have e1 : skipWhitespace (')' :: tl) = ')' :: tl := by simp [skipWhitespace, isspace]
  rw [e1] at h
  have h3 : parseExpression (g + 3) (a ++ ' ' :: '+' :: ' ' :: (b ++ ')' :: tl))
      = .ok (.BinaryExpr "+" A B) (')' :: tl) := h
  have e2 : (a ++ ' ' :: '+' :: ' ' :: (b ++ [')'])) ++ tl
      = a ++ ' ' :: '+' :: ' ' :: (b ++ ')' :: tl) := by simp
  simp only [parseFactor, peek, get, List.cons_append, e2]
  simp [skipWhitespace, isspace, isdigit, h3, expect, get]

end Parser

/-! ## The parser: literals and identifiers are factors -/

theorem isspace_false_of_isalnum {c : Char} (h : (isalnum c || c == '_') = true) :
    isspace c = false := by
  cases hs : isspace c with
  | false => rfl
  | true =>
    exfalso
    simp only [isspace, Bool.or_eq_true, beq_iff_eq] at hs
    rcases hs with ((((rfl | rfl) | rfl) | rfl) | rfl) | rfl <;> revert h <;> decide

theorem isalnum_of_isdigit {c : Char} (h : isdigit c = true) : (isalnum c || c == '_') = true := by
  simp [isalnum, h]

theorem isalnum_of_isalpha {c : Char} (h : (isalpha c || c == '_') = true) :
    (isalnum c || c == '_') = true := by
  simp only [isalnum, Bool.or_eq_true] at h ⊢
  rcases h with h | h
  · exact Or.inl (Or.inl h)
  · exact Or.inr h

namespace Parser

theorem peek_cons_other {c : Char} (r : List Char) (h : isspace c = false) :
    peek (c :: r) = (c, c :: r) := by
  simp [peek, skipWhitespace_cons_other r h]

theorem get_cons_other {c : Char} (r : List Char) (h : isspace c = false) :
    get (c :: r) = (c, r) := by
  simp [get, skipWhitespace_cons_other r h]

theorem digitsLoop_reads (ds : List Char) :
    ∀ (fuel : Nat) (val : Int) (tl : List Char), (∀ d ∈ ds, isdigit d = true) →
      tokenContinues tl = false → ds.length < fuel →
      digitsLoop fuel val (ds ++ tl) = .ok (literalValue val ds) (skipWhitespace tl) := by
  induction ds with
  | nil =>
    intro fuel val tl _ htl hf
    obtain ⟨n, rfl⟩ : ∃ n, fuel = n + 1 := ⟨fuel - 1, by simp at hf; omega⟩
    have h1 : isdigit (peek tl).1 = false := by
      simp only [tokenContinues, isalnum, Bool.or_eq_false_iff] at htl
      exact htl.1.2
    simp [digitsLoop, h1, peek_snd, literalValue]
  | cons d ds ih =>
    intro fuel val tl hds htl hf
    obtain ⟨n, rfl⟩ : ∃ n, fuel = n + 1 := ⟨fuel - 1, by simp at hf; omega⟩
    have hd : isdigit d = true := hds d (List.mem_cons_self _ _)
    have hsp : isspace d = false := isspace_false_of_isalnum (isalnum_of_isdigit hd)
    simp only [digitsLoop, List.cons_append, peek_cons_other _ hsp, hd, if_true,
      get_cons_other _ hsp]
    rw [ih n _ tl (fun x hx => hds x (List.mem_cons_of_mem _ hx)) htl
      (by simp at hf; omega)]
    simp [literalValue]

theorem identLoop_reads (cs : List Char) :
    ∀ (fuel : Nat) (name : String) (tl : List Char),
      (∀ d ∈ cs, (isalnum d || d == '_') = true) →
      tokenContinues tl = false → cs.length < fuel →
      identLoop fuel name (cs ++ tl) = .ok (String.mk (name.data ++ cs)) (skipWhitespace tl) := by
  induction cs with
  | nil =>
    intro fuel name tl _ htl hf
    obtain ⟨n, rfl⟩ : ∃ n, fuel = n + 1 := ⟨fuel - 1, by simp at hf; omega⟩
    have h1 : (isalnum (peek tl).1 || (peek tl).1 == '_') = false := htl
    simp [identLoop, h1, peek_snd]
  | cons d cs ih =>
    intro fuel name tl hcs htl hf
    obtain ⟨n, rfl⟩ : ∃ n, fuel = n + 1 := ⟨fuel - 1, by simp at hf; omega⟩
    have hd := hcs d (List.mem_cons_self _ _)
    have hsp : isspace d = false := isspace_false_of_isalnum hd
    simp only [identLoop, List.cons_append, peek_cons_other _ hsp, hd, if_true,
      get_cons_other _ hsp]
    rw [ih n _ tl (fun x hx => hcs x (List.mem_cons_of_mem _ hx)) htl
      (by simp at hf; omega)]
    simp [String.push]

theorem parseIdentifier_reads {n : List Char} (hn : isIdentifier n = true) (fuel : Nat)
    (hf : n.length ≤ fuel) (tl : List Char) (htl : tokenContinues tl = false) :
    parseIdentifier fuel (n ++ tl) = .ok (String.mk n) (skipWhitespace tl) := by
  cases n with
  | nil => simp [isIdentifier] at hn
  | cons c cs =>
    simp only [isIdentifier, Bool.and_eq_true, List.all_eq_true] at hn
    have hsp : isspace c = false := isspace_false_of_isalnum (isalnum_of_isalpha hn.1)
    simp only [parseIdentifier, List.cons_append, skipWhitespace_cons_other _ hsp,
      peek_cons_other _ hsp, hn.1, if_true, get_cons_other _ hsp]
    rw [identLoop_reads cs fuel _ tl hn.2 htl (by simpa using hf)]
    simp [String.push]

end Parser

/-- A nonempty run of digits is a factor: a `Literal`. -/
theorem factorOperand_literal (ds : List Char) (hne : ds ≠ [])
    (hds : ∀ d ∈ ds, isdigit d = true) : FactorOperand ds (.Literal (literalValue 0 ds)) := by
  refine ⟨ds.length + 1, fun tl htl => ⟨Parser.skipWhitespace tl, ?_, Parser.skipWhitespace_idem tl⟩⟩
  cases ds with
  | nil => exact absurd rfl hne
  | cons d ds =>
    have hd : isdigit d = true := hds d (List.mem_cons_self _ _)
    have hsp : isspace d = false := isspace_false_of_isalnum (isalnum_of_isdigit hd)
    have := Parser.digitsLoop_reads (d :: ds) ((d :: ds).length + 1) 0 tl hds htl (by simp)
    simp only [Parser.parseFactor, List.cons_append, Parser.peek_cons_other _ hsp, hd, if_true]
    simp only [List.cons_append] at this
    rw [this]

/-- An identifier is a factor: an `Identifier`. -/
theorem factorOperand_identifier (n : List Char) (hn : isIdentifier n = true) :
    FactorOperand n (.Identifier (String.mk n)) := by
  refine ⟨n.length, fun tl htl => ⟨Parser.skipWhitespace tl, ?_, Parser.skipWhitespace_idem tl⟩⟩
  have h := Parser.parseIdentifier_reads hn n.length (le_refl _) tl htl
  cases n with
  | nil => simp [isIdentifier] at hn
  | cons c cs =>
    simp only [isIdentifier, Bool.and_eq_true] at hn
    have hsp : isspace c = false := isspace_false_of_isalnum (isalnum_of_isalpha hn.1)
    have hnd : isdigit c = false := by
      cases hd : isdigit c with
      | false => rfl
      | true =>
        exfalso
        have h1 := hn.1
        simp only [isalpha, isdigit, Bool.or_eq_true, Bool.and_eq_true, decide_eq_true_eq,
          beq_iff_eq] at h1 hd
        rcases h1 with (h1 | h1) | h1
        · omega
        · omega
        · subst h1; revert hd; decide
    have hnp : (c == '(') = false := by
      cases hp : c == '(' with
      | false => rfl
      | true =>
        exfalso
        have h1 := hn.1
        have : c = '(' := by simpa using hp
        subst this
        revert h1
        decide
    simp only [Parser.parseFactor, List.cons_append, Parser.peek_cons_other _ hsp, hnd, hnp,
      hn.1, if_true, Bool.false_eq_true, if_false]
    simp only [List.cons_append] at h
    rw [h]

/-! ## The parser: precedence climbing -/

/-- C6: precedence climbs equality < relational < additive < multiplicative < factor. For
all factor operands `a`, `b`, `c` with trees `A`, `B`, `C`: `a + b * c` parses to
`BinaryExpr(+, A, BinaryExpr(*, B, C))`, `a < b + c` parses to
`BinaryExpr(<, A, BinaryExpr(+, B, C))`, `a == b < c` parses to
`BinaryExpr(==, A, BinaryExpr(<, B, C))`, the parenthesized `(a + b)` is itself a factor
operand, and `(a + b) * c` parses to `BinaryExpr(*, BinaryExpr(+, A, B), C)`; each parse
consumes the whole source. -/
theorem precedence_climbing (a b c : List Char) (A B C : ASTNode)
    (ha : FactorOperand a A) (hb : FactorOperand b B) (hc : FactorOperand c C) :
    (∃ fuel, Parser.parseExpression fuel (a ++ " + ".data ++ b ++ " * ".data ++ c)
      = .ok (.BinaryExpr "+" A (.BinaryExpr "*" B C)) []) ∧
    (∃ fuel, Parser.parseExpression fuel (a ++ " < ".data ++ b ++ " + ".data ++ c)
      = .ok (.BinaryExpr "<" A (.BinaryExpr "+" B C)) []) ∧
    (∃ fuel, Parser.parseExpression fuel (a ++ " == ".data ++ b ++ " < ".data ++ c)
      = .ok (.BinaryExpr "==" A (.BinaryExpr "<" B C)) []) ∧
    FactorOperand ("(".data ++ a ++ " + ".data ++ b ++ ")".data) (.BinaryExpr "+" A B) ∧
    (∃ fuel, Parser.parseExpression fuel ("(".data ++ a ++ " + ".data ++ b ++ ") * ".data ++ c)
      = .ok (.BinaryExpr "*" (.BinaryExpr "+" A B) C) []) := by
  obtain ⟨fa, ha⟩ := ha
  obtain ⟨fb, hb⟩ := hb
  obtain ⟨fc, hc⟩ := hc
  obtain ⟨g, hg⟩ : ∃ g, fa ≤ g + 2 ∧ fb ≤ g + 2 ∧ fc ≤ g + 2 :=
    ⟨fa + fb + fc, by omega, by omega, by omega⟩
  have ha2 : FactorAt (g + 2) a A := Parser.FactorAt_mono hg.1 ha
  have hb2 : FactorAt (g + 2) b B := Parser.FactorAt_mono hg.2.1 hb
  have hc2 : FactorAt (g + 2) c C := Parser.FactorAt_mono hg.2.2 hc
  have hp : FactorAt (g + 3) ('(' :: (a ++ ' ' :: '+' :: ' ' :: (b ++ [')'])))
      (.BinaryExpr "+" A B) := Parser.factor_paren_sum ha2 hb2
  have e1 : a ++ " + ".data ++ b ++ " * ".data ++ c
      = a ++ ' ' :: '+' :: ' ' :: (b ++ ' ' :: '*' :: ' ' :: c) := by simp
  have e2 : a ++ " < ".data ++ b ++ " + ".data ++ c
      = a ++ ' ' :: '<' :: ' ' :: (b ++ ' ' :: '+' :: ' ' :: c) := by simp
  have e3 : a ++ " == ".data ++ b ++ " < ".data ++ c
      = a ++ ' ' :: '=' :: '=' :: ' ' :: (b ++ ' ' :: '<' :: ' ' :: c) := by simp
  have e4 : "(".data ++ a ++ " + ".data ++ b ++ ")".data
      = '(' :: (a ++ ' ' :: '+' :: ' ' :: (b ++ [')'])) := by simp
  have e5 : "(".data ++ a ++ " + ".data ++ b ++ ") * ".data ++ c
      = ('(' :: (a ++ ' ' :: '+' :: ' ' :: (b ++ [')']))) ++ ' ' :: ("*".data ++ ' ' :: (c ++ []))
      := by simp
  refine ⟨⟨g + 3, ?_⟩, ⟨g + 3, ?_⟩, ⟨g + 3, ?_⟩, ⟨g + 3, ?_⟩, ⟨g + 4, ?_⟩⟩
  · rw [e1]; exact Parser.expr_sum_of_product ha2 hb2 hc2
  · rw [e2]; exact Parser.expr_less_of_sum ha2 hb2 hc2
  · rw [e3]; exact Parser.expr_equal_of_less ha2 hb2 hc2
  · rw [e4]; exact hp
  · rw [e5]
    exact Parser.expr_product (Or.inl rfl) hp (Parser.FactorAt_mono (by omega) hc2)
      (by decide) (by decide)

theorem precedence_climbing_witness :
    (∃ fuel, Parser.parseExpression fuel "7 + x * 21".data
      = .ok (.BinaryExpr "+" (.Literal 7) (.BinaryExpr "*" (.Identifier "x") (.Literal 21))) []) ∧
    (∃ fuel, Parser.parseExpression fuel "7 < x + 21".data
      = .ok (.BinaryExpr "<" (.Literal 7) (.BinaryExpr "+" (.Identifier "x") (.Literal 21))) []) ∧
    (∃ fuel, Parser.parseExpression fuel "7 == x < 21".data
      = .ok (.BinaryExpr "==" (.Literal 7) (.BinaryExpr "<" (.Identifier "x") (.Literal 21))) []) ∧
    FactorOperand "(7 + x)".data (.BinaryExpr "+" (.Literal 7) (.Identifier "x")) ∧
    (∃ fuel, Parser.parseExpression fuel "(7 + x) * 21".data
      = .ok (.BinaryExpr "*" (.BinaryExpr "+" (.Literal 7) (.Identifier "x")) (.Literal 21)) []) :=
  precedence_climbing "7".data "x".data "21".data (.Literal 7) (.Identifier "x") (.Literal 21)
    (factorOperand_literal "7".data (by decide) (by decide))
    (factorOperand_identifier "x".data (by decide))
    (factorOperand_literal "21".data (by decide) (by decide))

/-! ## The parser: assignments -/

/-- A factor operand is an expression source. -/
theorem exprSource_of_factor {a : List Char} {A : ASTNode} (ha : FactorOperand a A) :
    ExprSource a A := by
  obtain ⟨f, hf⟩ := ha
  refine ⟨f + 2, fun tl h1 h2 => ?_⟩
  have ha1 : FactorAt (f + 1) a A := Parser.FactorAt_mono (by omega) hf
  have hT := Parser.term_of_factor ha1 h1 (Parser.noneAhead_of_operatorAhead Parser.termOps_sub h2)
  have hA := Parser.additive_of_term hT
    (Parser.noneAhead_of_operatorAhead Parser.additiveOps_sub h2)
  have hR := Parser.relational_of_additive hA
    (Parser.noneAhead_of_operatorAhead Parser.relationalOps_sub h2)
  have hE := Parser.equality_of_relational hR
    (Parser.noneAhead_of_operatorAhead Parser.equalityOps_sub h2)
  obtain ⟨r, hr, hs⟩ := hE
  have hr2 := Parser.parseEquality_rest_skipped _ _ _ _ _ hr
  rw [Parser.parseExpression_succ, hr, ← hs, hr2]

theorem prefix_of_prefix_append_space (kw : List Char) (hkw : ' ' ∉ kw) :
    ∀ (n rest : List Char), kw <+: n ++ ' ' :: rest → kw <+: n := by
  induction kw with
  | nil => intro n rest _; exact List.nil_prefix
  | cons k ks ih =>
    intro n rest h
    cases n with
    | nil =>
      simp only [List.nil_append, List.cons_prefix_cons] at h
      exact absurd (h.1 ▸ List.mem_cons_self _ _) hkw
    | cons c cs =>
      simp only [List.cons_append, List.cons_prefix_cons] at h ⊢
      exact ⟨h.1, ih (fun hm => hkw (List.mem_cons_of_mem _ hm)) cs rest h.2⟩

namespace Parser

theorem matchKw_fail_of_identifier {kw : String} {n rest : List Char}
    (hkw : ' ' ∉ kw.data) (hn : isIdentifier n = true) (hpre : ¬ kw.data <+: n) :
    matchKw kw (n ++ ' ' :: rest) = (false, n ++ ' ' :: rest) := by
  cases n with
  | nil => simp [isIdentifier] at hn
  | cons c cs =>
    simp only [isIdentifier, Bool.and_eq_true] at hn
    have hsp : isspace c = false := isspace_false_of_isalnum (isalnum_of_isalpha hn.1)
    have h1 : kw.data.isPrefixOf (c :: cs ++ ' ' :: rest) = false := by
      cases hp : kw.data.isPrefixOf (c :: cs ++ ' ' :: rest) with
      | false => rfl
      | true =>
        exact absurd (prefix_of_prefix_append_space _ hkw _ _
          (List.isPrefixOf_iff_prefix.mp hp)) hpre
    simp only [matchKw, List.cons_append, skipWhitespace_cons_other _ hsp]
    simp only [List.cons_append] at h1
    simp [h1]

theorem parseExpression_cons_space (n : Nat) (inp : List Char) :
    parseExpression n (' ' :: inp) = parseExpression n inp := by
  rw [← parseExpression_skip n (' ' :: inp), skipWhitespace_cons_space _ (by decide),
    parseExpression_skip]

theorem parseAssignment_reads {n e : List Char} {E : ASTNode} {fuel : Nat}
    (hn : isIdentifier n = true) (hf : n.length ≤ fuel)
    (he : parseExpression fuel (e ++ [';']) = .ok E [';']) :
    parseAssignment fuel (n ++ ' ' :: '=' :: ' ' :: (e ++ [';']))
      = .ok (.Assignment (String.mk n) E) [] := by
  have h1 := parseIdentifier_reads hn fuel hf (' ' :: '=' :: ' ' :: (e ++ [';']))
    (by simp [tokenContinues, peek, skipWhitespace, isspace, isalnum, isalpha, isdigit])
  have h2 : skipWhitespace (' ' :: '=' :: ' ' :: (e ++ [';'])) = '=' :: ' ' :: (e ++ [';']) := by
    simp [skipWhitespace, isspace]
  rw [h2] at h1
  simp only [parseAssignment, h1]
  simp [expect, get, skipWhitespace, isspace, exprThenSemicolon]
  have h3 := parseExpression_cons_space fuel (e ++ [';'])
  simp only [skipWhitespace, List.dropWhile] at h3
  simp [h3, he, isspace]

end Parser

namespace Parser

theorem first_identifier_char {c : Char} (h : (isalpha c || c == '_') = true) :
    c ≠ '\x00' ∧ c ≠ '}' ∧ (c == '{') = false := by
  refine ⟨?_, ?_, ?_⟩
  · rintro rfl; revert h; decide
  · rintro rfl; revert h; decide
  · cases hc : c == '{' with
    | false => rfl
    | true =>
      have : c = '{' := by simpa using hc
      subst this
      revert h
      decide

theorem parseStatement_assignment {n e : List Char} {E : ASTNode} {fuel : Nat}
    (hn : isIdentifier n = true) (hf : n.length ≤ fuel)
    (hif : ¬ "if".data <+: n) (hwhile : ¬ "while".data <+: n) (hprint : ¬ "print".data <+: n)
    (he : parseExpression fuel (e ++ [';']) = .ok E [';']) :
    parseStatement (fuel + 1) (n ++ ' ' :: '=' :: ' ' :: (e ++ [';']))
      = .ok (.Assignment (String.mk n) E) [] := by
  have k1 := @matchKw_fail_of_identifier "if" n ('=' :: ' ' :: (e ++ [';']))
    (by decide) hn hif
  have k2 := @matchKw_fail_of_identifier "while" n ('=' :: ' ' :: (e ++ [';']))
    (by decide) hn hwhile
  have k3 := @matchKw_fail_of_identifier "print" n ('=' :: ' ' :: (e ++ [';']))
    (by decide) hn hprint
  have h1 := parseIdentifier_reads hn fuel hf (' ' :: '=' :: ' ' :: (e ++ [';']))
    (by simp [tokenContinues, peek, skipWhitespace, isspace, isalnum, isalpha, isdigit])
  have h2 : skipWhitespace (' ' :: '=' :: ' ' :: (e ++ [';'])) = '=' :: ' ' :: (e ++ [';']) := by
    simp [skipWhitespace, isspace]
  rw [h2] at h1
  have h3 := parseAssignment_reads hn hf he
  cases n with
  | nil => simp [isIdentifier] at hn
  | cons c cs =>
    simp only [isIdentifier, Bool.and_eq_true] at hn
    have hsp : isspace c = false := isspace_false_of_isalnum (isalnum_of_isalpha hn.1)
    have hc := first_identifier_char hn.1
    simp only [List.cons_append] at k1 k2 k3 h1 h3
    simp only [parseStatement, List.cons_append, k1, k2, k3, peek_cons_other _ hsp, hc.2.2,
      hn.1, h1, h3, if_true, Bool.false_eq_true, if_false]
    simp [peek, skipWhitespace, isspace]

end Parser

/-- An identifier that begins with the keyword `if` is not parsed as the target of an
assignment: `ifx = 1;` is rejected whatever the fuel. -/
theorem Parser.parse_ifx_fails (fuel : Nat) :
    Parser.parse fuel "ifx = 1;" = .timeout ∨
    Parser.parse fuel "ifx = 1;" = .error (.runtime_error "Expected '('") := by
  have h0 : Parser.parse 2 "ifx = 1;" = .error (.runtime_error "Expected '('") := by rfl
  rcases Nat.le_total fuel 2 with hle | hle
  · rcases Parser.parse_mono fuel 2 hle "ifx = 1;" with h1 | h1
    · exact Or.inl h1
    · exact Or.inr (h1.trans h0)
  · rcases Parser.parse_mono 2 fuel hle "ifx = 1;" with h1 | h1
    · rw [h0] at h1; cases h1
    · exact Or.inr (h1 ▸ h0)

/-- The program `ifx = 1;`: `ifx` is an identifier and `1` is an expression source with
tree `Literal 1`, but no run of the parser on `ifx = 1;` returns a tree. -/
theorem parse_ifx_assignment_rejected :
    isIdentifier "ifx".data = true ∧ ExprSource "1".data (.Literal 1) ∧
    ¬ ∃ fuel tree rest, Parser.parse fuel "ifx = 1;" = .ok tree rest := by
  refine ⟨by decide, ?_, ?_⟩
  · exact exprSource_of_factor (factorOperand_literal "1".data (by decide) (by decide))
  · rintro ⟨fuel, tree, rest, h⟩
    rcases Parser.parse_ifx_fails fuel with h1 | h1 <;> rw [h1] at h <;> cases h

/-- For every identifier `n` that does not begin with `if`, `while` or `print` and every
expression source `e` with tree `E`, parsing the program `n = e;` succeeds, consumes the
whole input and yields the `Block` whose only statement is `Assignment(n, E)`. -/
theorem parse_assignment_statement (n e : List Char) (E : ASTNode)
    (hn : isIdentifier n = true)
    (hif : ¬ "if".data <+: n) (hwhile : ¬ "while".data <+: n) (hprint : ¬ "print".data <+: n)
    (he : ExprSource e E) :
    ∃ fuel, Parser.parse fuel (String.mk (n ++ " = ".data ++ e ++ ";".data))
      = .ok (.Block [.Assignment (String.mk n) E]) [] := by
  obtain ⟨fe, he⟩ := he
  obtain ⟨g, hg1, hg2⟩ : ∃ g, fe ≤ g + 1 ∧ n.length ≤ g + 1 := ⟨fe + n.length, by omega, by omega⟩
  have he1 : Parser.parseExpression (g + 1) (e ++ [';']) = .ok E [';'] := by
    have := he [';'] (by decide) (by decide)
    exact Parser.PResult.le_ok (Parser.parseExpression_mono fe (g + 1) hg1 _) this
  have hs := Parser.parseStatement_assignment hn hg2 hif hwhile hprint he1
  refine ⟨g + 2, ?_⟩
  have e1 : n ++ " = ".data ++ e ++ ";".data = n ++ ' ' :: '=' :: ' ' :: (e ++ [';']) := by simp
  cases n with
  | nil => simp [isIdentifier] at hn
  | cons c cs =>
    simp only [isIdentifier, Bool.and_eq_true] at hn
    have hsp : isspace c = false := isspace_false_of_isalnum (isalnum_of_isalpha hn.1)
    have hc := Parser.first_identifier_char hn.1
    simp only [List.cons_append] at hs e1
    simp only [Parser.parse, e1, Parser.parseStatements, List.cons_append,
      Parser.peek_cons_other _ hsp]
    simp [hc.1, hc.2.1, hs, Parser.peek, Parser.skipWhitespace]

/-- The program `_total1 = 7 + x;` is parsed as an assignment. -/
theorem parse_assignment_statement_example :
    ∃ fuel, Parser.parse fuel "_total1 = 7 + x;"
      = .ok (.Block [.Assignment "_total1" (.BinaryExpr "+" (.Literal 7) (.Identifier "x"))]) [] :=
  parse_assignment_statement "_total1".data "7 + x".data
    (.BinaryExpr "+" (.Literal 7) (.Identifier "x"))
    (by decide) (by decide) (by decide) (by decide)
    (by
      obtain ⟨f1, h1⟩ := factorOperand_literal "7".data (by decide) (by decide)
      obtain ⟨f2, h2⟩ := factorOperand_identifier "x".data (by decide)
      refine ⟨f1 + f2 + 3, fun tl ht ho => ?_⟩
      exact @Parser.expr_sum (f1 + f2) _ _ tl _ _ "+" (Or.inl rfl)
        (Parser.FactorAt_mono (by omega) h1) (Parser.FactorAt_mono (by omega) h2) ht ho)

/-- C8: for every identifier `n` that does not begin with `if`, `while` or `print` and
every expression source `e` with tree `E`, parsing the program `n = e;` succeeds, consumes
the whole input and yields the `Block` whose only statement is `Assignment(n, E)`, as for
`_total1 = 7 + x;`. For an identifier that begins with a keyword it does not: `ifx` is an
identifier and `1` an expression source, but `ifx = 1;` is rejected with "Expected '('"
because `match("if")` compares the first two characters only, and no fuel makes the parse
succeed. The same `ifx` is read as one identifier by `parseIdentifier` where no keyword
is tried: `x = ifx + 1;` parses to `Assignment(x, ifx + 1)`. -/
theorem assignment_statement_parsed :
    (∀ (n e : List Char) (E : ASTNode), isIdentifier n = true →
      ¬ "if".data <+: n → ¬ "while".data <+: n → ¬ "print".data <+: n → ExprSource e E →
      ∃ fuel, Parser.parse fuel (String.mk (n ++ " = ".data ++ e ++ ";".data))
        = .ok (.Block [.Assignment (String.mk n) E]) []) ∧
    (∃ fuel, Parser.parse fuel "_total1 = 7 + x;"
      = .ok (.Block [.Assignment "_total1" (.BinaryExpr "+" (.Literal 7) (.Identifier "x"))])
          []) ∧
    (isIdentifier "ifx".data = true ∧ ExprSource "1".data (.Literal 1) ∧
      ¬ ∃ fuel tree rest, Parser.parse fuel "ifx = 1;" = .ok tree rest) ∧
    Parser.parse 10 "ifx = 1;" = .error (.runtime_error "Expected '('") ∧
    Parser.parse 10 "x = ifx + 1;"
      = .ok (.Block [.Assignment "x" (.BinaryExpr "+" (.Identifier "ifx") (.Literal 1))]) [] :=
  ⟨fun n e E hn hif hwhile hprint he => parse_assignment_statement n e E hn hif hwhile hprint he,
    parse_assignment_statement_example, parse_ifx_assignment_rejected, by rfl, by rfl⟩

/-! ## The interpreter: what a successful evaluation implies -/

namespace Interpreter

theorem applyBinary_ok {op : String} {l r v : Value} (h : applyBinary op l r = .ok v) :
    ∃ a b, l = .int a ∧ r = .int b ∧ applyBinary op (.int a) (.int b) = .ok v := by
  cases l with
  | int a =>
    cases r with
    | int b => exact ⟨a, b, rfl, rfl, h⟩
    | bool b =>
      exfalso
      simp only [applyBinary, Value.asInt] at h
      split_ifs at h
  | bool a =>
    exfalso
    cases r <;> simp only [applyBinary, Value.asInt] at h <;> split_ifs at h

theorem evalBinaryExpr_ok {ev : ASTNode → IState → IResult} {op : String} {l r : ASTNode}
    {st st2 : IState} {v : Value} (h : evalBinaryExpr ev op l r st = .ok v st2) :
    ∃ vl st1 vr, ev l st = .ok vl st1 ∧ ev r st1 = .ok vr st2 ∧ applyBinary op vl vr = .ok v := by
  simp only [evalBinaryExpr] at h
  cases hl : ev l st with
  | ok vl st1 =>
    rw [hl] at h
    simp only at h
    cases hr : ev r st1 with
    | ok vr st3 =>
      rw [hr] at h
      simp only at h
      cases ha : applyBinary op vl vr with
      | ok w =>
        rw [ha] at h
        cases h
        exact ⟨vl, st1, vr, rfl, hr, ha⟩
      | error e => rw [ha] at h; cases h
    | error e st3 => rw [hr] at h; cases h
    | timeout => rw [hr] at h; cases h
  | error e st1 => rw [hl] at h; cases h
  | timeout => rw [hl] at h; cases h

theorem evalAssignment_ok {ev : ASTNode → IState → IResult} {name : String} {value : ASTNode}
    {st st2 : IState} {v : Value} (h : evalAssignment ev name value st = .ok v st2) :
    ∃ n st1, ev value st = .ok (.int n) st1 ∧ v = .int n ∧
      st2 = { st1 with vars := st1.vars.set name (.int n) } := by
  simp only [evalAssignment] at h
  cases hv : ev value st with
  | ok val st1 =>
    rw [hv] at h
    simp only at h
    cases val with
    | int n =>
      simp only [Value.asInt] at h
      cases h
      exact ⟨n, st1, rfl, rfl, rfl⟩
    | bool b => simp only [Value.asInt] at h; cases h
  | error e st1 => rw [hv] at h; cases h
  | timeout => rw [hv] at h; cases h

theorem evalIfStmt_ok {ev : ASTNode → IState → IResult} {c t e : ASTNode}
    {st st2 : IState} {v : Value} (h : evalIfStmt ev c t e st = .ok v st2) :
    ∃ b st1, ev c st = .ok (.bool b) st1 ∧
      ((b = true ∧ ev t st1 = .ok v st2) ∨
       (b = false ∧ e = .nullptr ∧ v = .int 0 ∧ st2 = st1) ∨
       (b = false ∧ e ≠ .nullptr ∧ ev e st1 = .ok v st2)) := by
  simp only [evalIfStmt] at h
  cases hc : ev c st with
  | ok cond st1 =>
    rw [hc] at h
    simp only at h
    cases cond with
    | int n => simp only [Value.asBool] at h; cases h
    | bool b =>
      simp only [Value.asBool] at h
      cases b with
      | true => exact ⟨true, st1, rfl, Or.inl ⟨rfl, h⟩⟩
      | false =>
        simp only at h
        by_cases hn : e = .nullptr
        · subst hn
          simp only at h
          cases h
          exact ⟨false, _, rfl, Or.inr (Or.inl ⟨rfl, rfl, rfl, rfl⟩)⟩
        · refine ⟨false, st1, rfl, Or.inr (Or.inr ⟨rfl, hn, ?_⟩)⟩
          cases e <;> first | exact absurd rfl hn | exact h
  | error e1 st1 => rw [hc] at h; cases h
  | timeout => rw [hc] at h; cases h

theorem evalPrintStmt_ok {ev : ASTNode → IState → IResult} {e : ASTNode}
    {st st2 : IState} {v : Value} (h : evalPrintStmt ev e st = .ok v st2) :
    ∃ n st1, ev e st = .ok (.int n) st1 ∧ v = .int n ∧
      st2 = { st1 with out := st1.out ++ [n] } := by
  simp only [evalPrintStmt] at h
  cases hv : ev e st with
  | ok val st1 =>
    rw [hv] at h
    simp only at h
    cases val with
    | int n =>
      simp only [Value.asInt] at h
      cases h
      exact ⟨n, st1, rfl, rfl, rfl⟩
    | bool b => simp only [Value.asInt] at h; cases h
  | error e1 st1 => rw [hv] at h; cases h
  | timeout => rw [hv] at h; cases h

theorem evalBlockLoop_cons_ok {ev : ASTNode → IState → IResult} {s : ASTNode}
    {rest : List ASTNode} {last v : Value} {st st2 : IState}
    (h : evalBlockLoop ev (s :: rest) last st = .ok v st2) :
    ∃ v1 st1, ev s st = .ok v1 st1 ∧ traceVariables st1 = .ok () ∧
      evalBlockLoop ev rest v1 st1 = .ok v st2 := by
  simp only [evalBlockLoop] at h
  cases hs : ev s st with
  | ok v1 st1 =>
    rw [hs] at h
    simp only at h
    cases ht : traceVariables st1 with
    | ok u =>
      rw [ht] at h
      exact ⟨v1, st1, rfl, ht, h⟩
    | error e => rw [ht] at h; cases h
  | error e st1 => rw [hs] at h; cases h
  | timeout => rw [hs] at h; cases h

theorem evalWhileLoop_succ_ok {ev : ASTNode → IState → IResult} {c b : ASTNode} {n : Nat}
    {last v : Value} {st st3 : IState}
    (h : evalWhileLoop ev c b (n + 1) last st = .ok v st3) :
    ∃ cond st1, ev c st = .ok (.bool cond) st1 ∧
      ((cond = false ∧ v = last ∧ st3 = st1) ∨
       (cond = true ∧ ∃ v2 st2, ev b st1 = .ok v2 st2 ∧ traceVariables st2 = .ok () ∧
          evalWhileLoop ev c b n v2 st2 = .ok v st3)) := by
  simp only [evalWhileLoop] at h
  cases hc : ev c st with
  | ok cond st1 =>
    rw [hc] at h
    simp only at h
    cases cond with
    | int k => simp only [Value.asBool] at h; cases h
    | bool bb =>
      simp only [Value.asBool] at h
      cases bb with
      | false =>
        simp only at h
        cases h
        exact ⟨false, _, rfl, Or.inl ⟨rfl, rfl, rfl⟩⟩
      | true =>
        simp only at h
        cases hb : ev b st1 with
        | ok v2 st2 =>
          rw [hb] at h
          simp only at h
          cases ht : traceVariables st2 with
          | ok u =>
            rw [ht] at h
            exact ⟨true, st1, rfl, Or.inr ⟨rfl, v2, st2, hb, ht, h⟩⟩
          | error e => rw [ht] at h; cases h
        | error e st2 => rw [hb] at h; cases h
        | timeout => rw [hb] at h; cases h
  | error e st1 => rw [hc] at h; cases h
  | timeout => rw [hc] at h; cases h

end Interpreter

/-! ## The optimizer preserves successful evaluations -/

open Interpreter

theorem eval_succ (fuel : Nat) (node : ASTNode) (st : IState) :
    eval (fuel + 1) node st =
      match node with
      | .BinaryExpr op l r => evalBinaryExpr (eval fuel) op l r st
      | .Literal v => evalLiteral v st
      | .Identifier n => evalIdentifier n st
      | .Assignment n v => evalAssignment (eval fuel) n v st
      | .IfStmt c t e => evalIfStmt (eval fuel) c t e st
      | .Block stmts => evalBlock (eval fuel) stmts st
      | .WhileStmt c b => evalWhileStmt (eval fuel) fuel c b st
      | .PrintStmt e => evalPrintStmt (eval fuel) e st
      | .nullptr => .error (.runtime_error "Unknown AST node") st := rfl

theorem digitChar_toNat (d : Nat) (h : d < 10) : (digitChar d).toNat = 48 + d := by
  interval_cases d <;> rfl

theorem digitChar_isdigit (d : Nat) (h : d < 10) : isdigit (digitChar d) = true := by
  interval_cases d <;> rfl

theorem digitList_lt (fuel : Nat) : ∀ n, ∀ d ∈ digitList fuel n, d < 10 := by
  induction fuel with
  | zero => intro n d hd; simp [digitList] at hd
  | succ f ih =>
    intro n d hd
    simp only [digitList] at hd
    split_ifs at hd with h
    · simp only [List.mem_singleton] at hd; omega
    · rcases List.mem_cons.mp hd with h1 | h1
      · omega
      · exact ih _ d h1

theorem digitList_ne_nil (fuel n : Nat) : digitList (fuel + 1) n ≠ [] := by
  simp only [digitList]
  split_ifs <;> simp

theorem digitList_value (fuel : Nat) :
    ∀ n, n < fuel → (digitList fuel n).foldr (fun d a => a * 10 + d) 0 = n := by
  induction fuel with
  | zero => intro n h; omega
  | succ f ih =>
    intro n h
    simp only [digitList]
    split_ifs with h1
    · simp
    · simp only [List.foldr_cons]
      rw [ih (n / 10) (by omega)]
      omega

theorem digitsValue_append (cs : List Char) (c : Char) (acc : Nat) :
    digitsValue acc (cs ++ [c]) = digitsValue acc cs * 10 + (c.toNat - 48) := by
  induction cs generalizing acc with
  | nil => rfl
  | cons x xs ih => exact ih _

theorem digitsValue_rendering (ds : List Nat) (h : ∀ d ∈ ds, d < 10) :
    digitsValue 0 (ds.reverse.map digitChar) = ds.foldr (fun d a => a * 10 + d) 0 := by
  induction ds with
  | nil => rfl
  | cons d rest ih =>
    have h1 := ih (fun x hx => h x (List.mem_cons_of_mem _ hx))
    have h2 := digitChar_toNat d (h d (List.mem_cons_self _ _))
    have e : (d :: rest).reverse.map digitChar = rest.reverse.map digitChar ++ [digitChar d] := by
      simp
    rw [e, digitsValue_append, h1, h2, List.foldr_cons]
    omega

theorem natToChars_value (n : Nat) : digitsValue 0 (natToChars n) = n := by
  unfold natToChars
  rw [digitsValue_rendering _ (digitList_lt _ _), digitList_value _ _ (by omega)]

theorem natToChars_isdigit (n : Nat) : ∀ c ∈ natToChars n, isdigit c = true := by
  intro c hc
  unfold natToChars at hc
  simp only [List.mem_map, List.mem_reverse] at hc
  obtain ⟨d, hd, rfl⟩ := hc
  exact digitChar_isdigit d (digitList_lt _ _ d hd)

theorem natToChars_ne_nil (n : Nat) : natToChars n ≠ [] := by
  unfold natToChars
  simp [digitList_ne_nil]

theorem takeWhile_all {α : Type} (p : α → Bool) (l : List α) (h : ∀ x ∈ l, p x = true) :
    l.takeWhile p = l := by
  induction l with
  | nil => rfl
  | cons a rest ih =>
    simp [List.takeWhile, h a (List.mem_cons_self _ _),
      ih (fun x hx => h x (List.mem_cons_of_mem _ hx))]

/-- Reading back the rendering of an `int` gives the `int`. -/
theorem toInt_to_string (v : Int) (hv : inInt32 v) : toInt (to_string v) = .ok v := by
  obtain ⟨c, cs, hcs⟩ : ∃ c cs, natToChars v.natAbs = c :: cs := by
    cases h : natToChars v.natAbs with
    | nil => exact absurd h (natToChars_ne_nil _)
    | cons c cs => exact ⟨c, cs, rfl⟩
  have hdig := natToChars_isdigit v.natAbs
  have hval := natToChars_value v.natAbs
  rw [hcs] at hdig hval
  have hc : isdigit c = true := hdig c (List.mem_cons_self _ _)
  have hsp : isspace c = false := isspace_false_of_isalnum (isalnum_of_isdigit hc)
  have hminus : c ≠ '-' := by rintro rfl; revert hc; decide
  have hplus : c ≠ '+' := by rintro rfl; revert hc; decide
  have htw : (c :: cs).takeWhile isdigit = c :: cs := takeWhile_all _ _ hdig
  have hsign : stoiSign (c :: cs) = (false, c :: cs) := by
    unfold stoiSign
    split
    · rename_i heq; cases heq; exact absurd rfl hminus
    · rename_i heq; cases heq; exact absurd rfl hplus
    · rfl
  unfold toInt stoi to_string
  by_cases hneg : v < 0
  · have h1 : List.dropWhile isspace ('-' :: c :: cs) = '-' :: c :: cs := by
      simp [List.dropWhile, isspace]
    have h2 : -((v.natAbs : Nat) : Int) = v := by omega
    have h4 : stoiSign ('-' :: c :: cs) = (true, c :: cs) := rfl
    simp only [hneg, if_true, hcs, h1, h4, htw, List.isEmpty_cons, Bool.false_eq_true,
      if_false, hval, h2, if_pos hv]
  · have h1 : List.dropWhile isspace (c :: cs) = c :: cs := by
      simp [List.dropWhile, hsp]
    have h2 : ((v.natAbs : Nat) : Int) = v := by omega
    simp only [hneg, if_false, hcs, h1, hsign, htw, List.isEmpty_cons, Bool.false_eq_true,
      hval, h2, if_pos hv]

/-- The rendering is injective. -/
theorem to_string_injective {v w : Int} (h : to_string v = to_string w) : v = w := by
  have key : ∀ u : Int, (if u < 0 then (-(digitsValue 0 ((to_string u).data.drop 1) : Int))
      else (digitsValue 0 (to_string u).data : Int)) = u ∧
      ((to_string u).data.head? = some '-' ↔ u < 0) := by
    intro u
    unfold to_string
    by_cases hu : u < 0
    · simp only [hu, if_true, List.drop_succ_cons, List.drop_zero, natToChars_value]
      refine ⟨by omega, by simp⟩
    · simp only [hu, if_false, natToChars_value]
      refine ⟨by omega, ?_⟩
      cases hc : natToChars u.natAbs with
      | nil => exact absurd hc (natToChars_ne_nil _)
      | cons c cs =>
        have hd : isdigit c = true := natToChars_isdigit u.natAbs c (by rw [hc]; simp)
        simp only [List.head?_cons, Option.some.injEq, iff_false]
        rintro rfl
        revert hd
        decide
  have hv := key v
  have hw := key w
  rw [h] at hv
  have hsign : v < 0 ↔ w < 0 := hv.2.symm.trans hw.2
  by_cases h1 : v < 0
  · have h2 := hsign.mp h1
    have e1 := hv.1
    have e2 := hw.1
    simp only [h1, h2, if_true] at e1 e2
    omega
  · have h2 : ¬ w < 0 := fun hh => h1 (hsign.mpr hh)
    have e1 := hv.1
    have e2 := hw.1
    simp only [h1, h2, if_false] at e1 e2
    omega

/-! ## The compiler: the code of a tree -/

theorem compileStmts_append_of {stmts : List ASTNode}
    (ih : ∀ s ∈ stmts, ∀ ir lc, compileAST s ir lc
      = ({ instructions := ir.instructions ++ code s lc }, nextLabel s lc)) :
    ∀ ir lc, compileStmts stmts ir lc
      = ({ instructions := ir.instructions ++ codeStmts stmts lc }, nextLabelStmts stmts lc) := by
  induction stmts with
  | nil => intro ir lc; simp [compileStmts, codeStmts, nextLabelStmts]
  | cons a rest ihr =>
    intro ir lc
    have ha := ih a (List.mem_cons_self _ _)
    have hr := ihr (fun s hs => ih s (List.mem_cons_of_mem _ hs))
    unfold codeStmts nextLabelStmts
    simp only [compileStmts, ha, hr]
    simp [List.append_assoc]

theorem compileAST_append (t : ASTNode) :
    ∀ ir lc, compileAST t ir lc
      = ({ instructions := ir.instructions ++ code t lc }, nextLabel t lc) := by
  induction t using ASTNode.induct with
  | hnull => intro ir lc; simp [compileAST, code, nextLabel]
  | hlit v => intro ir lc; simp [compileAST, code, nextLabel, IRProgram.emplace_back]
  | hid n => intro ir lc; simp [compileAST, code, nextLabel, IRProgram.emplace_back]
  | hbin op l r ihl ihr =>
    intro ir lc
    unfold code nextLabel
    simp only [compileAST, ihl, ihr]
    cases binaryOpCode op <;> simp [IRProgram.emplace_back, List.append_assoc]
  | hassign n v ih =>
    intro ir lc
    unfold code nextLabel
    simp only [compileAST, ih]
    simp [IRProgram.emplace_back, List.append_assoc]
  | hif c t e ihc iht ihe =>
    intro ir lc
    unfold code nextLabel
    simp only [compileAST, ihc, iht, ihe, IRProgram.emplace_back]
    simp [List.append_assoc]
  | hwhile c b ihc ihb =>
    intro ir lc
    unfold code nextLabel
    simp only [compileAST, ihc, ihb, IRProgram.emplace_back]
    simp [List.append_assoc]
  | hblock stmts ih =>
    intro ir lc
    unfold code nextLabel
    simp only [compileAST]
    rw [compileStmts_append_of ih ir lc, compileStmts_append_of ih { instructions := [] } lc]
    simp
  | hprint e ih =>
    intro ir lc
    unfold code nextLabel
    simp only [compileAST, ih]
    simp [IRProgram.emplace_back, List.append_assoc]

theorem compileStmts_append (stmts : List ASTNode) (ir : IRProgram) (lc : Int) :
    compileStmts stmts ir lc
      = ({ instructions := ir.instructions ++ codeStmts stmts lc }, nextLabelStmts stmts lc) :=
  compileStmts_append_of (fun s _ => compileAST_append s) ir lc

theorem code_null (lc : Int) : code .nullptr lc = [] := rfl

theorem code_literal (v lc : Int) : code (.Literal v) lc = [{ op := .PUSH, arg := to_string v }] :=
  rfl

theorem code_identifier (n : String) (lc : Int) :
    code (.Identifier n) lc = [{ op := .LOAD, arg := n }] := rfl

theorem code_binary (op : String) (l r : ASTNode) (lc : Int) :
    code (.BinaryExpr op l r) lc = code l lc ++ code r (nextLabel l lc) ++
      (match binaryOpCode op with
       | some c => [{ op := c, arg := "" }]
       | none => []) := by
  rw [show code (.BinaryExpr op l r) lc
    = (compileAST (.BinaryExpr op l r) { instructions := [] } lc).1.instructions from rfl]
  simp only [compileAST]
  simp only [compileAST_append]
  cases binaryOpCode op <;> simp [IRProgram.emplace_back]

theorem nextLabel_binary (op : String) (l r : ASTNode) (lc : Int) :
    nextLabel (.BinaryExpr op l r) lc = nextLabel r (nextLabel l lc) := by
  rw [show nextLabel (.BinaryExpr op l r) lc
    = (compileAST (.BinaryExpr op l r) { instructions := [] } lc).2 from rfl]
  simp only [compileAST]
  simp only [compileAST_append]
  cases binaryOpCode op <;> simp

theorem code_assignment (n : String) (v : ASTNode) (lc : Int) :
    code (.Assignment n v) lc = code v lc ++ [{ op := .STORE, arg := n }] := by
  rw [show code (.Assignment n v) lc
    = (compileAST (.Assignment n v) { instructions := [] } lc).1.instructions from rfl]
  simp only [compileAST]
  simp only [compileAST_append]
  simp [IRProgram.emplace_back]

theorem nextLabel_assignment (n : String) (v : ASTNode) (lc : Int) :
    nextLabel (.Assignment n v) lc = nextLabel v lc := by
  rw [show nextLabel (.Assignment n v) lc
    = (compileAST (.Assignment n v) { instructions := [] } lc).2 from rfl]
  simp only [compileAST]
  simp only [compileAST_append]

theorem code_print (e : ASTNode) (lc : Int) :
    code (.PrintStmt e) lc = code e lc ++ [{ op := .PRINT, arg := "" }] := by
  rw [show code (.PrintStmt e) lc
    = (compileAST (.PrintStmt e) { instructions := [] } lc).1.instructions from rfl]
  simp only [compileAST]
  simp only [compileAST_append]
  simp [IRProgram.emplace_back]

theorem nextLabel_print (e : ASTNode) (lc : Int) :
    nextLabel (.PrintStmt e) lc = nextLabel e lc := by
  rw [show nextLabel (.PrintStmt e) lc
    = (compileAST (.PrintStmt e) { instructions := [] } lc).2 from rfl]
  simp only [compileAST]
  simp only [compileAST_append]

theorem code_if (c t e : ASTNode) (lc : Int) :
    code (.IfStmt c t e) lc =
      code c (lc + 2) ++ { op := .JZ, arg := "L_else_" ++ to_string lc } ::
        (code t (nextLabel c (lc + 2)) ++
          { op := .JMP, arg := "L_end_" ++ to_string (lc + 1) } ::
          { op := .LABEL, arg := "L_else_" ++ to_string lc } ::
          (code e (nextLabel t (nextLabel c (lc + 2))) ++
            [{ op := .LABEL, arg := "L_end_" ++ to_string (lc + 1) }])) := by
  rw [show code (.IfStmt c t e) lc
    = (compileAST (.IfStmt c t e) { instructions := [] } lc).1.instructions from rfl]
  simp only [compileAST]
  simp only [compileAST_append]
  simp [IRProgram.emplace_back]

theorem nextLabel_if (c t e : ASTNode) (lc : Int) :
    nextLabel (.IfStmt c t e) lc = nextLabel e (nextLabel t (nextLabel c (lc + 2))) := by
  rw [show nextLabel (.IfStmt c t e) lc
    = (compileAST (.IfStmt c t e) { instructions := [] } lc).2 from rfl]
  simp only [compileAST]
  simp only [compileAST_append, IRProgram.emplace_back]

theorem code_while (c b : ASTNode) (lc : Int) :
    code (.WhileStmt c b) lc =
      { op := .LABEL, arg := "L_start_" ++ to_string lc } ::
        (code c (lc + 2) ++ { op := .JZ, arg := "L_end_" ++ to_string (lc + 1) } ::
          (code b (nextLabel c (lc + 2)) ++
            [{ op := .JMP, arg := "L_start_" ++ to_string lc },
             { op := .LABEL, arg := "L_end_" ++ to_string (lc + 1) }])) := by
  rw [show code (.WhileStmt c b) lc
    = (compileAST (.WhileStmt c b) { instructions := [] } lc).1.instructions from rfl]
  simp only [compileAST]
  simp only [compileAST_append]
  simp [IRProgram.emplace_back]

theorem nextLabel_while (c b : ASTNode) (lc : Int) :
    nextLabel (.WhileStmt c b) lc = nextLabel b (nextLabel c (lc + 2)) := by
  rw [show nextLabel (.WhileStmt c b) lc
    = (compileAST (.WhileStmt c b) { instructions := [] } lc).2 from rfl]
  simp only [compileAST]
  simp only [compileAST_append, IRProgram.emplace_back]

theorem code_block (stmts : List ASTNode) (lc : Int) :
    code (.Block stmts) lc = codeStmts stmts lc := by
  rw [show code (.Block stmts) lc
    = (compileAST (.Block stmts) { instructions := [] } lc).1.instructions from rfl]
  simp only [compileAST]
  rfl

theorem nextLabel_block (stmts : List ASTNode) (lc : Int) :
    nextLabel (.Block stmts) lc = nextLabelStmts stmts lc := by
  rw [show nextLabel (.Block stmts) lc
    = (compileAST (.Block stmts) { instructions := [] } lc).2 from rfl]
  simp only [compileAST]
  rfl

theorem codeStmts_nil (lc : Int) : codeStmts [] lc = [] := rfl

theorem codeStmts_cons (s : ASTNode) (rest : List ASTNode) (lc : Int) :
    codeStmts (s :: rest) lc = code s lc ++ codeStmts rest (nextLabel s lc) := by
  rw [show codeStmts (s :: rest) lc
    = (compileStmts (s :: rest) { instructions := [] } lc).1.instructions from rfl]
  simp only [compileStmts]
  simp only [compileAST_append, compileStmts_append]
  simp

theorem nextLabelStmts_nil (lc : Int) : nextLabelStmts [] lc = lc := rfl

theorem nextLabelStmts_cons (s : ASTNode) (rest : List ASTNode) (lc : Int) :
    nextLabelStmts (s :: rest) lc = nextLabelStmts rest (nextLabel s lc) := by
  rw [show nextLabelStmts (s :: rest) lc
    = (compileStmts (s :: rest) { instructions := [] } lc).2 from rfl]
  simp only [compileStmts]
  simp only [compileAST_append, compileStmts_append]

/-! ## The compiler: label names are unique -/

theorem label_name_inj {p1 p2 : String} {k1 k2 : Int}
    (h1 : p1 ∈ ["L_else_", "L_end_", "L_start_"]) (h2 : p2 ∈ ["L_else_", "L_end_", "L_start_"])
    (h : p1 ++ to_string k1 = p2 ++ to_string k2) : k1 = k2 := by
  have hd : p1.data ++ (to_string k1).data = p2.data ++ (to_string k2).data := by
    have := congrArg String.data h
    simpa [String.data_append] using this
  simp only [List.mem_cons, List.mem_singleton, List.not_mem_nil, or_false] at h1 h2
  rcases h1 with rfl | rfl | rfl <;> rcases h2 with rfl | rfl | rfl
  all_goals first
    | (exfalso; simp at hd; done)
    | (have h3 : (to_string k1).data = (to_string k2).data := by simpa using hd
       exact to_string_injective (String.ext h3))

theorem KLabels.nil (S : Int → Prop) : KLabels S [] :=
  ⟨List.nodup_nil, fun _ h => absurd h (List.not_mem_nil _)⟩

theorem KLabels.singleton {p : String} (hp : p ∈ ["L_else_", "L_end_", "L_start_"]) (k : Int) :
    KLabels (fun j => j = k) [p ++ to_string k] := by
  refine ⟨List.nodup_singleton _, fun n hn => ?_⟩
  simp only [List.mem_singleton] at hn
  exact ⟨p, hp, k, rfl, hn⟩

theorem KLabels.append {S1 S2 : Int → Prop} {l1 l2 : List String}
    (h1 : KLabels S1 l1) (h2 : KLabels S2 l2) (hd : ∀ k, S1 k → S2 k → False) :
    KLabels (fun k => S1 k ∨ S2 k) (l1 ++ l2) := by
  refine ⟨List.nodup_append.mpr ⟨h1.1, h2.1, ?_⟩, ?_⟩
  · intro n hn1 hn2
    obtain ⟨p1, hp1, k1, hs1, rfl⟩ := h1.2 n hn1
    obtain ⟨p2, hp2, k2, hs2, he⟩ := h2.2 _ hn2
    have := label_name_inj hp1 hp2 he
    subst this
    exact hd _ hs1 hs2
  · intro n hn
    rcases List.mem_append.mp hn with hn | hn
    · obtain ⟨p, hp, k, hs, he⟩ := h1.2 n hn
      exact ⟨p, hp, k, Or.inl hs, he⟩
    · obtain ⟨p, hp, k, hs, he⟩ := h2.2 n hn
      exact ⟨p, hp, k, Or.inr hs, he⟩

theorem KLabels.weaken {S1 S2 : Int → Prop} {l : List String} (h : KLabels S1 l)
    (hs : ∀ k, S1 k → S2 k) : KLabels S2 l :=
  ⟨h.1, fun n hn => by
    obtain ⟨p, hp, k, h1, he⟩ := h.2 n hn
    exact ⟨p, hp, k, hs k h1, he⟩⟩

theorem RangeLabels.of_nil (a b : Int) : RangeLabels a b [] := KLabels.nil _

theorem RangeLabels.join {a b c : Int} {l1 l2 : List String}
    (h1 : RangeLabels a b l1) (h2 : RangeLabels b c l2) (hab : a ≤ b) (hbc : b ≤ c) :
    RangeLabels a c (l1 ++ l2) := by
  refine (KLabels.append h1 h2 (fun k h3 h4 => ?_)).weaken (fun k h3 => ?_)
  · simp only at h3 h4; omega
  · simp only at h3 ⊢; omega

theorem labelsOf_append (a b : List IRInstr) : labelsOf (a ++ b) = labelsOf a ++ labelsOf b := by
  simp [labelsOf]

theorem labelsOf_cons_label (name : String) (l : List IRInstr) :
    labelsOf ({ op := .LABEL, arg := name } :: l) = name :: labelsOf l := by
  simp [labelsOf]

theorem labelsOf_cons_other (x : IRInstr) (l : List IRInstr) (h : x.op ≠ .LABEL) :
    labelsOf (x :: l) = labelsOf l := by
  simp [labelsOf, h]

theorem labelsOf_nil : labelsOf [] = [] := rfl

theorem binaryOpCode_ne_label {op : String} {c : OpCode} (h : binaryOpCode op = some c) :
    c ≠ .LABEL := by
  unfold binaryOpCode at h
  split_ifs at h <;> cases h <;> decide

theorem codeStmts_labels_of {stmts : List ASTNode}
    (ih : ∀ s ∈ stmts, ∀ lc, lc ≤ nextLabel s lc ∧
      RangeLabels lc (nextLabel s lc) (labelsOf (code s lc))) :
    ∀ lc, lc ≤ nextLabelStmts stmts lc ∧
      RangeLabels lc (nextLabelStmts stmts lc) (labelsOf (codeStmts stmts lc)) := by
  induction stmts with
  | nil => intro lc; exact ⟨le_refl _, RangeLabels.of_nil _ _⟩
  | cons a rest ihr =>
    intro lc
    obtain ⟨h1, h2⟩ := ih a (List.mem_cons_self _ _) lc
    obtain ⟨h3, h4⟩ := ihr (fun s hs => ih s (List.mem_cons_of_mem _ hs)) (nextLabel a lc)
    rw [nextLabelStmts_cons, codeStmts_cons, labelsOf_append]
    exact ⟨by omega, h2.join h4 h1 h3⟩

/-- The labels of the code of a tree are pairwise different and come from the counter
values the tree consumes. -/
theorem code_labels (t : ASTNode) :
    ∀ lc, lc ≤ nextLabel t lc ∧ RangeLabels lc (nextLabel t lc) (labelsOf (code t lc)) := by
  induction t using ASTNode.induct with
  | hnull => intro lc; exact ⟨le_refl _, RangeLabels.of_nil _ _⟩
  | hlit v => intro lc; exact ⟨le_refl _, RangeLabels.of_nil _ _⟩
  | hid n => intro lc; exact ⟨le_refl _, RangeLabels.of_nil _ _⟩
  | hbin op l r ihl ihr =>
    intro lc
    obtain ⟨h1, h2⟩ := ihl lc
    obtain ⟨h3, h4⟩ := ihr (nextLabel l lc)
    rw [nextLabel_binary, code_binary, labelsOf_append, labelsOf_append]
    have h5 : labelsOf (match binaryOpCode op with
        | some c => [{ op := c, arg := "" }]
        | none => []) = [] := by
      cases hc : binaryOpCode op with
      | none => rfl
      | some c => exact labelsOf_cons_other _ _ (binaryOpCode_ne_label hc)
    rw [h5, List.append_nil]
    exact ⟨by omega, h2.join h4 h1 h3⟩
  | hassign n v ih =>
    intro lc
    obtain ⟨h1, h2⟩ := ih lc
    rw [nextLabel_assignment, code_assignment, labelsOf_append,
      labelsOf_cons_other _ _ (by simp), labelsOf_nil, List.append_nil]
    exact ⟨h1, h2⟩
  | hif c t e ihc iht ihe =>
    intro lc
    obtain ⟨h1, h2⟩ := ihc (lc + 2)
    obtain ⟨h3, h4⟩ := iht (nextLabel c (lc + 2))
    obtain ⟨h5, h6⟩ := ihe (nextLabel t (nextLabel c (lc + 2)))
    rw [nextLabel_if, code_if, labelsOf_append, labelsOf_cons_other _ _ (by simp),
      labelsOf_append, labelsOf_cons_other _ _ (by simp), labelsOf_cons_label,
      labelsOf_append, labelsOf_cons_label, labelsOf_nil]
    refine ⟨by omega, ?_⟩
    have e1 : KLabels (fun j => j = lc) ["L_else_" ++ to_string lc] :=
      KLabels.singleton (by simp) lc
    have e2 : KLabels (fun j => j = lc + 1) ["L_end_" ++ to_string (lc + 1)] :=
      KLabels.singleton (by simp) (lc + 1)
    have r1 := KLabels.append h6 e2 (fun k h7 h8 => by omega)
    have r2 := KLabels.append e1 r1 (fun k h7 h8 => by omega)
    have r3 := KLabels.append h4 r2 (fun k h7 h8 => by omega)
    have r4 := KLabels.append h2 r3 (fun k h7 h8 => by omega)
    exact r4.weaken (fun k h7 => by omega)
  | hwhile c b ihc ihb =>
    intro lc
    obtain ⟨h1, h2⟩ := ihc (lc + 2)
    obtain ⟨h3, h4⟩ := ihb (nextLabel c (lc + 2))
    rw [nextLabel_while, code_while, labelsOf_cons_label, labelsOf_append,
      labelsOf_cons_other _ _ (by simp), labelsOf_append, labelsOf_cons_other _ _ (by simp),
      labelsOf_cons_label, labelsOf_nil]
    refine ⟨by omega, ?_⟩
    have e1 : KLabels (fun j => j = lc) ["L_start_" ++ to_string lc] :=
      KLabels.singleton (by simp) lc
    have e2 : KLabels (fun j => j = lc + 1) ["L_end_" ++ to_string (lc + 1)] :=
      KLabels.singleton (by simp) (lc + 1)
    have r1 := KLabels.append h4 e2 (fun k h7 h8 => by omega)
    have r2 := KLabels.append h2 r1 (fun k h7 h8 => by omega)
    have r3 := KLabels.append e1 r2 (fun k h7 h8 => by omega)
    exact r3.weaken (fun k h7 => by omega)
  | hblock stmts ih =>
    intro lc
    rw [nextLabel_block, code_block]
    exact codeStmts_labels_of ih lc
  | hprint e ih =>
    intro lc
    obtain ⟨h1, h2⟩ := ih lc
    rw [nextLabel_print, code_print, labelsOf_append,
      labelsOf_cons_other _ _ (by simp), labelsOf_nil, List.append_nil]
    exact ⟨h1, h2⟩

/-! ## Finite maps -/

theorem Env.find_set_same {α : Type} (m : Env α) (k : String) (v : α) :
    (m.set k v).find k = some v := by
  induction m with
  | nil => simp [Env.set, Env.find]
  | cons kv rest ih =>
    obtain ⟨k1, w⟩ := kv
    by_cases h : k1 = k
    · simp [Env.set, Env.find, h]
    · simp [Env.set, Env.find, h, ih]

theorem Env.find_set_other {α : Type} (m : Env α) (k k2 : String) (v : α) (h : k ≠ k2) :
    (m.set k v).find k2 = m.find k2 := by
  induction m with
  | nil => simp [Env.set, Env.find, h]
  | cons kv rest ih =>
    obtain ⟨k1, w⟩ := kv
    by_cases h1 : k1 = k
    · subst h1
      simp [Env.set, Env.find, h]
    · simp only [Env.set, h1, if_false, Env.find]
      split_ifs
      · rfl
      · exact ih

theorem VarsAgree.set {iv : Env Value} {vv : Env Int} (h : VarsAgree iv vv) (n : String)
    (k : Int) : VarsAgree (iv.set n (.int k)) (vv.set n k) := by
  intro x
  by_cases hx : n = x
  · subst hx
    simp [Env.find_set_same]
  · rw [Env.find_set_other _ _ _ _ hx, Env.find_set_other _ _ _ _ hx]
    exact h x

/-! ## The VM: runs and label resolution -/

theorem Reach.trans {prog : List IRInstr} {labels : Env Nat} {a b c : VMState}
    (h1 : Reach prog labels a b) (h2 : Reach prog labels b c) : Reach prog labels a c := by
  induction h1 with
  | refl => exact h2
  | step hs _ ih => exact Reach.step hs (ih h2)

theorem Reach.single {prog : List IRInstr} {labels : Env Nat} {a b : VMState}
    (h : IRVM.step prog labels a = some (.ok b)) : Reach prog labels a b :=
  Reach.step h (Reach.refl b)

theorem Reach.run {prog : List IRInstr} {labels : Env Nat} {a b : VMState}
    (h : Reach prog labels a b) (hend : IRVM.step prog labels b = none) :
    ∃ fuel, IRVM.runLoop prog labels fuel a = .done b := by
  induction h with
  | refl st => exact ⟨1, by simp [IRVM.runLoop, hend]⟩
  | step hs _ ih =>
    obtain ⟨fuel, hf⟩ := ih hend
    exact ⟨fuel + 1, by simp [IRVM.runLoop, hs, hf]⟩

theorem IRVM.step_at {prog A B : List IRInstr} {instr : IRInstr} {st : VMState}
    (labels : Env Nat) (hp : prog = A ++ instr :: B) (hip : st.ip = A.length) :
    IRVM.step prog labels st =
      some (match IRVM.exec labels instr st with
        | .ok st1 => .ok { st1 with ip := st1.ip + 1 }
        | .error e => .error e) := by
  have hg : prog.get? st.ip = some instr := by
    rw [hp, hip, List.get?_eq_getElem?, List.getElem?_append_right (le_refl _)]
    simp
  simp only [IRVM.step, hg]
  cases IRVM.exec labels instr st <;> rfl

theorem IRVM.step_end {prog : List IRInstr} {st : VMState} (labels : Env Nat)
    (hip : st.ip = prog.length) : IRVM.step prog labels st = none := by
  have hg : prog.get? st.ip = none := by
    rw [hip]
    simp
  simp only [IRVM.step, hg]

theorem IRVM.buildLabels_find_of_not_mem (prog : List IRInstr) :
    ∀ (i : Nat) (labels : Env Nat) (name : String), name ∉ labelsOf prog →
      (IRVM.buildLabels prog i labels).find name = labels.find name := by
  induction prog with
  | nil => intro i labels name _; rfl
  | cons x rest ih =>
    intro i labels name hn
    simp only [IRVM.buildLabels]
    by_cases hx : x.op = .LABEL
    · have e1 : labelsOf (x :: rest) = x.arg :: labelsOf rest := by simp [labelsOf, hx]
      rw [e1] at hn
      simp only [List.mem_cons, not_or] at hn
      rw [ih _ _ _ hn.2]
      simp only [hx, if_true]
      exact Env.find_set_other _ _ _ _ (Ne.symm hn.1)
    · have e1 : labelsOf (x :: rest) = labelsOf rest := by simp [labelsOf, hx]
      rw [e1] at hn
      rw [ih _ _ _ hn]
      simp [hx]

theorem IRVM.buildLabels_append (A B : List IRInstr) :
    ∀ (i : Nat) (labels : Env Nat),
      IRVM.buildLabels (A ++ B) i labels
        = IRVM.buildLabels B (i + A.length) (IRVM.buildLabels A i labels) := by
  induction A with
  | nil => intro i labels; rfl
  | cons x rest ih =>
    intro i labels
    have e : i + 1 + rest.length = i + (rest.length + 1) := by omega
    show IRVM.buildLabels (rest ++ B) (i + 1) _ = _
    rw [ih, e]
    rfl

/-- With unique label names, a label resolves to the index of its `LABEL` instruction. -/
theorem IRVM.labelIndex_of_nodup {prog A B : List IRInstr} {name : String}
    (hp : prog = A ++ { op := .LABEL, arg := name } :: B) (hn : (labelsOf prog).Nodup) :
    IRVM.labelIndex (IRVM.buildLabels prog 0 []) name = A.length := by
  have h1 : name ∉ labelsOf B := by
    rw [hp, labelsOf_append, labelsOf_cons_label] at hn
    have := (List.nodup_append.mp hn).2.1
    exact (List.nodup_cons.mp this).1
  rw [hp, IRVM.buildLabels_append]
  simp only [IRVM.buildLabels, if_true, IRVM.labelIndex]
  rw [IRVM.buildLabels_find_of_not_mem _ _ _ _ h1, Env.find_set_same]
  simp

/-! ## The compiler against the interpreter: forward simulation -/

section Simulation

/-! ## The compiler is correct on successful interpretations: expressions -/

open Interpreter

/-- The opcode of an operator that the interpreter applies successfully computes, on the
VM stack, the integer of the interpreter's result. -/
theorem exec_binary {op : String} {a b : Int} {v : Value}
    (h : applyBinary op (.int a) (.int b) = .ok v) :
    ∃ c, binaryOpCode op = some c ∧
      ∀ (labels : Env Nat) (st : VMState) (stk : List Int), st.stack = b :: a :: stk →
        IRVM.exec labels { op := c, arg := "" } st = .ok { st with stack := v.toInt :: stk } := by
  unfold applyBinary at h
  by_cases h1 : op = "+"
  · subst h1
    simp [Value.asInt] at h
    subst h
    exact ⟨.ADD, rfl, fun labels st stk hs => by simp [IRVM.exec, IRVM.binop, hs, Value.toInt]⟩
  by_cases h2 : op = "-"
  · subst h2
    simp [Value.asInt] at h
    subst h
    exact ⟨.SUB, rfl, fun labels st stk hs => by simp [IRVM.exec, IRVM.binop, hs, Value.toInt]⟩
  by_cases h3 : op = "*"
  · subst h3
    simp [Value.asInt] at h
    subst h
    exact ⟨.MUL, rfl, fun labels st stk hs => by simp [IRVM.exec, IRVM.binop, hs, Value.toInt]⟩
  by_cases h4 : op = "/"
  · subst h4
    by_cases hb : b = 0
    · simp [Value.asInt, hb] at h
    · by_cases ho : a = -2147483648 ∧ b = -1
      · simp [Value.asInt, ho] at h
      · simp only [Value.asInt] at h
        rw [if_neg hb, if_neg ho] at h
        simp at h
        subst h
        refine ⟨.DIV, rfl, fun labels st stk hs => ?_⟩
        simp only [IRVM.exec, hs]
        rw [if_neg hb, if_neg ho]
        simp [Value.toInt]
  by_cases h5 : op = "=="
  · subst h5
    simp [Value.asInt] at h
    subst h
    refine ⟨.EQ, rfl, fun labels st stk hs => ?_⟩
    by_cases hab : a = b <;> simp [IRVM.exec, IRVM.binop, hs, Value.toInt, hab]
  by_cases h6 : op = "<"
  · subst h6
    simp [Value.asInt] at h
    subst h
    refine ⟨.LT, rfl, fun labels st stk hs => ?_⟩
    by_cases hab : a < b <;> simp [IRVM.exec, IRVM.binop, hs, Value.toInt, hab]
  by_cases h7 : op = ">"
  · subst h7
    simp [Value.asInt] at h
    subst h
    refine ⟨.GT, rfl, fun labels st stk hs => ?_⟩
    by_cases hab : b < a <;> simp [IRVM.exec, IRVM.binop, hs, Value.toInt, hab]
  simp [h1, h2, h3, h4, h5, h6, h7] at h

/-- Expressions: if the interpreter evaluates `e` to `v`, the state of the interpreter is
unchanged and the VM, placed at the start of the code of `e`, reaches its end having pushed
the integer of `v`. -/
theorem sim_expr (fuel : Nat) :
    ∀ (e : ASTNode) (ist ist1 : IState) (v : Value),
      eval fuel e ist = .ok v ist1 → e.isExpr = true →
      ∀ (prog : List IRInstr) (labels : Env Nat) (pre post : List IRInstr) (lc : Int)
        (st : VMState),
        prog = pre ++ code e lc ++ post → st.ip = pre.length → VarsAgree ist.vars st.vars →
        ist1 = ist ∧ ∃ st1, Reach prog labels st st1 ∧
          st1.ip = pre.length + (code e lc).length ∧ st1.stack = v.toInt :: st.stack ∧
          st1.vars = st.vars ∧ st1.out = st.out := by
  induction fuel with
  | zero => intro e ist ist1 v he; simp [eval] at he
  | succ f ih =>
    intro e ist ist1 v he hexpr prog labels pre post lc st hp hip hva
    cases e with
    | nullptr => simp [ASTNode.isExpr] at hexpr
    | Assignment n x => simp [ASTNode.isExpr] at hexpr
    | IfStmt c t e => simp [ASTNode.isExpr] at hexpr
    | WhileStmt c b => simp [ASTNode.isExpr] at hexpr
    | Block stmts => simp [ASTNode.isExpr] at hexpr
    | PrintStmt x => simp [ASTNode.isExpr] at hexpr
    | Literal x =>
      simp only [eval_succ, evalLiteral, IResult.ok.injEq] at he
      obtain ⟨rfl, rfl⟩ := he
      simp only [ASTNode.isExpr, decide_eq_true_eq] at hexpr
      refine ⟨rfl, { st with stack := x :: st.stack, ip := st.ip + 1 }, ?_, ?_, rfl, rfl, rfl⟩
      · refine Reach.single ?_
        rw [code_literal, List.append_assoc] at hp
        rw [IRVM.step_at labels hp hip]
        simp [IRVM.exec, toInt_to_string x hexpr]
      · simp [code_literal, hip]
    | Identifier n =>
      simp only [eval_succ, evalIdentifier] at he
      cases hf : ist.vars.find n with
      | none => rw [hf] at he; cases he
      | some w =>
        rw [hf] at he
        simp only [IResult.ok.injEq] at he
        obtain ⟨rfl, rfl⟩ := he
        have h1 := hva n
        rw [hf] at h1
        cases hv : st.vars.find n with
        | none => rw [hv] at h1; cases h1
        | some k =>
          rw [hv] at h1
          simp only [Option.map_some', Option.some.injEq] at h1
          subst h1
          refine ⟨rfl, { st with stack := k :: st.stack, ip := st.ip + 1 }, ?_, ?_, rfl, rfl, rfl⟩
          · refine Reach.single ?_
            rw [code_identifier, List.append_assoc] at hp
            rw [IRVM.step_at labels hp hip]
            simp [IRVM.exec, hv]
          · simp [code_identifier, hip]
    | BinaryExpr op l r =>
      simp only [ASTNode.isExpr, Bool.and_eq_true] at hexpr
      simp only [eval_succ] at he
      obtain ⟨vl, st2, vr, hl, hr, hab⟩ := evalBinaryExpr_ok he
      obtain ⟨a, b, rfl, rfl, hab2⟩ := applyBinary_ok hab
      obtain ⟨c, hc, hexec⟩ := exec_binary hab2
      have hcode : code (.BinaryExpr op l r) lc
          = code l lc ++ code r (nextLabel l lc) ++ [{ op := c, arg := "" }] := by
        rw [code_binary, hc]
      rw [hcode] at hp ⊢
      have hp1 : prog = pre ++ code l lc
          ++ (code r (nextLabel l lc) ++ { op := c, arg := "" } :: post) := by
        rw [hp]; simp [List.append_assoc]
      obtain ⟨rfl, s1, hr1, hip1, hstk1, hv1, ho1⟩ :=
        ih l ist st2 _ hl hexpr.1.2 prog labels pre _ lc st hp1 hip hva
      have hp2 : prog = (pre ++ code l lc) ++ code r (nextLabel l lc)
          ++ ({ op := c, arg := "" } :: post) := by
        rw [hp]; simp [List.append_assoc]
      obtain ⟨rfl, s2, hr2, hip2, hstk2, hv2, ho2⟩ :=
        ih r _ ist1 _ hr hexpr.2 prog labels (pre ++ code l lc) _ (nextLabel l lc) s1 hp2
          (by rw [hip1]; simp) (by rw [hv1]; exact hva)
      have hp3 : prog = (pre ++ code l lc ++ code r (nextLabel l lc))
          ++ { op := c, arg := "" } :: post := by
        rw [hp]; simp [List.append_assoc]
      have hstk : s2.stack = b :: a :: st.stack := by
        rw [hstk2, hstk1]; rfl
      refine ⟨rfl, { s2 with stack := v.toInt :: st.stack, ip := s2.ip + 1 }, ?_, ?_, rfl, ?_, ?_⟩
      · refine (hr1.trans hr2).trans (Reach.single ?_)
        rw [IRVM.step_at labels hp3 (by rw [hip2]; simp only [List.length_append]),
          hexec labels s2 st.stack hstk]
      · simp [hip2]; omega
      · simp [hv2, hv1]
      · simp [ho2, ho1]

/-! ## The compiler is correct on successful interpretations: statements -/

theorem IRVM.step_jz_zero {prog A B : List IRInstr} {name : String} {st : VMState}
    {stk : List Int} (labels : Env Nat) (hp : prog = A ++ { op := .JZ, arg := name } :: B)
    (hip : st.ip = A.length) (hs : st.stack = 0 :: stk) :
    IRVM.step prog labels st
      = some (.ok { st with stack := stk, ip := IRVM.labelIndex labels name + 1 }) := by
  rw [IRVM.step_at labels hp hip]
  simp [IRVM.exec, hs]

theorem IRVM.step_jz_one {prog A B : List IRInstr} {name : String} {st : VMState}
    {stk : List Int} (labels : Env Nat) (hp : prog = A ++ { op := .JZ, arg := name } :: B)
    (hip : st.ip = A.length) (hs : st.stack = 1 :: stk) :
    IRVM.step prog labels st = some (.ok { st with stack := stk, ip := st.ip + 1 }) := by
  rw [IRVM.step_at labels hp hip]
  simp [IRVM.exec, hs]

theorem IRVM.step_jmp {prog A B : List IRInstr} {name : String} {st : VMState}
    (labels : Env Nat) (hp : prog = A ++ { op := .JMP, arg := name } :: B)
    (hip : st.ip = A.length) :
    IRVM.step prog labels st
      = some (.ok { st with ip := IRVM.labelIndex labels name + 1 }) := by
  rw [IRVM.step_at labels hp hip]
  simp [IRVM.exec]

theorem IRVM.step_label {prog A B : List IRInstr} {name : String} {st : VMState}
    (labels : Env Nat) (hp : prog = A ++ { op := .LABEL, arg := name } :: B)
    (hip : st.ip = A.length) :
    IRVM.step prog labels st = some (.ok { st with ip := st.ip + 1 }) := by
  rw [IRVM.step_at labels hp hip]
  simp [IRVM.exec]

theorem IRVM.step_store {prog A B : List IRInstr} {name : String} {st : VMState}
    {k : Int} {stk : List Int} (labels : Env Nat)
    (hp : prog = A ++ { op := .STORE, arg := name } :: B)
    (hip : st.ip = A.length) (hs : st.stack = k :: stk) :
    IRVM.step prog labels st
      = some (.ok { st with stack := stk, vars := st.vars.set name k, ip := st.ip + 1 }) := by
  rw [IRVM.step_at labels hp hip]
  simp [IRVM.exec, hs]

theorem IRVM.step_print {prog A B : List IRInstr} {st : VMState}
    {k : Int} {stk : List Int} (labels : Env Nat)
    (hp : prog = A ++ { op := .PRINT, arg := "" } :: B)
    (hip : st.ip = A.length) (hs : st.stack = k :: stk) :
    IRVM.step prog labels st
      = some (.ok { st with stack := stk, out := st.out ++ [k], ip := st.ip + 1 }) := by
  rw [IRVM.step_at labels hp hip]
  simp [IRVM.exec, hs]

open Interpreter

/-- Statements of a block, given the simulation of single statements. -/
theorem sim_block {f : Nat} (hsim : StmtSim f) (stmts : List ASTNode) :
    ∀ (last : Value) (ist ist1 : IState) (v : Value),
      evalBlockLoop (eval f) stmts last ist = .ok v ist1 → ASTNode.isStmtList stmts = true →
      ∀ (prog pre post : List IRInstr) (lc : Int) (st : VMState),
        prog = pre ++ codeStmts stmts lc ++ post → (labelsOf prog).Nodup →
        st.ip = pre.length → st.out = ist.out → VarsAgree ist.vars st.vars →
        ∃ st1, Reach prog (IRVM.buildLabels prog 0 []) st st1 ∧
          st1.ip = pre.length + (codeStmts stmts lc).length ∧ st1.out = ist1.out ∧
          VarsAgree ist1.vars st1.vars := by
  induction stmts with
  | nil =>
    intro last ist ist1 v he _ prog pre post lc st hp hn hip ho hva
    simp only [evalBlockLoop, IResult.ok.injEq] at he
    obtain ⟨rfl, rfl⟩ := he
    exact ⟨st, Reach.refl st, by simp [codeStmts_nil, hip], ho, hva⟩
  | cons a rest ih =>
    intro last ist ist1 v he hst prog pre post lc st hp hn hip ho hva
    simp only [ASTNode.isStmtList, Bool.and_eq_true] at hst
    obtain ⟨v1, ist2, ha, _, hrest⟩ := evalBlockLoop_cons_ok he
    rw [codeStmts_cons] at hp ⊢
    have hp1 : prog = pre ++ code a lc ++ (codeStmts rest (nextLabel a lc) ++ post) := by
      rw [hp]; simp [List.append_assoc]
    obtain ⟨s1, hr1, hip1, ho1, hva1⟩ :=
      hsim a ist ist2 v1 ha hst.1 prog pre _ lc st hp1 hn hip ho hva
    have hp2 : prog = (pre ++ code a lc) ++ codeStmts rest (nextLabel a lc) ++ post := by
      rw [hp]; simp [List.append_assoc]
    obtain ⟨s2, hr2, hip2, ho2, hva2⟩ :=
      ih v1 ist2 ist1 v hrest hst.2 prog (pre ++ code a lc) post (nextLabel a lc) s1 hp2 hn
        (by rw [hip1]; simp) ho1 hva1
    refine ⟨s2, hr1.trans hr2, ?_, ho2, hva2⟩
    rw [hip2]
    simp only [List.length_append]
    omega

theorem isStmt_if {c t e : ASTNode} (h : (ASTNode.IfStmt c t e).isStmt = true) :
    c.isExpr = true ∧ t.isStmt = true ∧ (e = .nullptr ∨ e.isStmt = true) := by
  cases e <;> simp_all [ASTNode.isStmt]

/-- The loop of a `WhileStmt`, from the start of the code of its condition. -/
theorem sim_while {f : Nat} (hsim : StmtSim f) {c b : ASTNode} (hc : c.isExpr = true)
    (hb : b.isStmt = true) {prog pre post : List IRInstr} {lc : Int}
    (hp : prog = pre ++ code (.WhileStmt c b) lc ++ post) (hn : (labelsOf prog).Nodup) (n : Nat) :
    ∀ (last : Value) (ist ist1 : IState) (v : Value),
      evalWhileLoop (eval f) c b n last ist = .ok v ist1 →
      ∀ (st : VMState), st.ip = pre.length + 1 → st.out = ist.out → VarsAgree ist.vars st.vars →
        ∃ st1, Reach prog (IRVM.buildLabels prog 0 []) st st1 ∧
          st1.ip = pre.length + (code (.WhileStmt c b) lc).length ∧ st1.out = ist1.out ∧
          VarsAgree ist1.vars st1.vars := by
  have hlen : (code (.WhileStmt c b) lc).length
      = 1 + (code c (lc + 2)).length + 1 + (code b (nextLabel c (lc + 2))).length + 2 := by
    rw [code_while]; simp [List.length_append]; omega
  rw [code_while] at hp
  have w0 : prog = pre ++ { op := .LABEL, arg := "L_start_" ++ to_string lc } ::
      (code c (lc + 2) ++ { op := .JZ, arg := "L_end_" ++ to_string (lc + 1) } ::
        (code b (nextLabel c (lc + 2)) ++
          [{ op := .JMP, arg := "L_start_" ++ to_string lc },
           { op := .LABEL, arg := "L_end_" ++ to_string (lc + 1) }]) ++ post) := by
    rw [hp]; simp [List.append_assoc]
  have w1 : prog = (pre ++ [{ op := .LABEL, arg := "L_start_" ++ to_string lc }])
      ++ code c (lc + 2) ++ ({ op := .JZ, arg := "L_end_" ++ to_string (lc + 1) } ::
        (code b (nextLabel c (lc + 2)) ++
          [{ op := .JMP, arg := "L_start_" ++ to_string lc },
           { op := .LABEL, arg := "L_end_" ++ to_string (lc + 1) }]) ++ post) := by
    rw [hp]; simp [List.append_assoc]
  have w2 : prog = (pre ++ [{ op := .LABEL, arg := "L_start_" ++ to_string lc }]
      ++ code c (lc + 2)) ++ { op := .JZ, arg := "L_end_" ++ to_string (lc + 1) } ::
        (code b (nextLabel c (lc + 2)) ++
          [{ op := .JMP, arg := "L_start_" ++ to_string lc },
           { op := .LABEL, arg := "L_end_" ++ to_string (lc + 1) }] ++ post) := by
    rw [hp]; simp [List.append_assoc]
  have w3 : prog = (pre ++ [{ op := .LABEL, arg := "L_start_" ++ to_string lc }]
      ++ code c (lc + 2) ++ [{ op := .JZ, arg := "L_end_" ++ to_string (lc + 1) }])
      ++ code b (nextLabel c (lc + 2)) ++
        ([{ op := .JMP, arg := "L_start_" ++ to_string lc },
          { op := .LABEL, arg := "L_end_" ++ to_string (lc + 1) }] ++ post) := by
    rw [hp]; simp [List.append_assoc]
  have w4 : prog = (pre ++ [{ op := .LABEL, arg := "L_start_" ++ to_string lc }]
      ++ code c (lc + 2) ++ [{ op := .JZ, arg := "L_end_" ++ to_string (lc + 1) }]
      ++ code b (nextLabel c (lc + 2))) ++
        { op := .JMP, arg := "L_start_" ++ to_string lc } ::
          ({ op := .LABEL, arg := "L_end_" ++ to_string (lc + 1) } :: post) := by
    rw [hp]; simp [List.append_assoc]
  have w5 : prog = (pre ++ [{ op := .LABEL, arg := "L_start_" ++ to_string lc }]
      ++ code c (lc + 2) ++ [{ op := .JZ, arg := "L_end_" ++ to_string (lc + 1) }]
      ++ code b (nextLabel c (lc + 2)) ++ [{ op := .JMP, arg := "L_start_" ++ to_string lc }]) ++
          { op := .LABEL, arg := "L_end_" ++ to_string (lc + 1) } :: post := by
    rw [hp]; simp [List.append_assoc]
  have lstart := IRVM.labelIndex_of_nodup w0 hn
  have lend := IRVM.labelIndex_of_nodup w5 hn
  induction n with
  | zero => intro last ist ist1 v he; simp [evalWhileLoop] at he
  | succ n ih =>
    intro last ist ist1 v he st hip ho hva
    obtain ⟨cond, ist2, hcond, hcase⟩ := evalWhileLoop_succ_ok he
    obtain ⟨rfl, s1, hr1, hip1, hstk1, hv1, ho1⟩ :=
      sim_expr f c ist ist2 _ hcond hc prog (IRVM.buildLabels prog 0 []) _ _ (lc + 2) st w1
        (by rw [hip]; simp) hva
    rcases hcase with ⟨rfl, rfl, rfl⟩ | ⟨rfl, v2, ist3, hbody, _, hrest⟩
    · refine ⟨{ s1 with
          stack := st.stack
          ip := IRVM.labelIndex (IRVM.buildLabels prog 0 []) ("L_end_" ++ to_string (lc + 1)) + 1 },
        hr1.trans (Reach.single ?_), ?_, ?_, ?_⟩
      · exact IRVM.step_jz_zero _ w2 (by rw [hip1]; simp only [List.length_append, List.length_cons, List.length_nil]) hstk1
      · simp only [lend, hlen, List.length_append, List.length_cons, List.length_nil]
        omega
      · simp [ho1, ho]
      · simp [hv1]; exact hva
    · have hstep := IRVM.step_jz_one (IRVM.buildLabels prog 0 []) w2
        (by rw [hip1]; simp only [List.length_append, List.length_cons, List.length_nil]) hstk1
      obtain ⟨s2, hr2, hip2, ho2, hva2⟩ :=
        hsim b ist2 ist3 v2 hbody hb prog _ _ (nextLabel c (lc + 2))
          { s1 with stack := st.stack, ip := s1.ip + 1 } w3 hn
          (by simp only [hip1, List.length_append, List.length_cons, List.length_nil]) (by simp [ho1, ho])
          (by simp [hv1]; exact hva)
      have hjmp := IRVM.step_jmp (IRVM.buildLabels prog 0 []) w4 (show s2.ip = _ by rw [hip2]; simp only [List.length_append])
      obtain ⟨s3, hr3, hip3, ho3, hva3⟩ :=
        ih v2 ist3 ist1 v hrest
          { s2 with
            ip := IRVM.labelIndex (IRVM.buildLabels prog 0 []) ("L_start_" ++ to_string lc) + 1 }
          (by simp [lstart]) (by simp [ho2]) (by simpa using hva2)
      exact ⟨s3, ((hr1.trans (Reach.single hstep)).trans hr2).trans
        ((Reach.single hjmp).trans hr3), hip3, ho3, hva3⟩

/-- Simulation of every statement built by the parser: whenever the interpreter ends a
statement normally, the VM runs the code compiled from it to its end, with the same printed
integers and the same bindings. -/
theorem sim_stmt : ∀ f, StmtSim f := by
  intro f
  induction f with
  | zero =>
    intro s ist ist1 v he
    simp [eval] at he
  | succ f ih =>
    intro s ist ist1 v he hs prog pre post lc st hp hn hip ho hva
    cases s with
    | nullptr => simp [ASTNode.isStmt] at hs
    | Literal k =>
      obtain ⟨rfl, st1, hr, hip1, _, hv, ho1⟩ :=
        sim_expr (f + 1) _ ist ist1 v he (by simpa [ASTNode.isStmt, ASTNode.isExpr] using hs)
          prog _ pre post lc st hp hip hva
      exact ⟨st1, hr, hip1, by rw [ho1, ho], by rw [hv]; exact hva⟩
    | Identifier n =>
      obtain ⟨rfl, st1, hr, hip1, _, hv, ho1⟩ :=
        sim_expr (f + 1) _ ist ist1 v he (by simp [ASTNode.isExpr])
          prog _ pre post lc st hp hip hva
      exact ⟨st1, hr, hip1, by rw [ho1, ho], by rw [hv]; exact hva⟩
    | BinaryExpr op l r =>
      obtain ⟨rfl, st1, hr, hip1, _, hv, ho1⟩ :=
        sim_expr (f + 1) _ ist ist1 v he (by simpa [ASTNode.isStmt] using hs)
          prog _ pre post lc st hp hip hva
      exact ⟨st1, hr, hip1, by rw [ho1, ho], by rw [hv]; exact hva⟩
    | Assignment n x =>
      rw [eval_succ] at he
      obtain ⟨k, ist2, hex, rfl, rfl⟩ := evalAssignment_ok he
      have hx : x.isExpr = true := by simpa [ASTNode.isStmt] using hs
      rw [code_assignment] at hp
      have a1 : prog = pre ++ code x lc ++ ({ op := .STORE, arg := n } :: post) := by
        rw [hp]; simp [List.append_assoc]
      have a2 : prog = (pre ++ code x lc) ++ { op := .STORE, arg := n } :: post := a1
      obtain ⟨rfl, s1, hr1, hip1, hstk1, hv1, ho1⟩ :=
        sim_expr f x ist ist2 _ hex hx prog (IRVM.buildLabels prog 0 []) _ _ lc st a1 hip hva
      have hstep := IRVM.step_store (IRVM.buildLabels prog 0 []) a2
        (show s1.ip = _ by rw [hip1]; simp only [List.length_append]) hstk1
      refine ⟨_, hr1.trans (Reach.single hstep), ?_, ?_, ?_⟩
      · simp only [hip1, code_assignment, List.length_append, List.length_cons, List.length_nil]
        omega
      · simp [ho1, ho]
      · simp only [hv1, Value.toInt]
        exact hva.set n k
    | PrintStmt x =>
      rw [eval_succ] at he
      obtain ⟨k, ist2, hex, rfl, rfl⟩ := evalPrintStmt_ok he
      have hx : x.isExpr = true := by simpa [ASTNode.isStmt] using hs
      rw [code_print] at hp
      have a1 : prog = pre ++ code x lc ++ ({ op := .PRINT, arg := "" } :: post) := by
        rw [hp]; simp [List.append_assoc]
      have a2 : prog = (pre ++ code x lc) ++ { op := .PRINT, arg := "" } :: post := a1
      obtain ⟨rfl, s1, hr1, hip1, hstk1, hv1, ho1⟩ :=
        sim_expr f x ist ist2 _ hex hx prog (IRVM.buildLabels prog 0 []) _ _ lc st a1 hip hva
      have hstep := IRVM.step_print (IRVM.buildLabels prog 0 []) a2
        (show s1.ip = _ by rw [hip1]; simp only [List.length_append]) hstk1
      refine ⟨_, hr1.trans (Reach.single hstep), ?_, ?_, ?_⟩
      · simp only [hip1, code_print, List.length_append, List.length_cons, List.length_nil]
        omega
      · simp [ho1, ho, Value.toInt]
      · simp only [hv1]
        exact hva
    | Block stmts =>
      rw [eval_succ] at he
      rw [code_block] at hp ⊢
      exact sim_block ih stmts default ist ist1 v he (by simpa [ASTNode.isStmt] using hs)
        prog pre post lc st hp hn hip ho hva
    | WhileStmt c b =>
      rw [eval_succ] at he
      have hcb : c.isExpr = true ∧ b.isStmt = true := by simpa [ASTNode.isStmt] using hs
      have w0 : prog = pre ++ { op := .LABEL, arg := "L_start_" ++ to_string lc } ::
          (code c (lc + 2) ++ { op := .JZ, arg := "L_end_" ++ to_string (lc + 1) } ::
            (code b (nextLabel c (lc + 2)) ++
              [{ op := .JMP, arg := "L_start_" ++ to_string lc },
               { op := .LABEL, arg := "L_end_" ++ to_string (lc + 1) }]) ++ post) := by
        rw [hp, code_while]; simp [List.append_assoc]
      have hstep := IRVM.step_label (IRVM.buildLabels prog 0 []) w0 hip
      obtain ⟨s1, hr1, hip1, ho1, hva1⟩ :=
        sim_while ih hcb.1 hcb.2 hp hn f default ist ist1 v he
          { st with ip := st.ip + 1 } (by simp [hip]) ho hva
      exact ⟨s1, (Reach.single hstep).trans hr1, hip1, ho1, hva1⟩
    | IfStmt c t e =>
      rw [eval_succ] at he
      obtain ⟨hc, ht, hels⟩ := isStmt_if hs
      have hlen : (code (.IfStmt c t e) lc).length
          = (code c (lc + 2)).length + 1 + (code t (nextLabel c (lc + 2))).length + 2
            + (code e (nextLabel t (nextLabel c (lc + 2)))).length + 1 := by
        rw [code_if]; simp [List.length_append]; omega
      rw [code_if] at hp
      have i1 : prog = pre ++ code c (lc + 2) ++
          ({ op := .JZ, arg := "L_else_" ++ to_string lc } ::
            (code t (nextLabel c (lc + 2)) ++
              { op := .JMP, arg := "L_end_" ++ to_string (lc + 1) } ::
              { op := .LABEL, arg := "L_else_" ++ to_string lc } ::
              (code e (nextLabel t (nextLabel c (lc + 2))) ++
                [{ op := .LABEL, arg := "L_end_" ++ to_string (lc + 1) }])) ++ post) := by
        rw [hp]; simp [List.append_assoc]
      have i2 : prog = (pre ++ code c (lc + 2)) ++
          { op := .JZ, arg := "L_else_" ++ to_string lc } ::
            (code t (nextLabel c (lc + 2)) ++
              { op := .JMP, arg := "L_end_" ++ to_string (lc + 1) } ::
              { op := .LABEL, arg := "L_else_" ++ to_string lc } ::
              (code e (nextLabel t (nextLabel c (lc + 2))) ++
                [{ op := .LABEL, arg := "L_end_" ++ to_string (lc + 1) }]) ++ post) := by
        rw [hp]; simp [List.append_assoc]
      have i3 : prog = (pre ++ code c (lc + 2) ++ [{ op := .JZ, arg := "L_else_" ++ to_string lc }])
          ++ code t (nextLabel c (lc + 2)) ++
            ({ op := .JMP, arg := "L_end_" ++ to_string (lc + 1) } ::
              { op := .LABEL, arg := "L_else_" ++ to_string lc } ::
              (code e (nextLabel t (nextLabel c (lc + 2))) ++
                [{ op := .LABEL, arg := "L_end_" ++ to_string (lc + 1) }]) ++ post) := by
        rw [hp]; simp [List.append_assoc]
      have i4 : prog = (pre ++ code c (lc + 2) ++ [{ op := .JZ, arg := "L_else_" ++ to_string lc }]
          ++ code t (nextLabel c (lc + 2))) ++
            { op := .JMP, arg := "L_end_" ++ to_string (lc + 1) } ::
              ({ op := .LABEL, arg := "L_else_" ++ to_string lc } ::
              (code e (nextLabel t (nextLabel c (lc + 2))) ++
                [{ op := .LABEL, arg := "L_end_" ++ to_string (lc + 1) }]) ++ post) := by
        rw [hp]; simp [List.append_assoc]
      have i5 : prog = (pre ++ code c (lc + 2) ++ [{ op := .JZ, arg := "L_else_" ++ to_string lc }]
          ++ code t (nextLabel c (lc + 2))
          ++ [{ op := .JMP, arg := "L_end_" ++ to_string (lc + 1) }]) ++
              { op := .LABEL, arg := "L_else_" ++ to_string lc } ::
              (code e (nextLabel t (nextLabel c (lc + 2))) ++
                [{ op := .LABEL, arg := "L_end_" ++ to_string (lc + 1) }] ++ post) := by
        rw [hp]; simp [List.append_assoc]
      have i6 : prog = (pre ++ code c (lc + 2) ++ [{ op := .JZ, arg := "L_else_" ++ to_string lc }]
          ++ code t (nextLabel c (lc + 2))
          ++ [{ op := .JMP, arg := "L_end_" ++ to_string (lc + 1) }]
          ++ [{ op := .LABEL, arg := "L_else_" ++ to_string lc }])
          ++ code e (nextLabel t (nextLabel c (lc + 2))) ++
                ([{ op := .LABEL, arg := "L_end_" ++ to_string (lc + 1) }] ++ post) := by
        rw [hp]; simp [List.append_assoc]
      have i7 : prog = (pre ++ code c (lc + 2) ++ [{ op := .JZ, arg := "L_else_" ++ to_string lc }]
          ++ code t (nextLabel c (lc + 2))
          ++ [{ op := .JMP, arg := "L_end_" ++ to_string (lc + 1) }]
          ++ [{ op := .LABEL, arg := "L_else_" ++ to_string lc }]
          ++ code e (nextLabel t (nextLabel c (lc + 2)))) ++
                { op := .LABEL, arg := "L_end_" ++ to_string (lc + 1) } :: post := by
        rw [hp]; simp [List.append_assoc]
      have lelse := IRVM.labelIndex_of_nodup i5 hn
      have lend := IRVM.labelIndex_of_nodup i7 hn
      obtain ⟨cond, ist2, hcond, hcase⟩ := evalIfStmt_ok he
      obtain ⟨rfl, s1, hr1, hip1, hstk1, hv1, ho1⟩ :=
        sim_expr f c ist ist2 _ hcond hc prog (IRVM.buildLabels prog 0 []) _ _ (lc + 2) st i1
          hip hva
      rcases hcase with ⟨rfl, hthen⟩ | hfalse
      · have hstep := IRVM.step_jz_one (IRVM.buildLabels prog 0 []) i2
          (show s1.ip = _ by rw [hip1]; simp only [List.length_append]) hstk1
        obtain ⟨s2, hr2, hip2, ho2, hva2⟩ :=
          ih t ist2 ist1 v hthen ht prog _ _ (nextLabel c (lc + 2))
            { s1 with stack := st.stack, ip := s1.ip + 1 } i3 hn
            (by simp only [hip1, List.length_append, List.length_cons, List.length_nil])
            (by simp [ho1, ho]) (by simp [hv1]; exact hva)
        have hjmp := IRVM.step_jmp (IRVM.buildLabels prog 0 []) i4
          (show s2.ip = _ by rw [hip2]; simp only [List.length_append])
        refine ⟨_, ((hr1.trans (Reach.single hstep)).trans hr2).trans (Reach.single hjmp),
          ?_, ho2, hva2⟩
        simp only [lend, hlen, List.length_append, List.length_cons, List.length_nil]
        omega
      · have hb : cond = false := by
          rcases hfalse with ⟨h, _⟩ | ⟨h, _⟩ <;> exact h
        subst hb
        have hstep := IRVM.step_jz_zero (IRVM.buildLabels prog 0 []) i2
          (show s1.ip = _ by rw [hip1]; simp only [List.length_append]) hstk1
        have helse : ∃ s2, Reach prog (IRVM.buildLabels prog 0 [])
            { s1 with
              stack := st.stack
              ip := IRVM.labelIndex (IRVM.buildLabels prog 0 []) ("L_else_" ++ to_string lc) + 1 }
            s2 ∧
            s2.ip = pre.length + (code c (lc + 2)).length + 1
              + (code t (nextLabel c (lc + 2))).length + 2
              + (code e (nextLabel t (nextLabel c (lc + 2)))).length ∧
            s2.out = ist1.out ∧ VarsAgree ist1.vars s2.vars := by
          rcases hfalse with ⟨_, rfl, _, rfl⟩ | ⟨_, hne, helse⟩
          · refine ⟨_, Reach.refl _, ?_, by simp [ho1, ho], by simp [hv1]; exact hva⟩
            simp only [lelse, code_null, List.length_append, List.length_cons, List.length_nil]
          · rcases hels with h | h
            · exact absurd h hne
            · obtain ⟨s2, hr2, hip2, ho2, hva2⟩ := ih e ist2 ist1 v helse h prog _ _ _
                { s1 with
                  stack := st.stack
                  ip := IRVM.labelIndex (IRVM.buildLabels prog 0 [])
                    ("L_else_" ++ to_string lc) + 1 } i6 hn
                (by simp only [lelse, List.length_append, List.length_cons, List.length_nil])
                (by simp [ho1, ho]) (by simp [hv1]; exact hva)
              refine ⟨s2, hr2, ?_, ho2, hva2⟩
              simp only [hip2, List.length_append, List.length_cons, List.length_nil]
        obtain ⟨s2, hr2, hip2, ho2, hva2⟩ := helse
        have hlab := IRVM.step_label (IRVM.buildLabels prog 0 []) i7
          (show s2.ip = _ by
            rw [hip2]; simp only [List.length_append, List.length_cons, List.length_nil])
        refine ⟨_, ((hr1.trans (Reach.single hstep)).trans hr2).trans (Reach.single hlab),
          ?_, ho2, hva2⟩
        simp only [hip2, hlen, List.length_append, List.length_cons, List.length_nil]
        omega

end Simulation

/-! ## Interpreter and VM on whole programs -/

theorem IRVM.runLoop_mono (prog : List IRInstr) (labels : Env Nat) :
    ∀ (n : Nat) (st b : VMState), IRVM.runLoop prog labels n st = .done b →
      ∀ m, n ≤ m → IRVM.runLoop prog labels m st = .done b := by
  intro n
  induction n with
  | zero => intro st b h; simp [IRVM.runLoop] at h
  | succ n ih =>
    intro st b h m hm
    obtain ⟨k, rfl⟩ : ∃ k, m = k + 1 := ⟨m - 1, by omega⟩
    simp only [IRVM.runLoop] at h ⊢
    cases hs : IRVM.step prog labels st with
    | none => rw [hs] at h; exact h
    | some r =>
      rw [hs] at h
      cases r with
      | ok st1 => exact ih st1 b h k (by omega)
      | error e => simp at h

/-- Whole programs: if the interpreter ends a parsed tree normally from the empty
environment, every long enough run of the compiled program ends normally in one final state
with the same printed integers and the same bindings. -/
theorem compile_run_of_eval_ok {fuel : Nat} {input : String} {tree : ASTNode} {rest : List Char}
    {f : Nat} {v : Value} {ist : IState}
    (hparse : Parser.parse fuel input = .ok tree rest)
    (heval : Interpreter.eval f tree Interpreter.init = .ok v ist) :
    ∃ st, st.out = ist.out ∧ VarsAgree ist.vars st.vars ∧
      ∃ n, ∀ m, n ≤ m → IRVM.run m (compileProgram tree) = .done st := by
  have hs := Parser.parse_isStmt hparse
  have hn : (labelsOf (code tree 0)).Nodup := (code_labels tree 0).2.1
  obtain ⟨st1, hr, hip, ho, hva⟩ :=
    sim_stmt f tree Interpreter.init ist v heval hs (code tree 0) [] [] 0 IRVM.start
      (by simp) hn rfl rfl (fun _ => rfl)
  have hend : IRVM.step (code tree 0) (IRVM.buildLabels (code tree 0) 0 []) st1 = none :=
    IRVM.step_end _ (by rw [hip]; simp)
  obtain ⟨n, hrun⟩ := hr.run hend
  exact ⟨st1, ho, hva, n, fun m hm => IRVM.runLoop_mono _ _ n _ _ hrun m hm⟩

/-- C1 (as stated, refuted): the source `print 1 < 2;` is accepted by the parser and reads no
variable at all, yet the interpreter throws `bad_variant_access` in `evalPrintStmt` having
printed nothing, while the compiled program runs to its end on the VM and prints `1`. -/
theorem print_comparison_interpreter_throws_vm_prints :
    Parser.parse 10 "print 1 < 2;" = .ok printComparisonTree [] ∧
    printComparisonTree.identifiersRead = [] ∧
    Interpreter.eval 10 printComparisonTree Interpreter.init
      = .error .bad_variant_access { vars := [], out := [] } ∧
    IRVM.run 10 (compileProgram printComparisonTree)
      = .done { ip := 4, stack := [], vars := [], out := [1] } := by
  refine ⟨by rfl, by rfl, by decide, by decide⟩

/-- C1 (amended): for every program accepted by the parser whose interpretation from the
empty environment ends without an error, compiling the tree with `labelCount` 0 and running
it on the VM ends normally (for every large enough bound on the number of VM iterations),
having printed the identical sequence of integers and holding the same variable bindings. -/
theorem interpreter_and_vm_agree (fuel : Nat) (input : String) (tree : ASTNode)
    (rest : List Char) (f : Nat) (v : Value) (ist : IState)
    (hparse : Parser.parse fuel input = .ok tree rest)
    (heval : Interpreter.eval f tree Interpreter.init = .ok v ist) :
    ∃ st, st.out = ist.out ∧ VarsAgree ist.vars st.vars ∧
      ∃ n, ∀ m, n ≤ m → IRVM.run m (compileProgram tree) = .done st :=
  compile_run_of_eval_ok hparse heval

/-- Witness for C1 (amended): the loop-accumulation program is accepted by the parser and
interpreted without error, so its compiled form agrees with the interpreter. -/
theorem interpreter_and_vm_agree_witness :
    Parser.parse 100 loopSource = .ok loopTree [] ∧
    Interpreter.eval 10 loopTree Interpreter.init
      = .ok (.int 10) { vars := [("i", .int 5), ("s", .int 10)], out := [10] } ∧
    ∃ st, st.out = [10] ∧ VarsAgree [("i", .int 5), ("s", .int 10)] st.vars ∧
      ∃ n, ∀ m, n ≤ m → IRVM.run m (compileProgram loopTree) = .done st :=
  ⟨by rfl, by decide,
    interpreter_and_vm_agree 100 loopSource loopTree [] 10 (.int 10)
      { vars := [("i", .int 5), ("s", .int 10)], out := [10] } (by rfl) (by decide)⟩

/-! ## Runtime faults: division by zero and unbound variables -/

/-- C11: the source `x = 0; y = 4 / x; print y;` parses to `divisionTree`; the optimizer and
the compiler accept the tree without error (the division is not folded, and the compiled
program is the eight instructions listed); interpreting the tree fails with the
division-by-zero fault, and so does running the compiled program on the VM, at the `DIV`
instruction; in both runs nothing was printed and only `x` is bound, `y` is not. -/
theorem runtime_division_by_zero :
    Parser.parse 20 divisionSource = .ok divisionTree [] ∧
    optimizeAST divisionTree = .ok divisionTree ∧
    compileProgram divisionTree
      = { instructions := [{ op := .PUSH, arg := "0" }, { op := .STORE, arg := "x" },
          { op := .PUSH, arg := "4" }, { op := .LOAD, arg := "x" }, { op := .DIV, arg := "" },
          { op := .STORE, arg := "y" }, { op := .LOAD, arg := "y" },
          { op := .PRINT, arg := "" }] } ∧
    Interpreter.eval 10 divisionTree Interpreter.init
      = .error .division_by_zero { vars := [("x", .int 0)], out := [] } ∧
    IRVM.run 20 (compileProgram divisionTree)
      = .error .division_by_zero { ip := 4, stack := [0, 4], vars := [("x", 0)], out := [] } ∧
    Env.find [("x", Value.int 0)] "y" = none ∧ Env.find [("x", (0 : Int))] "y" = none := by
  refine ⟨by rfl, by rfl, by decide, by decide, by decide, by decide, by decide⟩

/-- C12: interpreting `Identifier n` (with fuel for one call) fails if and only if `n` is
absent from the variables; the failure is `runtime_error "Undefined variable: n"` and leaves
the state as it was; when `n` is bound to `v` the result is `v` and the state is unchanged.
In particular `print q;` parses to `printUnboundTree`, whose interpretation from the empty
environment fails with `Undefined variable: q` having printed nothing. -/
theorem identifier_lookup (fuel : Nat) (n : String) (st : IState) :
    ((∃ e st1, Interpreter.eval (fuel + 1) (.Identifier n) st = .error e st1)
      ↔ st.vars.find n = none) ∧
    (st.vars.find n = none →
      Interpreter.eval (fuel + 1) (.Identifier n) st
        = .error (.runtime_error ("Undefined variable: " ++ n)) st) ∧
    (∀ v, st.vars.find n = some v →
      Interpreter.eval (fuel + 1) (.Identifier n) st = .ok v st) ∧
    Parser.parse 10 "print q;" = .ok printUnboundTree [] ∧
    Interpreter.eval 10 printUnboundTree Interpreter.init
      = .error (.runtime_error "Undefined variable: q") { vars := [], out := [] } := by
  refine ⟨?_, ?_, ?_, by rfl, by decide⟩
  · cases h : st.vars.find n with
    | none => simp [Interpreter.eval, Interpreter.evalIdentifier, h]
    | some v => simp [Interpreter.eval, Interpreter.evalIdentifier, h]
  · intro h
    simp [Interpreter.eval, Interpreter.evalIdentifier, h]
  · intro v h
    simp [Interpreter.eval, Interpreter.evalIdentifier, h]

/-! ## The compiler: labels of a whole program -/

/-- C13: for every tree, the names of the `LABEL` instructions of the program compiled from
`labelCount` 0 are pairwise different, whatever the nesting of `if` and `while`; the same
holds from every other start value of the counter. The sample nests an `if` in a loop in
an `if`, beside a second loop: its eight labels use the counter values 0 to 7 once each. -/
theorem compiled_labels_unique (tree : ASTNode) :
    (labelsOf (compileProgram tree).instructions).Nodup ∧
    (∀ lc : Int, (labelsOf (compileAST tree { instructions := [] } lc).1.instructions).Nodup) ∧
    labelsOf (compileProgram nestedControlTree).instructions
      = ["L_start_2", "L_else_4", "L_end_5", "L_end_3", "L_else_0", "L_start_6", "L_end_7",
         "L_end_1"] :=
  ⟨(code_labels tree 0).2.1, fun lc => (code_labels tree lc).2.1, by decide⟩

/-! ## The compiler against the VM: expressions -/

/-- The opcode emitted for an operator computes `binaryValue` on the two topmost stack
entries, the right operand being on top. -/
theorem exec_binaryValue {op : String} {a b v : Int} (h : binaryValue op a b = some v) :
    ∃ c, binaryOpCode op = some c ∧
      ∀ (labels : Env Nat) (st : VMState) (stk : List Int), st.stack = b :: a :: stk →
        IRVM.exec labels { op := c, arg := "" } st = .ok { st with stack := v :: stk } := by
  unfold binaryValue at h
  by_cases h1 : op = "+"
  · subst h1
    simp at h
    subst h
    exact ⟨.ADD, rfl, fun labels st stk hs => by simp [IRVM.exec, IRVM.binop, hs]⟩
  by_cases h2 : op = "-"
  · subst h2
    simp at h
    subst h
    exact ⟨.SUB, rfl, fun labels st stk hs => by simp [IRVM.exec, IRVM.binop, hs]⟩
  by_cases h3 : op = "*"
  · subst h3
    simp at h
    subst h
    exact ⟨.MUL, rfl, fun labels st stk hs => by simp [IRVM.exec, IRVM.binop, hs]⟩
  by_cases h4 : op = "/"
  · subst h4
    by_cases hb : b = 0
    · simp [hb] at h
    · by_cases ho : a = -2147483648 ∧ b = -1
      · simp [ho] at h
      · rw [if_neg (not_or.mpr ⟨hb, ho⟩)] at h
        simp at h
        subst h
        refine ⟨.DIV, rfl, fun labels st stk hs => ?_⟩
        simp only [IRVM.exec, hs]
        rw [if_neg hb, if_neg ho]
  by_cases h5 : op = ">"
  · subst h5
    simp at h
    subst h
    exact ⟨.GT, rfl, fun labels st stk hs => by simp [IRVM.exec, IRVM.binop, hs]⟩
  by_cases h6 : op = "<"
  · subst h6
    simp at h
    subst h
    exact ⟨.LT, rfl, fun labels st stk hs => by simp [IRVM.exec, IRVM.binop, hs]⟩
  by_cases h7 : op = "=="
  · subst h7
    simp at h
    subst h
    exact ⟨.EQ, rfl, fun labels st stk hs => by simp [IRVM.exec, IRVM.binop, hs]⟩
  simp [h1, h2, h3, h4, h5, h6, h7] at h

/-- The code of an expression that has a value, placed anywhere in a program: the VM goes
from its start to its end, pushes the value and changes nothing else. -/
theorem vm_expr (e : ASTNode) :
    ∀ (v : Int) (prog : List IRInstr) (labels : Env Nat) (pre post : List IRInstr) (lc : Int)
      (st : VMState), exprValue st.vars e = some v →
      prog = pre ++ code e lc ++ post → st.ip = pre.length →
      ∃ st1, Reach prog labels st st1 ∧
        st1.ip = pre.length + (code e lc).length ∧ st1.stack = v :: st.stack ∧
        st1.vars = st.vars ∧ st1.out = st.out := by
  induction e using ASTNode.induct with
  | hnull => intro v prog labels pre post lc st h; simp [exprValue] at h
  | hassign n x _ => intro v prog labels pre post lc st h; simp [exprValue] at h
  | hif c t e _ _ _ => intro v prog labels pre post lc st h; simp [exprValue] at h
  | hwhile c b _ _ => intro v prog labels pre post lc st h; simp [exprValue] at h
  | hblock stmts _ => intro v prog labels pre post lc st h; simp [exprValue] at h
  | hprint x _ => intro v prog labels pre post lc st h; simp [exprValue] at h
  | hlit x =>
    intro v prog labels pre post lc st h hp hip
    simp only [exprValue] at h
    split_ifs at h with hx
    cases h
    refine ⟨{ st with stack := x :: st.stack, ip := st.ip + 1 }, ?_, ?_, rfl, rfl, rfl⟩
    · refine Reach.single ?_
      rw [code_literal, List.append_assoc] at hp
      rw [IRVM.step_at labels hp hip]
      simp [IRVM.exec, toInt_to_string x hx]
    · simp [code_literal, hip]
  | hid n =>
    intro v prog labels pre post lc st h hp hip
    simp only [exprValue] at h
    refine ⟨{ st with stack := v :: st.stack, ip := st.ip + 1 }, ?_, ?_, rfl, rfl, rfl⟩
    · refine Reach.single ?_
      rw [code_identifier, List.append_assoc] at hp
      rw [IRVM.step_at labels hp hip]
      simp [IRVM.exec, h]
    · simp [code_identifier, hip]
  | hbin op l r ihl ihr =>
    intro v prog labels pre post lc st h hp hip
    simp only [exprValue] at h
    cases hl : exprValue st.vars l with
    | none => simp [hl] at h
    | some a =>
      cases hr : exprValue st.vars r with
      | none => simp [hl, hr] at h
      | some b =>
        simp only [hl, hr] at h
        obtain ⟨c, hc, hexec⟩ := exec_binaryValue h
        have hcode : code (.BinaryExpr op l r) lc
            = code l lc ++ code r (nextLabel l lc) ++ [{ op := c, arg := "" }] := by
          rw [code_binary, hc]
        rw [hcode] at hp ⊢
        have hp1 : prog = pre ++ code l lc
            ++ (code r (nextLabel l lc) ++ { op := c, arg := "" } :: post) := by
          rw [hp]; simp [List.append_assoc]
        obtain ⟨s1, hr1, hip1, hstk1, hv1, ho1⟩ :=
          ihl a prog labels pre _ lc st hl hp1 hip
        have hp2 : prog = (pre ++ code l lc) ++ code r (nextLabel l lc)
            ++ ({ op := c, arg := "" } :: post) := by
          rw [hp]; simp [List.append_assoc]
        obtain ⟨s2, hr2, hip2, hstk2, hv2, ho2⟩ :=
          ihr b prog labels (pre ++ code l lc) _ (nextLabel l lc) s1 (by rw [hv1]; exact hr) hp2
            (by rw [hip1]; simp)
        have hp3 : prog = (pre ++ code l lc ++ code r (nextLabel l lc))
            ++ { op := c, arg := "" } :: post := by
          rw [hp]; simp [List.append_assoc]
        have hstk : s2.stack = b :: a :: st.stack := by
          rw [hstk2, hstk1]
        refine ⟨{ s2 with stack := v :: st.stack, ip := s2.ip + 1 }, ?_, ?_, rfl, ?_, ?_⟩
        · refine (hr1.trans hr2).trans (Reach.single ?_)
          rw [IRVM.step_at labels hp3 (by rw [hip2]; simp only [List.length_append]),
            hexec labels s2 st.stack hstk]
        · simp [hip2]; omega
        · simp [hv2, hv1]
        · simp [ho2, ho1]

/-- A stand-alone run of the code of an expression that has a value: every long enough run
ends normally, with the value pushed on the initial stack and nothing else changed. -/
theorem vm_expr_run {e : ASTNode} {vars : Env Int} {v : Int} (s : List Int) (out : List Int)
    (h : exprValue vars e = some v) :
    ∃ n, ∀ m, n ≤ m →
      IRVM.runLoop (compileProgram e).instructions
          (IRVM.buildLabels (compileProgram e).instructions 0 []) m
          { ip := 0, stack := s, vars := vars, out := out }
        = .done { ip := (compileProgram e).instructions.length, stack := v :: s, vars := vars,
                  out := out } := by
  obtain ⟨st1, hr, hip, hstk, hv, ho⟩ :=
    vm_expr e v (code e 0) (IRVM.buildLabels (code e 0) 0 []) [] [] 0
      { ip := 0, stack := s, vars := vars, out := out } h (by simp) rfl
  have hend : IRVM.step (code e 0) (IRVM.buildLabels (code e 0) 0 []) st1 = none :=
    IRVM.step_end _ (by rw [hip]; simp)
  obtain ⟨n, hrun⟩ := hr.run hend
  have hst : st1 = { ip := (code e 0).length, stack := v :: s, vars := vars, out := out } := by
    cases st1
    simp only [List.length_nil, Nat.zero_add] at hip hstk hv ho
    simp only [VMState.mk.injEq]
    exact ⟨hip, hstk, hv, ho⟩
  rw [hst] at hrun
  exact ⟨n, fun m hm => IRVM.runLoop_mono _ _ n _ _ hrun m hm⟩

/-- A run that ends with a fault ends with the same fault when given more fuel. -/
theorem IRVM.runLoop_error_mono (prog : List IRInstr) (labels : Env Nat) :
    ∀ (n : Nat) (st b : VMState) (e : Error), IRVM.runLoop prog labels n st = .error e b →
      ∀ m, n ≤ m → IRVM.runLoop prog labels m st = .error e b := by
  intro n
  induction n with
  | zero => intro st b e h; simp [IRVM.runLoop] at h
  | succ n ih =>
    intro st b e h m hm
    obtain ⟨k, rfl⟩ : ∃ k, m = k + 1 := ⟨m - 1, by omega⟩
    simp only [IRVM.runLoop] at h ⊢
    cases hs : IRVM.step prog labels st with
    | none => rw [hs] at h; exact h
    | some r =>
      rw [hs] at h
      cases r with
      | ok st1 => exact ih st1 b e h k (by omega)
      | error e1 => exact h

/-- C14: for every expression `e` that has an integer value `v` under the bindings `vars`
(literals, bound identifiers, the operators `+ - * / > < ==`, no zero divisor and no
quotient outside the `int` range), every long enough run of the code compiled from `e`,
started on the stack `s` with the variables `vars`, ends normally after the last
instruction with exactly `v` pushed on `s`; the variables and the output are unchanged.
The value takes the left operand first (`a - b`, `a / b`, `a < b`) and comparisons yield 1
or 0; `a - (1 < 2)` with `a` bound to 10 gives 9. Excluding zero divisors is not enough:
in `(0 - 2147483647 - 1) / (0 - 1)` the dividend has the value `-2147483648` and the
divisor the value `-1`, and every run of the compiled code that reaches `DIV` stops there
with the fault of the native division, both operands still on the stack; so does the
compiled program `print (0 - 2147483647 - 1) / (0 - 1);`. -/
theorem expression_code_pushes_value :
    (∀ (e : ASTNode) (vars : Env Int) (v : Int) (s out : List Int),
      exprValue vars e = some v →
      ∃ n, ∀ m, n ≤ m →
        IRVM.runLoop (compileProgram e).instructions
            (IRVM.buildLabels (compileProgram e).instructions 0 []) m
            { ip := 0, stack := s, vars := vars, out := out }
          = .done { ip := (compileProgram e).instructions.length, stack := v :: s,
                    vars := vars, out := out }) ∧
    (exprValue [("a", 10)] mixedExpr = some 9 ∧
      IRVM.runLoop (compileProgram mixedExpr).instructions
          (IRVM.buildLabels (compileProgram mixedExpr).instructions 0 []) 10
          { ip := 0, stack := [7], vars := [("a", 10)], out := [] }
        = .done { ip := 5, stack := [9, 7], vars := [("a", 10)], out := [] }) ∧
    (exprValue []
        (.BinaryExpr "-" (.BinaryExpr "-" (.Literal 0) (.Literal 2147483647)) (.Literal 1))
        = some (-2147483648) ∧
      exprValue [] (.BinaryExpr "-" (.Literal 0) (.Literal 1)) = some (-1) ∧
      (compileProgram overflowDivisionExpr).instructions
        = [{ op := .PUSH, arg := "0" }, { op := .PUSH, arg := "2147483647" },
           { op := .SUB, arg := "" }, { op := .PUSH, arg := "1" }, { op := .SUB, arg := "" },
           { op := .PUSH, arg := "0" }, { op := .PUSH, arg := "1" }, { op := .SUB, arg := "" },
           { op := .DIV, arg := "" }] ∧
      (∀ m, 9 ≤ m →
        IRVM.runLoop (compileProgram overflowDivisionExpr).instructions
            (IRVM.buildLabels (compileProgram overflowDivisionExpr).instructions 0 []) m
            { ip := 0, stack := [7], vars := [], out := [] }
          = .error .division_overflow
              { ip := 8, stack := [-1, -2147483648, 7], vars := [], out := [] }) ∧
      Parser.parse 20 "print (0 - 2147483647 - 1) / (0 - 1);" = .ok overflowDivisionTree [] ∧
      (∀ m, 9 ≤ m → IRVM.run m (compileProgram overflowDivisionTree)
          = .error .division_overflow
              { ip := 8, stack := [-1, -2147483648], vars := [], out := [] })) := by
  refine ⟨fun e vars v s out h => vm_expr_run s out h, ⟨by decide, by decide⟩,
    by decide, by decide, by decide, ?_, by rfl, ?_⟩
  · intro m hm
    exact IRVM.runLoop_error_mono _ _ 9 _ _ _ (by decide) m hm
  · intro m hm
    exact IRVM.runLoop_error_mono _ _ 9 _ _ _ (by decide) m hm

/-! ## The compiler: shape of the code of `if`, `while` and unknown operators -/

/-- C15: with the counter at `n`, `compileAST` appends for `IfStmt c t e` the code of `c`,
`JZ L_else_n`, the code of `t`, `JMP L_end_(n+1)`, `LABEL L_else_n`, the code of `e` (nothing
when `e` is null) and `LABEL L_end_(n+1)`; for `WhileStmt c b` it appends `LABEL L_start_n`,
the code of `c`, `JZ L_end_(n+1)`, the code of `b`, `JMP L_start_n` and `LABEL L_end_(n+1)`.
The first child is compiled with the counter at `n + 2`, each next child with the counter
left by the previous one, which is also the counter returned. -/
theorem control_flow_lowering (c t e b : ASTNode) (ir : IRProgram) (n : Int) :
    compileAST (.IfStmt c t e) ir n
      = ({ instructions := ir.instructions ++ code c (n + 2)
            ++ [{ op := .JZ, arg := "L_else_" ++ to_string n }]
            ++ code t (nextLabel c (n + 2))
            ++ [{ op := .JMP, arg := "L_end_" ++ to_string (n + 1) },
                { op := .LABEL, arg := "L_else_" ++ to_string n }]
            ++ code e (nextLabel t (nextLabel c (n + 2)))
            ++ [{ op := .LABEL, arg := "L_end_" ++ to_string (n + 1) }] },
         nextLabel e (nextLabel t (nextLabel c (n + 2)))) ∧
    compileAST (.WhileStmt c b) ir n
      = ({ instructions := ir.instructions
            ++ [{ op := .LABEL, arg := "L_start_" ++ to_string n }]
            ++ code c (n + 2)
            ++ [{ op := .JZ, arg := "L_end_" ++ to_string (n + 1) }]
            ++ code b (nextLabel c (n + 2))
            ++ [{ op := .JMP, arg := "L_start_" ++ to_string n },
                { op := .LABEL, arg := "L_end_" ++ to_string (n + 1) }] },
         nextLabel b (nextLabel c (n + 2))) ∧
    code .nullptr n = [] ∧ nextLabel .nullptr n = n ∧
    compileProgram loweringSample
      = { instructions := [{ op := .LOAD, arg := "a" }, { op := .JZ, arg := "L_else_0" },
          { op := .PUSH, arg := "1" }, { op := .PRINT, arg := "" },
          { op := .JMP, arg := "L_end_1" }, { op := .LABEL, arg := "L_else_0" },
          { op := .LABEL, arg := "L_end_1" }, { op := .LABEL, arg := "L_start_2" },
          { op := .LOAD, arg := "b" }, { op := .JZ, arg := "L_end_3" },
          { op := .PUSH, arg := "2" }, { op := .PRINT, arg := "" },
          { op := .JMP, arg := "L_start_2" }, { op := .LABEL, arg := "L_end_3" }] } := by
  refine ⟨?_, ?_, rfl, rfl, by decide⟩
  · rw [compileAST_append, code_if, nextLabel_if]
    simp [List.append_assoc]
  · rw [compileAST_append, code_while, nextLabel_while]
    simp [List.append_assoc]

theorem binaryOpCode_none {op : String}
    (hop : op ∉ ["+", "-", "*", "/", ">", "<", "=="]) : binaryOpCode op = none := by
  simp only [List.mem_cons, List.mem_singleton, List.not_mem_nil, or_false, not_or] at hop
  obtain ⟨h1, h2, h3, h4, h5, h6, h7⟩ := hop
  simp [binaryOpCode, h1, h2, h3, h4, h5, h6, h7]

/-- Printing a binary expression whose operator has no opcode: the VM pushes the value of
the left operand, then the value of the right operand, and `PRINT` pops the latter. -/
theorem vm_print_unlowered {op : String} (hop : op ∉ ["+", "-", "*", "/", ">", "<", "=="])
    {a b : ASTNode} {vars : Env Int} {va vb : Int} (s out : List Int)
    (ha : exprValue vars a = some va) (hb : exprValue vars b = some vb) :
    ∃ k, ∀ m, k ≤ m →
      IRVM.runLoop (compileProgram (.PrintStmt (.BinaryExpr op a b))).instructions
          (IRVM.buildLabels (compileProgram (.PrintStmt (.BinaryExpr op a b))).instructions 0 [])
          m { ip := 0, stack := s, vars := vars, out := out }
        = .done { ip := (compileProgram (.PrintStmt (.BinaryExpr op a b))).instructions.length,
                  stack := va :: s, vars := vars, out := out ++ [vb] } := by
  have hcode : (compileProgram (.PrintStmt (.BinaryExpr op a b))).instructions
      = code a 0 ++ code b (nextLabel a 0) ++ [{ op := .PRINT, arg := "" }] := by
    rw [show (compileProgram (.PrintStmt (.BinaryExpr op a b))).instructions
      = code (.PrintStmt (.BinaryExpr op a b)) 0 from rfl, code_print, code_binary,
      binaryOpCode_none hop]
    simp
  rw [hcode]
  generalize hprog : code a 0 ++ code b (nextLabel a 0) ++ [{ op := .PRINT, arg := "" }] = prog
  have hp1 : prog = [] ++ code a 0 ++ (code b (nextLabel a 0) ++ [{ op := .PRINT, arg := "" }]) := by
    rw [← hprog]; simp [List.append_assoc]
  have hp2 : prog = code a 0 ++ code b (nextLabel a 0) ++ [{ op := .PRINT, arg := "" }] :=
    hprog.symm
  have hp3 : prog = (code a 0 ++ code b (nextLabel a 0)) ++ { op := .PRINT, arg := "" } :: [] :=
    hprog.symm
  obtain ⟨s1, hr1, hip1, hstk1, hv1, ho1⟩ :=
    vm_expr a va prog (IRVM.buildLabels prog 0 []) [] _ 0
      { ip := 0, stack := s, vars := vars, out := out } ha hp1 rfl
  obtain ⟨s2, hr2, hip2, hstk2, hv2, ho2⟩ :=
    vm_expr b vb prog (IRVM.buildLabels prog 0 []) (code a 0) _ (nextLabel a 0) s1
      (by rw [hv1]; exact hb) hp2 (by rw [hip1]; simp)
  have hstep := IRVM.step_print (IRVM.buildLabels prog 0 []) hp3
    (show s2.ip = _ by rw [hip2]; simp only [List.length_append]) hstk2
  have hend : IRVM.step prog (IRVM.buildLabels prog 0 [])
      { s2 with stack := s1.stack, out := s2.out ++ [vb], ip := s2.ip + 1 } = none :=
    IRVM.step_end _ (by rw [← hprog]; simp [hip2]; omega)
  obtain ⟨k, hrun⟩ := ((hr1.trans hr2).trans (Reach.single hstep)).run hend
  have hst : ({ s2 with stack := s1.stack, out := s2.out ++ [vb], ip := s2.ip + 1 } : VMState)
      = { ip := prog.length, stack := va :: s, vars := vars, out := out ++ [vb] } := by
    simp only [VMState.mk.injEq]
    refine ⟨?_, hstk1, ?_, ?_⟩
    · rw [← hprog]; simp [hip2]; omega
    · rw [hv2, hv1]
    · rw [ho2, ho1]
  rw [hst] at hrun
  exact ⟨k, fun m hm => IRVM.runLoop_mono _ _ k _ _ hrun m hm⟩

/-- C16: for a `BinaryExpr` whose operator is none of `+ - * / > < ==` (the parser builds
such a node for `!=`), `compileAST` appends the code of the left operand, then the code of
the right operand, and no instruction for the operator; it does not fail. Hence the code of
`print a op b;`, for operands with values `va` and `vb` (literals, bound identifiers, the
seven operators, no zero divisor and no quotient outside the `int` range), makes the VM
print `vb` and end with `va` left on the stack. -/
theorem unknown_operator_not_lowered (op : String) (l r : ASTNode) (ir : IRProgram) (n : Int)
    (hop : op ∉ ["+", "-", "*", "/", ">", "<", "=="]) :
    compileAST (.BinaryExpr op l r) ir n
      = ({ instructions := ir.instructions ++ code l n ++ code r (nextLabel l n) },
         nextLabel r (nextLabel l n)) ∧
    ∀ (vars : Env Int) (va vb : Int) (s out : List Int),
      exprValue vars l = some va → exprValue vars r = some vb →
      ∃ k, ∀ m, k ≤ m →
        IRVM.runLoop (compileProgram (.PrintStmt (.BinaryExpr op l r))).instructions
            (IRVM.buildLabels (compileProgram (.PrintStmt (.BinaryExpr op l r))).instructions 0 [])
            m { ip := 0, stack := s, vars := vars, out := out }
          = .done { ip := (compileProgram (.PrintStmt (.BinaryExpr op l r))).instructions.length,
                    stack := va :: s, vars := vars, out := out ++ [vb] } := by
  refine ⟨?_, fun vars va vb s out ha hb => vm_print_unlowered hop s out ha hb⟩
  rw [compileAST_append, code_binary, nextLabel_binary, binaryOpCode_none hop]
  simp [List.append_assoc]

/-- Witness for C16: the source `print 1 != 2;` parses to `printNotEqualTree`; its compiled
form has no instruction for `!=`, prints 2 and ends with 1 on the stack. -/
theorem unknown_operator_not_lowered_witness :
    Parser.parse 10 "print 1 != 2;" = .ok printNotEqualTree [] ∧
    compileProgram printNotEqualTree
      = { instructions := [{ op := .PUSH, arg := "1" }, { op := .PUSH, arg := "2" },
          { op := .PRINT, arg := "" }] } ∧
    IRVM.run 10 (compileProgram printNotEqualTree)
      = .done { ip := 3, stack := [1], vars := [], out := [2] } ∧
    compileAST (.BinaryExpr "!=" (.Literal 1) (.Literal 2)) { instructions := [] } 0
      = ({ instructions := [] ++ code (.Literal 1) 0 ++ code (.Literal 2) (nextLabel (.Literal 1) 0) },
         nextLabel (.Literal 2) (nextLabel (.Literal 1) 0)) :=
  ⟨by rfl, by decide, by decide,
    (unknown_operator_not_lowered "!=" (.Literal 1) (.Literal 2) { instructions := [] } 0
      (by decide)).1⟩

/-! ## The optimizer: what is folded and what is eliminated -/

theorem wrap32_eq_self {x : Int} (h : inInt32 x) : wrap32 x = x := by
  unfold inInt32 at h
  unfold wrap32
  omega

/-- C17: for all integers `a`, `b`: on `BinaryExpr op (Literal a) (Literal b)` with `op`
none of `+ - * /` (so for `== != < >`), `optimizeAST` returns the same `BinaryExpr`, which is
not a `Literal`; with `+`, `-`, `*` it returns the `Literal` of the 32-bit sum, difference,
product (the exact one when that fits an `int`), and with `/` and `b` nonzero the `Literal`
of the truncated quotient, except for `a = -2147483648` and `b = -1`: there the native
division faults and `optimizeAST` returns nothing, as on the AST of
`print (0 - 2147483647 - 1) / (0 - 1);`. -/
theorem optimizer_folds_only_arithmetic (a b : Int) :
    (∀ op, op ∉ ["+", "-", "*", "/"] →
      optimizeAST (.BinaryExpr op (.Literal a) (.Literal b))
        = .ok (.BinaryExpr op (.Literal a) (.Literal b))) ∧
    optimizeAST (.BinaryExpr "+" (.Literal a) (.Literal b)) = .ok (.Literal (wrap32 (a + b))) ∧
    optimizeAST (.BinaryExpr "-" (.Literal a) (.Literal b)) = .ok (.Literal (wrap32 (a - b))) ∧
    optimizeAST (.BinaryExpr "*" (.Literal a) (.Literal b)) = .ok (.Literal (wrap32 (a * b))) ∧
    (b ≠ 0 → ¬ (a = -2147483648 ∧ b = -1) →
      optimizeAST (.BinaryExpr "/" (.Literal a) (.Literal b))
        = .ok (.Literal (wrap32 (Int.tdiv a b)))) ∧
    optimizeAST (.BinaryExpr "/" (.Literal (-2147483648)) (.Literal (-1)))
      = .error .division_overflow ∧
    (Parser.parse 20 "print (0 - 2147483647 - 1) / (0 - 1);" = .ok overflowDivisionTree [] ∧
      optimizeAST overflowDivisionTree = .error .division_overflow) ∧
    (inInt32 (a + b) → wrap32 (a + b) = a + b) ∧
    (inInt32 (a - b) → wrap32 (a - b) = a - b) ∧
    (inInt32 (a * b) → wrap32 (a * b) = a * b) ∧
    optimizeAST (.BinaryExpr "<" (.Literal 1) (.Literal 2))
      = .ok (.BinaryExpr "<" (.Literal 1) (.Literal 2)) ∧
    optimizeAST (.BinaryExpr "==" (.Literal 2) (.Literal 2))
      = .ok (.BinaryExpr "==" (.Literal 2) (.Literal 2)) ∧
    optimizeAST (.BinaryExpr "*" (.Literal 6) (.Literal 7)) = .ok (.Literal 42) ∧
    optimizeAST (.BinaryExpr "/" (.Literal 7) (.Literal 2)) = .ok (.Literal 3) := by
  refine ⟨?_, ?_, ?_, ?_, ?_, by rfl, ⟨by rfl, by rfl⟩, wrap32_eq_self, wrap32_eq_self,
    wrap32_eq_self, by rfl, by rfl, by rfl, by rfl⟩
  · intro op hop
    simp only [List.mem_cons, List.mem_singleton, List.not_mem_nil, or_false, not_or] at hop
    obtain ⟨h1, h2, h3, h4⟩ := hop
    simp [optimizeAST, optimizeBinary, h1, h2, h3, h4]
  · simp [optimizeAST, optimizeBinary]
  · simp [optimizeAST, optimizeBinary]
  · simp [optimizeAST, optimizeBinary]
  · intro hb ho
    simp only [optimizeAST, optimizeBinary]
    rw [if_neg hb, if_neg ho]
    simp

theorem optimizeStmts_mem {stmts : List ASTNode} :
    ∀ l, optimizeStmts stmts = .ok l →
      ∀ x ∈ l, x ≠ .nullptr ∧ ∃ s ∈ stmts, optimizeAST s = .ok x := by
  induction stmts with
  | nil =>
    intro l h x hx
    simp only [optimizeStmts] at h
    cases h
    cases hx
  | cons a rest ih =>
    intro l h x hx
    simp only [optimizeStmts] at h
    cases ha : optimizeAST a with
    | error e => rw [ha] at h; cases h
    | ok a1 =>
      rw [ha] at h
      cases hr : optimizeStmts rest with
      | error e => rw [hr] at h; cases h
      | ok l1 =>
        rw [hr] at h
        simp only [Except.ok.injEq] at h
        subst h
        have hrest : x ∈ l1 → x ≠ .nullptr ∧ ∃ s ∈ a :: rest, optimizeAST s = .ok x := by
          intro hx1
          obtain ⟨h1, s, hs, hs1⟩ := ih l1 hr x hx1
          exact ⟨h1, s, List.mem_cons_of_mem _ hs, hs1⟩
        cases a1 with
        | nullptr => exact hrest (by simpa [pushNonNull] using hx)
        | Literal v =>
          rcases List.mem_cons.mp (by simpa [pushNonNull] using hx) with h1 | h1
          · subst h1; exact ⟨by simp, a, List.mem_cons_self _ _, ha⟩
          · exact hrest h1
        | Identifier v =>
          rcases List.mem_cons.mp (by simpa [pushNonNull] using hx) with h1 | h1
          · subst h1; exact ⟨by simp, a, List.mem_cons_self _ _, ha⟩
          · exact hrest h1
        | BinaryExpr op l r =>
          rcases List.mem_cons.mp (by simpa [pushNonNull] using hx) with h1 | h1
          · subst h1; exact ⟨by simp, a, List.mem_cons_self _ _, ha⟩
          · exact hrest h1
        | Assignment n v =>
          rcases List.mem_cons.mp (by simpa [pushNonNull] using hx) with h1 | h1
          · subst h1; exact ⟨by simp, a, List.mem_cons_self _ _, ha⟩
          · exact hrest h1
        | IfStmt c t e =>
          rcases List.mem_cons.mp (by simpa [pushNonNull] using hx) with h1 | h1
          · subst h1; exact ⟨by simp, a, List.mem_cons_self _ _, ha⟩
          · exact hrest h1
        | WhileStmt c b =>
          rcases List.mem_cons.mp (by simpa [pushNonNull] using hx) with h1 | h1
          · subst h1; exact ⟨by simp, a, List.mem_cons_self _ _, ha⟩
          · exact hrest h1
        | Block ss =>
          rcases List.mem_cons.mp (by simpa [pushNonNull] using hx) with h1 | h1
          · subst h1; exact ⟨by simp, a, List.mem_cons_self _ _, ha⟩
          · exact hrest h1
        | PrintStmt e =>
          rcases List.mem_cons.mp (by simpa [pushNonNull] using hx) with h1 | h1
          · subst h1; exact ⟨by simp, a, List.mem_cons_self _ _, ha⟩
          · exact hrest h1

/-- No `Block` of an optimized tree holds a null statement. -/
theorem optimizeAST_noNull (t : ASTNode) :
    ∀ t1, optimizeAST t = .ok t1 → noNullStatement t1 := by
  induction t using ASTNode.induct with
  | hnull =>
    intro t1 h; simp only [optimizeAST] at h; cases h
    intro l hl; simp [ASTNode.subnodes] at hl
  | hlit v =>
    intro t1 h; simp only [optimizeAST] at h; cases h
    intro l hl; simp [ASTNode.subnodes] at hl
  | hid n =>
    intro t1 h; simp only [optimizeAST] at h; cases h
    intro l hl; simp [ASTNode.subnodes] at hl
  | hbin op l r ihl ihr =>
    intro t1 h
    simp only [optimizeAST] at h
    cases hl : optimizeAST l with
    | error e => rw [hl] at h; cases h
    | ok l1 =>
      rw [hl] at h
      cases hr : optimizeAST r with
      | error e => rw [hr] at h; cases h
      | ok r1 =>
        rw [hr] at h
        simp only at h
        rcases optimizeBinary_ok_cases h with ⟨v, rfl⟩ | rfl
        · intro x hx; simp [ASTNode.subnodes] at hx
        · intro x hx
          simp only [ASTNode.subnodes, List.mem_cons, List.mem_append] at hx
          rcases hx with hx | hx | hx
          · cases hx
          · exact ihl l1 hl x hx
          · exact ihr r1 hr x hx
  | hassign n v ih =>
    intro t1 h
    simp only [optimizeAST] at h
    cases hv : optimizeAST v with
    | error e => rw [hv] at h; cases h
    | ok v1 =>
      rw [hv] at h
      cases h
      intro x hx
      simp only [ASTNode.subnodes, List.mem_cons] at hx
      rcases hx with hx | hx
      · cases hx
      · exact ih v1 hv x hx
  | hprint v ih =>
    intro t1 h
    simp only [optimizeAST] at h
    cases hv : optimizeAST v with
    | error e => rw [hv] at h; cases h
    | ok v1 =>
      rw [hv] at h
      cases h
      intro x hx
      simp only [ASTNode.subnodes, List.mem_cons] at hx
      rcases hx with hx | hx
      · cases hx
      · exact ih v1 hv x hx
  | hif c t e ihc iht ihe =>
    intro t1 h
    simp only [optimizeAST] at h
    cases hc : optimizeAST c with
    | error err => rw [hc] at h; cases h
    | ok c1 =>
      rw [hc] at h
      cases ht : optimizeAST t with
      | error err => rw [ht] at h; cases h
      | ok t2 =>
        rw [ht] at h
        cases he : optimizeAST e with
        | error err => rw [he] at h; cases h
        | ok e1 =>
          rw [he] at h
          simp only [Except.ok.injEq] at h
          subst h
          rcases optimizeIf_cases c1 t2 e1 with h1 | h1 | ⟨_, h1⟩
          · rw [h1]; exact iht t2 ht
          · rw [h1]; exact ihe e1 he
          · rw [h1]
            intro x hx
            simp only [ASTNode.subnodes, List.mem_cons, List.mem_append] at hx
            rcases hx with hx | (hx | hx) | hx
            · cases hx
            · exact ihc c1 hc x hx
            · exact iht t2 ht x hx
            · exact ihe e1 he x hx
  | hwhile c b ihc ihb =>
    intro t1 h
    simp only [optimizeAST] at h
    cases hc : optimizeAST c with
    | error err => rw [hc] at h; cases h
    | ok c1 =>
      rw [hc] at h
      cases hb : optimizeAST b with
      | error err => rw [hb] at h; cases h
      | ok b1 =>
        rw [hb] at h
        simp only [Except.ok.injEq] at h
        subst h
        rcases optimizeWhile_cases c1 b1 with h1 | h1
        · rw [h1]
          intro x hx; simp [ASTNode.subnodes] at hx
        · rw [h1]
          intro x hx
          simp only [ASTNode.subnodes, List.mem_cons, List.mem_append] at hx
          rcases hx with hx | hx | hx
          · cases hx
          · exact ihc c1 hc x hx
          · exact ihb b1 hb x hx
  | hblock stmts ih =>
    intro t1 h
    simp only [optimizeAST] at h
    cases hs : optimizeStmts stmts with
    | error err => rw [hs] at h; cases h
    | ok l1 =>
      rw [hs] at h
      cases h
      intro x hx
      simp only [ASTNode.subnodes, List.mem_cons] at hx
      rcases hx with hx | hx
      · cases hx
        intro hnull
        exact (optimizeStmts_mem l1 hs _ hnull).1 rfl
      · obtain ⟨y, hy, hxy⟩ := mem_subnodesList.mp hx
        obtain ⟨_, s, hs1, hs2⟩ := optimizeStmts_mem l1 hs y hy
        exact ih s hs1 y hs2 x hxy

/-- C18: `optimizeAST (WhileStmt c b)` optimizes `c` and then `b`, and an error of either is
the result. When both succeed, with results `c1` and `b1`, the result is null exactly when
`c1` is `Literal 0`, and is `WhileStmt c1 b1` in every other case, a nonzero literal
included. The loop over a `Block` drops null results: an optimized `Block` holds no null
statement, and neither does any `Block` inside any optimized tree. -/
theorem dead_loop_elimination (c b : ASTNode) :
    (∀ b1, optimizeAST c = .ok (.Literal 0) → optimizeAST b = .ok b1 →
      optimizeAST (.WhileStmt c b) = .ok .nullptr) ∧
    (∀ c1 b1, optimizeAST c = .ok c1 → optimizeAST b = .ok b1 → c1 ≠ .Literal 0 →
      optimizeAST (.WhileStmt c b) = .ok (.WhileStmt c1 b1)) ∧
    (∀ err, optimizeAST c = .error err → optimizeAST (.WhileStmt c b) = .error err) ∧
    (∀ c1 err, optimizeAST c = .ok c1 → optimizeAST b = .error err →
      optimizeAST (.WhileStmt c b) = .error err) ∧
    (∀ stmts t, optimizeAST (.Block stmts) = .ok t →
      ∃ l, t = .Block l ∧ ASTNode.nullptr ∉ l) ∧
    (∀ t t1, optimizeAST t = .ok t1 → noNullStatement t1) ∧
    optimizeAST (.WhileStmt (.Literal 5) (.PrintStmt (.Literal 1)))
      = .ok (.WhileStmt (.Literal 5) (.PrintStmt (.Literal 1))) ∧
    optimizeAST deadLoopBlock = .ok (.Block [.Assignment "x" (.Literal 2)]) := by
  refine ⟨?_, ?_, ?_, ?_, ?_, optimizeAST_noNull, by rfl, by rfl⟩
  · intro b1 hc hb
    simp [optimizeAST, hc, hb, optimizeWhile]
  · intro c1 b1 hc hb hne
    simp only [optimizeAST, hc, hb, optimizeWhile]
    cases c1 with
    | Literal v =>
      have hv : v ≠ 0 := fun h0 => hne (by rw [h0])
      simp [hv]
    | _ => rfl
  · intro err hc
    simp [optimizeAST, hc]
  · intro c1 err hc hb
    simp [optimizeAST, hc, hb]
  · intro stmts t h
    simp only [optimizeAST] at h
    cases hs : optimizeStmts stmts with
    | error err => rw [hs] at h; cases h
    | ok l1 =>
      rw [hs] at h
      cases h
      exact ⟨l1, rfl, fun hnull => (optimizeStmts_mem l1 hs _ hnull).1 rfl⟩

/-! ## The interpreter: assignments -/

/-- Evaluating an expression leaves the state of the interpreter as it was. -/
theorem eval_expr_state (fuel : Nat) :
    ∀ (e : ASTNode) (st st1 : IState) (v : Value),
      Interpreter.eval fuel e st = .ok v st1 → e.isExpr = true → st1 = st := by
  induction fuel with
  | zero => intro e st st1 v he; simp [Interpreter.eval] at he
  | succ f ih =>
    intro e st st1 v he hexpr
    cases e with
    | nullptr => simp [ASTNode.isExpr] at hexpr
    | Assignment n x => simp [ASTNode.isExpr] at hexpr
    | IfStmt c t e => simp [ASTNode.isExpr] at hexpr
    | WhileStmt c b => simp [ASTNode.isExpr] at hexpr
    | Block stmts => simp [ASTNode.isExpr] at hexpr
    | PrintStmt x => simp [ASTNode.isExpr] at hexpr
    | Literal x =>
      simp only [eval_succ, Interpreter.evalLiteral, IResult.ok.injEq] at he
      exact he.2.symm
    | Identifier n =>
      simp only [eval_succ, Interpreter.evalIdentifier] at he
      cases hf : st.vars.find n with
      | none => rw [hf] at he; cases he
      | some w =>
        rw [hf] at he
        simp only [IResult.ok.injEq] at he
        exact he.2.symm
    | BinaryExpr op l r =>
      simp only [ASTNode.isExpr, Bool.and_eq_true] at hexpr
      simp only [eval_succ] at he
      obtain ⟨vl, st2, vr, hl, hr, _⟩ := Interpreter.evalBinaryExpr_ok he
      have h1 := ih l st st2 vl hl hexpr.1.2
      subst h1
      exact ih r _ st1 vr hr hexpr.2

/-- The method `evalAssignment` on a right-hand side that evaluates to an `int`. -/
theorem evalAssignment_int {fuel : Nat} {n : String} {e : ASTNode} {st st1 : IState} {k : Int}
    (h : Interpreter.eval fuel e st = .ok (.int k) st1) :
    Interpreter.eval (fuel + 1) (.Assignment n e) st
      = .ok (.int k) { st1 with vars := st1.vars.set n (.int k) } := by
  simp [eval_succ, Interpreter.evalAssignment, h, Value.asInt]

/-- C19 (as stated, refuted): the source `x = 1 < 2;` parses; its right-hand side evaluates
successfully, to the Boolean `true`, leaving the state unchanged; yet interpreting the
assignment does not succeed: `evalAssignment` binds `x` and then throws
`bad_variant_access` from the `asInt()` of its trace line. -/
theorem assignment_of_comparison_throws :
    Parser.parse 10 "x = 1 < 2;" = .ok assignComparisonTree [] ∧
    Interpreter.eval 5 (.BinaryExpr "<" (.Literal 1) (.Literal 2)) Interpreter.init
      = .ok (.bool true) Interpreter.init ∧
    Interpreter.eval 5 (.Assignment "x" (.BinaryExpr "<" (.Literal 1) (.Literal 2)))
        Interpreter.init
      = .error .bad_variant_access { vars := [("x", .bool true)], out := [] } ∧
    Interpreter.eval 5 assignComparisonTree Interpreter.init
      = .error .bad_variant_access { vars := [("x", .bool true)], out := [] } := by
  refine ⟨by rfl, by decide, by decide, by decide⟩

/-- C19 (amended): for every name `n` and every tree `e` that evaluates successfully to an
Integer `k`, ending in state `st1` (which is the initial state when `e` is an expression),
interpreting `Assignment n e` succeeds, returns `k`, prints nothing more, and leaves the
variables of `st1` with `n` bound to `k` and every other binding unchanged. -/
theorem assignment_binds_integer (fuel : Nat) (n : String) (e : ASTNode) (st st1 : IState)
    (k : Int) (h : Interpreter.eval fuel e st = .ok (.int k) st1) :
    ∃ st2, Interpreter.eval (fuel + 1) (.Assignment n e) st = .ok (.int k) st2 ∧
      st2.out = st1.out ∧ st2.vars.find n = some (.int k) ∧
      (∀ m, m ≠ n → st2.vars.find m = st1.vars.find m) ∧
      (e.isExpr = true → st1 = st) :=
  ⟨{ st1 with vars := st1.vars.set n (.int k) }, evalAssignment_int h, rfl,
    Env.find_set_same _ _ _, fun _ hm => Env.find_set_other _ _ _ _ (Ne.symm hm),
    eval_expr_state fuel e st st1 _ h⟩

/-- Witness for C19 (amended): `y = x + 2` in a state where `x` is 1 and `y` is 0. -/
theorem assignment_binds_integer_witness :
    Interpreter.eval 2 (.BinaryExpr "+" (.Identifier "x") (.Literal 2))
        { vars := [("x", .int 1), ("y", .int 0)], out := [] }
      = .ok (.int 3) { vars := [("x", .int 1), ("y", .int 0)], out := [] } ∧
    ∃ st2, Interpreter.eval (2 + 1)
        (.Assignment "y" (.BinaryExpr "+" (.Identifier "x") (.Literal 2)))
        { vars := [("x", .int 1), ("y", .int 0)], out := [] } = .ok (.int 3) st2 ∧
      st2.out = [] ∧ st2.vars.find "y" = some (.int 3) ∧
      (∀ m, m ≠ "y" → st2.vars.find m
        = Env.find [("x", Value.int 1), ("y", Value.int 0)] m) ∧
      ((ASTNode.BinaryExpr "+" (.Identifier "x") (.Literal 2)).isExpr = true →
        ({ vars := [("x", .int 1), ("y", .int 0)], out := [] } : IState)
          = { vars := [("x", .int 1), ("y", .int 0)], out := [] }) :=
  ⟨by decide,
    assignment_binds_integer 2 "y" (.BinaryExpr "+" (.Identifier "x") (.Literal 2))
      { vars := [("x", .int 1), ("y", .int 0)], out := [] }
      { vars := [("x", .int 1), ("y", .int 0)], out := [] } 3 (by decide)⟩

theorem tdiv_eq_truncQuotient (a b : Int) : Int.tdiv a b = truncQuotient a b := by
  unfold truncQuotient
  have hq : (Int.tdiv a b).natAbs = a.natAbs / b.natAbs := Int.natAbs_tdiv a b
  generalize a.natAbs / b.natAbs = q at hq ⊢
  by_cases ha : a < 0 <;> by_cases hb : b < 0
  · have h1 : 0 ≤ Int.tdiv a b := by
      have := Int.tdiv_nonneg (show 0 ≤ -a by omega) (show 0 ≤ -b by omega)
      rwa [Int.neg_tdiv, Int.tdiv_neg, neg_neg] at this
    simp only [ha, hb, decide_True, if_true]
    omega
  · have h1 : Int.tdiv a b ≤ 0 := by
      have := Int.tdiv_nonneg (show 0 ≤ -a by omega) (show 0 ≤ b by omega)
      rw [Int.neg_tdiv] at this
      omega
    rw [if_neg (by simp [ha, hb])]
    omega
  · have h1 : Int.tdiv a b ≤ 0 := by
      have := Int.tdiv_nonneg (show 0 ≤ a by omega) (show 0 ≤ -b by omega)
      rw [Int.tdiv_neg] at this
      omega
    rw [if_neg (by simp [ha, hb])]
    omega
  · have h1 : 0 ≤ Int.tdiv a b := Int.tdiv_nonneg (by omega) (by omega)
    simp only [ha, hb, decide_False, if_true]
    omega

theorem truncQuotient_inInt32 {a b : Int} (ha : inInt32 a) (hb : inInt32 b)
    (hmin : ¬ (a = -2147483648 ∧ b = -1)) : inInt32 (truncQuotient a b) := by
  unfold inInt32 at *
  unfold truncQuotient
  have h1 : a.natAbs / b.natAbs ≤ a.natAbs := Nat.div_le_self _ _
  have h2 : 2 ≤ b.natAbs → a.natAbs / b.natAbs * 2 ≤ a.natAbs := fun h =>
    le_trans (Nat.mul_le_mul_left _ h) (Nat.div_mul_le_self _ _)
  have h3 : b.natAbs = 1 → a.natAbs / b.natAbs = a.natAbs := fun h => by rw [h, Nat.div_one]
  have h4 : b.natAbs = 0 → a.natAbs / b.natAbs = 0 := fun h => by rw [h, Nat.div_zero]
  generalize a.natAbs / b.natAbs = q at h1 h2 h3 h4 ⊢
  split_ifs with hs
  · simp only [decide_eq_decide] at hs
    omega
  · omega

/-! ## Integer division -/

/-- C20: for all 32-bit integers `a` and `b`, `b` nonzero, other than `a = INT_MIN` with
`b = -1`: the interpreter's `/` (in `applyBinary`, and through `eval` on literals), the
optimizer's folded `/` and the VM's `DIV` (one instruction, and the whole compiled
expression run from any stack) all yield `truncQuotient a b`, the quotient of the
magnitudes with the sign of the exact quotient, that is the quotient rounded toward
zero. -/
theorem division_truncates_toward_zero (a b : Int) (ha : inInt32 a) (hb : inInt32 b)
    (hb0 : b ≠ 0) (hmin : ¬ (a = -2147483648 ∧ b = -1)) :
    Interpreter.applyBinary "/" (.int a) (.int b) = .ok (.int (truncQuotient a b)) ∧
    (∀ st, Interpreter.eval 2 (.BinaryExpr "/" (.Literal a) (.Literal b)) st
      = .ok (.int (truncQuotient a b)) st) ∧
    optimizeAST (.BinaryExpr "/" (.Literal a) (.Literal b))
      = .ok (.Literal (truncQuotient a b)) ∧
    (∀ (labels : Env Nat) (st : VMState) (rest : List Int), st.stack = b :: a :: rest →
      IRVM.exec labels { op := .DIV, arg := "" } st
        = .ok { st with stack := truncQuotient a b :: rest }) ∧
    (∀ (s out : List Int) (vars : Env Int), ∃ n, ∀ m, n ≤ m →
      IRVM.runLoop (compileProgram (.BinaryExpr "/" (.Literal a) (.Literal b))).instructions
          (IRVM.buildLabels
            (compileProgram (.BinaryExpr "/" (.Literal a) (.Literal b))).instructions 0 [])
          m { ip := 0, stack := s, vars := vars, out := out }
        = .done { ip := 3, stack := truncQuotient a b :: s, vars := vars, out := out }) := by
  have hw : wrap32 (Int.tdiv a b) = truncQuotient a b := by
    rw [tdiv_eq_truncQuotient]
    exact wrap32_eq_self (truncQuotient_inInt32 ha hb hmin)
  refine ⟨?_, ?_, ?_, ?_, ?_⟩
  · simp only [Interpreter.applyBinary, Value.asInt]
    rw [if_neg hb0, if_neg hmin, hw]
    simp
  · intro st
    simp only [Interpreter.eval, Interpreter.evalBinaryExpr, Interpreter.evalLiteral,
      Interpreter.applyBinary, Value.asInt]
    rw [if_neg hb0, if_neg hmin, hw]
    simp
  · simp only [optimizeAST, optimizeBinary]
    rw [if_neg hb0, if_neg hmin, hw]
    simp
  · intro labels st rest hs
    simp only [IRVM.exec, hs]
    rw [if_neg hb0, if_neg hmin, hw]
  · intro s out vars
    have hv : exprValue vars (.BinaryExpr "/" (.Literal a) (.Literal b))
        = some (truncQuotient a b) := by
      simp only [exprValue, binaryValue]
      rw [if_pos ha, if_pos hb]
      simp only [Option.bind_eq_bind, Option.some_bind]
      rw [if_neg (not_or.mpr ⟨hb0, hmin⟩), hw]
      simp
    exact vm_expr_run s out hv

/-- Witness for C20: `a = -7`, `b = 2` give `-3`; and the source `print (0 - 7) / 2;`
prints `-3` when interpreted, is folded to `print -3` by the optimizer, and prints `-3`
when its compiled form is run on the VM. -/
theorem division_truncates_toward_zero_witness :
    truncQuotient (-7) 2 = -3 ∧
    Parser.parse 20 "print (0 - 7) / 2;" = .ok negativeDivisionTree [] ∧
    Interpreter.eval 10 negativeDivisionTree Interpreter.init
      = .ok (.int (-3)) { vars := [], out := [-3] } ∧
    optimizeAST negativeDivisionTree = .ok (.Block [.PrintStmt (.Literal (-3))]) ∧
    IRVM.run 20 (compileProgram negativeDivisionTree)
      = .done { ip := 6, stack := [], vars := [], out := [-3] } ∧
    Interpreter.applyBinary "/" (.int (-7)) (.int 2) = .ok (.int (truncQuotient (-7) 2)) :=
  ⟨by decide, by rfl, by decide, by rfl, by decide,
    (division_truncates_toward_zero (-7) 2 (by decide) (by decide) (by decide) (by decide)).1⟩

/-! ## The VM: reading a variable that was never stored -/

/-- C21: on the VM, `LOAD n` of a variable `n` that is not bound does not fail: it pushes 0
and leaves `n` bound to 0 (the effect of `vars[n]` on a missing key); nothing else
changes. -/
theorem load_unbound_pushes_zero (labels : Env Nat) (n : String) (st : VMState)
    (h : st.vars.find n = none) :
    IRVM.exec labels { op := .LOAD, arg := n } st
      = .ok { st with stack := 0 :: st.stack, vars := st.vars.set n 0 } ∧
    (st.vars.set n 0).find n = some 0 := by
  refine ⟨?_, Env.find_set_same _ _ _⟩
  simp [IRVM.exec, h]

/-- Witness for C21: `print q;` parses to `printUnboundTree`, compiles to `LOAD q`, `PRINT`,
and the run from the empty environment ends normally having printed 0, with `q` bound
to 0. -/
theorem load_unbound_pushes_zero_witness :
    Parser.parse 10 "print q;" = .ok printUnboundTree [] ∧
    compileProgram printUnboundTree
      = { instructions := [{ op := .LOAD, arg := "q" }, { op := .PRINT, arg := "" }] } ∧
    IRVM.run 10 (compileProgram printUnboundTree)
      = .done { ip := 2, stack := [], vars := [("q", 0)], out := [0] } ∧
    (IRVM.exec [] { op := .LOAD, arg := "q" } IRVM.start
      = .ok { IRVM.start with stack := 0 :: IRVM.start.stack,
                              vars := IRVM.start.vars.set "q" 0 } ∧
    (IRVM.start.vars.set "q" 0).find "q" = some 0) :=
  ⟨by rfl, by decide, by decide, load_unbound_pushes_zero [] "q" IRVM.start (by decide)⟩

/-! ## The interpreter: conditions must be Boolean -/

/-- C22: whenever the condition of an `IfStmt` or of a `WhileStmt` evaluates to an
Integer-tagged value `k` (zero or not), ending in state `st1`, the statement fails with
`bad_variant_access` (the type error of `asBool()`) in that same state `st1`: neither a
branch nor the body was evaluated, nothing was printed or bound after the condition. -/
theorem integer_condition_rejected (fuel : Nat) (c t e b : ASTNode) (st st1 : IState)
    (k : Int) (h : Interpreter.eval fuel c st = .ok (.int k) st1) :
    Interpreter.eval (fuel + 1) (.IfStmt c t e) st = .error .bad_variant_access st1 ∧
    Interpreter.eval (fuel + 1) (.WhileStmt c b) st = .error .bad_variant_access st1 := by
  constructor
  · rw [eval_succ]
    simp only [Interpreter.evalIfStmt, h, Value.asBool]
  · cases fuel with
    | zero => simp [Interpreter.eval] at h
    | succ f =>
      rw [eval_succ]
      simp only [Interpreter.evalWhileStmt, Interpreter.evalWhileLoop, h, Value.asBool]

/-- Witness for C22: the condition `1` of `if (1) print 2;` and the condition `x` (bound to
5) of `x = 5; while (x) print x;`: both programs fail with the type error and print
nothing. -/
theorem integer_condition_rejected_witness :
    Parser.parse 10 "if (1) print 2;" = .ok constantIfTree [] ∧
    Interpreter.eval 10 constantIfTree Interpreter.init
      = .error .bad_variant_access { vars := [], out := [] } ∧
    Parser.parse 10 "x = 5; while (x) print x;" = .ok integerLoopTree [] ∧
    Interpreter.eval 10 integerLoopTree Interpreter.init
      = .error .bad_variant_access { vars := [("x", .int 5)], out := [] } ∧
    (Interpreter.eval (1 + 1) (.IfStmt (.Literal 1) (.PrintStmt (.Literal 2)) .nullptr)
        Interpreter.init = .error .bad_variant_access Interpreter.init ∧
     Interpreter.eval (1 + 1) (.WhileStmt (.Literal 1) (.PrintStmt (.Literal 2)))
        Interpreter.init = .error .bad_variant_access Interpreter.init) :=
  ⟨by rfl, by decide, by rfl, by decide,
    integer_condition_rejected 1 (.Literal 1) (.PrintStmt (.Literal 2)) .nullptr
      (.PrintStmt (.Literal 2)) Interpreter.init Interpreter.init 1 (by decide)⟩

/-! ## The optimizer: dead code is folded before the condition is inspected -/

/-- C27: `optimizeAST` optimizes the condition, then both branches of an `IfStmt` (the
body of a `WhileStmt`), and only then looks at the condition: an error in a branch or in
the body is the result whatever the condition folds to, a literal zero included. So
`if (0) print 1 / 0;` parses to `deadDivisionTree`, on which `optimizeAST` fails with the
constant-folding division-by-zero error, while the compiled unoptimized tree runs on
the VM to its normal end and prints nothing. -/
theorem dead_code_folded_before_condition :
    (∀ c t e c1 err, optimizeAST c = .ok c1 → optimizeAST t = .error err →
      optimizeAST (.IfStmt c t e) = .error err) ∧
    (∀ c t e c1 t1 err, optimizeAST c = .ok c1 → optimizeAST t = .ok t1 →
      optimizeAST e = .error err → optimizeAST (.IfStmt c t e) = .error err) ∧
    (∀ c b c1 err, optimizeAST c = .ok c1 → optimizeAST b = .error err →
      optimizeAST (.WhileStmt c b) = .error err) ∧
    Parser.parse 10 "if (0) print 1 / 0;" = .ok deadDivisionTree [] ∧
    optimizeAST (.Literal 0) = .ok (.Literal 0) ∧
    optimizeAST (.PrintStmt (.BinaryExpr "/" (.Literal 1) (.Literal 0))) = .error foldDivError ∧
    optimizeAST deadDivisionTree
      = .error (.runtime_error "Division by zero in constant folding") ∧
    optimizeAST (.WhileStmt (.Literal 0) (.PrintStmt (.BinaryExpr "/" (.Literal 1) (.Literal 0))))
      = .error (.runtime_error "Division by zero in constant folding") ∧
    compileProgram deadDivisionTree
      = { instructions := [{ op := .PUSH, arg := "0" }, { op := .JZ, arg := "L_else_0" },
          { op := .PUSH, arg := "1" }, { op := .PUSH, arg := "0" }, { op := .DIV, arg := "" },
          { op := .PRINT, arg := "" }, { op := .JMP, arg := "L_end_1" },
          { op := .LABEL, arg := "L_else_0" }, { op := .LABEL, arg := "L_end_1" }] } ∧
    IRVM.run 20 (compileProgram deadDivisionTree)
      = .done { ip := 9, stack := [], vars := [], out := [] } := by
  refine ⟨?_, ?_, ?_, by rfl, by rfl, by rfl, by rfl, by rfl, by decide, by decide⟩
  · intro c t e c1 err hc ht
    simp [optimizeAST, hc, ht]
  · intro c t e c1 t1 err hc ht he
    simp [optimizeAST, hc, ht, he]
  · intro c b c1 err hc hb
    simp [optimizeAST, hc, hb]

/-! ## The parser on related inputs -/

theorem operatorWords_sub : ∀ kw ∈ operatorWords, kw ∈ matchedWords := by decide

theorem keywordWords_sub : ∀ kw ∈ keywordWords, kw ∈ matchedWords := by decide

namespace Parser

theorem get_fst_eq_peek (s : List Char) : (get s).1 = (peek s).1 := by
  unfold get peek
  split <;> simp_all

theorem get_snd_of_skip {s t : List Char} {c : Char} (h : skipWhitespace s = c :: t) :
    get s = (c, t) ∧ peek s = (c, c :: t) := by
  simp [get, peek, h]

theorem peek_peek (s : List Char) : peek (peek s).2 = peek s := by
  rw [peek_snd, peek_skip]

theorem charSim_isdigit {strict : Bool} {c1 c2 : Char} (h : charSim strict c1 c2) :
    isdigit c1 = isdigit c2 := by
  rcases h with rfl | ⟨rfl, rfl, _⟩
  · rfl
  · decide

theorem charSim_isalpha {strict : Bool} {c1 c2 : Char} (h : charSim strict c1 c2) :
    (isalpha c1 || c1 == '_') = (isalpha c2 || c2 == '_') := by
  rcases h with rfl | ⟨rfl, rfl, _⟩
  · rfl
  · decide

theorem charSim_isalnum {strict : Bool} {c1 c2 : Char} (h : charSim strict c1 c2) :
    (isalnum c1 || c1 == '_') = (isalnum c2 || c2 == '_') := by
  rcases h with rfl | ⟨rfl, rfl, _⟩
  · rfl
  · decide

theorem charSim_beq {strict : Bool} {c1 c2 : Char} (h : charSim strict c1 c2) (x : Char)
    (hx : x ≠ '\x00') (hx2 : x ≠ '}') : (c1 == x) = (c2 == x) := by
  rcases h with rfl | ⟨rfl, rfl, _⟩
  · rfl
  · have h1 : ('\x00' == x) = false := by simpa using fun h => hx h.symm
    have h2 : ('}' == x) = false := by simpa using fun h => hx2 h.symm
    rw [h1, h2]

theorem charSim_stop {strict : Bool} {c1 c2 : Char} (h : charSim strict c1 c2) :
    (decide (c1 ≠ '\x00') && decide (c1 ≠ '}')) = (decide (c2 ≠ '\x00') && decide (c2 ≠ '}')) := by
  rcases h with rfl | ⟨rfl, rfl, _⟩
  · rfl
  · decide

theorem charSim_eq_of_ne {strict : Bool} {c1 c2 : Char} (h : charSim strict c1 c2)
    (hc : c1 ≠ '\x00') : c1 = c2 := by
  rcases h with h | ⟨h, _, _⟩
  · exact h
  · exact absurd h hc

/-- A relation respected for all matched words is respected for the operators. -/
theorem Respects.toOps {R : List Char → List Char → Prop} {strict : Bool}
    (hR : Respects R strict) : RespectsOps R strict where
  skip := hR.skip
  peekChar := hR.peekChar
  getChar := hR.getChar
  matchOp := fun kw hkw => hR.matchWord kw (operatorWords_sub kw hkw)

theorem RespectsOps.peekRest {R : List Char → List Char → Prop} {strict : Bool}
    (hR : RespectsOps R strict) {s1 s2 : List Char} (h : R s1 s2) :
    R (peek s1).2 (peek s2).2 := by
  rw [peek_snd, peek_snd]
  exact hR.skip s1 s2 h

theorem expect_rel {R : List Char → List Char → Prop} {strict : Bool}
    (hR : RespectsOps R strict) (c : Char) (hc : c ≠ '\x00') {s1 s2 : List Char}
    (h : R s1 s2) : (expect c s1).Related R strict (expect c s2) := by
  have hs := hR.skip s1 s2 h
  have hp := hR.peekChar _ _ hs
  simp only [expect]
  by_cases hd : (get (skipWhitespace s1)).1 = c
  · have hne : (peek (skipWhitespace s1)).1 ≠ '\x00' := by
      rw [← get_fst_eq_peek, hd]; exact hc
    obtain ⟨h1, h2⟩ := hR.getChar _ _ hs hne
    have hd2 : (get (skipWhitespace s2)).1 = c := by rw [← h1, hd]
    simp only [hd, hd2, ne_eq, not_true_eq_false, if_false]
    exact ⟨_, rfl, h2⟩
  · simp only [ne_eq, hd, not_false_eq_true, if_true]
    intro hst
    have h1 : (peek (skipWhitespace s1)).1 = (peek (skipWhitespace s2)).1 := by
      rcases hp with hp | ⟨_, _, hp⟩
      · exact hp
      · rw [hst] at hp; cases hp
    have hd2 : ¬ (get (skipWhitespace s2)).1 = c := by
      rw [get_fst_eq_peek, ← h1, ← get_fst_eq_peek]; exact hd
    simp only [hd2, not_false_eq_true, if_true]

theorem nul_not_alnum {c : Char} (h : (isalnum c || c == '_') = true) : c ≠ '\x00' := by
  rintro rfl
  revert h
  decide

theorem nul_not_alpha {c : Char} (h : (isalpha c || c == '_') = true) : c ≠ '\x00' := by
  rintro rfl
  revert h
  decide

theorem nul_not_digit {c : Char} (h : isdigit c = true) : c ≠ '\x00' := by
  rintro rfl
  revert h
  decide

theorem identLoop_rel {R : List Char → List Char → Prop} {strict : Bool}
    (hR : RespectsOps R strict) (n : Nat) :
    ∀ (name : String) (s1 s2 : List Char), R s1 s2 →
      (identLoop n name s1).Related R strict (identLoop n name s2) := by
  induction n with
  | zero => intro name s1 s2 _; exact fun _ => rfl
  | succ n ih =>
    intro name s1 s2 h
    have hp := hR.peekChar s1 s2 h
    have hr := hR.peekRest h
    simp only [identLoop]
    rw [← charSim_isalnum hp]
    by_cases hc : (isalnum (peek s1).1 || (peek s1).1 == '_') = true
    · simp only [hc, if_true]
      obtain ⟨h1, h2⟩ := hR.getChar _ _ hr (by rw [peek_peek]; exact nul_not_alnum hc)
      rw [← h1]
      exact ih _ _ _ h2
    · simp only [hc, if_false]
      exact ⟨_, rfl, hr⟩

theorem parseIdentifier_rel {R : List Char → List Char → Prop} {strict : Bool}
    (hR : RespectsOps R strict) (n : Nat) {s1 s2 : List Char} (h : R s1 s2) :
    (parseIdentifier n s1).Related R strict (parseIdentifier n s2) := by
  have hs := hR.skip s1 s2 h
  have hp := hR.peekChar _ _ hs
  have hr := hR.peekRest hs
  simp only [parseIdentifier]
  rw [← charSim_isalpha hp]
  by_cases hc : (isalpha (peek (skipWhitespace s1)).1 || (peek (skipWhitespace s1)).1 == '_') = true
  · simp only [hc, if_true]
    obtain ⟨h1, h2⟩ := hR.getChar _ _ hr (by rw [peek_peek]; exact nul_not_alpha hc)
    rw [← h1]
    exact identLoop_rel hR n _ _ _ h2
  · simp only [hc, if_false]
    exact fun _ => rfl

theorem digitsLoop_rel {R : List Char → List Char → Prop} {strict : Bool}
    (hR : RespectsOps R strict) (n : Nat) :
    ∀ (val : Int) (s1 s2 : List Char), R s1 s2 →
      (digitsLoop n val s1).Related R strict (digitsLoop n val s2) := by
  induction n with
  | zero => intro val s1 s2 _; exact fun _ => rfl
  | succ n ih =>
    intro val s1 s2 h
    have hp := hR.peekChar s1 s2 h
    have hr := hR.peekRest h
    simp only [digitsLoop]
    rw [← charSim_isdigit hp]
    by_cases hc : isdigit (peek s1).1 = true
    · simp only [hc, if_true]
      obtain ⟨h1, h2⟩ := hR.getChar _ _ hr (by rw [peek_peek]; exact nul_not_digit hc)
      rw [← h1]
      exact ih _ _ _ h2
    · simp only [hc, if_false]
      exact ⟨_, rfl, hr⟩

theorem parseFactor_rel {R : List Char → List Char → Prop} {strict : Bool}
    (hR : RespectsOps R strict) {pe : List Char → PResult ASTNode}
    (hpe : ∀ s1 s2, R s1 s2 → (pe s1).Related R strict (pe s2)) (n : Nat)
    {s1 s2 : List Char} (h : R s1 s2) :
    (parseFactor pe n s1).Related R strict (parseFactor pe n s2) := by
  have hp := hR.peekChar s1 s2 h
  have hr := hR.peekRest h
  simp only [parseFactor]
  rw [← charSim_isdigit hp, ← charSim_beq hp '(' (by decide) (by decide), ← charSim_isalpha hp]
  split_ifs with c1 c2 c3
  · have hd := digitsLoop_rel hR n 0 _ _ hr
    cases h1 : digitsLoop n 0 (peek s1).2 with
    | ok a t =>
      rw [h1] at hd
      obtain ⟨t2, h2, ht⟩ := hd
      rw [h2]
      exact ⟨t2, rfl, ht⟩
    | error e => rw [h1] at hd; intro hst; rw [hd hst]
    | timeout => rw [h1] at hd; intro hst; rw [hd hst]
  · have hne : (peek (peek s1).2).1 ≠ '\x00' := by
      rw [peek_peek]
      intro h0
      rw [h0] at c2
      revert c2
      decide
    obtain ⟨_, hg⟩ := hR.getChar _ _ hr hne
    have hd := hpe _ _ hg
    cases h1 : pe (get (peek s1).2).2 with
    | ok a t =>
      rw [h1] at hd
      obtain ⟨t2, h2, ht⟩ := hd
      rw [h2]
      have he := expect_rel hR ')' (by decide) ht
      show PResult.Related R strict
        (match expect ')' t with
          | .ok _ rest1 => .ok a rest1
          | .error e => .error e
          | .timeout => .timeout)
        (match expect ')' t2 with
          | .ok _ rest1 => .ok a rest1
          | .error e => .error e
          | .timeout => .timeout)
      cases h3 : expect ')' t with
      | ok u t3 =>
        rw [h3] at he
        obtain ⟨t4, h4, ht4⟩ := he
        rw [h4]
        exact ⟨t4, rfl, ht4⟩
      | error e => rw [h3] at he; intro hst; rw [he hst]
      | timeout => rw [h3] at he; intro hst; rw [he hst]
    | error e => rw [h1] at hd; intro hst; rw [hd hst]
    | timeout => rw [h1] at hd; intro hst; rw [hd hst]
  · have hd := parseIdentifier_rel hR n hr
    cases h1 : parseIdentifier n (peek s1).2 with
    | ok a t =>
      rw [h1] at hd
      obtain ⟨t2, h2, ht⟩ := hd
      rw [h2]
      exact ⟨t2, rfl, ht⟩
    | error e => rw [h1] at hd; intro hst; rw [hd hst]
    | timeout => rw [h1] at hd; intro hst; rw [hd hst]
  · exact fun _ => rfl

theorem matchFirst_rel {R : List Char → List Char → Prop} {strict : Bool}
    (hR : RespectsOps R strict) (ops : List String) (hops : ∀ op ∈ ops, op ∈ operatorWords) :
    ∀ (s1 s2 : List Char), R s1 s2 →
      (matchFirst ops s1).1 = (matchFirst ops s2).1 ∧
        R (matchFirst ops s1).2 (matchFirst ops s2).2 := by
  induction ops with
  | nil => intro s1 s2 h; exact ⟨rfl, h⟩
  | cons kw kws ih =>
    intro s1 s2 h
    obtain ⟨hb, hrest⟩ := hR.matchOp kw (hops kw (List.mem_cons_self _ _)) s1 s2 h
    simp only [matchFirst]
    rcases h1 : matchKw kw s1 with ⟨b1, r1⟩
    rcases h2 : matchKw kw s2 with ⟨b2, r2⟩
    rw [h1, h2] at hb hrest
    simp only at hb hrest
    subst hb
    cases b1 with
    | true => exact ⟨rfl, hrest⟩
    | false => exact ih (fun op hop => hops op (List.mem_cons_of_mem _ hop)) r1 r2 hrest

theorem binaryLoop_rel {R : List Char → List Char → Prop} {strict : Bool}
    (hR : RespectsOps R strict) (ops : List String) (hops : ∀ op ∈ ops, op ∈ operatorWords)
    {operand : List Char → PResult ASTNode}
    (hop : ∀ s1 s2, R s1 s2 → (operand s1).Related R strict (operand s2)) (n : Nat) :
    ∀ (node : ASTNode) (s1 s2 : List Char), R s1 s2 →
      (binaryLoop ops operand n node s1).Related R strict (binaryLoop ops operand n node s2) := by
  induction n with
  | zero => intro node s1 s2 _; exact fun _ => rfl
  | succ n ih =>
    intro node s1 s2 h
    obtain ⟨hb, hrest⟩ := matchFirst_rel hR ops hops s1 s2 h
    simp only [binaryLoop]
    rcases h1 : matchFirst ops s1 with ⟨o1, r1⟩
    rcases h2 : matchFirst ops s2 with ⟨o2, r2⟩
    rw [h1, h2] at hb hrest
    simp only at hb hrest
    subst hb
    cases o1 with
    | none => exact ⟨r2, rfl, hrest⟩
    | some op =>
      simp only
      have hd := hop r1 r2 hrest
      cases h3 : operand r1 with
      | ok a t =>
        rw [h3] at hd
        obtain ⟨t2, h4, ht⟩ := hd
        rw [h4]
        exact ih _ _ _ ht
      | error e => rw [h3] at hd; intro hst; rw [hd hst]
      | timeout => rw [h3] at hd; intro hst; rw [hd hst]

theorem binaryLevel_rel {R : List Char → List Char → Prop} {strict : Bool}
    (hR : RespectsOps R strict) (ops : List String) (hops : ∀ op ∈ ops, op ∈ operatorWords)
    {sub : List Char → PResult ASTNode}
    (hsub : ∀ s1 s2, R s1 s2 → (sub s1).Related R strict (sub s2)) (n : Nat)
    {s1 s2 : List Char} (h : R s1 s2) :
    (binaryLevel ops sub n s1).Related R strict (binaryLevel ops sub n s2) := by
  have hd := hsub s1 s2 h
  simp only [binaryLevel]
  cases h3 : sub s1 with
  | ok a t =>
    rw [h3] at hd
    obtain ⟨t2, h4, ht⟩ := hd
    rw [h4]
    exact binaryLoop_rel hR ops hops hsub n _ _ _ ht
  | error e => rw [h3] at hd; intro hst; rw [hd hst]
  | timeout => rw [h3] at hd; intro hst; rw [hd hst]

theorem parseEquality_rel {R : List Char → List Char → Prop} {strict : Bool}
    (hR : RespectsOps R strict) {pe : List Char → PResult ASTNode}
    (hpe : ∀ s1 s2, R s1 s2 → (pe s1).Related R strict (pe s2)) (n : Nat)
    {s1 s2 : List Char} (h : R s1 s2) :
    (parseEquality pe n s1).Related R strict (parseEquality pe n s2) := by
  have hT : ∀ s1 s2, R s1 s2 → (parseTerm pe n s1).Related R strict (parseTerm pe n s2) :=
    fun s1 s2 h => by
      rw [parseTerm_eq_level]
      exact binaryLevel_rel hR _ (by decide) (fun a b hab => parseFactor_rel hR hpe n hab) n h
  have hA : ∀ s1 s2, R s1 s2 →
      (parseAdditive pe n s1).Related R strict (parseAdditive pe n s2) :=
    fun s1 s2 h => by
      rw [parseAdditive_eq_level]
      exact binaryLevel_rel hR _ (by decide) hT n h
  have hRel : ∀ s1 s2, R s1 s2 →
      (parseRelational pe n s1).Related R strict (parseRelational pe n s2) :=
    fun s1 s2 h => by
      rw [parseRelational_eq_level]
      exact binaryLevel_rel hR _ (by decide) hA n h
  rw [parseEquality_eq_level]
  exact binaryLevel_rel hR _ (by decide) hRel n h

theorem parseExpression_rel {R : List Char → List Char → Prop} {strict : Bool}
    (hR : RespectsOps R strict) (n : Nat) :
    ∀ (s1 s2 : List Char), R s1 s2 →
      (parseExpression n s1).Related R strict (parseExpression n s2) := by
  induction n with
  | zero => intro s1 s2 _; exact fun _ => rfl
  | succ n ih =>
    intro s1 s2 h
    rw [parseExpression_succ, parseExpression_succ]
    exact parseEquality_rel hR ih n h

theorem exprThenSemicolon_rel {R : List Char → List Char → Prop} {strict : Bool}
    (hR : RespectsOps R strict) (n : Nat) (wrap : ASTNode → ASTNode) {s1 s2 : List Char}
    (h : R s1 s2) :
    (exprThenSemicolon n wrap s1).Related R strict (exprThenSemicolon n wrap s2) := by
  have hd := parseExpression_rel hR n s1 s2 h
  simp only [exprThenSemicolon]
  cases h1 : parseExpression n s1 with
  | ok a t =>
    rw [h1] at hd
    obtain ⟨t2, h2, ht⟩ := hd
    rw [h2]
    have he := expect_rel hR ';' (by decide) ht
    simp only
    cases h3 : expect ';' t with
    | ok u t3 =>
      rw [h3] at he
      obtain ⟨t4, h4, ht4⟩ := he
      rw [h4]
      exact ⟨t4, rfl, ht4⟩
    | error e => rw [h3] at he; intro hst; rw [he hst]
    | timeout => rw [h3] at he; intro hst; rw [he hst]
  | error e => rw [h1] at hd; intro hst; rw [hd hst]
  | timeout => rw [h1] at hd; intro hst; rw [hd hst]

theorem parseAssignment_rel {R : List Char → List Char → Prop} {strict : Bool}
    (hR : RespectsOps R strict) (n : Nat) {s1 s2 : List Char} (h : R s1 s2) :
    (parseAssignment n s1).Related R strict (parseAssignment n s2) := by
  have hd := parseIdentifier_rel hR n h
  simp only [parseAssignment]
  cases h1 : parseIdentifier n s1 with
  | ok a t =>
    rw [h1] at hd
    obtain ⟨t2, h2, ht⟩ := hd
    rw [h2]
    have he := expect_rel hR '=' (by decide) ht
    simp only
    cases h3 : expect '=' t with
    | ok u t3 =>
      rw [h3] at he
      obtain ⟨t4, h4, ht4⟩ := he
      rw [h4]
      exact exprThenSemicolon_rel hR n _ ht4
    | error e => rw [h3] at he; intro hst; rw [he hst]
    | timeout => rw [h3] at he; intro hst; rw [he hst]
  | error e => rw [h1] at hd; intro hst; rw [hd hst]
  | timeout => rw [h1] at hd; intro hst; rw [hd hst]

theorem parseCondition_rel {R : List Char → List Char → Prop} {strict : Bool}
    (hR : RespectsOps R strict) (n : Nat) {s1 s2 : List Char} (h : R s1 s2) :
    (parseCondition n s1).Related R strict (parseCondition n s2) := by
  have he := expect_rel hR '(' (by decide) h
  simp only [parseCondition]
  cases h1 : expect '(' s1 with
  | ok u t =>
    rw [h1] at he
    obtain ⟨t2, h2, ht⟩ := he
    rw [h2]
    have hd := parseExpression_rel hR n t t2 ht
    simp only
    cases h3 : parseExpression n t with
    | ok a t3 =>
      rw [h3] at hd
      obtain ⟨t4, h4, ht4⟩ := hd
      rw [h4]
      have he2 := expect_rel hR ')' (by decide) ht4
      simp only
      cases h5 : expect ')' t3 with
      | ok u2 t5 =>
        rw [h5] at he2
        obtain ⟨t6, h6, ht6⟩ := he2
        rw [h6]
        exact ⟨t6, rfl, ht6⟩
      | error e => rw [h5] at he2; intro hst; rw [he2 hst]
      | timeout => rw [h5] at he2; intro hst; rw [he2 hst]
    | error e => rw [h3] at hd; intro hst; rw [hd hst]
    | timeout => rw [h3] at hd; intro hst; rw [hd hst]
  | error e => rw [h1] at he; intro hst; rw [he hst]
  | timeout => rw [h1] at he; intro hst; rw [he hst]

theorem parseIf_rel {R : List Char → List Char → Prop} {strict : Bool}
    (hR : Respects R strict) {ps : List Char → PResult ASTNode}
    (hps : ∀ s1 s2, R s1 s2 → (ps s1).Related R strict (ps s2)) (n : Nat)
    {s1 s2 : List Char} (h : R s1 s2) :
    (parseIf ps n s1).Related R strict (parseIf ps n s2) := by
  have hd := parseCondition_rel hR.toOps n h
  simp only [parseIf]
  cases h1 : parseCondition n s1 with
  | ok c t =>
    rw [h1] at hd
    obtain ⟨t2, h2, ht⟩ := hd
    rw [h2]
    have hthen := hps t t2 ht
    simp only
    cases h3 : ps t with
    | ok a t3 =>
      rw [h3] at hthen
      obtain ⟨t4, h4, ht4⟩ := hthen
      rw [h4]
      obtain ⟨hb, hrest⟩ := hR.matchWord "else" (by decide) t3 t4 ht4
      simp only
      rcases h5 : matchKw "else" t3 with ⟨b1, r1⟩
      rcases h6 : matchKw "else" t4 with ⟨b2, r2⟩
      rw [h5, h6] at hb hrest
      simp only at hb hrest
      subst hb
      cases b1 with
      | false => exact ⟨r2, rfl, hrest⟩
      | true =>
        have helse := hps r1 r2 hrest
        simp only
        cases h7 : ps r1 with
        | ok e t7 =>
          rw [h7] at helse
          obtain ⟨t8, h8, ht8⟩ := helse
          rw [h8]
          exact ⟨t8, rfl, ht8⟩
        | error e => rw [h7] at helse; intro hst; rw [helse hst]
        | timeout => rw [h7] at helse; intro hst; rw [helse hst]
    | error e => rw [h3] at hthen; intro hst; rw [hthen hst]
    | timeout => rw [h3] at hthen; intro hst; rw [hthen hst]
  | error e => rw [h1] at hd; intro hst; rw [hd hst]
  | timeout => rw [h1] at hd; intro hst; rw [hd hst]

theorem parseWhile_rel {R : List Char → List Char → Prop} {strict : Bool}
    (hR : Respects R strict) {ps : List Char → PResult ASTNode}
    (hps : ∀ s1 s2, R s1 s2 → (ps s1).Related R strict (ps s2)) (n : Nat)
    {s1 s2 : List Char} (h : R s1 s2) :
    (parseWhile ps n s1).Related R strict (parseWhile ps n s2) := by
  have hd := parseCondition_rel hR.toOps n h
  simp only [parseWhile]
  cases h1 : parseCondition n s1 with
  | ok c t =>
    rw [h1] at hd
    obtain ⟨t2, h2, ht⟩ := hd
    rw [h2]
    have hbody := hps t t2 ht
    simp only
    cases h3 : ps t with
    | ok a t3 =>
      rw [h3] at hbody
      obtain ⟨t4, h4, ht4⟩ := hbody
      rw [h4]
      exact ⟨t4, rfl, ht4⟩
    | error e => rw [h3] at hbody; intro hst; rw [hbody hst]
    | timeout => rw [h3] at hbody; intro hst; rw [hbody hst]
  | error e => rw [h1] at hd; intro hst; rw [hd hst]
  | timeout => rw [h1] at hd; intro hst; rw [hd hst]

theorem parseStatements_rel {R : List Char → List Char → Prop} {strict : Bool}
    (hR : Respects R strict) {ps : List Char → PResult ASTNode}
    (hps : ∀ s1 s2, R s1 s2 → (ps s1).Related R strict (ps s2)) (n : Nat) :
    ∀ (stmts : List ASTNode) (s1 s2 : List Char), R s1 s2 →
      (parseStatements ps n stmts s1).Related R strict (parseStatements ps n stmts s2) := by
  induction n with
  | zero => intro stmts s1 s2 _; exact fun _ => rfl
  | succ n ih =>
    intro stmts s1 s2 h
    have hp := hR.peekChar s1 s2 h
    have hr := hR.toOps.peekRest h
    simp only [parseStatements]
    rw [← charSim_stop hp]
    by_cases hc : (decide ((peek s1).1 ≠ '\x00') && decide ((peek s1).1 ≠ '}')) = true
    · simp only [hc, if_true]
      have hd := hps _ _ hr
      cases h1 : ps (peek s1).2 with
      | ok a t =>
        rw [h1] at hd
        obtain ⟨t2, h2, ht⟩ := hd
        rw [h2]
        exact ih _ _ _ ht
      | error e => rw [h1] at hd; intro hst; rw [hd hst]
      | timeout => rw [h1] at hd; intro hst; rw [hd hst]
    · simp only [hc, if_false]
      exact ⟨_, rfl, hr⟩

theorem parseBlock_rel {R : List Char → List Char → Prop} {strict : Bool}
    (hR : Respects R strict) {ps : List Char → PResult ASTNode}
    (hps : ∀ s1 s2, R s1 s2 → (ps s1).Related R strict (ps s2)) (n : Nat)
    {s1 s2 : List Char} (h : R s1 s2) :
    (parseBlock ps n s1).Related R strict (parseBlock ps n s2) := by
  have he := expect_rel hR.toOps '{' (by decide) h
  simp only [parseBlock]
  cases h1 : expect '{' s1 with
  | ok u t =>
    rw [h1] at he
    obtain ⟨t2, h2, ht⟩ := he
    rw [h2]
    have hd := parseStatements_rel hR hps n [] t t2 ht
    simp only
    cases h3 : parseStatements ps n [] t with
    | ok a t3 =>
      rw [h3] at hd
      obtain ⟨t4, h4, ht4⟩ := hd
      rw [h4]
      have he2 := expect_rel hR.toOps '}' (by decide) ht4
      simp only
      cases h5 : expect '}' t3 with
      | ok u2 t5 =>
        rw [h5] at he2
        obtain ⟨t6, h6, ht6⟩ := he2
        rw [h6]
        exact ⟨t6, rfl, ht6⟩
      | error e => rw [h5] at he2; intro hst; rw [he2 hst]
      | timeout => rw [h5] at he2; intro hst; rw [he2 hst]
    | error e => rw [h3] at hd; intro hst; rw [hd hst]
    | timeout => rw [h3] at hd; intro hst; rw [hd hst]
  | error e => rw [h1] at he; intro hst; rw [he hst]
  | timeout => rw [h1] at he; intro hst; rw [he hst]

theorem parseStatement_rel {R : List Char → List Char → Prop} {strict : Bool}
    (hR : Respects R strict) (n : Nat) :
    ∀ (s1 s2 : List Char), R s1 s2 →
      (parseStatement n s1).Related R strict (parseStatement n s2) := by
  induction n with
  | zero => intro s1 s2 _; exact fun _ => rfl
  | succ n ih =>
    intro s1 s2 h
    simp only [parseStatement]
    obtain ⟨hb, hrest⟩ := hR.matchWord "if" (by decide) s1 s2 h
    rcases h1 : matchKw "if" s1 with ⟨b1, r1⟩
    rcases h2 : matchKw "if" s2 with ⟨b2, r2⟩
    rw [h1, h2] at hb hrest
    simp only at hb hrest
    subst hb
    cases b1 with
    | true => exact parseIf_rel hR ih n hrest
    | false =>
      simp only
      obtain ⟨hb, hrest2⟩ := hR.matchWord "while" (by decide) r1 r2 hrest
      rcases h3 : matchKw "while" r1 with ⟨b3, r3⟩
      rcases h4 : matchKw "while" r2 with ⟨b4, r4⟩
      rw [h3, h4] at hb hrest2
      simp only at hb hrest2
      subst hb
      cases b3 with
      | true => exact parseWhile_rel hR ih n hrest2
      | false =>
        simp only
        obtain ⟨hb, hrest3⟩ := hR.matchWord "print" (by decide) r3 r4 hrest2
        rcases h5 : matchKw "print" r3 with ⟨b5, r5⟩
        rcases h6 : matchKw "print" r4 with ⟨b6, r6⟩
        rw [h5, h6] at hb hrest3
        simp only at hb hrest3
        subst hb
        cases b5 with
        | true => exact exprThenSemicolon_rel hR.toOps n _ hrest3
        | false =>
          simp only
          have hp := hR.peekChar r5 r6 hrest3
          have hr := hR.toOps.peekRest hrest3
          rw [← charSim_beq hp '{' (by decide) (by decide), ← charSim_isalpha hp]
          split_ifs with c1 c2
          · exact parseBlock_rel hR ih n hr
          · have hd := parseIdentifier_rel hR.toOps n hr
            cases h7 : parseIdentifier n (peek r5).2 with
            | ok a t =>
              rw [h7] at hd
              obtain ⟨t2, h8, ht⟩ := hd
              rw [h8]
              have hp2 := hR.peekChar _ _ (hR.skip _ _ ht)
              simp only
              rw [← charSim_beq hp2 '=' (by decide) (by decide)]
              split_ifs
              · exact parseAssignment_rel hR.toOps n hr
              · exact exprThenSemicolon_rel hR.toOps n _ hr
            | error e => rw [h7] at hd; intro hst; rw [hd hst]
            | timeout => rw [h7] at hd; intro hst; rw [hd hst]
          · exact exprThenSemicolon_rel hR.toOps n _ hr

end Parser

/-- The method `Parser::parse` on two related inputs. -/
theorem Parser.parse_rel {R : List Char → List Char → Prop} {strict : Bool}
    (hR : Parser.Respects R strict) (n : Nat) {s1 s2 : List Char} (h : R s1 s2) :
    (Parser.parse n (String.mk s1)).Related R strict (Parser.parse n (String.mk s2)) := by
  have hd := Parser.parseStatements_rel hR (Parser.parseStatement_rel hR n) n [] s1 s2 h
  simp only [Parser.parse]
  cases h1 : Parser.parseStatements (Parser.parseStatement n) n [] s1 with
  | ok a t =>
    rw [h1] at hd
    obtain ⟨t2, h2, ht⟩ := hd
    rw [h2]
    exact ⟨t2, rfl, ht⟩
  | error e => rw [h1] at hd; intro hst; rw [hd hst]
  | timeout => rw [h1] at hd; intro hst; rw [hd hst]

/-! ## The parser: input that follows a closing brace -/

theorem skipWhitespace_append_brace (r : List Char) :
    ∀ s, Parser.skipWhitespace (s ++ '}' :: r) = Parser.skipWhitespace s ++ '}' :: r := by
  intro s
  induction s with
  | nil => simp [Parser.skipWhitespace, isspace]
  | cons c t ih =>
    by_cases hc : isspace c = true
    · simp only [List.cons_append, Parser.skipWhitespace_cons_space _ hc, ih]
    · have hc2 : isspace c = false := by simpa using hc
      simp only [List.cons_append, Parser.skipWhitespace_cons_other _ hc2]

theorem isPrefixOf_append_brace (kw : List Char) (hk : '}' ∉ kw) :
    ∀ (u r : List Char), kw.isPrefixOf (u ++ '}' :: r) = kw.isPrefixOf u := by
  induction kw with
  | nil => intro u r; simp
  | cons k ks ih =>
    intro u r
    have hk1 : k ≠ '}' := fun h => hk (h ▸ List.mem_cons_self _ _)
    cases u with
    | nil =>
      have : (k == '}') = false := by simpa using hk1
      simp [List.isPrefixOf, this]
    | cons x u1 =>
      have := ih (fun h => hk (List.mem_cons_of_mem _ h)) u1 r
      show (k == x && ks.isPrefixOf (u1 ++ '}' :: r)) = (k == x && ks.isPrefixOf u1)
      rw [this]

theorem isPrefixOf_length_le {kw u : List Char} (h : kw.isPrefixOf u = true) :
    kw.length ≤ u.length :=
  (List.isPrefixOf_iff_prefix.mp h).length_le

theorem matchedWords_no_brace : ∀ kw ∈ matchedWords, '}' ∉ kw.data := by decide

/-- The reading primitives respect extension of the input by a closing brace and
anything after it; exceptions are not preserved (`expect('}')` fails at the end of input
and succeeds on the brace). -/
theorem respects_extended (r : List Char) : Parser.Respects (Extended ('}' :: r)) false where
  skip := by
    intro s1 s2 h
    unfold Extended at h ⊢
    rw [h, skipWhitespace_append_brace]
  peekChar := by
    intro s1 s2 h
    unfold Extended at h
    subst h
    unfold Parser.peek
    rw [skipWhitespace_append_brace]
    cases Parser.skipWhitespace s1 with
    | nil => exact Or.inr ⟨rfl, rfl, rfl⟩
    | cons c t => exact Or.inl rfl
  getChar := by
    intro s1 s2 h hne
    unfold Extended at h ⊢
    subst h
    unfold Parser.peek at hne
    unfold Parser.get
    rw [skipWhitespace_append_brace]
    cases hs : Parser.skipWhitespace s1 with
    | nil => rw [hs] at hne; exact absurd rfl hne
    | cons c t => exact ⟨rfl, rfl⟩
  matchWord := by
    intro kw hkw s1 s2 h
    unfold Extended at h ⊢
    subst h
    unfold Parser.matchKw
    simp only
    rw [skipWhitespace_append_brace, isPrefixOf_append_brace _ (matchedWords_no_brace kw hkw)]
    by_cases hp : kw.data.isPrefixOf (Parser.skipWhitespace s1) = true
    · rw [if_pos hp, if_pos hp]
      exact ⟨rfl, List.drop_append_of_le_length (isPrefixOf_length_le hp)⟩
    · rw [if_neg hp, if_neg hp]
      exact ⟨rfl, rfl⟩

/-- A successful parse stays the same when the input is followed by a closing brace and
anything else; the brace and what follows it are left unread. -/
theorem parse_extended {fuel : Nat} {p t : List Char} {tree : ASTNode} (r : List Char)
    (h : Parser.parse fuel (String.mk p) = .ok tree t) :
    Parser.parse fuel (String.mk (p ++ '}' :: r)) = .ok tree (t ++ '}' :: r) := by
  have hrel := Parser.parse_rel (respects_extended r) fuel
    (show Extended ('}' :: r) p (p ++ '}' :: r) from rfl)
  rw [h] at hrel
  obtain ⟨t2, h2, ht⟩ := hrel
  rw [h2, ht]

theorem parse_ok_block {fuel : Nat} {input : String} {tree : ASTNode} {rest : List Char}
    (h : Parser.parse fuel input = .ok tree rest) : ∃ stmts, tree = .Block stmts := by
  simp only [Parser.parse] at h
  cases hs : Parser.parseStatements (Parser.parseStatement fuel) fuel [] input.data with
  | ok stmts rest1 => rw [hs] at h; cases h; exact ⟨stmts, rfl⟩
  | error e => rw [hs] at h; cases h
  | timeout => rw [hs] at h; cases h

/-- C25: for every source `p` that `Parser::parse` accepts as a whole (a sequence of
complete top-level statements, read to the end of `p`) and every text `r`, parsing
`p ++ "}" ++ r` with the same fuel succeeds and returns the same `Block` of the statements
of `p`; the unread input is the brace followed by `r`, which `parse` does not look at. -/
theorem parse_stops_at_closing_brace (fuel : Nat) (p r : List Char) (tree : ASTNode)
    (h : Parser.parse fuel (String.mk p) = .ok tree []) :
    Parser.parse fuel (String.mk (p ++ "\x7d".data ++ r)) = .ok tree ('}' :: r) ∧
    ∃ stmts, tree = .Block stmts := by
  refine ⟨?_, parse_ok_block h⟩
  have := parse_extended r h
  simpa using this

/-- Witness for C25: `x = 1; print x;` followed by `} y = ( 2` parses to the block of the
two statements. -/
theorem parse_stops_at_closing_brace_witness :
    Parser.parse 10 "x = 1; print x;"
      = .ok (.Block [.Assignment "x" (.Literal 1), .PrintStmt (.Identifier "x")]) [] ∧
    Parser.parse 10 "x = 1; print x;\x7d y = ( 2"
      = .ok (.Block [.Assignment "x" (.Literal 1), .PrintStmt (.Identifier "x")])
          "\x7d y = ( 2".data ∧
    (Parser.parse 10 (String.mk ("x = 1; print x;".data ++ "\x7d".data ++ " y = ( 2".data))
      = .ok (.Block [.Assignment "x" (.Literal 1), .PrintStmt (.Identifier "x")])
          ('}' :: " y = ( 2".data) ∧
     ∃ stmts, ASTNode.Block [.Assignment "x" (.Literal 1), .PrintStmt (.Identifier "x")]
       = .Block stmts) :=
  ⟨by rfl, by rfl,
    parse_stops_at_closing_brace 10 "x = 1; print x;".data " y = ( 2".data _ (by rfl)⟩

/-! ## The parser: white space inside tokens -/

theorem matchedWords_no_space : ∀ kw ∈ matchedWords, ∀ ch ∈ kw.data, isspace ch = false := by
  decide

theorem WsInserted.refl (s : List Char) : WsInserted s s :=
  WsInserted.lead [] s (fun _ h => by cases h)

theorem skipWhitespace_append_of_space {ws : List Char} (hws : ∀ w ∈ ws, isspace w = true)
    (s : List Char) : Parser.skipWhitespace (ws ++ s) = Parser.skipWhitespace s := by
  induction ws with
  | nil => rfl
  | cons w ws1 ih =>
    rw [List.cons_append, Parser.skipWhitespace_cons_space _ (hws w (List.mem_cons_self _ _)),
      ih (fun x hx => hws x (List.mem_cons_of_mem _ hx))]

theorem WsInserted.skip {s1 s2 : List Char} (h : WsInserted s1 s2) :
    WsInserted (Parser.skipWhitespace s1) (Parser.skipWhitespace s2) := by
  induction h with
  | lead ws s hws =>
    rw [skipWhitespace_append_of_space hws]
    exact WsInserted.refl _
  | cons x h hk ih =>
    by_cases hx : isspace x = true
    · rw [Parser.skipWhitespace_cons_space _ hx, Parser.skipWhitespace_cons_space _ hx]
      exact ih
    · have hx2 : isspace x = false := by simpa using hx
      rw [Parser.skipWhitespace_cons_other _ hx2, Parser.skipWhitespace_cons_other _ hx2]
      exact WsInserted.cons x h hk

/-- After skipping white space, two related inputs are equal or start with the same
character, which is not white space. -/
theorem WsInserted.skip_cases {s1 s2 : List Char} (h : WsInserted s1 s2) :
    Parser.skipWhitespace s1 = Parser.skipWhitespace s2 ∨
    ∃ x t1 t2, isspace x = false ∧ Parser.skipWhitespace s1 = x :: t1 ∧
      Parser.skipWhitespace s2 = x :: t2 ∧ WsInserted t1 t2 ∧
      (∀ kw ∈ matchedWords, kw.data.isPrefixOf (x :: t1) = kw.data.isPrefixOf (x :: t2)) := by
  induction h with
  | lead ws s hws => exact Or.inl (skipWhitespace_append_of_space hws s).symm
  | cons x h hk ih =>
    by_cases hx : isspace x = true
    · rw [Parser.skipWhitespace_cons_space _ hx, Parser.skipWhitespace_cons_space _ hx]
      exact ih
    · have hx2 : isspace x = false := by simpa using hx
      rw [Parser.skipWhitespace_cons_other _ hx2, Parser.skipWhitespace_cons_other _ hx2]
      exact Or.inr ⟨x, _, _, hx2, rfl, rfl, h, hk⟩

theorem WsInserted.drop_word (pat : List Char) (hpat : ∀ ch ∈ pat, isspace ch = false) :
    ∀ {s1 s2 : List Char}, WsInserted s1 s2 → pat.isPrefixOf s1 = true →
      pat.isPrefixOf s2 = true → WsInserted (s1.drop pat.length) (s2.drop pat.length) := by
  induction pat with
  | nil => intro s1 s2 h _ _; exact h
  | cons k ks ih =>
    intro s1 s2 h h1 h2
    cases h with
    | lead ws s hws =>
      cases ws with
      | nil => exact WsInserted.refl _
      | cons w ws1 =>
        exfalso
        have hw := hws w (List.mem_cons_self _ _)
        have hk := hpat k (List.mem_cons_self _ _)
        simp only [List.cons_append, List.isPrefixOf, Bool.and_eq_true, beq_iff_eq] at h2
        rw [h2.1, hw] at hk
        cases hk
    | cons x h hk =>
      simp only [List.isPrefixOf, Bool.and_eq_true] at h1 h2
      exact ih (fun ch hch => hpat ch (List.mem_cons_of_mem _ hch)) h h1.2 h2.2

/-- The reading primitives respect the insertion of white space; exceptions and timeouts
are preserved. -/
theorem respects_wsInserted : Parser.Respects WsInserted true where
  skip := fun _ _ h => h.skip
  peekChar := by
    intro s1 s2 h
    unfold Parser.peek
    rcases h.skip_cases with h1 | ⟨x, t1, t2, _, h1, h2, _, _⟩
    · rw [h1]; exact Or.inl rfl
    · rw [h1, h2]; exact Or.inl rfl
  getChar := by
    intro s1 s2 h _
    unfold Parser.get
    rcases h.skip_cases with h1 | ⟨x, t1, t2, _, h1, h2, ht, _⟩
    · rw [h1]; exact ⟨rfl, WsInserted.refl _⟩
    · rw [h1, h2]; exact ⟨rfl, ht⟩
  matchWord := by
    intro kw hkw s1 s2 h
    unfold Parser.matchKw
    simp only
    rcases h.skip_cases with h1 | ⟨x, t1, t2, _, h1, h2, ht, hk⟩
    · rw [h1]; exact ⟨rfl, WsInserted.refl _⟩
    · rw [h1, h2, hk kw hkw]
      by_cases hp : kw.data.isPrefixOf (x :: t2) = true
      · rw [if_pos hp, if_pos hp]
        exact ⟨rfl, WsInserted.drop_word kw.data (matchedWords_no_space kw hkw)
          (WsInserted.cons x ht hk) (by rw [hk kw hkw]; exact hp) hp⟩
      · rw [if_neg hp, if_neg hp]
        exact ⟨rfl, WsInserted.cons x ht hk⟩

theorem isPrefixOf_append_long (kw : List Char) :
    ∀ (a b b2 : List Char), kw.length ≤ a.length →
      kw.isPrefixOf (a ++ b) = kw.isPrefixOf (a ++ b2) := by
  induction kw with
  | nil => intro a b b2 _; simp
  | cons k ks ih =>
    intro a b b2 hl
    cases a with
    | nil => simp at hl
    | cons x a1 =>
      have := ih a1 b b2 (by simpa using hl)
      show (k == x && ks.isPrefixOf (a1 ++ b)) = (k == x && ks.isPrefixOf (a1 ++ b2))
      rw [this]

theorem isPrefixOf_append_other (kw : List Char) :
    ∀ (a : List Char) (w : Char) (rest : List Char), a.length < kw.length → w ∉ kw →
      kw.isPrefixOf (a ++ w :: rest) = false := by
  induction kw with
  | nil => intro a w rest hl; simp at hl
  | cons k ks ih =>
    intro a w rest hl hw
    cases a with
    | nil =>
      have hkw : k ≠ w := fun h => hw (by rw [← h]; exact List.mem_cons_self _ _)
      have hk : (k == w) = false := by simpa using hkw
      show (k == w && ks.isPrefixOf rest) = false
      rw [hk]; rfl
    | cons x a1 =>
      have := ih a1 w rest (by simpa using hl) (fun h => hw (List.mem_cons_of_mem _ h))
      show (k == x && ks.isPrefixOf (a1 ++ w :: rest)) = false
      rw [this]; simp

/-- The comparison of a word with the input at one position has the same outcome after
white space is inserted behind `c`, unless `c` lies inside a match of the word. -/
theorem isPrefixOf_insert {kw : String} (hkw : kw ∈ matchedWords) {q r ws : List Char}
    {c : Char} (hws : ∀ w ∈ ws, isspace w = true)
    (hq : q.length + 1 < kw.data.length → kw.data.isPrefixOf (q ++ c :: r) = false) :
    kw.data.isPrefixOf (q ++ c :: r) = kw.data.isPrefixOf (q ++ c :: (ws ++ r)) := by
  by_cases hl : kw.data.length ≤ q.length + 1
  · have e1 : q ++ c :: r = (q ++ [c]) ++ r := by simp
    have e2 : q ++ c :: (ws ++ r) = (q ++ [c]) ++ (ws ++ r) := by simp
    rw [e1, e2]
    exact isPrefixOf_append_long _ _ _ _ (by simpa using hl)
  · rw [hq (by omega)]
    cases ws with
    | nil => exact (hq (by omega)).symm
    | cons w ws1 =>
      have e2 : q ++ c :: (w :: ws1 ++ r) = (q ++ [c]) ++ w :: (ws1 ++ r) := by simp
      rw [e2]
      refine (isPrefixOf_append_other _ _ _ _
        (by simp only [List.length_append, List.length_cons, List.length_nil]; omega) ?_).symm
      intro hmem
      have h1 := matchedWords_no_space kw hkw w hmem
      rw [hws w (List.mem_cons_self _ _)] at h1
      cases h1

theorem wsInserted_after (c : Char) (r ws : List Char) (hws : ∀ w ∈ ws, isspace w = true) :
    ∀ (p : List Char),
      (∀ kw ∈ matchedWords, ∀ j, j ≤ p.length → p.length + 1 < j + kw.data.length →
        kw.data.isPrefixOf ((p ++ c :: r).drop j) = false) →
      WsInserted (p ++ c :: r) (p ++ c :: (ws ++ r)) := by
  intro p
  induction p with
  | nil =>
    intro h
    refine WsInserted.cons c (WsInserted.lead ws r hws) (fun kw hkw => ?_)
    exact @isPrefixOf_insert kw hkw [] r ws c hws
      (fun hl => h kw hkw 0 (le_refl _) (by simpa using hl))
  | cons x p1 ih =>
    intro h
    refine WsInserted.cons x (ih (fun kw hkw j hj hl => ?_)) (fun kw hkw => ?_)
    · have := h kw hkw (j + 1) (by simpa using hj) (by simp only [List.length_cons]; omega)
      simpa using this
    · exact @isPrefixOf_insert kw hkw (x :: p1) r ws c hws
        (fun hl => h kw hkw 0 (Nat.zero_le _) (by simpa using hl))

theorem insideWord_false {p r : List Char} {c : Char} (h : insideWord p c r = false) :
    ∀ kw ∈ matchedWords, ∀ j, j ≤ p.length → p.length + 1 < j + kw.data.length →
      kw.data.isPrefixOf ((p ++ c :: r).drop j) = false := by
  intro kw hkw j hj hl
  cases hp : kw.data.isPrefixOf ((p ++ c :: r).drop j) with
  | false => rfl
  | true =>
    exfalso
    have : insideWord p c r = true := by
      unfold insideWord
      rw [List.any_eq_true]
      refine ⟨kw, hkw, ?_⟩
      rw [List.any_eq_true]
      exact ⟨j, List.mem_range.mpr (by omega), by
        simp only [Bool.and_eq_true, decide_eq_true_eq]; exact ⟨hl, hp⟩⟩
    rw [h] at this
    cases this

theorem mem_of_isPrefixOf_append (kw : List Char) :
    ∀ (q : List Char) (c : Char) (r : List Char), kw.isPrefixOf (q ++ c :: r) = true →
      q.length < kw.length → c ∈ kw := by
  induction kw with
  | nil => intro q c r _ hl; simp at hl
  | cons k ks ih =>
    intro q c r hp hl
    cases q with
    | nil =>
      have hp2 : (k == c && ks.isPrefixOf r) = true := hp
      simp only [Bool.and_eq_true, beq_iff_eq] at hp2
      rw [hp2.1]
      exact List.mem_cons_self _ _
    | cons x q1 =>
      have hp2 : (k == x && ks.isPrefixOf (q1 ++ c :: r)) = true := hp
      simp only [Bool.and_eq_true] at hp2
      exact List.mem_cons_of_mem _ (ih q1 c r hp2.2 (by simpa using hl))

/-- A character that occurs in no word of `matchedWords` lies inside no match. -/
theorem insideWord_of_not_mem {c : Char} (hc : ∀ kw ∈ matchedWords, c ∉ kw.data)
    (p r : List Char) : insideWord p c r = false := by
  cases h : insideWord p c r with
  | false => rfl
  | true =>
    exfalso
    unfold insideWord at h
    rw [List.any_eq_true] at h
    obtain ⟨kw, hkw, h2⟩ := h
    rw [List.any_eq_true] at h2
    obtain ⟨j, hj, h3⟩ := h2
    simp only [Bool.and_eq_true, decide_eq_true_eq] at h3
    have hj2 : j ≤ p.length := by have := List.mem_range.mp hj; omega
    have e : (p ++ c :: r).drop j = p.drop j ++ c :: r := List.drop_append_of_le_length hj2
    rw [e] at h3
    exact hc kw hkw (mem_of_isPrefixOf_append _ _ _ _ h3.2
      (by simp only [List.length_drop]; omega))

theorem sameOutcome_of_related {R : List Char → List Char → Prop} {r1 r2 : PResult ASTNode}
    (h : r1.Related R true r2) : sameOutcome r1 r2 := by
  cases h1 : r1 with
  | ok a t =>
    rw [h1] at h
    obtain ⟨t2, h2, _⟩ := h
    rw [h2]
    refine ⟨fun tree => ⟨fun ⟨_, hx⟩ => ?_, fun ⟨_, hx⟩ => ?_⟩, fun e => ?_, ?_⟩
    · cases hx; exact ⟨_, rfl⟩
    · cases hx; exact ⟨_, rfl⟩
    · constructor <;> intro hx <;> cases hx
    · constructor <;> intro hx <;> cases hx
  | error e =>
    rw [h1] at h
    rw [h rfl]
    exact ⟨fun _ => Iff.rfl, fun _ => Iff.rfl, Iff.rfl⟩
  | timeout =>
    rw [h1] at h
    rw [h rfl]
    exact ⟨fun _ => Iff.rfl, fun _ => Iff.rfl, Iff.rfl⟩

/-- Inserting white space behind a character that lies inside no match of a keyword or
operator leaves the outcome of `Parser::parse` unchanged, at every fuel. -/
theorem parse_wsInserted (fuel : Nat) (p r ws : List Char) (c : Char)
    (hws : ∀ w ∈ ws, isspace w = true) (hc : insideWord p c r = false) :
    sameOutcome (Parser.parse fuel (String.mk (p ++ c :: r)))
      (Parser.parse fuel (String.mk (p ++ c :: (ws ++ r)))) :=
  sameOutcome_of_related
    (Parser.parse_rel respects_wsInserted fuel (wsInserted_after c r ws hws p (insideWord_false hc)))

theorem matchedWords_no_digit : ∀ kw ∈ matchedWords, ∀ ch ∈ kw.data, isdigit ch = false := by
  decide

theorem matchedWords_no_underscore : ∀ kw ∈ matchedWords, '_' ∉ kw.data := by decide

/-! ## The parser: white space inside identifiers, where no keyword comparison is split -/

theorem WsAt.same (k : Nat) (s : List Char) : WsAt k s s :=
  WsAt.lead [] s (fun _ h => by cases h)

theorem WsAt.skipped {k : Nat} {s1 s2 : List Char} (h : WsAt k s1 s2) :
    WsAt k (Parser.skipWhitespace s1) (Parser.skipWhitespace s2) := by
  induction h with
  | lead ws s hws =>
    rw [skipWhitespace_append_of_space hws]
    exact WsAt.same _ _
  | cons x h ho hk ih =>
    by_cases hx : isspace x = true
    · rw [Parser.skipWhitespace_cons_space _ hx, Parser.skipWhitespace_cons_space _ hx]
      exact ih
    · have hx2 : isspace x = false := by simpa using hx
      rw [Parser.skipWhitespace_cons_other _ hx2, Parser.skipWhitespace_cons_other _ hx2]
      exact WsAt.cons x h ho hk

/-- After skipping white space, two related inputs are equal or start with the same
character, which is not white space. -/
theorem WsAt.skipped_cases {k : Nat} {s1 s2 : List Char} (h : WsAt k s1 s2) :
    Parser.skipWhitespace s1 = Parser.skipWhitespace s2 ∨
    ∃ x t1 t2, isspace x = false ∧ Parser.skipWhitespace s1 = x :: t1 ∧
      Parser.skipWhitespace s2 = x :: t2 ∧ WsAt k t1 t2 ∧
      (∀ kw ∈ operatorWords, kw.data.isPrefixOf (x :: t1) = kw.data.isPrefixOf (x :: t2)) ∧
      (∀ kw ∈ keywordWords, Parser.splitsWord k kw (x :: t1) = false →
        kw.data.isPrefixOf (x :: t1) = kw.data.isPrefixOf (x :: t2)) := by
  induction h with
  | lead ws s hws => exact Or.inl (skipWhitespace_append_of_space hws s).symm
  | cons x h ho hk ih =>
    by_cases hx : isspace x = true
    · rw [Parser.skipWhitespace_cons_space _ hx, Parser.skipWhitespace_cons_space _ hx]
      exact ih
    · have hx2 : isspace x = false := by simpa using hx
      rw [Parser.skipWhitespace_cons_other _ hx2, Parser.skipWhitespace_cons_other _ hx2]
      exact Or.inr ⟨x, _, _, hx2, rfl, rfl, h, ho, hk⟩

theorem WsAt.dropped_word {k : Nat} (pat : List Char) (hpat : ∀ ch ∈ pat, isspace ch = false) :
    ∀ {s1 s2 : List Char}, WsAt k s1 s2 → pat.isPrefixOf s1 = true →
      pat.isPrefixOf s2 = true → WsAt k (s1.drop pat.length) (s2.drop pat.length) := by
  induction pat with
  | nil => intro s1 s2 h _ _; exact h
  | cons c ks ih =>
    intro s1 s2 h h1 h2
    cases h with
    | lead ws s hws =>
      cases ws with
      | nil => exact WsAt.same _ _
      | cons w ws1 =>
        exfalso
        have hw := hws w (List.mem_cons_self _ _)
        have hc := hpat c (List.mem_cons_self _ _)
        simp only [List.cons_append, List.isPrefixOf, Bool.and_eq_true, beq_iff_eq] at h2
        rw [h2.1, hw] at hc
        cases hc
    | cons x h ho hk =>
      simp only [List.isPrefixOf, Bool.and_eq_true] at h1 h2
      exact ih (fun ch hch => hpat ch (List.mem_cons_of_mem _ hch)) h h1.2 h2.2

/-- On two inputs related by `WsAt`, `match` on a word has the same outcome when the
comparison at the first character has. -/
theorem WsAt.matchKw_agree {k : Nat} {kw : String} (hkw : kw ∈ matchedWords) {x : Char}
    {t1 t2 : List Char} (ht : WsAt k (x :: t1) (x :: t2))
    (hp : kw.data.isPrefixOf (x :: t1) = kw.data.isPrefixOf (x :: t2)) {s1 s2 : List Char}
    (h1 : Parser.skipWhitespace s1 = x :: t1) (h2 : Parser.skipWhitespace s2 = x :: t2) :
    (Parser.matchKw kw s1).1 = (Parser.matchKw kw s2).1 ∧
      WsAt k (Parser.matchKw kw s1).2 (Parser.matchKw kw s2).2 := by
  unfold Parser.matchKw
  simp only
  rw [h1, h2, hp]
  by_cases hq : kw.data.isPrefixOf (x :: t2) = true
  · rw [if_pos hq, if_pos hq]
    exact ⟨rfl, WsAt.dropped_word kw.data (matchedWords_no_space kw hkw) ht
      (by rw [hp]; exact hq) hq⟩
  · rw [if_neg hq, if_neg hq]
    exact ⟨rfl, ht⟩

/-- The reading primitives of the expression methods respect `WsAt`; exceptions and
timeouts are preserved. -/
theorem respectsOps_wsAt (k : Nat) : Parser.RespectsOps (WsAt k) true where
  skip := fun _ _ h => h.skipped
  peekChar := by
    intro s1 s2 h
    unfold Parser.peek
    rcases h.skipped_cases with h1 | ⟨x, t1, t2, _, h1, h2, _, _⟩
    · rw [h1]; exact Or.inl rfl
    · rw [h1, h2]; exact Or.inl rfl
  getChar := by
    intro s1 s2 h _
    unfold Parser.get
    rcases h.skipped_cases with h1 | ⟨x, t1, t2, _, h1, h2, ht, _⟩
    · rw [h1]; exact ⟨rfl, WsAt.same _ _⟩
    · rw [h1, h2]; exact ⟨rfl, ht⟩
  matchOp := by
    intro kw hkw s1 s2 h
    rcases h.skipped_cases with h1 | ⟨x, t1, t2, _, h1, h2, ht, ho, hk⟩
    · unfold Parser.matchKw
      simp only
      rw [h1]; exact ⟨rfl, WsAt.same _ _⟩
    · exact WsAt.matchKw_agree (operatorWords_sub kw hkw) (WsAt.cons x ht ho hk)
        (ho kw hkw) h1 h2

/-- On two inputs related by `WsAt`, `match` on a keyword has the same outcome unless the
comparison is split. -/
theorem wsAt_keyword (k : Nat) : ∀ kw ∈ keywordWords, ∀ s1 s2, WsAt k s1 s2 →
    Parser.splitsWord k kw s1 = false →
    (Parser.matchKw kw s1).1 = (Parser.matchKw kw s2).1 ∧
      WsAt k (Parser.matchKw kw s1).2 (Parser.matchKw kw s2).2 := by
  intro kw hkw s1 s2 h hs
  rcases h.skipped_cases with h1 | ⟨x, t1, t2, hx, h1, h2, ht, ho, hk⟩
  · unfold Parser.matchKw
    simp only
    rw [h1]; exact ⟨rfl, WsAt.same _ _⟩
  · have hs2 : Parser.splitsWord k kw (x :: t1) = false := by
      unfold Parser.splitsWord at hs ⊢
      rw [Parser.skipWhitespace_cons_other _ hx]
      rw [h1] at hs
      exact hs
    exact WsAt.matchKw_agree (keywordWords_sub kw hkw) (WsAt.cons x ht ho hk)
      (hk kw hkw hs2) h1 h2

theorem skipWhitespace_of_isPrefixOf (pat : List Char) (hne : pat ≠ [])
    (hpat : ∀ ch ∈ pat, isspace ch = false) (s : List Char)
    (hp : pat.isPrefixOf s = true) : Parser.skipWhitespace s = s := by
  cases pat with
  | nil => exact absurd rfl hne
  | cons c ks =>
    cases s with
    | nil => simp [List.isPrefixOf] at hp
    | cons x t =>
      simp only [List.isPrefixOf, Bool.and_eq_true, beq_iff_eq] at hp
      have hx : isspace x = false := by
        rw [← hp.1]; exact hpat c (List.mem_cons_self _ _)
      exact Parser.skipWhitespace_cons_other _ hx

/-- The comparison of an operator with the input at one position has the same outcome
after white space is inserted behind a character that occurs in no operator. -/
theorem isPrefixOf_operator_agree {kw : String} (hkw : kw ∈ operatorWords)
    {q r ws : List Char} {c : Char} (hws : ∀ w ∈ ws, isspace w = true)
    (hc : ∀ op ∈ operatorWords, c ∉ op.data) :
    kw.data.isPrefixOf (q ++ c :: r) = kw.data.isPrefixOf (q ++ c :: (ws ++ r)) := by
  refine isPrefixOf_insert (operatorWords_sub kw hkw) hws (fun hl => ?_)
  cases hp : kw.data.isPrefixOf (q ++ c :: r) with
  | false => rfl
  | true => exact absurd (mem_of_isPrefixOf_append _ _ _ _ hp (by omega)) (hc kw hkw)

/-- The comparison of a keyword with the input at one position has the same outcome
after white space is inserted `r.length` characters before the end, unless the comparison
is split by that place. -/
theorem isPrefixOf_keyword_agree {kw : String} (hkw : kw ∈ keywordWords)
    {q r ws : List Char} {c : Char} (hws : ∀ w ∈ ws, isspace w = true)
    (hs : Parser.splitsWord r.length kw (q ++ c :: r) = false) :
    kw.data.isPrefixOf (q ++ c :: r) = kw.data.isPrefixOf (q ++ c :: (ws ++ r)) := by
  refine isPrefixOf_insert (keywordWords_sub kw hkw) hws (fun hl => ?_)
  cases hp : kw.data.isPrefixOf (q ++ c :: r) with
  | false => rfl
  | true =>
    exfalso
    have hne : kw.data ≠ [] := by
      intro h0
      rw [h0] at hl
      simp at hl
    have hsk := skipWhitespace_of_isPrefixOf kw.data hne
      (matchedWords_no_space kw (keywordWords_sub kw hkw)) _ hp
    unfold Parser.splitsWord at hs
    rw [hsk, hp] at hs
    simp only [List.length_append, List.length_cons, Bool.true_and, Bool.and_eq_false_iff,
      decide_eq_false_iff_not] at hs
    omega

/-- White space inserted behind `c`, a character that occurs in no operator, relates the
two sources by `WsAt`. -/
theorem wsAt_after (c : Char) (r ws : List Char) (hws : ∀ w ∈ ws, isspace w = true)
    (hc : ∀ op ∈ operatorWords, c ∉ op.data) :
    ∀ (p : List Char), WsAt r.length (p ++ c :: r) (p ++ c :: (ws ++ r)) := by
  intro p
  induction p with
  | nil =>
    exact WsAt.cons c (WsAt.lead ws r hws)
      (fun kw hkw => @isPrefixOf_operator_agree kw hkw [] r ws c hws hc)
      (fun kw hkw hs => @isPrefixOf_keyword_agree kw hkw [] r ws c hws hs)
  | cons x p1 ih =>
    exact WsAt.cons x ih
      (fun kw hkw => @isPrefixOf_operator_agree kw hkw (x :: p1) r ws c hws hc)
      (fun kw hkw hs => @isPrefixOf_keyword_agree kw hkw (x :: p1) r ws c hws hs)

namespace Parser

theorem parseIf_guarded {R : List Char → List Char → Prop} {strict : Bool} {k : Nat}
    (hR : RespectsOps R strict)
    (hK : ∀ kw ∈ keywordWords, ∀ s1 s2, R s1 s2 → splitsWord k kw s1 = false →
      (matchKw kw s1).1 = (matchKw kw s2).1 ∧ R (matchKw kw s1).2 (matchKw kw s2).2)
    {ps : List Char → PResult ASTNode} {sp : List Char → Bool}
    (hps : ∀ s1 s2, R s1 s2 → sp s1 = false → (ps s1).Related R strict (ps s2)) (n : Nat)
    {s1 s2 : List Char} (h : R s1 s2) (hs : splitIf k ps sp n s1 = false) :
    (parseIf ps n s1).Related R strict (parseIf ps n s2) := by
  have hd := parseCondition_rel hR n h
  simp only [parseIf]
  simp only [splitIf] at hs
  cases h1 : parseCondition n s1 with
  | ok c t =>
    rw [h1] at hd hs
    obtain ⟨t2, h2, ht⟩ := hd
    rw [h2]
    simp only [Bool.or_eq_false_iff] at hs
    obtain ⟨hs1, hs2⟩ := hs
    have hthen := hps t t2 ht hs1
    simp only
    cases h3 : ps t with
    | ok a t3 =>
      rw [h3] at hthen hs2
      obtain ⟨t4, h4, ht4⟩ := hthen
      rw [h4]
      simp only [Bool.or_eq_false_iff] at hs2
      obtain ⟨hs3, hs4⟩ := hs2
      obtain ⟨hb, hrest⟩ := hK "else" (by decide) t3 t4 ht4 hs3
      simp only
      rcases h5 : matchKw "else" t3 with ⟨b1, r1⟩
      rcases h6 : matchKw "else" t4 with ⟨b2, r2⟩
      rw [h5, h6] at hb hrest
      rw [h5] at hs4
      simp only at hb hrest
      subst hb
      cases b1 with
      | false => exact ⟨r2, rfl, hrest⟩
      | true =>
        simp only at hs4
        have helse := hps r1 r2 hrest hs4
        simp only
        cases h7 : ps r1 with
        | ok e t7 =>
          rw [h7] at helse
          obtain ⟨t8, h8, ht8⟩ := helse
          rw [h8]
          exact ⟨t8, rfl, ht8⟩
        | error e => rw [h7] at helse; intro hst; rw [helse hst]
        | timeout => rw [h7] at helse; intro hst; rw [helse hst]
    | error e => rw [h3] at hthen; intro hst; rw [hthen hst]
    | timeout => rw [h3] at hthen; intro hst; rw [hthen hst]
  | error e => rw [h1] at hd; intro hst; rw [hd hst]
  | timeout => rw [h1] at hd; intro hst; rw [hd hst]

theorem parseWhile_guarded {R : List Char → List Char → Prop} {strict : Bool}
    (hR : RespectsOps R strict) {ps : List Char → PResult ASTNode} {sp : List Char → Bool}
    (hps : ∀ s1 s2, R s1 s2 → sp s1 = false → (ps s1).Related R strict (ps s2)) (n : Nat)
    {s1 s2 : List Char} (h : R s1 s2) (hs : splitWhile sp n s1 = false) :
    (parseWhile ps n s1).Related R strict (parseWhile ps n s2) := by
  have hd := parseCondition_rel hR n h
  simp only [parseWhile]
  simp only [splitWhile] at hs
  cases h1 : parseCondition n s1 with
  | ok c t =>
    rw [h1] at hd hs
    obtain ⟨t2, h2, ht⟩ := hd
    rw [h2]
    have hbody := hps t t2 ht hs
    simp only
    cases h3 : ps t with
    | ok a t3 =>
      rw [h3] at hbody
      obtain ⟨t4, h4, ht4⟩ := hbody
      rw [h4]
      exact ⟨t4, rfl, ht4⟩
    | error e => rw [h3] at hbody; intro hst; rw [hbody hst]
    | timeout => rw [h3] at hbody; intro hst; rw [hbody hst]
  | error e => rw [h1] at hd; intro hst; rw [hd hst]
  | timeout => rw [h1] at hd; intro hst; rw [hd hst]

theorem parseStatements_guarded {R : List Char → List Char → Prop} {strict : Bool}
    (hR : RespectsOps R strict) {ps : List Char → PResult ASTNode} {sp : List Char → Bool}
    (hps : ∀ s1 s2, R s1 s2 → sp s1 = false → (ps s1).Related R strict (ps s2)) (n : Nat) :
    ∀ (stmts : List ASTNode) (s1 s2 : List Char), R s1 s2 →
      splitStatements ps sp n s1 = false →
      (parseStatements ps n stmts s1).Related R strict (parseStatements ps n stmts s2) := by
  induction n with
  | zero => intro stmts s1 s2 _ _; exact fun _ => rfl
  | succ n ih =>
    intro stmts s1 s2 h hs
    have hp := hR.peekChar s1 s2 h
    have hr := hR.peekRest h
    simp only [parseStatements]
    simp only [splitStatements] at hs
    rw [← charSim_stop hp]
    by_cases hc : (decide ((peek s1).1 ≠ '\x00') && decide ((peek s1).1 ≠ '}')) = true
    · simp only [hc, if_true]
      simp only [hc, if_true, Bool.or_eq_false_iff] at hs
      obtain ⟨hs1, hs2⟩ := hs
      have hd := hps _ _ hr hs1
      cases h1 : ps (peek s1).2 with
      | ok a t =>
        rw [h1] at hd hs2
        obtain ⟨t2, h2, ht⟩ := hd
        rw [h2]
        exact ih _ _ _ ht hs2
      | error e => rw [h1] at hd; intro hst; rw [hd hst]
      | timeout => rw [h1] at hd; intro hst; rw [hd hst]
    · simp only [hc, if_false]
      exact ⟨_, rfl, hr⟩

theorem parseBlock_guarded {R : List Char → List Char → Prop} {strict : Bool}
    (hR : RespectsOps R strict) {ps : List Char → PResult ASTNode} {sp : List Char → Bool}
    (hps : ∀ s1 s2, R s1 s2 → sp s1 = false → (ps s1).Related R strict (ps s2)) (n : Nat)
    {s1 s2 : List Char} (h : R s1 s2) (hs : splitBlock ps sp n s1 = false) :
    (parseBlock ps n s1).Related R strict (parseBlock ps n s2) := by
  have he := expect_rel hR '{' (by decide) h
  simp only [parseBlock]
  simp only [splitBlock] at hs
  cases h1 : expect '{' s1 with
  | ok u t =>
    rw [h1] at he hs
    obtain ⟨t2, h2, ht⟩ := he
    rw [h2]
    have hd := parseStatements_guarded hR hps n [] t t2 ht hs
    simp only
    cases h3 : parseStatements ps n [] t with
    | ok a t3 =>
      rw [h3] at hd
      obtain ⟨t4, h4, ht4⟩ := hd
      rw [h4]
      have he2 := expect_rel hR '}' (by decide) ht4
      simp only
      cases h5 : expect '}' t3 with
      | ok u2 t5 =>
        rw [h5] at he2
        obtain ⟨t6, h6, ht6⟩ := he2
        rw [h6]
        exact ⟨t6, rfl, ht6⟩
      | error e => rw [h5] at he2; intro hst; rw [he2 hst]
      | timeout => rw [h5] at he2; intro hst; rw [he2 hst]
    | error e => rw [h3] at hd; intro hst; rw [hd hst]
    | timeout => rw [h3] at hd; intro hst; rw [hd hst]
  | error e => rw [h1] at he; intro hst; rw [he hst]
  | timeout => rw [h1] at he; intro hst; rw [he hst]

theorem parseStatement_guarded {R : List Char → List Char → Prop} {strict : Bool} {k : Nat}
    (hR : RespectsOps R strict)
    (hK : ∀ kw ∈ keywordWords, ∀ s1 s2, R s1 s2 → splitsWord k kw s1 = false →
      (matchKw kw s1).1 = (matchKw kw s2).1 ∧ R (matchKw kw s1).2 (matchKw kw s2).2)
    (n : Nat) :
    ∀ (s1 s2 : List Char), R s1 s2 → splitStatement k n s1 = false →
      (parseStatement n s1).Related R strict (parseStatement n s2) := by
  induction n with
  | zero => intro s1 s2 _ _; exact fun _ => rfl
  | succ n ih =>
    intro s1 s2 h hs
    simp only [parseStatement]
    simp only [splitStatement, Bool.or_eq_false_iff] at hs
    obtain ⟨hs0, hs⟩ := hs
    obtain ⟨hb, hrest⟩ := hK "if" (by decide) s1 s2 h hs0
    rcases h1 : matchKw "if" s1 with ⟨b1, r1⟩
    rcases h2 : matchKw "if" s2 with ⟨b2, r2⟩
    rw [h1, h2] at hb hrest
    rw [h1] at hs
    simp only at hb hrest
    subst hb
    cases b1 with
    | true => exact parseIf_guarded hR hK ih n hrest hs
    | false =>
      simp only
      simp only [Bool.or_eq_false_iff] at hs
      obtain ⟨hs1, hs⟩ := hs
      obtain ⟨hb, hrest2⟩ := hK "while" (by decide) r1 r2 hrest hs1
      rcases h3 : matchKw "while" r1 with ⟨b3, r3⟩
      rcases h4 : matchKw "while" r2 with ⟨b4, r4⟩
      rw [h3, h4] at hb hrest2
      rw [h3] at hs
      simp only at hb hrest2
      subst hb
      cases b3 with
      | true => exact parseWhile_guarded hR ih n hrest2 hs
      | false =>
        simp only
        simp only [Bool.or_eq_false_iff] at hs
        obtain ⟨hs2, hs⟩ := hs
        obtain ⟨hb, hrest3⟩ := hK "print" (by decide) r3 r4 hrest2 hs2
        rcases h5 : matchKw "print" r3 with ⟨b5, r5⟩
        rcases h6 : matchKw "print" r4 with ⟨b6, r6⟩
        rw [h5, h6] at hb hrest3
        rw [h5] at hs
        simp only at hb hrest3
        subst hb
        cases b5 with
        | true => exact exprThenSemicolon_rel hR n _ hrest3
        | false =>
          simp only
          simp only at hs
          have hp := hR.peekChar r5 r6 hrest3
          have hr := hR.peekRest hrest3
          rw [← charSim_beq hp '{' (by decide) (by decide), ← charSim_isalpha hp]
          split_ifs with c1 c2
          · rw [if_pos c1] at hs
            exact parseBlock_guarded hR ih n hr hs
          · have hd := parseIdentifier_rel hR n hr
            cases h7 : parseIdentifier n (peek r5).2 with
            | ok a t =>
              rw [h7] at hd
              obtain ⟨t2, h8, ht⟩ := hd
              rw [h8]
              have hp2 := hR.peekChar _ _ (hR.skip _ _ ht)
              simp only
              rw [← charSim_beq hp2 '=' (by decide) (by decide)]
              split_ifs
              · exact parseAssignment_rel hR n hr
              · exact exprThenSemicolon_rel hR n _ hr
            | error e => rw [h7] at hd; intro hst; rw [hd hst]
            | timeout => rw [h7] at hd; intro hst; rw [hd hst]
          · exact exprThenSemicolon_rel hR n _ hr

end Parser

/-- The method `Parser::parse` on two related inputs, when no keyword comparison it makes on
the first one is split. -/
theorem Parser.parse_guarded {R : List Char → List Char → Prop} {strict : Bool} {k : Nat}
    (hR : Parser.RespectsOps R strict)
    (hK : ∀ kw ∈ keywordWords, ∀ s1 s2, R s1 s2 → Parser.splitsWord k kw s1 = false →
      (Parser.matchKw kw s1).1 = (Parser.matchKw kw s2).1 ∧
        R (Parser.matchKw kw s1).2 (Parser.matchKw kw s2).2)
    (n : Nat) {s1 s2 : List Char} (h : R s1 s2)
    (hs : Parser.keywordSplit k n (String.mk s1) = false) :
    (Parser.parse n (String.mk s1)).Related R strict (Parser.parse n (String.mk s2)) := by
  have hd := Parser.parseStatements_guarded hR
    (fun a b hab hsp => Parser.parseStatement_guarded hR hK n a b hab hsp) n [] s1 s2 h hs
  simp only [Parser.parse]
  cases h1 : Parser.parseStatements (Parser.parseStatement n) n [] s1 with
  | ok a t =>
    rw [h1] at hd
    obtain ⟨t2, h2, ht⟩ := hd
    rw [h2]
    exact ⟨t2, rfl, ht⟩
  | error e => rw [h1] at hd; intro hst; rw [hd hst]
  | timeout => rw [h1] at hd; intro hst; rw [hd hst]

/-- Inserting white space behind a character that occurs in no operator leaves the outcome
of `Parser::parse` unchanged, at every fuel, when no keyword comparison made by the parser
is split by the insertion. -/
theorem parse_wsAt (fuel : Nat) (p r ws : List Char) (c : Char)
    (hws : ∀ w ∈ ws, isspace w = true) (hc : ∀ op ∈ operatorWords, c ∉ op.data)
    (hs : Parser.keywordSplit r.length fuel (String.mk (p ++ c :: r)) = false) :
    sameOutcome (Parser.parse fuel (String.mk (p ++ c :: r)))
      (Parser.parse fuel (String.mk (p ++ c :: (ws ++ r)))) :=
  sameOutcome_of_related
    (Parser.parse_guarded (respectsOps_wsAt r.length) (wsAt_keyword r.length) fuel
      (wsAt_after c r ws hws hc p) hs)

theorem operatorWords_no_alnum :
    ∀ op ∈ operatorWords, ∀ ch ∈ op.data, (isalnum ch || ch == '_') = false := by
  decide

/-- C23: white space is skipped before every character read. For every source
`p ++ c :: r`, every run `ws` of white space and every fuel, parsing `p ++ c :: ws ++ r` has
the same outcome as parsing `p ++ c :: r` (the same tree, the same exception, or a timeout
on both sides) in each of these cases: `c` is a digit; `c` is an underscore; `c`, whatever
character it is, does not lie inside an occurrence of a keyword or operator before its last
character; `c` is a letter, a digit or an underscore and none of the comparisons
`match("if")`, `match("while")`, `match("print")`, `match("else")` that the parser makes on
`p ++ c :: r` succeeds on a keyword that begins at or before `c` and ends after it. So white
space between two digits of a literal never changes the parse result, and white space
between two characters of an identifier changes it only when it splits a keyword that the
parser matches there. -/
theorem whitespace_inside_tokens (fuel : Nat) (p r ws : List Char) (c : Char)
    (hws : ∀ w ∈ ws, isspace w = true)
    (hc : isdigit c = true ∨ c = '_' ∨ insideWord p c r = false ∨
      ((isalnum c || c == '_') = true ∧
        Parser.keywordSplit r.length fuel (String.mk (p ++ c :: r)) = false)) :
    sameOutcome (Parser.parse fuel (String.mk (p ++ c :: r)))
      (Parser.parse fuel (String.mk (p ++ c :: (ws ++ r)))) := by
  rcases hc with hd | rfl | h | ⟨hid, hs⟩
  · refine parse_wsInserted fuel p r ws c hws (insideWord_of_not_mem (fun kw hkw hmem => ?_) p r)
    have := matchedWords_no_digit kw hkw c hmem
    rw [hd] at this
    cases this
  · exact parse_wsInserted fuel p r ws _ hws (insideWord_of_not_mem matchedWords_no_underscore p r)
  · exact parse_wsInserted fuel p r ws c hws h
  · refine parse_wsAt fuel p r ws c hws (fun op hop hmem => ?_) hs
    have := operatorWords_no_alnum op hop c hmem
    rw [hid] at this
    cases this

/-- Witness for C23: `x = 12;` and `x = 1 2;` both parse to `Assignment(x, Literal 12)`;
`ab = 3;` and `a b = 3;` both parse to `Assignment(ab, Literal 3)`. The `i` of `life = 1;`
lies inside the text `if`, which the parser compares with nothing: `li fe = 1;` parses like
`life = 1;`; so do `x = i f1;` and `x = 1; el sey = 2;`. The `i` of `ifx = 1;` lies inside
the `if` that `parseStatement` matches: `ifx = 1;` is rejected and `i fx = 1;` is
accepted. -/
theorem whitespace_inside_tokens_witness :
    Parser.parse 10 "x = 1 2;" = .ok (.Block [.Assignment "x" (.Literal 12)]) [] ∧
    Parser.parse 10 "x = 12;" = .ok (.Block [.Assignment "x" (.Literal 12)]) [] ∧
    Parser.parse 10 "a b = 3;" = .ok (.Block [.Assignment "ab" (.Literal 3)]) [] ∧
    Parser.parse 10 "ab = 3;" = .ok (.Block [.Assignment "ab" (.Literal 3)]) [] ∧
    (insideWord "l".data 'i' "fe = 1;".data = true ∧
      Parser.keywordSplit 7 10 "life = 1;" = false ∧
      Parser.parse 10 "life = 1;" = .ok (.Block [.Assignment "life" (.Literal 1)]) [] ∧
      Parser.parse 10 "li fe = 1;" = .ok (.Block [.Assignment "life" (.Literal 1)]) []) ∧
    (Parser.keywordSplit 3 10 "x = if1;" = false ∧
      Parser.parse 10 "x = if1;" = .ok (.Block [.Assignment "x" (.Identifier "if1")]) [] ∧
      Parser.parse 10 "x = i f1;" = .ok (.Block [.Assignment "x" (.Identifier "if1")]) []) ∧
    (Parser.keywordSplit 8 10 "x = 1; elsey = 2;" = false ∧
      Parser.parse 10 "x = 1; elsey = 2;"
        = .ok (.Block [.Assignment "x" (.Literal 1), .Assignment "elsey" (.Literal 2)]) [] ∧
      Parser.parse 10 "x = 1; el sey = 2;"
        = .ok (.Block [.Assignment "x" (.Literal 1), .Assignment "elsey" (.Literal 2)]) []) ∧
    (Parser.keywordSplit 7 10 "ifx = 1;" = true ∧
      Parser.parse 10 "ifx = 1;" = .error (.runtime_error "Expected '('") ∧
      Parser.parse 10 "i fx = 1;" = .ok (.Block [.Assignment "ifx" (.Literal 1)]) []) ∧
    sameOutcome (Parser.parse 10 (String.mk ("l".data ++ 'i' :: "fe = 1;".data)))
      (Parser.parse 10 (String.mk ("l".data ++ 'i' :: (" ".data ++ "fe = 1;".data)))) :=
  ⟨by rfl, by rfl, by rfl, by rfl, ⟨by decide, by rfl, by rfl, by rfl⟩,
    ⟨by rfl, by rfl, by rfl⟩, ⟨by rfl, by rfl, by rfl⟩, ⟨by rfl, by rfl, by rfl⟩,
    whitespace_inside_tokens 10 "l".data "fe = 1;".data " ".data 'i' (by decide)
      (Or.inr (Or.inr (Or.inr ⟨by decide, by rfl⟩)))⟩

/-! ## The parser: an expression statement `n == e;` -/

theorem prefix_of_prefix_append_other (kw : List Char) (x : Char) (hx : x ∉ kw) :
    ∀ (n rest : List Char), kw <+: n ++ x :: rest → kw <+: n := by
  induction kw with
  | nil => intro n rest _; exact List.nil_prefix
  | cons k ks ih =>
    intro n rest h
    cases n with
    | nil =>
      simp only [List.nil_append, List.cons_prefix_cons] at h
      exact absurd (h.1 ▸ List.mem_cons_self _ _) hx
    | cons c cs =>
      simp only [List.cons_append, List.cons_prefix_cons] at h ⊢
      exact ⟨h.1, ih (fun hm => hx (List.mem_cons_of_mem _ hm)) cs rest h.2⟩

namespace Parser

theorem matchKw_fail_before {kw : String} {n rest : List Char} {x : Char}
    (hkw : x ∉ kw.data) (hn : isIdentifier n = true) (hpre : ¬ kw.data <+: n) :
    matchKw kw (n ++ x :: rest) = (false, n ++ x :: rest) := by
  cases n with
  | nil => simp [isIdentifier] at hn
  | cons c cs =>
    simp only [isIdentifier, Bool.and_eq_true] at hn
    have hsp : isspace c = false := isspace_false_of_isalnum (isalnum_of_isalpha hn.1)
    have h1 : kw.data.isPrefixOf (c :: cs ++ x :: rest) = false := by
      cases hp : kw.data.isPrefixOf (c :: cs ++ x :: rest) with
      | false => rfl
      | true =>
        exact absurd (prefix_of_prefix_append_other _ x hkw _ _
          (List.isPrefixOf_iff_prefix.mp hp)) hpre
    simp only [matchKw, List.cons_append, skipWhitespace_cons_other _ hsp]
    simp only [List.cons_append] at h1
    simp [h1]

theorem parseExpression_at_equals (fuel : Nat) (rest : List Char) :
    parseExpression (fuel + 1) ('=' :: rest)
      = .error (.runtime_error "Unexpected character in factor") := by
  have hp : peek ('=' :: rest) = ('=', '=' :: rest) := peek_cons_other _ (by decide)
  have hf : parseFactor (parseExpression fuel) fuel ('=' :: rest)
      = .error (.runtime_error "Unexpected character in factor") := by
    simp only [parseFactor, hp]
    rfl
  simp only [parseExpression, parseEquality, parseRelational, parseAdditive, parseTerm, hf]

/-- A statement that starts with an identifier followed by `=`, `=`: the lookahead sees
the first `=`, `parseAssignment` consumes it and `parseExpression` fails on the second. -/
theorem parseStatement_equality {n x rest : List Char} {fuel : Nat}
    (hn : isIdentifier n = true) (hf : n.length ≤ fuel)
    (hif : ¬ "if".data <+: n) (hwhile : ¬ "while".data <+: n) (hprint : ¬ "print".data <+: n)
    (hx : x = [] ∨ x = [' ']) :
    parseStatement (fuel + 1) (n ++ x ++ '=' :: '=' :: rest)
      = .error (.runtime_error "Unexpected character in factor") := by
  obtain ⟨y, tl, htl, hy1, hy2, hy3, hy4⟩ : ∃ (y : Char) (tl : List Char),
      n ++ x ++ '=' :: '=' :: rest = n ++ y :: tl ∧ y ∉ "if".data ∧ y ∉ "while".data ∧
        y ∉ "print".data ∧ skipWhitespace (y :: tl) = '=' :: '=' :: rest := by
    rcases hx with rfl | rfl
    · exact ⟨'=', '=' :: rest, by simp, by decide, by decide, by decide,
        skipWhitespace_cons_other _ (by decide)⟩
    · refine ⟨' ', '=' :: '=' :: rest, by simp, by decide, by decide, by decide, ?_⟩
      rw [skipWhitespace_cons_space _ (by decide), skipWhitespace_cons_other _ (by decide)]
  rw [htl]
  have k1 := @matchKw_fail_before "if" n tl y hy1 hn hif
  have k2 := @matchKw_fail_before "while" n tl y hy2 hn hwhile
  have k3 := @matchKw_fail_before "print" n tl y hy3 hn hprint
  have htc : tokenContinues (y :: tl) = false := by
    simp only [tokenContinues, peek, hy4]
    decide
  have h1 := parseIdentifier_reads hn fuel hf (y :: tl) htc
  rw [hy4] at h1
  obtain ⟨g, rfl⟩ : ∃ g, fuel = g + 1 := by
    cases n with
    | nil => simp [isIdentifier] at hn
    | cons c cs => exact ⟨fuel - 1, by simp at hf; omega⟩
  cases n with
  | nil => simp [isIdentifier] at hn
  | cons c cs =>
    have hc : (isalpha c || c == '_') = true := by
      simp only [isIdentifier, Bool.and_eq_true] at hn
      exact hn.1
    have hsp : isspace c = false := isspace_false_of_isalnum (isalnum_of_isalpha hc)
    obtain ⟨_, _, hb⟩ := first_identifier_char hc
    have hpk : peek (c :: cs ++ y :: tl) = (c, c :: cs ++ y :: tl) := peek_cons_other _ hsp
    have hla : ((peek (skipWhitespace ('=' :: '=' :: rest))).1 == '=') = true := by
      rw [peek_skip, peek_cons_other _ (by decide)]
      rfl
    have hexp : expect '=' ('=' :: '=' :: rest) = .ok () ('=' :: rest) := by
      simp [expect, get, skipWhitespace, isspace]
    have hass : parseAssignment (g + 1) (c :: cs ++ y :: tl)
        = .error (.runtime_error "Unexpected character in factor") := by
      simp only [parseAssignment, h1, hexp, exprThenSemicolon, parseExpression_at_equals]
    simp only [parseStatement, k1, k2, k3, hpk, hb, hc, h1, hla, hass, if_true,
      Bool.false_eq_true, if_false]

end Parser

/-- C24: for every identifier `n` that does not start with `if`, `while` or `print`, and
whatever follows (in particular ` e;` for every expression source `e`), the statement
`n == ...` or `n==...` is rejected with the syntax error "Unexpected character in factor",
by `parseStatement` and so by `Parser::parse`, as soon as the fuel covers the length of `n`;
no fuel makes the parse succeed. The lookahead sees the first `=` and the statement is parsed
as an assignment. -/
theorem equality_statement_rejected (n rest : List Char) (hn : isIdentifier n = true)
    (hif : ¬ "if".data <+: n) (hwhile : ¬ "while".data <+: n) (hprint : ¬ "print".data <+: n) :
    (∀ fuel, n.length ≤ fuel →
      Parser.parseStatement (fuel + 1) (n ++ " ".data ++ '=' :: '=' :: rest)
        = .error (.runtime_error "Unexpected character in factor") ∧
      Parser.parseStatement (fuel + 1) (n ++ '=' :: '=' :: rest)
        = .error (.runtime_error "Unexpected character in factor") ∧
      Parser.parse (fuel + 1) (String.mk (n ++ " ".data ++ '=' :: '=' :: rest))
        = .error (.runtime_error "Unexpected character in factor")) ∧
    (∀ fuel tree r,
      Parser.parse fuel (String.mk (n ++ " ".data ++ '=' :: '=' :: rest)) ≠ .ok tree r) := by
  have hst : ∀ fuel, n.length ≤ fuel →
      Parser.parseStatement (fuel + 1) (n ++ " ".data ++ '=' :: '=' :: rest)
        = .error (.runtime_error "Unexpected character in factor") := fun fuel hf =>
    Parser.parseStatement_equality hn hf hif hwhile hprint (Or.inr rfl)
  have hparse : ∀ fuel, n.length ≤ fuel →
      Parser.parse (fuel + 1) (String.mk (n ++ " ".data ++ '=' :: '=' :: rest))
        = .error (.runtime_error "Unexpected character in factor") := by
    intro fuel hf
    cases n with
    | nil => simp [isIdentifier] at hn
    | cons c cs =>
      have hc : (isalpha c || c == '_') = true := by
        simp only [isIdentifier, Bool.and_eq_true] at hn
        exact hn.1
      have hsp : isspace c = false :=
        isspace_false_of_isalnum (isalnum_of_isalpha hc)
      obtain ⟨h0, hbr, _⟩ := Parser.first_identifier_char hc
      have hpk : Parser.peek (c :: cs ++ " ".data ++ '=' :: '=' :: rest)
          = (c, c :: cs ++ " ".data ++ '=' :: '=' :: rest) := Parser.peek_cons_other _ hsp
      simp only [Parser.parse, Parser.parseStatements, hpk, hst fuel hf, ne_eq, h0, hbr,
        not_false_eq_true, decide_True, Bool.and_self, if_true]
  refine ⟨fun fuel hf => ⟨hst fuel hf, ?_, hparse fuel hf⟩, fun fuel tree r hok => ?_⟩
  · have := @Parser.parseStatement_equality n [] rest fuel hn hf hif hwhile hprint (Or.inl rfl)
    simpa using this
  · have hle := Parser.parse_mono fuel (fuel + n.length + 1) (by omega)
      (String.mk (n ++ " ".data ++ '=' :: '=' :: rest))
    have h2 := Parser.PResult.le_ok hle hok
    rw [hparse (fuel + n.length) (by omega)] at h2
    cases h2

/-- Witness for C24: `a == 1;` is rejected, although the same comparison with the operands
exchanged, `1 == a;`, is an accepted expression statement. -/
theorem equality_statement_rejected_witness :
    Parser.parse 10 "a == 1;" = .error (.runtime_error "Unexpected character in factor") ∧
    Parser.parse 10 "1 == a;"
      = .ok (.Block [.BinaryExpr "==" (.Literal 1) (.Identifier "a")]) [] ∧
    (∀ fuel tree r,
      Parser.parse fuel (String.mk ("a".data ++ " ".data ++ '=' :: '=' :: " 1;".data))
        ≠ .ok tree r) :=
  ⟨by rfl, by rfl,
    (equality_statement_rejected "a".data " 1;".data (by decide) (by decide) (by decide)
      (by decide)).2⟩

/-! ## The VM: compiled code never underflows the stack -/

theorem toInt_ne_underflow (s : String) : toInt s ≠ .error .stack_underflow := by
  simp only [toInt, stoi]
  split_ifs <;> intro h <;> cases h

/-- The instruction reports a stack underflow exactly when the stack holds fewer entries
than `pops` says it pops. -/
theorem exec_underflow_iff (labels : Env Nat) (instr : IRInstr) (st : VMState) :
    IRVM.exec labels instr st = .error .stack_underflow ↔ st.stack.length < pops instr.op := by
  obtain ⟨op, arg⟩ := instr
  cases hs : st.stack with
  | nil =>
    cases op <;> simp [IRVM.exec, IRVM.binop, pops, hs]
    · cases h : toInt arg <;> simp
      rename_i e
      intro he
      subst he
      exact toInt_ne_underflow _ h
    · cases st.vars.find arg <;> simp
  | cons a rest =>
    cases rest with
    | nil =>
      cases op <;> simp [IRVM.exec, IRVM.binop, pops, hs]
      · cases h : toInt arg <;> simp
        rename_i e
        intro he
        subst he
        exact toInt_ne_underflow _ h
      · cases st.vars.find arg <;> simp
      · split_ifs <;> simp
    | cons b rest2 =>
      cases op <;> simp [IRVM.exec, IRVM.binop, pops, hs]
      · cases h : toInt arg <;> simp
        rename_i e
        intro he
        subst he
        exact toInt_ne_underflow _ h
      · cases st.vars.find arg <;> simp
      · split_ifs <;> simp
      · split_ifs <;> simp

theorem binop_effect {f : Int → Int → Int} {st st1 : VMState}
    (h : IRVM.binop f st = .ok st1) :
    st1.stack.length + 2 = st.stack.length + 1 ∧ st1.ip = st.ip := by
  unfold IRVM.binop at h
  cases hs : st.stack with
  | nil => rw [hs] at h; cases h
  | cons b rest =>
    cases rest with
    | nil => rw [hs] at h; cases h
    | cons a rest2 => rw [hs] at h; cases h; simp

/-- The effect of a successful instruction on the height of the stack and on `ip`. -/
theorem exec_effect {labels : Env Nat} {instr : IRInstr} {st st1 : VMState}
    (h : IRVM.exec labels instr st = .ok st1) :
    st1.stack.length + pops instr.op = st.stack.length + pushes instr.op ∧
    ((instr.op ≠ .JMP ∧ st1.ip = st.ip) ∨
     ((instr.op = .JMP ∨ instr.op = .JZ) ∧ st1.ip = IRVM.labelIndex labels instr.arg)) := by
  obtain ⟨op, arg⟩ := instr
  cases op with
  | PUSH =>
    simp only [IRVM.exec] at h
    cases ht : toInt arg with
    | ok v => rw [ht] at h; cases h; simp [pops, pushes]
    | error e => rw [ht] at h; cases h
  | LOAD =>
    simp only [IRVM.exec] at h
    cases hf : st.vars.find arg with
    | some v => rw [hf] at h; cases h; simp [pops, pushes]
    | none => rw [hf] at h; cases h; simp [pops, pushes]
  | STORE =>
    simp only [IRVM.exec] at h
    cases hs : st.stack with
    | nil => rw [hs] at h; cases h
    | cons a rest => rw [hs] at h; cases h; simp [pops, pushes]
  | ADD => have := binop_effect h; simp [pops, pushes, this.1, this.2]
  | SUB => have := binop_effect h; simp [pops, pushes, this.1, this.2]
  | MUL => have := binop_effect h; simp [pops, pushes, this.1, this.2]
  | GT => have := binop_effect h; simp [pops, pushes, this.1, this.2]
  | LT => have := binop_effect h; simp [pops, pushes, this.1, this.2]
  | EQ => have := binop_effect h; simp [pops, pushes, this.1, this.2]
  | DIV =>
    simp only [IRVM.exec] at h
    cases hs : st.stack with
    | nil => rw [hs] at h; cases h
    | cons b rest =>
      cases rest with
      | nil => rw [hs] at h; cases h
      | cons a rest2 =>
        rw [hs] at h
        simp only at h
        split_ifs at h
        cases h
        simp [pops, pushes]
  | JZ =>
    simp only [IRVM.exec] at h
    cases hs : st.stack with
    | nil => rw [hs] at h; cases h
    | cons c rest =>
      rw [hs] at h
      simp only at h
      split_ifs at h <;> cases h <;> simp [pops, pushes]
  | JMP => simp only [IRVM.exec] at h; cases h; simp [pops, pushes]
  | LABEL => simp only [IRVM.exec] at h; cases h; simp [pops, pushes]
  | NOP => simp only [IRVM.exec] at h; cases h; simp [pops, pushes]
  | PRINT =>
    simp only [IRVM.exec] at h
    cases hs : st.stack with
    | nil => rw [hs] at h; cases h
    | cons a rest => rw [hs] at h; cases h; simp [pops, pushes]

theorem needAt_of_get {needs : List Nat} {i k : Nat} (h : needs.get? i = some k) :
    needAt needs i = k := by
  unfold needAt
  rw [h]
  rfl

/-- One iteration of the main loop keeps the promise of `needs`. -/
theorem stackOK_step {prog : List IRInstr} {labels : Env Nat} {needs : List Nat}
    (hall : SegOK labels needs prog 0 prog.length) {st st1 : VMState}
    (hok : StackOK needs st) (hs : IRVM.step prog labels st = some (.ok st1)) :
    StackOK needs st1 := by
  unfold IRVM.step at hs
  cases hg : prog.get? st.ip with
  | none => rw [hg] at hs; cases hs
  | some instr =>
    rw [hg] at hs
    simp only at hs
    cases he : IRVM.exec labels instr st with
    | error e => rw [he] at hs; cases hs
    | ok st0 =>
      rw [he] at hs
      simp only [Option.some.injEq, Except.ok.injEq] at hs
      subst hs
      have hlt : st.ip < prog.length := by
        rw [List.get?_eq_some] at hg
        exact hg.1
      obtain ⟨k, hk, hp, hnext, hjump⟩ := hall st.ip instr (Nat.zero_le _) hlt hg
      obtain ⟨hlen, hip⟩ := exec_effect he
      unfold StackOK at hok ⊢
      rw [needAt_of_get hk] at hok
      simp only
      rcases hip with ⟨hne, hip⟩ | ⟨hj, hip⟩
      · rw [hip]
        have := hnext hne
        omega
      · rw [hip]
        have := hjump hj
        have hpu : pushes instr.op = 0 := by
          rcases hj with hj | hj <;> rw [hj] <;> rfl
        omega

/-- Where the promise of `needs` holds, the instruction about to execute finds its
operands and does not report a stack underflow. -/
theorem stackOK_safe {prog : List IRInstr} {labels : Env Nat} {needs : List Nat}
    (hall : SegOK labels needs prog 0 prog.length) {st : VMState} (hok : StackOK needs st) :
    (∀ instr, prog.get? st.ip = some instr → pops instr.op ≤ st.stack.length) ∧
    IRVM.step prog labels st ≠ some (.error .stack_underflow) := by
  have key : ∀ instr, prog.get? st.ip = some instr → pops instr.op ≤ st.stack.length := by
    intro instr hg
    have hlt : st.ip < prog.length := by
      rw [List.get?_eq_some] at hg
      exact hg.1
    obtain ⟨k, hk, hp, _, _⟩ := hall st.ip instr (Nat.zero_le _) hlt hg
    unfold StackOK at hok
    rw [needAt_of_get hk] at hok
    omega
  refine ⟨key, ?_⟩
  unfold IRVM.step
  cases hg : prog.get? st.ip with
  | none => simp
  | some instr =>
    simp only
    cases he : IRVM.exec labels instr st with
    | ok st0 => simp
    | error e =>
      simp only [ne_eq, Option.some.injEq, Except.error.injEq]
      intro hu
      subst hu
      have := (exec_underflow_iff labels instr st).mp he
      have := key instr hg
      omega

theorem stackOK_reach {prog : List IRInstr} {labels : Env Nat} {needs : List Nat}
    (hall : SegOK labels needs prog 0 prog.length) {st st1 : VMState}
    (hr : Reach prog labels st st1) (hok : StackOK needs st) : StackOK needs st1 := by
  induction hr with
  | refl st => exact hok
  | step hs _ ih => exact ih (stackOK_step hall hok hs)

/-- A run that ends with an exception raised it in a state reached from the start. -/
theorem runLoop_error_reach {prog : List IRInstr} {labels : Env Nat} :
    ∀ (n : Nat) (st st1 : VMState) (e : Error), IRVM.runLoop prog labels n st = .error e st1 →
      Reach prog labels st st1 ∧ IRVM.step prog labels st1 = some (.error e) := by
  intro n
  induction n with
  | zero => intro st st1 e h; simp [IRVM.runLoop] at h
  | succ n ih =>
    intro st st1 e h
    simp only [IRVM.runLoop] at h
    cases hs : IRVM.step prog labels st with
    | none => rw [hs] at h; cases h
    | some r =>
      rw [hs] at h
      cases r with
      | ok st2 =>
        obtain ⟨h1, h2⟩ := ih st2 st1 e h
        exact ⟨Reach.step hs h1, h2⟩
      | error e2 =>
        simp only [VResult.error.injEq] at h
        obtain ⟨rfl, rfl⟩ := h
        exact ⟨Reach.refl _, hs⟩

theorem get?_append_at {α : Type} {l A B : List α} {x : α} (h : l = A ++ x :: B) :
    l.get? A.length = some x := by
  rw [h, List.get?_eq_getElem?, List.getElem?_append_right (le_refl _)]
  simp

theorem needAt_mid {needs NA NB : List Nat} {k : Nat} (h : needs = NA ++ k :: NB) :
    needAt needs NA.length = k :=
  needAt_of_get (get?_append_at h)

theorem needAt_end (needs : List Nat) : needAt needs needs.length = 0 := by
  unfold needAt
  rw [List.get?_eq_getElem?, List.getElem?_eq_none (le_refl _)]
  rfl

theorem SegOK.empty (labels : Env Nat) (needs : List Nat) (prog : List IRInstr) (lo : Nat) :
    SegOK labels needs prog lo lo :=
  fun i _ h1 h2 _ => absurd h1 (by omega)

theorem SegOK.glue {labels : Env Nat} {needs : List Nat} {prog : List IRInstr}
    {lo mid hi : Nat} (h1 : SegOK labels needs prog lo mid) (h2 : SegOK labels needs prog mid hi) :
    SegOK labels needs prog lo hi := by
  intro i instr hlo hhi hg
  by_cases hm : i < mid
  · exact h1 i instr hlo hm hg
  · exact h2 i instr (by omega) hhi hg

theorem SegOK.one {labels : Env Nat} {needs NA NB : List Nat} {prog A B : List IRInstr}
    {instr : IRInstr} {k lo hi : Nat} (hp : prog = A ++ instr :: B)
    (hn : needs = NA ++ k :: NB) (hl : NA.length = lo) (hl2 : A.length = lo)
    (hhi : hi = lo + 1) (hok : LocalOK labels needs lo instr k) :
    SegOK labels needs prog lo hi := by
  intro i x hlo hhi2 hg
  have hi : i = lo := by omega
  subst hi
  rw [← hl2, get?_append_at hp] at hg
  cases hg
  exact ⟨k, by rw [← hl]; exact get?_append_at hn, hok⟩

theorem needAt_at {needs NA NB : List Nat} {k j : Nat} (h : needs = NA ++ k :: NB)
    (hj : NA.length = j) : needAt needs j = k := by
  rw [← hj]
  exact needAt_mid h

theorem needExpr_binary_some {op : String} {c : OpCode} (l r : ASTNode) (b : Nat)
    (h : binaryOpCode op = some c) :
    needExpr (.BinaryExpr op l r) b = needExpr l b ++ needExpr r (b + 1) ++ [b + 2] := by
  rw [needExpr, h]

theorem needExpr_binary_none {op : String} (l r : ASTNode) (b : Nat)
    (h : binaryOpCode op = none) :
    needExpr (.BinaryExpr op l r) b = needExpr l b ++ needExpr r (b + 1) := by
  rw [needExpr, h]
  simp

theorem binaryOpCode_pops {op : String} {c : OpCode} (h : binaryOpCode op = some c) :
    pops c = 2 ∧ pushes c = 1 ∧ c ≠ .JMP ∧ c ≠ .JZ := by
  unfold binaryOpCode at h
  split_ifs at h <;> cases h <;> exact ⟨rfl, rfl, by decide, by decide⟩

theorem needExpr_length (e : ASTNode) :
    e.isExpr = true → ∀ (b : Nat) (lc : Int), (needExpr e b).length = (code e lc).length := by
  induction e using ASTNode.induct with
  | hnull => intro h; simp [ASTNode.isExpr] at h
  | hassign n x _ => intro h; simp [ASTNode.isExpr] at h
  | hif c t e _ _ _ => intro h; simp [ASTNode.isExpr] at h
  | hwhile c b _ _ => intro h; simp [ASTNode.isExpr] at h
  | hblock stmts _ => intro h; simp [ASTNode.isExpr] at h
  | hprint x _ => intro h; simp [ASTNode.isExpr] at h
  | hlit v => intro _ b lc; simp [needExpr, code_literal]
  | hid n => intro _ b lc; simp [needExpr, code_identifier]
  | hbin op l r ihl ihr =>
    intro h b lc
    simp only [ASTNode.isExpr, Bool.and_eq_true] at h
    rw [code_binary]
    simp only [needExpr, List.length_append, ihl h.1.2 b lc, ihr h.2 (b + 1) (nextLabel l lc)]
    cases binaryOpCode op <;> rfl

theorem needExpr_head (e : ASTNode) :
    e.isExpr = true → ∀ (b : Nat), ∃ tl, needExpr e b = b :: tl := by
  induction e using ASTNode.induct with
  | hnull => intro h; simp [ASTNode.isExpr] at h
  | hassign n x _ => intro h; simp [ASTNode.isExpr] at h
  | hif c t e _ _ _ => intro h; simp [ASTNode.isExpr] at h
  | hwhile c b _ _ => intro h; simp [ASTNode.isExpr] at h
  | hblock stmts _ => intro h; simp [ASTNode.isExpr] at h
  | hprint x _ => intro h; simp [ASTNode.isExpr] at h
  | hlit v => intro _ b; exact ⟨[], rfl⟩
  | hid n => intro _ b; exact ⟨[], rfl⟩
  | hbin op l r ihl _ =>
    intro h b
    simp only [ASTNode.isExpr, Bool.and_eq_true] at h
    obtain ⟨tl, htl⟩ := ihl h.1.2 b
    exact ⟨tl ++ needExpr r (b + 1) ++
      (match binaryOpCode op with
       | some _ => [b + 2]
       | none => []), by simp [needExpr, htl]⟩

/-- The code of an expression, anywhere in a program: each of its instructions finds its
operands among the entries pushed by the expression itself. -/
theorem seg_expr (e : ASTNode) :
    e.isExpr = true → ∀ (b : Nat) (prog : List IRInstr) (labels : Env Nat) (needs : List Nat)
      (pre post : List IRInstr) (npre npost : List Nat) (lc : Int) (lo hi : Nat),
      prog = pre ++ code e lc ++ post → needs = npre ++ needExpr e b ++ npost →
      npre.length = lo → pre.length = lo → hi = lo + (code e lc).length →
      needAt needs hi ≤ b + 1 → SegOK labels needs prog lo hi := by
  induction e using ASTNode.induct with
  | hnull => intro h; simp [ASTNode.isExpr] at h
  | hassign n x _ => intro h; simp [ASTNode.isExpr] at h
  | hif c t e _ _ _ => intro h; simp [ASTNode.isExpr] at h
  | hwhile c b _ _ => intro h; simp [ASTNode.isExpr] at h
  | hblock stmts _ => intro h; simp [ASTNode.isExpr] at h
  | hprint x _ => intro h; simp [ASTNode.isExpr] at h
  | hlit v =>
    intro _ b prog labels needs pre post npre npost lc lo hi hp hn hl hl2 hhi ha
    rw [code_literal] at hp hhi
    have hp1 : prog = pre ++ { op := .PUSH, arg := to_string v } :: post := by
      rw [hp]; simp
    have hn1 : needs = npre ++ b :: npost := by rw [hn]; simp [needExpr]
    have hhi1 : hi = lo + 1 := by simpa using hhi
    refine SegOK.one hp1 hn1 hl hl2 hhi1 ⟨by simp [pops], fun _ => ?_, fun hj => ?_⟩
    · rw [← hhi1]; simpa [pops, pushes] using ha
    · rcases hj with hj | hj <;> cases hj
  | hid n =>
    intro _ b prog labels needs pre post npre npost lc lo hi hp hn hl hl2 hhi ha
    rw [code_identifier] at hp hhi
    have hp1 : prog = pre ++ { op := .LOAD, arg := n } :: post := by
      rw [hp]; simp
    have hn1 : needs = npre ++ b :: npost := by rw [hn]; simp [needExpr]
    have hhi1 : hi = lo + 1 := by simpa using hhi
    refine SegOK.one hp1 hn1 hl hl2 hhi1 ⟨by simp [pops], fun _ => ?_, fun hj => ?_⟩
    · rw [← hhi1]; simpa [pops, pushes] using ha
    · rcases hj with hj | hj <;> cases hj
  | hbin op l r ihl ihr =>
    intro h b prog labels needs pre post npre npost lc lo hi hp hn hl hl2 hhi ha
    simp only [ASTNode.isExpr, Bool.and_eq_true] at h
    have hll := needExpr_length l h.1.2 b lc
    have hlr := needExpr_length r h.2 (b + 1) (nextLabel l lc)
    obtain ⟨tlr, htlr⟩ := needExpr_head r h.2 (b + 1)
    rw [code_binary] at hp hhi
    cases hop : binaryOpCode op with
    | none =>
      rw [hop] at hp hhi
      simp only [List.append_nil, List.length_append] at hp hhi
      rw [needExpr_binary_none l r b hop] at hn
      have hp1 : prog = pre ++ code l lc ++ (code r (nextLabel l lc) ++ post) := by
        rw [hp]; simp [List.append_assoc]
      have hn1 : needs = npre ++ needExpr l b ++ (needExpr r (b + 1) ++ npost) := by
        rw [hn]; simp [List.append_assoc]
      have hn1b : needs = (npre ++ needExpr l b) ++ (b + 1) :: (tlr ++ npost) := by
        rw [hn1, htlr]; simp [List.append_assoc]
      have ha1 : needAt needs (lo + (code l lc).length) ≤ b + 1 := by
        rw [needAt_at hn1b (by simp only [List.length_append]; omega)]
      have s1 := ihl h.1.2 b prog labels needs pre _ npre _ lc lo _ hp1 hn1 hl hl2 rfl ha1
      have hp2 : prog = (pre ++ code l lc) ++ code r (nextLabel l lc) ++ post := by
        rw [hp]; simp [List.append_assoc]
      have hn2 : needs = (npre ++ needExpr l b) ++ needExpr r (b + 1) ++ npost := by
        rw [hn]; simp [List.append_assoc]
      have s2 := ihr h.2 (b + 1) prog labels needs (pre ++ code l lc) _ (npre ++ needExpr l b) _
        (nextLabel l lc) (lo + (code l lc).length) hi hp2 hn2 (by simp only [List.length_append]; omega)
        (by simp only [List.length_append]; omega) (by omega) (by omega)
      exact s1.glue s2
    | some c =>
      rw [hop] at hp hhi
      simp only [List.length_append, List.length_cons, List.length_nil] at hhi
      obtain ⟨hc1, hc2, hc3, hc4⟩ := binaryOpCode_pops hop
      rw [needExpr_binary_some l r b hop] at hn
      have hp1 : prog = pre ++ code l lc
          ++ (code r (nextLabel l lc) ++ { op := c, arg := "" } :: post) := by
        rw [hp]; simp [List.append_assoc]
      have hn1 : needs = npre ++ needExpr l b ++ (needExpr r (b + 1) ++ (b + 2) :: npost) := by
        rw [hn]; simp [List.append_assoc]
      have hn1b : needs = (npre ++ needExpr l b) ++ (b + 1) :: (tlr ++ (b + 2) :: npost) := by
        rw [hn1, htlr]; simp [List.append_assoc]
      have ha1 : needAt needs (lo + (code l lc).length) ≤ b + 1 := by
        rw [needAt_at hn1b (by simp only [List.length_append]; omega)]
      have s1 := ihl h.1.2 b prog labels needs pre _ npre _ lc lo _ hp1 hn1 hl hl2 rfl ha1
      have hp2 : prog = (pre ++ code l lc) ++ code r (nextLabel l lc)
          ++ ({ op := c, arg := "" } :: post) := by
        rw [hp]; simp [List.append_assoc]
      have hn2 : needs = (npre ++ needExpr l b) ++ needExpr r (b + 1) ++ ((b + 2) :: npost) := by
        rw [hn]; simp [List.append_assoc]
      have hn3 : needs = (npre ++ needExpr l b ++ needExpr r (b + 1)) ++ (b + 2) :: npost := by
        rw [hn]; simp [List.append_assoc]
      have hp3 : prog = (pre ++ code l lc ++ code r (nextLabel l lc))
          ++ { op := c, arg := "" } :: post := by
        rw [hp]; simp [List.append_assoc]
      have ha2 : needAt needs (lo + (code l lc).length + (code r (nextLabel l lc)).length)
          ≤ b + 1 + 1 := by
        rw [needAt_at hn3 (by simp only [List.length_append]; omega)]
      have s2 := ihr h.2 (b + 1) prog labels needs (pre ++ code l lc) _ (npre ++ needExpr l b) _
        (nextLabel l lc) (lo + (code l lc).length) _ hp2 hn2 (by simp only [List.length_append]; omega)
        (by simp only [List.length_append]; omega) rfl ha2
      have s3 : SegOK labels needs prog
          (lo + (code l lc).length + (code r (nextLabel l lc)).length) hi :=
        SegOK.one hp3 hn3 (by simp only [List.length_append]; omega) (by simp only [List.length_append]; omega) (by omega)
          ⟨by rw [hc1]; omega, fun _ => by
              rw [hc1, hc2]
              have e : lo + (code l lc).length + (code r (nextLabel l lc)).length + 1 = hi := by
                omega
              rw [e]
              omega,
            fun hj => by
              rcases hj with hj | hj
              · exact absurd hj hc3
              · exact absurd hj hc4⟩
      exact (s1.glue s2).glue s3

/-- The list is empty or starts with zero. -/
theorem head0_append {a b : List Nat} (ha : a = [] ∨ ∃ tl, a = 0 :: tl)
    (hb : b = [] ∨ ∃ tl, b = 0 :: tl) : a ++ b = [] ∨ ∃ tl, a ++ b = 0 :: tl := by
  rcases ha with rfl | ⟨tl, rfl⟩
  · simpa using hb
  · exact Or.inr ⟨tl ++ b, rfl⟩

theorem needAt_head0 {needs NA X NB : List Nat} {j : Nat} (hX : X = [] ∨ ∃ tl, X = 0 :: tl)
    (h : needs = NA ++ X ++ 0 :: NB) (hj : NA.length = j) : needAt needs j = 0 := by
  rcases hX with rfl | ⟨tl, rfl⟩
  · exact needAt_at (by simpa using h) hj
  · exact needAt_at (show needs = NA ++ 0 :: (tl ++ 0 :: NB) by rw [h]; simp) hj

theorem needStmts_length {stmts : List ASTNode}
    (ih : ∀ s ∈ stmts, s.isStmt = true ∨ s = .nullptr →
      ∀ lc : Int, (needStmt s).length = (code s lc).length) :
    ASTNode.isStmtList stmts = true →
      ∀ lc : Int, (needStmts stmts).length = (codeStmts stmts lc).length := by
  induction stmts with
  | nil => intro _ lc; simp [needStmts, codeStmts_nil]
  | cons a rest ihr =>
    intro h lc
    simp only [ASTNode.isStmtList, Bool.and_eq_true] at h
    rw [codeStmts_cons]
    simp only [needStmts, List.length_append]
    rw [ih a (List.mem_cons_self _ _) (Or.inl h.1) lc,
      ihr (fun s hs => ih s (List.mem_cons_of_mem _ hs)) h.2 (nextLabel a lc)]

theorem needStmt_length (s : ASTNode) :
    s.isStmt = true ∨ s = .nullptr → ∀ lc : Int, (needStmt s).length = (code s lc).length := by
  induction s using ASTNode.induct with
  | hnull => intro _ lc; simp [needStmt, code_null]
  | hlit v => intro _ lc; simp [needStmt, needExpr, code_literal]
  | hid n => intro _ lc; simp [needStmt, needExpr, code_identifier]
  | hbin op l r _ _ =>
    intro h lc
    rcases h with h | h
    · simp only [needStmt]
      exact needExpr_length _ (by simpa [ASTNode.isStmt] using h) 0 lc
    · cases h
  | hassign n v _ =>
    intro h lc
    rcases h with h | h
    · have hv : v.isExpr = true := by simpa [ASTNode.isStmt] using h
      simp [needStmt, code_assignment, needExpr_length v hv 0 lc]
    · cases h
  | hprint v _ =>
    intro h lc
    rcases h with h | h
    · have hv : v.isExpr = true := by simpa [ASTNode.isStmt] using h
      simp [needStmt, code_print, needExpr_length v hv 0 lc]
    · cases h
  | hif c t e _ iht ihe =>
    intro h lc
    rcases h with h | h
    · obtain ⟨hc, ht, he⟩ := isStmt_if h
      rw [code_if]
      simp only [needStmt, List.length_append, List.length_cons, List.length_nil,
        needExpr_length c hc 0 (lc + 2), iht (Or.inl ht) (nextLabel c (lc + 2)),
        ihe (he.symm) (nextLabel t (nextLabel c (lc + 2)))]
    · cases h
  | hwhile c b _ ihb =>
    intro h lc
    rcases h with h | h
    · have hcb : c.isExpr = true ∧ b.isStmt = true := by simpa [ASTNode.isStmt] using h
      rw [code_while]
      simp only [needStmt, List.length_append, List.length_cons, List.length_nil,
        needExpr_length c hcb.1 0 (lc + 2), ihb (Or.inl hcb.2) (nextLabel c (lc + 2))]
    · cases h
  | hblock stmts ih =>
    intro h lc
    rcases h with h | h
    · rw [code_block]
      simp only [needStmt]
      exact needStmts_length ih (by simpa [ASTNode.isStmt] using h) lc
    · cases h

theorem needStmts_head0 {stmts : List ASTNode}
    (ih : ∀ s ∈ stmts, s.isStmt = true ∨ s = .nullptr →
      (needStmt s = [] ∨ ∃ tl, needStmt s = 0 :: tl)) :
    ASTNode.isStmtList stmts = true →
      (needStmts stmts = [] ∨ ∃ tl, needStmts stmts = 0 :: tl) := by
  induction stmts with
  | nil => intro _; exact Or.inl rfl
  | cons a rest ihr =>
    intro h
    simp only [ASTNode.isStmtList, Bool.and_eq_true] at h
    simp only [needStmts]
    exact head0_append (ih a (List.mem_cons_self _ _) (Or.inl h.1))
      (ihr (fun s hs => ih s (List.mem_cons_of_mem _ hs)) h.2)

theorem needStmt_head0 (s : ASTNode) :
    s.isStmt = true ∨ s = .nullptr → (needStmt s = [] ∨ ∃ tl, needStmt s = 0 :: tl) := by
  induction s using ASTNode.induct with
  | hnull => intro _; exact Or.inl (by simp [needStmt])
  | hlit v => intro _; exact Or.inr ⟨[], by simp [needStmt, needExpr]⟩
  | hid n => intro _; exact Or.inr ⟨[], by simp [needStmt, needExpr]⟩
  | hbin op l r _ _ =>
    intro h
    rcases h with h | h
    · obtain ⟨tl, htl⟩ := needExpr_head _ (by simpa [ASTNode.isStmt] using h) 0
      exact Or.inr ⟨tl, by simp only [needStmt]; exact htl⟩
    · cases h
  | hassign n v _ =>
    intro h
    rcases h with h | h
    · obtain ⟨tl, htl⟩ := needExpr_head v (by simpa [ASTNode.isStmt] using h) 0
      exact Or.inr ⟨tl ++ [1], by simp [needStmt, htl]⟩
    · cases h
  | hprint v _ =>
    intro h
    rcases h with h | h
    · obtain ⟨tl, htl⟩ := needExpr_head v (by simpa [ASTNode.isStmt] using h) 0
      exact Or.inr ⟨tl ++ [1], by simp [needStmt, htl]⟩
    · cases h
  | hif c t e _ _ _ =>
    intro h
    rcases h with h | h
    · obtain ⟨hc, _, _⟩ := isStmt_if h
      obtain ⟨tl, htl⟩ := needExpr_head c hc 0
      exact Or.inr ⟨tl ++ 1 :: (needStmt t ++ 0 :: 0 :: (needStmt e ++ [0])), by
        simp only [needStmt, htl, List.cons_append]⟩
    · cases h
  | hwhile c b _ _ =>
    intro h
    rcases h with h | h
    · exact Or.inr ⟨needExpr c 0 ++ 1 :: (needStmt b ++ [0, 0]), by simp only [needStmt]⟩
    · cases h
  | hblock stmts ih =>
    intro h
    rcases h with h | h
    · simp only [needStmt]
      exact needStmts_head0 ih (by simpa [ASTNode.isStmt] using h)
    · cases h

theorem needAt_head0_of {needs NA X NB : List Nat} {j : Nat}
    (hX : X = [] ∨ ∃ tl, X = 0 :: tl) (h : needs = NA ++ X ++ NB) (hj : NA.length = j)
    (hend : needAt needs (j + X.length) = 0) : needAt needs j = 0 := by
  rcases hX with rfl | ⟨tl, rfl⟩
  · simpa using hend
  · exact needAt_at (show needs = NA ++ 0 :: (tl ++ NB) by rw [h]; simp) hj

theorem localOK_label {labels : Env Nat} {needs : List Nat} {i : Nat} {name : String}
    (h : needAt needs (i + 1) = 0) :
    LocalOK labels needs i { op := .LABEL, arg := name } 0 := by
  refine ⟨by simp [pops], fun _ => ?_, fun hj => ?_⟩
  · simp [pops, pushes, h]
  · rcases hj with hj | hj <;> cases hj

theorem localOK_pop {labels : Env Nat} {needs : List Nat} {i : Nat} {instr : IRInstr}
    (hop : instr.op = .STORE ∨ instr.op = .PRINT) (h : needAt needs (i + 1) = 0) :
    LocalOK labels needs i instr 1 := by
  rcases hop with hop | hop
  · refine ⟨by rw [hop]; simp [pops], fun _ => ?_, fun hj => ?_⟩
    · rw [hop]; simp [pops, pushes, h]
    · rw [hop] at hj; rcases hj with hj | hj <;> cases hj
  · refine ⟨by rw [hop]; simp [pops], fun _ => ?_, fun hj => ?_⟩
    · rw [hop]; simp [pops, pushes, h]
    · rw [hop] at hj; rcases hj with hj | hj <;> cases hj

theorem localOK_jz {labels : Env Nat} {needs : List Nat} {i : Nat} {name : String}
    (h : needAt needs (i + 1) = 0) (hj : needAt needs (IRVM.labelIndex labels name + 1) = 0) :
    LocalOK labels needs i { op := .JZ, arg := name } 1 := by
  refine ⟨by simp [pops], fun _ => ?_, fun _ => ?_⟩
  · simp [pops, pushes, h]
  · simp [pops, hj]

theorem localOK_jmp {labels : Env Nat} {needs : List Nat} {i : Nat} {name : String}
    (hj : needAt needs (IRVM.labelIndex labels name + 1) = 0) :
    LocalOK labels needs i { op := .JMP, arg := name } 0 := by
  refine ⟨by simp [pops], fun hne => absurd rfl hne, fun _ => ?_⟩
  simp [pops, hj]

/-- The property proved for every statement by `seg_stmt`. -/
theorem seg_stmts {stmts : List ASTNode}
    (ih : ∀ s ∈ stmts, s.isStmt = true ∨ s = .nullptr →
      ∀ (prog : List IRInstr) (needs : List Nat) (pre post : List IRInstr)
        (npre npost : List Nat) (lc : Int) (lo hi : Nat),
        prog = pre ++ code s lc ++ post → (labelsOf prog).Nodup →
        needs = npre ++ needStmt s ++ npost → npre.length = lo → pre.length = lo →
        hi = lo + (code s lc).length → needAt needs hi = 0 →
        SegOK (IRVM.buildLabels prog 0 []) needs prog lo hi) :
    ASTNode.isStmtList stmts = true →
      ∀ (prog : List IRInstr) (needs : List Nat) (pre post : List IRInstr)
        (npre npost : List Nat) (lc : Int) (lo hi : Nat),
        prog = pre ++ codeStmts stmts lc ++ post → (labelsOf prog).Nodup →
        needs = npre ++ needStmts stmts ++ npost → npre.length = lo → pre.length = lo →
        hi = lo + (codeStmts stmts lc).length → needAt needs hi = 0 →
        SegOK (IRVM.buildLabels prog 0 []) needs prog lo hi := by
  induction stmts with
  | nil =>
    intro _ prog needs pre post npre npost lc lo hi _ _ _ _ _ hhi _
    rw [codeStmts_nil] at hhi
    simp only [List.length_nil, Nat.add_zero] at hhi
    rw [hhi]
    exact SegOK.empty _ _ _ _
  | cons a rest ihr =>
    intro h prog needs pre post npre npost lc lo hi hp hnd hn hl hl2 hhi ha
    simp only [ASTNode.isStmtList, Bool.and_eq_true] at h
    have hrest := fun s hs => ih s (List.mem_cons_of_mem a hs)
    have hla := needStmt_length a (Or.inl h.1) lc
    have hlr := needStmts_length (fun s _ hs lc => needStmt_length s hs lc) h.2 (nextLabel a lc)
    have hh0 := needStmts_head0 (fun s _ hs => needStmt_head0 s hs) h.2
    rw [codeStmts_cons] at hp hhi
    simp only [List.length_append] at hhi
    simp only [needStmts] at hn
    have hp1 : prog = pre ++ code a lc ++ (codeStmts rest (nextLabel a lc) ++ post) := by
      rw [hp]; simp [List.append_assoc]
    have hn1 : needs = npre ++ needStmt a ++ (needStmts rest ++ npost) := by
      rw [hn]; simp [List.append_assoc]
    have hp2 : prog = (pre ++ code a lc) ++ codeStmts rest (nextLabel a lc) ++ post := by
      rw [hp]; simp [List.append_assoc]
    have hn2 : needs = (npre ++ needStmt a) ++ needStmts rest ++ npost := by
      rw [hn]; simp [List.append_assoc]
    have hmid : needAt needs (lo + (code a lc).length) = 0 :=
      needAt_head0_of hh0 hn2 (by simp only [List.length_append]; omega)
        (by rw [hlr]
            have e : lo + (code a lc).length + (codeStmts rest (nextLabel a lc)).length = hi := by
              omega
            rw [e]; exact ha)
    have s1 := ih a (List.mem_cons_self _ _) (Or.inl h.1) prog needs pre _ npre _ lc lo _
      hp1 hnd hn1 hl hl2 rfl hmid
    have s2 := ihr hrest h.2 prog needs (pre ++ code a lc) _ (npre ++ needStmt a) _
      (nextLabel a lc) (lo + (code a lc).length) hi hp2 hnd hn2
      (by simp only [List.length_append]; omega) (by simp only [List.length_append]; omega)
      (by omega) ha
    exact s1.glue s2

/-- The code of a statement, anywhere in a program with unique labels: each of its
instructions finds its operands on the stack, given only what `needs` promises. -/
theorem seg_stmt (s : ASTNode) :
    s.isStmt = true ∨ s = .nullptr →
      ∀ (prog : List IRInstr) (needs : List Nat) (pre post : List IRInstr)
        (npre npost : List Nat) (lc : Int) (lo hi : Nat),
        prog = pre ++ code s lc ++ post → (labelsOf prog).Nodup →
        needs = npre ++ needStmt s ++ npost → npre.length = lo → pre.length = lo →
        hi = lo + (code s lc).length → needAt needs hi = 0 →
        SegOK (IRVM.buildLabels prog 0 []) needs prog lo hi := by
  induction s using ASTNode.induct with
  | hnull =>
    intro _ prog needs pre post npre npost lc lo hi _ _ _ _ _ hhi _
    rw [code_null] at hhi
    simp only [List.length_nil, Nat.add_zero] at hhi
    rw [hhi]
    exact SegOK.empty _ _ _ _
  | hlit v =>
    intro h prog needs pre post npre npost lc lo hi hp _ hn hl hl2 hhi ha
    rcases h with h | h
    · exact seg_expr (.Literal v) (by simpa [ASTNode.isStmt, ASTNode.isExpr] using h) 0 prog _
        needs pre post npre npost lc lo hi hp (by simpa [needStmt] using hn) hl hl2 hhi
        (by rw [ha]; omega)
    · cases h
  | hid n =>
    intro _ prog needs pre post npre npost lc lo hi hp _ hn hl hl2 hhi ha
    exact seg_expr (.Identifier n) (by simp [ASTNode.isExpr]) 0 prog _ needs pre post npre
      npost lc lo hi hp (by simpa [needStmt] using hn) hl hl2 hhi (by rw [ha]; omega)
  | hbin op l r _ _ =>
    intro h prog needs pre post npre npost lc lo hi hp _ hn hl hl2 hhi ha
    rcases h with h | h
    · exact seg_expr (.BinaryExpr op l r) (by simpa [ASTNode.isStmt] using h) 0 prog _ needs
        pre post npre npost lc lo hi hp (by simpa only [needStmt] using hn) hl hl2 hhi
        (by rw [ha]; omega)
    · cases h
  | hassign n v _ =>
    intro h prog needs pre post npre npost lc lo hi hp _ hn hl hl2 hhi ha
    rcases h with h | h
    · have hv : v.isExpr = true := by simpa [ASTNode.isStmt] using h
      have hlv := needExpr_length v hv 0 lc
      rw [code_assignment] at hp hhi
      simp only [List.length_append, List.length_cons, List.length_nil] at hhi
      simp only [needStmt] at hn
      have hp1 : prog = pre ++ code v lc ++ ({ op := .STORE, arg := n } :: post) := by
        rw [hp]; simp [List.append_assoc]
      have hn1 : needs = npre ++ needExpr v 0 ++ (1 :: npost) := by
        rw [hn]; simp [List.append_assoc]
      have hp2 : prog = (pre ++ code v lc) ++ { op := .STORE, arg := n } :: post := hp1
      have hn2 : needs = (npre ++ needExpr v 0) ++ 1 :: npost := hn1
      have hmid : needAt needs (lo + (code v lc).length) = 1 :=
        needAt_at hn2 (by simp only [List.length_append]; omega)
      have s1 := seg_expr v hv 0 prog (IRVM.buildLabels prog 0 []) needs pre _ npre _ lc lo _
        hp1 hn1 hl hl2 rfl (by rw [hmid])
      have s2 : SegOK (IRVM.buildLabels prog 0 []) needs prog (lo + (code v lc).length) hi :=
        SegOK.one hp2 hn2 (by simp only [List.length_append]; omega)
          (by simp only [List.length_append]; omega) (by omega)
          (localOK_pop (Or.inl rfl) (by
            have e : lo + (code v lc).length + 1 = hi := by omega
            rw [e]; exact ha))
      exact s1.glue s2
    · cases h
  | hprint v _ =>
    intro h prog needs pre post npre npost lc lo hi hp _ hn hl hl2 hhi ha
    rcases h with h | h
    · have hv : v.isExpr = true := by simpa [ASTNode.isStmt] using h
      have hlv := needExpr_length v hv 0 lc
      rw [code_print] at hp hhi
      simp only [List.length_append, List.length_cons, List.length_nil] at hhi
      simp only [needStmt] at hn
      have hp1 : prog = pre ++ code v lc ++ ({ op := .PRINT, arg := "" } :: post) := by
        rw [hp]; simp [List.append_assoc]
      have hn1 : needs = npre ++ needExpr v 0 ++ (1 :: npost) := by
        rw [hn]; simp [List.append_assoc]
      have hp2 : prog = (pre ++ code v lc) ++ { op := .PRINT, arg := "" } :: post := hp1
      have hn2 : needs = (npre ++ needExpr v 0) ++ 1 :: npost := hn1
      have hmid : needAt needs (lo + (code v lc).length) = 1 :=
        needAt_at hn2 (by simp only [List.length_append]; omega)
      have s1 := seg_expr v hv 0 prog (IRVM.buildLabels prog 0 []) needs pre _ npre _ lc lo _
        hp1 hn1 hl hl2 rfl (by rw [hmid])
      have s2 : SegOK (IRVM.buildLabels prog 0 []) needs prog (lo + (code v lc).length) hi :=
        SegOK.one hp2 hn2 (by simp only [List.length_append]; omega)
          (by simp only [List.length_append]; omega) (by omega)
          (localOK_pop (Or.inr rfl) (by
            have e : lo + (code v lc).length + 1 = hi := by omega
            rw [e]; exact ha))
      exact s1.glue s2
    · cases h
  | hblock stmts ih =>
    intro h prog needs pre post npre npost lc lo hi hp hnd hn hl hl2 hhi ha
    rcases h with h | h
    · rw [code_block] at hp hhi
      simp only [needStmt] at hn
      exact seg_stmts ih (by simpa [ASTNode.isStmt] using h) prog needs pre post npre npost lc
        lo hi hp hnd hn hl hl2 hhi ha
    · cases h
  | hwhile c b _ ihb =>
    intro h prog needs pre post npre npost lc lo hi hp hnd hn hl hl2 hhi ha
    rcases h with h | h
    · simp only [ASTNode.isStmt, Bool.and_eq_true] at h
      obtain ⟨hc, hb⟩ := h
      have hlc := needExpr_length c hc 0 (lc + 2)
      have hlb := needStmt_length b (Or.inl hb) (nextLabel c (lc + 2))
      obtain ⟨ctl, hch⟩ := needExpr_head c hc 0
      rw [code_while] at hp hhi
      simp only [List.length_append, List.length_cons, List.length_nil] at hhi
      simp only [needStmt] at hn
      have d0 : prog = pre ++ { op := .LABEL, arg := "L_start_" ++ to_string lc } ::
          (code c (lc + 2) ++ { op := .JZ, arg := "L_end_" ++ to_string (lc + 1) } ::
            (code b (nextLabel c (lc + 2)) ++
              [{ op := .JMP, arg := "L_start_" ++ to_string lc },
               { op := .LABEL, arg := "L_end_" ++ to_string (lc + 1) }]) ++ post) := by
        rw [hp]; simp [List.append_assoc]
      have e0 : needs = npre ++ 0 :: (needExpr c 0 ++ 1 :: (needStmt b ++ [0, 0]) ++ npost) := by
        rw [hn]; simp [List.append_assoc]
      have d1 : prog = (pre ++ [{ op := .LABEL, arg := "L_start_" ++ to_string lc }]) ++
          code c (lc + 2) ++ ({ op := .JZ, arg := "L_end_" ++ to_string (lc + 1) } ::
            (code b (nextLabel c (lc + 2)) ++
              [{ op := .JMP, arg := "L_start_" ++ to_string lc },
               { op := .LABEL, arg := "L_end_" ++ to_string (lc + 1) }]) ++ post) := by
        rw [hp]; simp [List.append_assoc]
      have e1 : needs = (npre ++ [0]) ++ needExpr c 0 ++
          (1 :: (needStmt b ++ [0, 0]) ++ npost) := by
        rw [hn]; simp [List.append_assoc]
      have d2 : prog = (pre ++ [{ op := .LABEL, arg := "L_start_" ++ to_string lc }] ++
          code c (lc + 2)) ++ { op := .JZ, arg := "L_end_" ++ to_string (lc + 1) } ::
            (code b (nextLabel c (lc + 2)) ++
              [{ op := .JMP, arg := "L_start_" ++ to_string lc },
               { op := .LABEL, arg := "L_end_" ++ to_string (lc + 1) }] ++ post) := by
        rw [hp]; simp [List.append_assoc]
      have e2 : needs = (npre ++ [0] ++ needExpr c 0) ++ 1 ::
          (needStmt b ++ [0, 0] ++ npost) := by
        rw [hn]; simp [List.append_assoc]
      have d3 : prog = (pre ++ [{ op := .LABEL, arg := "L_start_" ++ to_string lc }] ++
          code c (lc + 2) ++ [{ op := .JZ, arg := "L_end_" ++ to_string (lc + 1) }]) ++
            code b (nextLabel c (lc + 2)) ++
              ([{ op := .JMP, arg := "L_start_" ++ to_string lc },
               { op := .LABEL, arg := "L_end_" ++ to_string (lc + 1) }] ++ post) := by
        rw [hp]; simp [List.append_assoc]
      have e3 : needs = (npre ++ [0] ++ needExpr c 0 ++ [1]) ++ needStmt b ++
          ([0, 0] ++ npost) := by
        rw [hn]; simp [List.append_assoc]
      have d4 : prog = (pre ++ [{ op := .LABEL, arg := "L_start_" ++ to_string lc }] ++
          code c (lc + 2) ++ [{ op := .JZ, arg := "L_end_" ++ to_string (lc + 1) }] ++
            code b (nextLabel c (lc + 2))) ++
              { op := .JMP, arg := "L_start_" ++ to_string lc } ::
               ({ op := .LABEL, arg := "L_end_" ++ to_string (lc + 1) } :: post) := by
        rw [hp]; simp [List.append_assoc]
      have e4 : needs = (npre ++ [0] ++ needExpr c 0 ++ [1] ++ needStmt b) ++ 0 ::
          (0 :: npost) := by
        rw [hn]; simp [List.append_assoc]
      have d5 : prog = (pre ++ [{ op := .LABEL, arg := "L_start_" ++ to_string lc }] ++
          code c (lc + 2) ++ [{ op := .JZ, arg := "L_end_" ++ to_string (lc + 1) }] ++
            code b (nextLabel c (lc + 2)) ++
              [{ op := .JMP, arg := "L_start_" ++ to_string lc }]) ++
               { op := .LABEL, arg := "L_end_" ++ to_string (lc + 1) } :: post := by
        rw [hp]; simp [List.append_assoc]
      have e5 : needs = (npre ++ [0] ++ needExpr c 0 ++ [1] ++ needStmt b ++ [0]) ++ 0 ::
          npost := by
        rw [hn]; simp [List.append_assoc]
      have n1 : needAt needs (lo + 1) = 0 :=
        needAt_at (show needs = (npre ++ [0]) ++ 0 :: (ctl ++ (1 :: (needStmt b ++ [0, 0]) ++
          npost)) by rw [e1, hch]; simp [List.append_assoc])
          (by simp only [List.length_append, List.length_cons, List.length_nil]; omega)
      have n2 : needAt needs (lo + 1 + (code c (lc + 2)).length) = 1 :=
        needAt_at e2 (by simp only [List.length_append, List.length_cons, List.length_nil]; omega)
      have n4 : needAt needs (lo + 1 + (code c (lc + 2)).length + 1 +
          (code b (nextLabel c (lc + 2))).length) = 0 :=
        needAt_at e4 (by simp only [List.length_append, List.length_cons, List.length_nil]; omega)
      have n5 : needAt needs (lo + 1 + (code c (lc + 2)).length + 1 +
          (code b (nextLabel c (lc + 2))).length + 1) = 0 :=
        needAt_at e5 (by simp only [List.length_append, List.length_cons, List.length_nil]; omega)
      have n3 : needAt needs (lo + 1 + (code c (lc + 2)).length + 1) = 0 :=
        needAt_head0_of (needStmt_head0 b (Or.inl hb)) e3
          (by simp only [List.length_append, List.length_cons, List.length_nil]; omega)
          (by rw [hlb]; exact n4)
      have n6 : needAt needs (lo + 1 + (code c (lc + 2)).length + 1 +
          (code b (nextLabel c (lc + 2))).length + 1 + 1) = 0 := by
        have e : lo + 1 + (code c (lc + 2)).length + 1 +
          (code b (nextLabel c (lc + 2))).length + 1 + 1 = hi := by omega
        rw [e]; exact ha
      have ls : IRVM.labelIndex (IRVM.buildLabels prog 0 []) ("L_start_" ++ to_string lc) = lo := by
        rw [IRVM.labelIndex_of_nodup d0 hnd, hl2]
      have le : IRVM.labelIndex (IRVM.buildLabels prog 0 []) ("L_end_" ++ to_string (lc + 1)) =
          lo + 1 + (code c (lc + 2)).length + 1 + (code b (nextLabel c (lc + 2))).length + 1 := by
        rw [IRVM.labelIndex_of_nodup d5 hnd]
        simp only [List.length_append, List.length_cons, List.length_nil]; omega
      have s0 : SegOK (IRVM.buildLabels prog 0 []) needs prog lo (lo + 1) :=
        SegOK.one d0 e0 hl hl2 rfl (localOK_label n1)
      have s1 : SegOK (IRVM.buildLabels prog 0 []) needs prog (lo + 1)
          (lo + 1 + (code c (lc + 2)).length) :=
        seg_expr c hc 0 prog _ needs _ _ _ _ (lc + 2) _ _ d1 e1
          (by simp only [List.length_append, List.length_cons, List.length_nil]; omega)
          (by simp only [List.length_append, List.length_cons, List.length_nil]; omega)
          rfl (by rw [n2])
      have s2 : SegOK (IRVM.buildLabels prog 0 []) needs prog (lo + 1 + (code c (lc + 2)).length)
          (lo + 1 + (code c (lc + 2)).length + 1) :=
        SegOK.one d2 e2
          (by simp only [List.length_append, List.length_cons, List.length_nil]; omega)
          (by simp only [List.length_append, List.length_cons, List.length_nil]; omega)
          rfl (localOK_jz n3 (by rw [le]; exact n6))
      have s3 : SegOK (IRVM.buildLabels prog 0 []) needs prog
          (lo + 1 + (code c (lc + 2)).length + 1)
          (lo + 1 + (code c (lc + 2)).length + 1 + (code b (nextLabel c (lc + 2))).length) :=
        ihb (Or.inl hb) prog needs _ _ _ _ (nextLabel c (lc + 2)) _ _ d3 hnd e3
          (by simp only [List.length_append, List.length_cons, List.length_nil]; omega)
          (by simp only [List.length_append, List.length_cons, List.length_nil]; omega)
          rfl n4
      have s4 : SegOK (IRVM.buildLabels prog 0 []) needs prog
          (lo + 1 + (code c (lc + 2)).length + 1 + (code b (nextLabel c (lc + 2))).length)
          (lo + 1 + (code c (lc + 2)).length + 1 + (code b (nextLabel c (lc + 2))).length + 1) :=
        SegOK.one d4 e4
          (by simp only [List.length_append, List.length_cons, List.length_nil]; omega)
          (by simp only [List.length_append, List.length_cons, List.length_nil]; omega)
          rfl (localOK_jmp (by rw [ls]; exact n1))
      have s5 : SegOK (IRVM.buildLabels prog 0 []) needs prog
          (lo + 1 + (code c (lc + 2)).length + 1 + (code b (nextLabel c (lc + 2))).length + 1)
          hi :=
        SegOK.one d5 e5
          (by simp only [List.length_append, List.length_cons, List.length_nil]; omega)
          (by simp only [List.length_append, List.length_cons, List.length_nil]; omega)
          (by omega) (localOK_label n6)
      exact ((((s0.glue s1).glue s2).glue s3).glue s4).glue s5
    · cases h
  | hif c t e _ iht ihe =>
    intro h prog needs pre post npre npost lc lo hi hp hnd hn hl hl2 hhi ha
    rcases h with h | h
    · obtain ⟨hc, ht, hels⟩ := isStmt_if h
      have hlc := needExpr_length c hc 0 (lc + 2)
      have hlt := needStmt_length t (Or.inl ht) (nextLabel c (lc + 2))
      have hle := needStmt_length e hels.symm (nextLabel t (nextLabel c (lc + 2)))
      rw [code_if] at hp hhi
      simp only [List.length_append, List.length_cons, List.length_nil] at hhi
      simp only [needStmt] at hn
      have d1 : prog = pre ++ code c (lc + 2) ++ ({ op := .JZ, arg := "L_else_" ++ to_string lc } ::
          (code t (nextLabel c (lc + 2)) ++
            { op := .JMP, arg := "L_end_" ++ to_string (lc + 1) } ::
            { op := .LABEL, arg := "L_else_" ++ to_string lc } ::
            (code e (nextLabel t (nextLabel c (lc + 2))) ++
              [{ op := .LABEL, arg := "L_end_" ++ to_string (lc + 1) }])) ++ post) := by
        rw [hp]; simp [List.append_assoc]
      have e1 : needs = npre ++ needExpr c 0 ++
          (1 :: (needStmt t ++ 0 :: 0 :: (needStmt e ++ [0])) ++ npost) := by
        rw [hn]; simp [List.append_assoc]
      have d2 : prog = (pre ++ code c (lc + 2)) ++ { op := .JZ, arg := "L_else_" ++ to_string lc } ::
          (code t (nextLabel c (lc + 2)) ++
            { op := .JMP, arg := "L_end_" ++ to_string (lc + 1) } ::
            { op := .LABEL, arg := "L_else_" ++ to_string lc } ::
            (code e (nextLabel t (nextLabel c (lc + 2))) ++
              [{ op := .LABEL, arg := "L_end_" ++ to_string (lc + 1) }]) ++ post) := by
        rw [hp]; simp [List.append_assoc]
      have e2 : needs = (npre ++ needExpr c 0) ++ 1 ::
          (needStmt t ++ 0 :: 0 :: (needStmt e ++ [0]) ++ npost) := by
        rw [hn]; simp [List.append_assoc]
      have d3 : prog = (pre ++ code c (lc + 2) ++ [{ op := .JZ, arg := "L_else_" ++ to_string lc }]) ++
          code t (nextLabel c (lc + 2)) ++
            ({ op := .JMP, arg := "L_end_" ++ to_string (lc + 1) } ::
            { op := .LABEL, arg := "L_else_" ++ to_string lc } ::
            (code e (nextLabel t (nextLabel c (lc + 2))) ++
              [{ op := .LABEL, arg := "L_end_" ++ to_string (lc + 1) }]) ++ post) := by
        rw [hp]; simp [List.append_assoc]
      have e3 : needs = (npre ++ needExpr c 0 ++ [1]) ++ needStmt t ++
          (0 :: 0 :: (needStmt e ++ [0]) ++ npost) := by
        rw [hn]; simp [List.append_assoc]
      have d4 : prog = (pre ++ code c (lc + 2) ++ [{ op := .JZ, arg := "L_else_" ++ to_string lc }] ++
          code t (nextLabel c (lc + 2))) ++
            { op := .JMP, arg := "L_end_" ++ to_string (lc + 1) } ::
            ({ op := .LABEL, arg := "L_else_" ++ to_string lc } ::
            (code e (nextLabel t (nextLabel c (lc + 2))) ++
              [{ op := .LABEL, arg := "L_end_" ++ to_string (lc + 1) }]) ++ post) := by
        rw [hp]; simp [List.append_assoc]
      have e4 : needs = (npre ++ needExpr c 0 ++ [1] ++ needStmt t) ++ 0 ::
          (0 :: (needStmt e ++ [0]) ++ npost) := by
        rw [hn]; simp [List.append_assoc]
      have d5 : prog = (pre ++ code c (lc + 2) ++ [{ op := .JZ, arg := "L_else_" ++ to_string lc }] ++
          code t (nextLabel c (lc + 2)) ++
            [{ op := .JMP, arg := "L_end_" ++ to_string (lc + 1) }]) ++
            { op := .LABEL, arg := "L_else_" ++ to_string lc } ::
            (code e (nextLabel t (nextLabel c (lc + 2))) ++
              [{ op := .LABEL, arg := "L_end_" ++ to_string (lc + 1) }] ++ post) := by
        rw [hp]; simp [List.append_assoc]
      have e5 : needs = (npre ++ needExpr c 0 ++ [1] ++ needStmt t ++ [0]) ++ 0 ::
          (needStmt e ++ [0] ++ npost) := by
        rw [hn]; simp [List.append_assoc]
      have d6 : prog = (pre ++ code c (lc + 2) ++ [{ op := .JZ, arg := "L_else_" ++ to_string lc }] ++
          code t (nextLabel c (lc + 2)) ++
            [{ op := .JMP, arg := "L_end_" ++ to_string (lc + 1) }] ++
            [{ op := .LABEL, arg := "L_else_" ++ to_string lc }]) ++
            code e (nextLabel t (nextLabel c (lc + 2))) ++
              ([{ op := .LABEL, arg := "L_end_" ++ to_string (lc + 1) }] ++ post) := by
        rw [hp]; simp [List.append_assoc]
      have e6 : needs = (npre ++ needExpr c 0 ++ [1] ++ needStmt t ++ [0] ++ [0]) ++ needStmt e ++
          ([0] ++ npost) := by
        rw [hn]; simp [List.append_assoc]
      have d7 : prog = (pre ++ code c (lc + 2) ++ [{ op := .JZ, arg := "L_else_" ++ to_string lc }] ++
          code t (nextLabel c (lc + 2)) ++
            [{ op := .JMP, arg := "L_end_" ++ to_string (lc + 1) }] ++
            [{ op := .LABEL, arg := "L_else_" ++ to_string lc }] ++
            code e (nextLabel t (nextLabel c (lc + 2)))) ++
              { op := .LABEL, arg := "L_end_" ++ to_string (lc + 1) } :: post := by
        rw [hp]; simp [List.append_assoc]
      have e7 : needs = (npre ++ needExpr c 0 ++ [1] ++ needStmt t ++ [0] ++ [0] ++ needStmt e) ++
          0 :: npost := by
        rw [hn]; simp [List.append_assoc]
      have n1 : needAt needs (lo + (code c (lc + 2)).length) = 1 :=
        needAt_at e2 (by simp only [List.length_append, List.length_cons, List.length_nil]; omega)
      have n3 : needAt needs (lo + (code c (lc + 2)).length + 1 + (code t (nextLabel c (lc + 2))).length) = 0 :=
        needAt_at e4 (by simp only [List.length_append, List.length_cons, List.length_nil]; omega)
      have n4 : needAt needs (lo + (code c (lc + 2)).length + 1 + (code t (nextLabel c (lc + 2))).length + 1) = 0 :=
        needAt_at e5 (by simp only [List.length_append, List.length_cons, List.length_nil]; omega)
      have n6 : needAt needs (lo + (code c (lc + 2)).length + 1 + (code t (nextLabel c (lc + 2))).length + 1 + 1 + (code e (nextLabel t (nextLabel c (lc + 2)))).length) = 0 :=
        needAt_at e7 (by simp only [List.length_append, List.length_cons, List.length_nil]; omega)
      have n7 : needAt needs (lo + (code c (lc + 2)).length + 1 + (code t (nextLabel c (lc + 2))).length + 1 + 1 + (code e (nextLabel t (nextLabel c (lc + 2)))).length + 1) = 0 := by
        have e : lo + (code c (lc + 2)).length + 1 + (code t (nextLabel c (lc + 2))).length + 1 + 1 + (code e (nextLabel t (nextLabel c (lc + 2)))).length + 1 = hi := by omega
        rw [e]; exact ha
      have n5 : needAt needs (lo + (code c (lc + 2)).length + 1 + (code t (nextLabel c (lc + 2))).length + 1 + 1) = 0 :=
        needAt_head0_of (needStmt_head0 e hels.symm) e6
          (by simp only [List.length_append, List.length_cons, List.length_nil]; omega)
          (by rw [hle]; exact n6)
      have n2 : needAt needs (lo + (code c (lc + 2)).length + 1) = 0 :=
        needAt_head0_of (needStmt_head0 t (Or.inl ht)) e3
          (by simp only [List.length_append, List.length_cons, List.length_nil]; omega)
          (by rw [hlt]; exact n3)
      have lels : IRVM.labelIndex (IRVM.buildLabels prog 0 []) ("L_else_" ++ to_string lc) =
          lo + (code c (lc + 2)).length + 1 + (code t (nextLabel c (lc + 2))).length + 1 := by
        rw [IRVM.labelIndex_of_nodup d5 hnd]
        simp only [List.length_append, List.length_cons, List.length_nil]; omega
      have lend : IRVM.labelIndex (IRVM.buildLabels prog 0 [])
          ("L_end_" ++ to_string (lc + 1)) = lo + (code c (lc + 2)).length + 1 + (code t (nextLabel c (lc + 2))).length + 1 + 1 + (code e (nextLabel t (nextLabel c (lc + 2)))).length := by
        rw [IRVM.labelIndex_of_nodup d7 hnd]
        simp only [List.length_append, List.length_cons, List.length_nil]; omega
      have s1 : SegOK (IRVM.buildLabels prog 0 []) needs prog lo (lo + (code c (lc + 2)).length) :=
        seg_expr c hc 0 prog _ needs _ _ _ _ (lc + 2) _ _ d1 e1 hl hl2 rfl (by rw [n1])
      have s2 : SegOK (IRVM.buildLabels prog 0 []) needs prog (lo + (code c (lc + 2)).length) (lo + (code c (lc + 2)).length + 1) :=
        SegOK.one d2 e2
          (by simp only [List.length_append, List.length_cons, List.length_nil]; omega)
          (by simp only [List.length_append, List.length_cons, List.length_nil]; omega)
          rfl (localOK_jz n2 (by rw [lels]; exact n5))
      have s3 : SegOK (IRVM.buildLabels prog 0 []) needs prog (lo + (code c (lc + 2)).length + 1) (lo + (code c (lc + 2)).length + 1 + (code t (nextLabel c (lc + 2))).length) :=
        iht (Or.inl ht) prog needs _ _ _ _ (nextLabel c (lc + 2)) _ _ d3 hnd e3
          (by simp only [List.length_append, List.length_cons, List.length_nil]; omega)
          (by simp only [List.length_append, List.length_cons, List.length_nil]; omega)
          rfl n3
      have s4 : SegOK (IRVM.buildLabels prog 0 []) needs prog (lo + (code c (lc + 2)).length + 1 + (code t (nextLabel c (lc + 2))).length) (lo + (code c (lc + 2)).length + 1 + (code t (nextLabel c (lc + 2))).length + 1) :=
        SegOK.one d4 e4
          (by simp only [List.length_append, List.length_cons, List.length_nil]; omega)
          (by simp only [List.length_append, List.length_cons, List.length_nil]; omega)
          rfl (localOK_jmp (by rw [lend]; exact n7))
      have s5 : SegOK (IRVM.buildLabels prog 0 []) needs prog (lo + (code c (lc + 2)).length + 1 + (code t (nextLabel c (lc + 2))).length + 1) (lo + (code c (lc + 2)).length + 1 + (code t (nextLabel c (lc + 2))).length + 1 + 1) :=
        SegOK.one d5 e5
          (by simp only [List.length_append, List.length_cons, List.length_nil]; omega)
          (by simp only [List.length_append, List.length_cons, List.length_nil]; omega)
          rfl (localOK_label n5)
      have s6 : SegOK (IRVM.buildLabels prog 0 []) needs prog (lo + (code c (lc + 2)).length + 1 + (code t (nextLabel c (lc + 2))).length + 1 + 1) (lo + (code c (lc + 2)).length + 1 + (code t (nextLabel c (lc + 2))).length + 1 + 1 + (code e (nextLabel t (nextLabel c (lc + 2)))).length) :=
        ihe hels.symm prog needs _ _ _ _ (nextLabel t (nextLabel c (lc + 2))) _ _ d6 hnd e6
          (by simp only [List.length_append, List.length_cons, List.length_nil]; omega)
          (by simp only [List.length_append, List.length_cons, List.length_nil]; omega)
          rfl n6
      have s7 : SegOK (IRVM.buildLabels prog 0 []) needs prog (lo + (code c (lc + 2)).length + 1 + (code t (nextLabel c (lc + 2))).length + 1 + 1 + (code e (nextLabel t (nextLabel c (lc + 2)))).length) hi :=
        SegOK.one d7 e7
          (by simp only [List.length_append, List.length_cons, List.length_nil]; omega)
          (by simp only [List.length_append, List.length_cons, List.length_nil]; omega)
          (by omega) (localOK_label n7)
      exact (((((s1.glue s2).glue s3).glue s4).glue s5).glue s6).glue s7
    · cases h

/-- The code compiled from a parsed program satisfies `SegOK` as a whole, and the start
state has what `needStmt` asks for. -/
theorem compiled_segOK {tree : ASTNode} (hs : tree.isStmt = true) :
    SegOK (IRVM.buildLabels (compileProgram tree).instructions 0 []) (needStmt tree)
      (compileProgram tree).instructions 0 (compileProgram tree).instructions.length ∧
    StackOK (needStmt tree) IRVM.start := by
  have hc : (compileProgram tree).instructions = code tree 0 := rfl
  have hlen := needStmt_length tree (Or.inl hs) 0
  refine ⟨?_, ?_⟩
  · rw [hc]
    refine seg_stmt tree (Or.inl hs) (code tree 0) (needStmt tree) [] [] [] [] 0 0 _
      (by simp) (code_labels tree 0).2.1 (by simp) rfl rfl (by simp) ?_
    rw [← hlen]
    exact needAt_end _
  · unfold StackOK
    rcases needStmt_head0 tree (Or.inl hs) with h0 | ⟨tl, h0⟩
    · rw [h0]; simp [needAt, IRVM.start]
    · rw [h0]; simp [needAt, IRVM.start]

/-- C26: for every tree the parser returns, in every state the VM reaches from its start
state (empty stack, no variables) on the program `compileAST` produces with label counter 0,
the instruction about to execute finds on the stack the operands it pops (one for `STORE`,
`JZ` and `PRINT`, two for `ADD`, `SUB`, `MUL`, `DIV`, `GT`, `LT`, `EQ`), so that the step
does not read an empty stack; and no run of the program, whatever its length, ends by
reading an empty stack. -/
theorem compiled_code_never_underflows (fuel : Nat) (input : String) (tree : ASTNode)
    (rest : List Char) (st : VMState) (h : Parser.parse fuel input = .ok tree rest)
    (hr : Reach (compileProgram tree).instructions
      (IRVM.buildLabels (compileProgram tree).instructions 0 []) IRVM.start st) :
    (∀ instr, (compileProgram tree).instructions.get? st.ip = some instr →
      pops instr.op ≤ st.stack.length) ∧
    IRVM.step (compileProgram tree).instructions
      (IRVM.buildLabels (compileProgram tree).instructions 0 []) st
        ≠ some (.error .stack_underflow) ∧
    ∀ n st1, IRVM.run n (compileProgram tree) ≠ .error .stack_underflow st1 := by
  obtain ⟨hall, h0⟩ := compiled_segOK (Parser.parse_isStmt h)
  have hsafe := stackOK_safe hall (stackOK_reach hall hr h0)
  refine ⟨hsafe.1, hsafe.2, ?_⟩
  intro n st1 hrun
  obtain ⟨hr1, hs1⟩ := runLoop_error_reach n IRVM.start st1 .stack_underflow hrun
  exact (stackOK_safe hall (stackOK_reach hall hr1 h0)).2 hs1

/-- Witness for C26: in the program of `x = 1 + 2;` the VM reaches `ADD` with both operands
on the stack. -/
theorem compiled_code_never_underflows_witness :
    Parser.parse 10 "x = 1 + 2;"
      = .ok (.Block [.Assignment "x" (.BinaryExpr "+" (.Literal 1) (.Literal 2))]) [] ∧
    Reach (compileProgram (.Block [.Assignment "x" (.BinaryExpr "+" (.Literal 1) (.Literal 2))])).instructions
      (IRVM.buildLabels (compileProgram (.Block [.Assignment "x" (.BinaryExpr "+" (.Literal 1) (.Literal 2))])).instructions 0 [])
      IRVM.start { ip := 2, stack := [2, 1], vars := [], out := [] } ∧
    (compileProgram (.Block [.Assignment "x" (.BinaryExpr "+" (.Literal 1) (.Literal 2))])).instructions.get? 2
      = some { op := .ADD, arg := "" } ∧
    pops OpCode.ADD ≤ [(2 : Int), 1].length :=
  have hp : Parser.parse 10 "x = 1 + 2;"
      = .ok (.Block [.Assignment "x" (.BinaryExpr "+" (.Literal 1) (.Literal 2))]) [] := by rfl
  have hr : Reach (compileProgram (.Block [.Assignment "x" (.BinaryExpr "+" (.Literal 1) (.Literal 2))])).instructions
      (IRVM.buildLabels (compileProgram (.Block [.Assignment "x" (.BinaryExpr "+" (.Literal 1) (.Literal 2))])).instructions 0 [])
      IRVM.start { ip := 2, stack := [2, 1], vars := [], out := [] } :=
    Reach.step (show IRVM.step _ _ IRVM.start
        = some (.ok { ip := 1, stack := [1], vars := [], out := [] }) by rfl)
      (Reach.step (show IRVM.step _ _ { ip := 1, stack := [1], vars := [], out := [] }
          = some (.ok { ip := 2, stack := [2, 1], vars := [], out := [] }) by rfl)
        (Reach.refl _))
  ⟨hp, hr, by rfl,
    (compiled_code_never_underflows 10 "x = 1 + 2;" _ [] _ hp hr).1 { op := .ADD, arg := "" }
      (by rfl)⟩
